import Mathlib

/-!
# insti: blueprint variables, recipe round trip and orchestration

A shallow embedding of the resource-action framework of `insti`
(`src/shared/src/core/blueprint.cpp`, `src/shared/src/core/orchestrator.cpp`,
`src/shared/src/actions/*.cpp`, `src/shared/src/snapshot/*.cpp`,
`src/shared/src/phase.cpp`) together with theorems about it.

Conventions of the embedding

* `std::string` is `String`; algorithms that walk a string work on its
  character list (`String.data`).
* `std::unordered_map<std::string, std::string>` is an association list with
  unique keys (`VarMap`), kept sorted by key, so that two maps with the same
  entries are the same list.  The order in which the real container is
  iterated depends on the hash function and on the history of insertions; it
  is not part of a `VarMap`.  Code whose result depends on that order takes
  the order as an argument (`resolve_user_variables`, `parse_xml_in_order`,
  `to_xml_in_order`); `parse_xml` and `to_xml` are the instances that visit
  the entries by key.
* Stateful code is written in state-passing style over an abstract world `W`;
  calls through `IActionCallback` are recorded in a trace.
-/

namespace Insti

/-! ## Strings and variable maps -/

/-- Variable map: `std::unordered_map<std::string, std::string>`. -/
abbrev VarMap := List (String × String)

/-- Lookup, `m.find(k)`: the value stored under `k`, if any. -/
def var_find : VarMap → String → Option String
  | [], _ => none
  | (k', v) :: rest, k => if k' = k then some v else var_find rest k

/-- Assignment `m[k] = v`: replaces the value of an existing key, otherwise
adds the key at its place in the key order. -/
def var_set : VarMap → String → String → VarMap
  | [], k, v => [(k, v)]
  | (k', v') :: rest, k, v =>
    if k' = k then (k, v) :: rest
    else if k.data < k'.data then (k, v) :: (k', v') :: rest
    else (k', v') :: var_set rest k v

/-- Read access `m[k]` on a key: the stored value, or the empty string. -/
def var_get (m : VarMap) (k : String) : String :=
  (var_find m k).getD ""

/-- Test `s.find("${") != npos`. -/
def has_dollar_brace : List Char → Bool
  | [] => false
  | c :: cs =>
    match cs with
    | [] => false
    | d :: _ => (c == '$' && d == '{') || has_dollar_brace cs

/-- Test `s.find(c) != npos`. -/
def has_char (c : Char) (s : List Char) : Bool :=
  s.any (fun x => x == c)

/-! ## The placeholder expander -/

/-- Modelled from the spec: `pnq::string::Expander`, a third-party header that
is not under `src/`.  The spec (section 4.1) gives its behaviour: with dollar
expansion on, every `${NAME}` is replaced by the value of `NAME` in the
variable map, in one left-to-right pass (the substituted value is not scanned
again, which is why the caller iterates to a fixed point); with percent
expansion on, `%NAME%` is treated alike.  The second constructor argument
decides what happens to a name that is not in the map: `true` (as passed by
`Blueprint::resolve`) expands it to the empty string, `false` (as passed by
`Blueprint::resolve_user_variables`) leaves the placeholder in the text, where
the caller later finds it. -/
structure Expander where
  /-- The variable map the expander reads. -/
  vars : VarMap
  /-- The second constructor argument. -/
  flag : Bool
  /-- Setting `expand_dollar`. -/
  dollar : Bool
  /-- Setting `expand_percent`. -/
  percent : Bool

/-- Scanner state of the expander. -/
inductive ExpandMode where
  | text
  | dollar
  | dollarName (acc : List Char)
  | percentName (acc : List Char)

/-- Text emitted for a complete placeholder `opening ++ name ++ closing`. -/
def Expander.emit (e : Expander) (opening closing name : List Char) : List Char :=
  match var_find e.vars (String.mk name) with
  | some v => v.data
  | none => if e.flag then [] else opening ++ name ++ closing

/-- Modelled from the spec: the single left-to-right pass of
`pnq::string::Expander::expand` (see `Expander`). -/
def Expander.scan (e : Expander) : ExpandMode → List Char → List Char
  | .text, [] => []
  | .dollar, [] => ['$']
  | .dollarName acc, [] => '$' :: '{' :: acc
  | .percentName acc, [] => '%' :: acc
  | .text, c :: cs =>
    if c = '$' ∧ e.dollar = true then e.scan .dollar cs
    else if c = '%' ∧ e.percent = true then e.scan (.percentName []) cs
    else c :: e.scan .text cs
  | .dollar, c :: cs =>
    if c = '{' then e.scan (.dollarName []) cs
    else if c = '$' then '$' :: e.scan .dollar cs
    else if c = '%' ∧ e.percent = true then '$' :: e.scan (.percentName []) cs
    else '$' :: c :: e.scan .text cs
  | .dollarName acc, c :: cs =>
    if c = '}' then e.emit ['$', '{'] ['}'] acc ++ e.scan .text cs
    else e.scan (.dollarName (acc ++ [c])) cs
  | .percentName acc, c :: cs =>
    if c = '%' then e.emit ['%'] ['%'] acc ++ e.scan .text cs
    else e.scan (.percentName (acc ++ [c])) cs

/-- The call `Expander{variables, flag}.expand_dollar(d).expand_percent(p).expand(input)`. -/
def Expander.expand (e : Expander) (input : String) : String :=
  String.mk (e.scan .text input.data)

/-! ## Blueprint variables (`blueprint.cpp`) -/

/-- Builtin variable name `Blueprint::VAR_PROJECT_NAME`. -/
def VAR_PROJECT_NAME : String := "PROJECT_NAME"
/-- Builtin variable name `Blueprint::VAR_PROJECT_VERSION`. -/
def VAR_PROJECT_VERSION : String := "PROJECT_VERSION"
/-- Builtin variable name `Blueprint::VAR_PROJECT_DESCRIPTION`. -/
def VAR_PROJECT_DESCRIPTION : String := "PROJECT_DESCRIPTION"
/-- User variable name `Blueprint::VAR_INSTALLDIR`. -/
def VAR_INSTALLDIR : String := "INSTALLDIR"

/-- First loop of `resolve_user_variables`: the builtins, then every user
variable with its raw value. -/
def add_user_variables (builtin : VarMap) (user : VarMap) : VarMap :=
  user.foldl (fun m p => var_set m p.1 p.2) builtin

/-- One run of the inner loop of `resolve_user_variables` (lines 58-71): every
user variable, in iteration order, is expanded against the current map; the
result is the map and the `changed` flag. -/
def resolve_pass : List (String × String) → VarMap → Bool → VarMap × Bool
  | [], resolved, changed => (resolved, changed)
  | (name, _) :: rest, resolved, changed =>
    let current := var_get resolved name
    let expanded := Expander.expand ⟨resolved, false, true, true⟩ current
    if expanded ≠ current then resolve_pass rest (var_set resolved name expanded) true
    else resolve_pass rest resolved changed

/-- The outer loop of `resolve_user_variables` (lines 54-75) with `n` iterations
left: `(true, m)` when a pass changed nothing (the early `return true`),
`(false, m)` when the iterations are used up. -/
def resolve_loop (user : List (String × String)) : Nat → VarMap → Bool × VarMap
  | 0, resolved => (false, resolved)
  | n + 1, resolved =>
    let r := resolve_pass user resolved false
    if r.2 = false then (true, r.1) else resolve_loop user n r.1

/-- The last loop of `resolve_user_variables` (lines 79-87): does some user
variable still hold a `${` or a `%`? -/
def has_unresolved (user : List (String × String)) (resolved : VarMap) : Bool :=
  user.any (fun p =>
    let current := var_get resolved p.1
    has_dollar_brace current.data || has_char '%' current.data)

/-- `Blueprint::resolve_user_variables`: the returned flag and the value of
`m_resolved_variables` afterwards.  `user` lists `m_user_variables` in its
iteration order. -/
def resolve_user_variables (builtin : VarMap) (user : List (String × String)) :
    Bool × VarMap :=
  let resolved := add_user_variables builtin user
  let max_iterations := user.length + 1
  let r := resolve_loop user max_iterations resolved
  if r.1 = true then (true, r.2)
  else if has_unresolved user r.2 then (false, r.2)
  else (true, r.2)

/-- `Blueprint::resolve`: only `${VAR}` is expanded. -/
def resolve (resolved : VarMap) (input : String) : String :=
  Expander.expand ⟨resolved, true, true, false⟩ input

/-! ## Reverse substitution (`Blueprint::unresolve`) -/

/-- Case-insensitive comparison of two characters, as `pnq::string` does it. -/
def eq_nocase (a b : Char) : Bool := a.toLower == b.toLower

/-- Does `needle` match, ignoring letter case, at the start of `text`? -/
def match_nocase : List Char → List Char → Bool
  | [], _ => true
  | _ :: _, [] => false
  | n :: ns, c :: cs => eq_nocase n c && match_nocase ns cs

/-- Search of `find_nocase` in the part of the text that starts at index `i`. -/
def find_nocase_from (needle : List Char) : List Char → Nat → Option Nat
  | [], i => if needle = [] then some i else none
  | c :: cs, i =>
    if match_nocase needle (c :: cs) then some i else find_nocase_from needle cs (i + 1)

/-- Modelled from the spec: `pnq::string::find_nocase(haystack, needle, pos)`
(third-party, not under `src/`): the index of the first case-insensitive
occurrence of `needle` in `haystack` at or after `pos`, `none` for `npos`. -/
def find_nocase (haystack needle : List Char) (pos : Nat) : Option Nat :=
  if pos ≤ haystack.length then find_nocase_from needle (haystack.drop pos) pos else none

/-- The `while` loop of `unresolve` (lines 135-140) for one variable, with a
bound on the number of iterations: `none` when the bound is used up before the
search fails. -/
def replace_loop (value placeholder : List Char) : Nat → List Char → Nat → Option (List Char)
  | 0, _, _ => none
  | fuel + 1, result, pos =>
    match find_nocase result value pos with
    | none => some result
    | some p =>
      replace_loop value placeholder fuel
        (result.take p ++ placeholder ++ result.drop (p + value.length))
        (p + placeholder.length)

/-- The filter of `unresolve` (lines 112-119): empty values, the project
metadata and `SYSTEMDRIVE` are passed over. -/
def unresolve_eligible (p : String × String) : Bool :=
  !(p.2.data.isEmpty) && p.1 != VAR_PROJECT_NAME && p.1 != VAR_PROJECT_VERSION
    && p.1 != VAR_PROJECT_DESCRIPTION && p.1 != "SYSTEMDRIVE"

/-- The comparator of the `std::sort` call, as a relation: `a` may stand before
`b` when its value is at least as long. -/
def longer_first (a b : String × String) : Prop := b.2.data.length ≤ a.2.data.length

instance : DecidableRel longer_first := fun a b =>
  inferInstanceAs (Decidable (b.2.data.length ≤ a.2.data.length))

/-- The list `sorted_vars` of `unresolve`: the eligible variables, longest value
first.  (`std::sort` leaves the order among values of equal length open; the
model keeps the key order among them.) -/
def sorted_vars (resolved : VarMap) : List (String × String) :=
  List.insertionSort longer_first (resolved.filter unresolve_eligible)

/-- The placeholder text of a variable name. -/
def placeholder_of (name : String) : List Char := '$' :: '{' :: (name.data ++ ['}'])

/-- The second loop of `unresolve` (lines 130-141) over a given list of
variables. -/
def unresolve_vars : List (String × String) → List Char → Option (List Char)
  | [], result => some result
  | (name, value) :: rest, result =>
    match replace_loop value.data (placeholder_of name) (result.length + 1) result 0 with
    | none => none
    | some r => unresolve_vars rest r

/-- `Blueprint::unresolve`.  `none` stands for a replace loop that is still
running after as many iterations as the text has characters. -/
def unresolve (resolved : VarMap) (input : String) : Option String :=
  (unresolve_vars (sorted_vars resolved) input.data).map String.mk

/-! ## Phases, actions and hooks (the data of a blueprint) -/

/-- Execution phases for hooks (`phase.h`). -/
inductive Phase where
  | PreBackup | PostBackup | PreRestore | PostRestore | PreClean | PostClean
  deriving DecidableEq, Repr

/-- `phase_to_string`. -/
def phase_to_string : Phase → String
  | .PreBackup => "PreBackup"
  | .PostBackup => "PostBackup"
  | .PreRestore => "PreRestore"
  | .PostRestore => "PostRestore"
  | .PreClean => "PreClean"
  | .PostClean => "PostClean"

/-- The index `static_cast<size_t>(phase)`. -/
def Phase.index : Phase → Nat
  | .PreBackup => 0 | .PostBackup => 1 | .PreRestore => 2
  | .PostRestore => 3 | .PreClean => 4 | .PostClean => 5

/-- All phases in index order. -/
def Phase.all : List Phase :=
  [.PreBackup, .PostBackup, .PreRestore, .PostRestore, .PreClean, .PostClean]

/-- Comparison of two character lists ignoring letter case. -/
def eq_nocase_list : List Char → List Char → Bool
  | [], [] => true
  | a :: as, b :: bs => eq_nocase a b && eq_nocase_list as bs
  | _, _ => false

/-- Modelled from the spec: `pnq::string::equals_nocase` (third-party, not under
`src/`), equality of two strings ignoring letter case. -/
def equals_nocase (a b : String) : Bool := eq_nocase_list a.data b.data

/-- `parse_phase` (`phase.cpp`): the phase, or `none` for `return false`. -/
def parse_phase (str : String) : Option Phase :=
  if equals_nocase str "PreBackup" || equals_nocase str "pre-backup" then some .PreBackup
  else if equals_nocase str "PostBackup" || equals_nocase str "post-backup" then some .PostBackup
  else if equals_nocase str "PreRestore" || equals_nocase str "pre-restore" then some .PreRestore
  else if equals_nocase str "PostRestore" || equals_nocase str "post-restore" then some .PostRestore
  else if equals_nocase str "PreClean" || equals_nocase str "pre-clean" then some .PreClean
  else if equals_nocase str "PostClean" || equals_nocase str "post-clean" then some .PostClean
  else none

/-- `EnvironmentScope`. -/
inductive EnvironmentScope where
  | User | System
  deriving DecidableEq, Repr

/-- `DelimitedEntryAction::InsertPosition`. -/
inductive InsertPosition where
  | Prepend | Append
  deriving DecidableEq, Repr

/-- The eight action classes with the arguments of their constructors. -/
inductive Action where
  | CopyDirectory (path archive_path description : String) (recursive : Bool)
      (include_filters exclude_filters : List String)
  | CopyFile (path archive_path description : String)
  | Registry (key archive_path description : String)
  | Environment (name : String) (scope : EnvironmentScope) (archive_path description : String)
  | DelimitedEntry (key value_name entry archive_path delimiter : String)
      (insert_pos : InsertPosition) (description : String)
  | MultiStringEntry (key value_name entry archive_path description : String)
  | Service (name archive_path description : String)
  | Hosts (hostname archive_path description : String)
  deriving DecidableEq, Repr

/-- `IAction::type_name()`: the `TYPE_NAME` constant of the class. -/
def Action.type_name : Action → String
  | .CopyDirectory .. => "files"
  | .CopyFile .. => "file"
  | .Registry .. => "registry"
  | .Environment .. => "environment"
  | .DelimitedEntry .. => "delimited"
  | .MultiStringEntry .. => "multistring"
  | .Service .. => "service"
  | .Hosts .. => "hosts"

/-- `IAction::description()`: the description computed by the constructor. -/
def Action.description : Action → String
  | .CopyDirectory path _ d _ _ _ => if d.isEmpty then "Files: " ++ path else d
  | .CopyFile path _ d => if d.isEmpty then "File: " ++ path else d
  | .Registry key _ d => if d.isEmpty then "Registry: " ++ key else d
  | .Environment name scope _ d =>
    if d.isEmpty then
      "Environment: " ++ name ++ (if scope = .User then " (user)" else " (system)")
    else d
  | .DelimitedEntry key value_name _ _ _ _ d =>
    if d.isEmpty then "List entry: " ++ value_name ++ " in " ++ key else d
  | .MultiStringEntry key value_name _ _ d =>
    if d.isEmpty then "Multi-string entry: " ++ value_name ++ " in " ++ key else d
  | .Service name _ d => if d.isEmpty then "Service: " ++ name else d
  | .Hosts hostname _ d => if d.isEmpty then "Hosts: " ++ hostname else d

/-- The `to_params` of the eight action classes. -/
def Action.to_params : Action → List (String × String)
  | .CopyDirectory path archive_path _ recursive include_filters exclude_filters =>
    [("path", path), ("archive", archive_path)]
      ++ (if recursive then [] else [("recursive", "false")])
      ++ include_filters.map (fun f => ("include", f))
      ++ exclude_filters.map (fun f => ("exclude", f))
  | .CopyFile path archive_path _ => [("path", path), ("archive", archive_path)]
  | .Registry key archive_path _ => [("key", key), ("archive", archive_path)]
  | .Environment name scope archive_path _ =>
    [("name", name), ("scope", if scope = .User then "user" else "system"),
     ("archive", archive_path)]
  | .DelimitedEntry key value_name entry archive_path delimiter insert_pos _ =>
    [("key", key), ("value", value_name), ("entry", entry), ("delimiter", delimiter),
     ("insert", if insert_pos = .Prepend then "prepend" else "append"),
     ("archive", archive_path)]
  | .MultiStringEntry key value_name entry archive_path _ =>
    [("key", key), ("value", value_name), ("entry", entry), ("archive", archive_path)]
  | .Service name archive_path _ => [("name", name), ("archive", archive_path)]
  | .Hosts hostname archive_path _ => [("hostname", hostname), ("archive", archive_path)]

/-- The four hook classes with their fields. -/
inductive Hook where
  | KillProcess (process_name : String) (timeout_ms : Nat)
  | RunProcess (path : String) (args : List String) (wait ignore_exit_code : Bool)
  | Substitute (file_pattern : String) (phase : Phase)
  | Sql (file_path query : String) (phase : Phase)
  deriving DecidableEq, Repr

/-- `IHook::type_name()`. -/
def Hook.type_name : Hook → String
  | .KillProcess .. => "kill"
  | .RunProcess .. => "run"
  | .Substitute .. => "substitute"
  | .Sql .. => "sql"

/-- The `set_phase` that `run_hooks` applies to substitute and sql hooks. -/
def Hook.set_phase : Hook → Phase → Hook
  | .Substitute f _, p => .Substitute f p
  | .Sql f q _, p => .Sql f q p
  | h, _ => h

/-- The members of `Blueprint`. -/
structure Blueprint where
  /-- Member `m_actions`. -/
  actions : List Action
  /-- Member `m_hooks`, one list per phase. -/
  hooks : Phase → List Hook
  /-- Member `m_user_variables`. -/
  user_variables : VarMap
  /-- Member `m_builtin_variables`. -/
  builtin_variables : VarMap
  /-- Member `m_resolved_variables`. -/
  resolved_variables : VarMap

/-- `Blueprint::get_var`. -/
def Blueprint.get_var (bp : Blueprint) (name : String) : String :=
  var_get bp.resolved_variables name

/-! ## Callback, context and the action contract -/

/-- `IActionCallback::Decision`. -/
inductive Decision where
  | Continue | Retry | Skip | SkipAll | Abort
  deriving DecidableEq, Repr

/-- A call made through `IActionCallback`, as recorded in a trace. -/
inductive CbEvent where
  | on_progress (phase detail : String) (percent : Int)
  | on_warning (message : String)
  | on_error (message context : String)
  | on_file_conflict (path action : String)
  deriving DecidableEq, Repr

/-- Is the event an `on_error` call? -/
def CbEvent.is_error : CbEvent → Bool
  | .on_error .. => true
  | _ => false

/-- `IActionCallback`: an implementation answers from the state of the world
(which holds whatever the callback object remembers). -/
structure IActionCallback (W : Type) where
  /-- Method `on_progress`. -/
  on_progress : String → String → Int → W → W
  /-- Method `on_warning`. -/
  on_warning : String → W → W
  /-- Method `on_error`. -/
  on_error : String → String → W → Decision × W
  /-- Method `on_file_conflict`. -/
  on_file_conflict : String → String → W → Decision × W

/-- The part of `SnapshotReader` that the modelled actions use. -/
structure SnapshotReader (W : Type) where
  /-- Method `exists`. -/
  path_exists : String → W → Bool
  /-- Method `read_text`. -/
  read_text : String → W → String

/-- The part of `SnapshotWriter` that the modelled code uses. -/
structure SnapshotWriter (W : Type) where
  /-- Method `create` of `ZipSnapshotWriter`. -/
  create : String → W → Bool × W
  /-- Method `write_text`. -/
  write_text : String → String → W → Bool × W
  /-- Method `finalize`. -/
  finalize : W → Bool × W

/-- The members of `ActionContext` (`action_context.h`). -/
structure ActionContext (W : Type) where
  /-- Member `m_reader`. -/
  reader : Option (SnapshotReader W)
  /-- Member `m_writer`. -/
  writer : Option (SnapshotWriter W)
  /-- Member `m_callback`. -/
  callback : Option (IActionCallback W)
  /-- Member `m_simulate`. -/
  simulate : Bool
  /-- Member `m_skip_all_errors`. -/
  skip_all_errors : Bool

/-- `ActionContext::for_backup`. -/
def ActionContext.for_backup {W : Type} (writer : SnapshotWriter W)
    (callback : Option (IActionCallback W)) : ActionContext W :=
  ⟨none, some writer, callback, false, false⟩

/-- `ActionContext::for_restore`. -/
def ActionContext.for_restore {W : Type} (reader : SnapshotReader W)
    (callback : Option (IActionCallback W)) : ActionContext W :=
  ⟨some reader, none, callback, false, false⟩

/-- `ActionContext::for_clean`. -/
def ActionContext.for_clean {W : Type} (callback : Option (IActionCallback W)) :
    ActionContext W :=
  ⟨none, none, callback, false, false⟩

/-- `ActionContext::set_skip_all_errors`. -/
def ActionContext.set_skip_all_errors {W : Type} (ctx : ActionContext W) (value : Bool) :
    ActionContext W :=
  { ctx with skip_all_errors := value }

/-- `ActionContext::set_simulate`. -/
def ActionContext.set_simulate {W : Type} (ctx : ActionContext W) (value : Bool) :
    ActionContext W :=
  { ctx with simulate := value }

/-- State while an action runs: the context it was handed, the world, and the
callback calls made so far. -/
structure Exec (W : Type) where
  /-- The `ActionContext` object. -/
  ctx : ActionContext W
  /-- The system the action works on. -/
  world : W
  /-- Callback calls, oldest first. -/
  events : List CbEvent

/-- An operation of an action: its return value and the state afterwards. -/
abbrev Op (W : Type) := Exec W → Bool × Exec W

/-- The call `cb->on_progress(phase, detail, percent)`. -/
def Exec.on_progress {W : Type} (x : Exec W) (cb : IActionCallback W)
    (phase detail : String) (percent : Int) : Exec W :=
  { x with world := cb.on_progress phase detail percent x.world,
           events := x.events ++ [CbEvent.on_progress phase detail percent] }

/-- The call `cb->on_error(message, context)`. -/
def Exec.on_error {W : Type} (x : Exec W) (cb : IActionCallback W)
    (message context : String) : Decision × Exec W :=
  let r := cb.on_error message context x.world
  (r.1, { x with world := r.2, events := x.events ++ [CbEvent.on_error message context] })

/-- `IAction::handle_decision` (`action.cpp` lines 9-24). -/
def handle_decision {W : Type} (decision : Decision) (x : Exec W) : Bool × Exec W :=
  match decision with
  | .Continue => (true, x)
  | .Skip => (true, x)
  | .SkipAll => (true, { x with ctx := x.ctx.set_skip_all_errors true })
  | .Abort => (false, x)
  | .Retry => (false, x)

/-- `IAction::check_archive_exists` (`action.cpp` lines 26-43).  A reader-less
context has nothing to look the path up in and counts as "does not exist". -/
def check_archive_exists {W : Type} (archive_path : String) : Op W := fun x =>
  let found := match x.ctx.reader with
    | some reader => reader.path_exists archive_path x.world
    | none => false
  if found then (true, x)
  else if x.ctx.skip_all_errors then (false, x)
  else
    match x.ctx.callback with
    | some cb =>
      let r := x.on_error cb "Archive path does not exist in snapshot" archive_path
      handle_decision r.1 r.2
    | none => (false, x)

/-- The pure virtual functions of `IAction` and `IHook`, for every action and
hook of a blueprint. -/
structure Impl (W : Type) where
  /-- Virtual `backup`. -/
  backup : Action → Op W
  /-- Virtual `restore`. -/
  restore : Action → Op W
  /-- Virtual `do_clean`. -/
  do_clean : Action → Op W
  /-- Virtual `IHook::execute`. -/
  execute : Hook → VarMap → W → Bool × W

/-- `IAction::clean` (`action.cpp` lines 45-60), which no action class
overrides. -/
def IAction.clean {W : Type} (impl : Impl W) (a : Action) : Op W := fun x =>
  let cb := x.ctx.callback
  let x1 := match cb with
    | some c => x.on_progress c "Clean" a.description (-1)
    | none => x
  let r := impl.do_clean a x1
  match cb with
  | some c =>
    if r.1 = false then
      let d := r.2.on_error c a.type_name a.description
      handle_decision d.1 d.2
    else (r.1, r.2)
  | none => (r.1, r.2)

/-! ## `DelimitedEntryAction` (`delimited_entry.cpp`) -/

/-- The registry calls of `read_value` and `write_value` (`pnq::regis3::key`,
`RegSetValueExW`), both outside `src/`: what a string value reads as, and what
writing one does. -/
structure RegistryAccess (W : Type) where
  /-- Function `read_value`: the data of `value_name` under `key`, empty when
  the key cannot be opened. -/
  read_value : String → String → W → String
  /-- Function `write_value`: success flag and the system afterwards. -/
  write_value : String → String → String → W → Bool × W

/-- Pieces of a text between separator characters. -/
def split_chars (separators : List Char) : List Char → List Char → List (List Char)
  | [], cur => [cur]
  | c :: cs, cur =>
    if c ∈ separators then cur :: split_chars separators cs []
    else split_chars separators cs (cur ++ [c])

/-- A piece without its leading and trailing white space. -/
def strip (s : List Char) : List Char :=
  ((s.dropWhile Char.isWhitespace).reverse.dropWhile Char.isWhitespace).reverse

/-- Modelled from the spec: `pnq::string::split_stripped` (third-party, not
under `src/`).  The spec speaks of a list of entries separated by the
delimiter ("delimiter character(s)" in `delimited_entry.h`): the text is cut
at every delimiter character, each piece is stripped of surrounding white
space, and empty pieces are dropped. -/
def split_stripped (text delimiter : String) : List String :=
  (((split_chars delimiter.data text.data []).map strip).filter
    (fun piece => !piece.isEmpty)).map String.mk

/-- Modelled from the spec: `pnq::string::join` (third-party, not under
`src/`): the entries with the delimiter between neighbours. -/
def join (entries : List String) (delimiter : String) : String :=
  delimiter.intercalate entries

/-- The fields of a `DelimitedEntryAction`. -/
structure DelimitedEntryAction where
  /-- Field `m_key`. -/
  key : String
  /-- Field `m_value_name`. -/
  value_name : String
  /-- Field `m_entry`. -/
  entry : String
  /-- Field `m_archive_path`. -/
  archive_path : String
  /-- Field `m_delimiter`. -/
  delimiter : String
  /-- Field `m_insert_pos`. -/
  insert_pos : InsertPosition

namespace DelimitedEntryAction

variable {W : Type}

/-- `DelimitedEntryAction::is_in_list`. -/
def is_in_list (reg : RegistryAccess W) (a : DelimitedEntryAction) (w : W) : Bool :=
  let value := reg.read_value a.key a.value_name w
  let entries := split_stripped value a.delimiter
  entries.any (fun e => equals_nocase e a.entry)

/-- `DelimitedEntryAction::add_to_list`. -/
def add_to_list (reg : RegistryAccess W) (a : DelimitedEntryAction) (w : W) : Bool × W :=
  if is_in_list reg a w then (true, w)
  else
    let value := reg.read_value a.key a.value_name w
    let entries := split_stripped value a.delimiter
    let entries' :=
      if a.insert_pos = .Prepend then a.entry :: entries else entries ++ [a.entry]
    reg.write_value a.key a.value_name (join entries' a.delimiter) w

/-- The `entries.erase(it)` of `remove_from_list`: the list without its first
entry equal to `entry` ignoring case; `none` when `find_if` reaches the end. -/
def erase_first_nocase (entry : String) : List String → Option (List String)
  | [] => none
  | e :: rest =>
    if equals_nocase e entry then some rest
    else (erase_first_nocase entry rest).map (fun r => e :: r)

/-- `DelimitedEntryAction::remove_from_list`. -/
def remove_from_list (reg : RegistryAccess W) (a : DelimitedEntryAction) (w : W) : Bool × W :=
  let value := reg.read_value a.key a.value_name w
  let entries := split_stripped value a.delimiter
  match erase_first_nocase a.entry entries with
  | none => (true, w)
  | some entries' => reg.write_value a.key a.value_name (join entries' a.delimiter) w

/-- `DelimitedEntryAction::restore` (lines 135-156). -/
def restore (reg : RegistryAccess W) (a : DelimitedEntryAction) (description : String) :
    Op W := fun x =>
  let cb := x.ctx.callback
  let x1 := match cb with
    | some c => x.on_progress c "Restore" description (-1)
    | none => x
  let chk := check_archive_exists a.archive_path x1
  if chk.1 = false then (true, chk.2)
  else
    let x2 := chk.2
    let status := match x2.ctx.reader with
      | some reader => reader.read_text a.archive_path x2.world
      | none => ""
    let r := if status = "present" then add_to_list reg a x2.world
             else remove_from_list reg a x2.world
    let x3 := { x2 with world := r.2 }
    match cb with
    | some c =>
      if r.1 = false then
        let d := x3.on_error c "Failed to modify list" a.entry
        handle_decision d.1 d.2
      else (r.1, x3)
    | none => (r.1, x3)

/-- `DelimitedEntryAction::do_clean` (lines 158-161): the context is not looked at. -/
def do_clean (reg : RegistryAccess W) (a : DelimitedEntryAction) : Op W := fun x =>
  let r := remove_from_list reg a x.world
  (r.1, { x with world := r.2 })

end DelimitedEntryAction

/-- A registry that holds string values and may refuse every write. -/
structure Registry where
  /-- Value data by key path and value name. -/
  values : List ((String × String) × String)
  /-- Whether `open_for_writing` fails. -/
  read_only : Bool
  deriving DecidableEq, Repr

/-- Lookup of a value in a `Registry`. -/
def Registry.get (r : Registry) (key value_name : String) : String :=
  match r.values.find? (fun p => p.1 = (key, value_name)) with
  | some p => p.2
  | none => ""

/-- Replacement of a value in a `Registry`. -/
def Registry.put (r : Registry) (key value_name data : String) : Registry :=
  { r with values :=
      ((key, value_name), data) :: r.values.filter (fun p => p.1 ≠ (key, value_name)) }

/-- The registry calls on a `Registry`. -/
def Registry.access : RegistryAccess Registry where
  read_value := fun key value_name r => r.get key value_name
  write_value := fun key value_name data r =>
    if r.read_only then (false, r) else (true, r.put key value_name data)

/-- The virtual functions of a blueprint whose actions are all handled as the
`DelimitedEntryAction` they are; actions of other classes and hooks do
nothing here. -/
def Registry.impl : Impl Registry where
  backup := fun _ x => (true, x)
  restore := fun a x =>
    match a with
    | .DelimitedEntry key value_name entry archive_path delimiter insert_pos _ =>
      DelimitedEntryAction.restore Registry.access
        ⟨key, value_name, entry, archive_path, delimiter, insert_pos⟩ a.description x
    | _ => (true, x)
  do_clean := fun a x =>
    match a with
    | .DelimitedEntry key value_name entry archive_path delimiter insert_pos _ =>
      DelimitedEntryAction.do_clean Registry.access
        ⟨key, value_name, entry, archive_path, delimiter, insert_pos⟩ x
    | _ => (true, x)
  execute := fun _ _ w => (true, w)

/-! ## The orchestrator (`orchestrator.cpp`) -/

/-- What the orchestrator does, in the order it does it: the callback calls
(its own and those made inside actions), every hook executed, every action
operation invoked (with the position of the action in the blueprint and the
value returned), and the steps on the archive. -/
inductive Event where
  | cb (e : CbEvent)
  | hook_execute (phase : Phase) (index : Nat) (ok : Bool)
  | action_backup (index : Nat) (ok : Bool)
  | action_clean (index : Nat) (ok : Bool)
  | action_restore (index : Nat) (ok : Bool)
  | writer_create (ok : Bool)
  | write_blueprint (ok : Bool)
  | writer_finalize (ok : Bool)
  | reader_open (ok : Bool)
  deriving DecidableEq, Repr

/-- State of an orchestrator run: the world and the trace so far. -/
structure Sys (W : Type) where
  /-- The system. -/
  world : W
  /-- Everything done so far, oldest first. -/
  trace : List Event

variable {W : Type}

/-- Append one event to the trace. -/
def Sys.log (s : Sys W) (e : Event) : Sys W :=
  { s with trace := s.trace ++ [e] }

/-- The call `cb->on_progress(..)` made by the orchestrator when `cb` is set. -/
def Sys.progress (s : Sys W) (cb : Option (IActionCallback W)) (phase detail : String)
    (percent : Int) : Sys W :=
  match cb with
  | some c => ⟨c.on_progress phase detail percent s.world,
               s.trace ++ [Event.cb (CbEvent.on_progress phase detail percent)]⟩
  | none => s

/-- The call `cb->on_error(..)` made by the orchestrator. -/
def Sys.error (s : Sys W) (c : IActionCallback W) (message context : String) :
    Decision × Sys W :=
  let r := c.on_error message context s.world
  (r.1, ⟨r.2, s.trace ++ [Event.cb (CbEvent.on_error message context)]⟩)

/-- The statement `if (cb) cb->on_error(..)` whose decision is ignored. -/
def Sys.report (s : Sys W) (cb : Option (IActionCallback W)) (message context : String) :
    Sys W :=
  match cb with
  | some c => (s.error c message context).2
  | none => s

/-- Invocation of one operation of an action on the shared context: the
returned flag, the context afterwards, and the state with the callback calls
of the operation appended to the trace. -/
def run_op (op : Op W) (ctx : ActionContext W) (s : Sys W) : Bool × ActionContext W × Sys W :=
  let r := op ⟨ctx, s.world, []⟩
  (r.1, r.2.ctx, ⟨r.2.world, s.trace ++ r.2.events.map Event.cb⟩)

/-- The loop of `run_hooks` (lines 24-62) over the hooks that are left; `index`
is the position of the first of them.  Result: the returned flag, `skip_all`
afterwards, and the state. -/
def run_hooks_loop (impl : Impl W) (vars : VarMap) (phase : Phase)
    (cb : Option (IActionCallback W)) :
    List Hook → Nat → Bool → Sys W → Bool × Bool × Sys W
  | [], _, skip_all, s => (true, skip_all, s)
  | hook :: rest, index, skip_all, s =>
    let s1 := s.progress cb (phase_to_string phase) hook.type_name (-1)
    let r := impl.execute (hook.set_phase phase) vars s1.world
    let s2 : Sys W := ⟨r.2, s1.trace ++ [Event.hook_execute phase index r.1]⟩
    if r.1 = false then
      if skip_all then run_hooks_loop impl vars phase cb rest (index + 1) skip_all s2
      else
        match cb with
        | some c =>
          let d := s2.error c "Hook execution failed" hook.type_name
          match d.1 with
          | .Abort => (false, skip_all, d.2)
          | .SkipAll => run_hooks_loop impl vars phase cb rest (index + 1) true d.2
          | _ => run_hooks_loop impl vars phase cb rest (index + 1) skip_all d.2
        | none => (false, skip_all, s2)
    else run_hooks_loop impl vars phase cb rest (index + 1) skip_all s2

/-- `run_hooks` (lines 16-65). -/
def run_hooks (impl : Impl W) (bp : Blueprint) (phase : Phase)
    (cb : Option (IActionCallback W)) (skip_all : Bool) (s : Sys W) : Bool × Bool × Sys W :=
  run_hooks_loop impl bp.resolved_variables phase cb (bp.hooks phase) 0 skip_all s

/-- The action loop of `orchestrator::backup` (lines 116-126) over the actions
that are left, `index` being the position of the first of them. -/
def backup_actions (impl : Impl W) :
    List Action → Nat → ActionContext W → Sys W → Bool × ActionContext W × Sys W
  | [], _, ctx, s => (true, ctx, s)
  | action :: rest, index, ctx, s =>
    let r := run_op (impl.backup action) ctx s
    let s1 := r.2.2.log (Event.action_backup index r.1)
    if r.1 = false then (false, r.2.1, s1)
    else backup_actions impl rest (index + 1) r.2.1 s1

/-- The forward loop of `orchestrator::restore` (lines 252-259). -/
def restore_actions (impl : Impl W) :
    List Action → Nat → ActionContext W → Sys W → Bool × ActionContext W × Sys W
  | [], _, ctx, s => (true, ctx, s)
  | action :: rest, index, ctx, s =>
    let r := run_op (impl.restore action) ctx s
    let s1 := r.2.2.log (Event.action_restore index r.1)
    if r.1 = false then (false, r.2.1, s1)
    else restore_actions impl rest (index + 1) r.2.1 s1

/-- The reverse loops of `orchestrator::restore` (lines 234-241) and
`orchestrator::clean` (lines 297-304).  The argument lists the actions from
the last one of the blueprint to the first, each with its position. -/
def clean_actions (impl : Impl W) :
    List (Nat × Action) → ActionContext W → Sys W → Bool × ActionContext W × Sys W
  | [], ctx, s => (true, ctx, s)
  | (index, action) :: rest, ctx, s =>
    let r := run_op (IAction.clean impl action) ctx s
    let s1 := r.2.2.log (Event.action_clean index r.1)
    if r.1 = false then (false, r.2.1, s1)
    else clean_actions impl rest r.2.1 s1

/-- The actions of a blueprint from `rbegin()` to `rend()`, with positions. -/
def reverse_indexed (actions : List Action) : List (Nat × Action) :=
  ((List.range actions.length).zip actions).reverse

/-! ## Recipe documents (`Blueprint::parse_xml`, `Blueprint::to_xml`) -/

/-- An element of a loaded document, as `pugixml` hands it to the code: its
name, its attributes in document order, what `text().as_string()` returns for
it, and its child elements in document order.  The text layer of `pugixml`
(`doc.save` followed by `doc.load_string`) is outside `src/`; it is taken to
give back the elements, attributes and texts that were saved. -/
inductive XmlNode where
  | mk (name : String) (attributes : List (String × String)) (text : String)
      (children : List XmlNode)

namespace XmlNode

/-- Accessor `node.name()`. -/
def name : XmlNode → String
  | mk n _ _ _ => n

/-- The attributes of the element. -/
def attributes : XmlNode → List (String × String)
  | mk _ a _ _ => a

/-- Accessor `node.text().as_string()`. -/
def text : XmlNode → String
  | mk _ _ t _ => t

/-- Accessor `node.children()`. -/
def children : XmlNode → List XmlNode
  | mk _ _ _ c => c

/-- Lookup `node.attribute(key).as_string(dflt)`: the value of the first
attribute of that name, `dflt` when there is none. -/
def attr_or (node : XmlNode) (key dflt : String) : String :=
  (var_find node.attributes key).getD dflt

/-- Lookup `node.attribute(key).as_string()`. -/
def attr (node : XmlNode) (key : String) : String :=
  node.attr_or key ""

/-- Lookup `node.child(key)`: the first child element of that name. -/
def child (node : XmlNode) (key : String) : Option XmlNode :=
  node.children.find? (fun c => c.name = key)

/-- Range `node.children(key)`: the child elements of that name. -/
def children_named (node : XmlNode) (key : String) : List XmlNode :=
  node.children.filter (fun c => c.name = key)

end XmlNode

/-- Largest value of `uint32_t`. -/
def UINT_MAX : Nat := 4294967295

/-- Value of the decimal digits at the start of a text, on top of `acc`. -/
def digits_value : List Char → Nat → Nat
  | [], acc => acc
  | c :: cs, acc => if c.isDigit then digits_value cs (acc * 10 + (c.toNat - 48)) else acc

/-- Reading `attribute.as_uint(dflt)` of `pugixml` (outside `src/`) for an
attribute that is present: the decimal number the text starts with, at most
`UINT_MAX`. -/
def as_uint (text : String) : Nat :=
  min (digits_value text.data 0) UINT_MAX

/-- Writing an unsigned number to an attribute: its decimal digits. -/
def uint_to_string (n : Nat) : String :=
  String.mk (Nat.toDigits 10 n)

/-- Reading `attribute.as_bool(dflt)` of `pugixml` for an attribute that is
present: true when the text starts with one of `1 t T y Y`. -/
def as_bool (text : String) : Bool :=
  match text.data with
  | [] => false
  | c :: _ => c = '1' || c = 't' || c = 'T' || c = 'y' || c = 'Y'

/-- Writing a `bool` to an attribute. -/
def bool_to_string (b : Bool) : String :=
  if b then "true" else "false"

/-- Branch `files` of the loop over `<resources>` (lines 258-275). -/
def parse_files (node : XmlNode) : Option (Option Action) :=
  let path := node.attr "path"
  let archive_path := node.attr "archive"
  if path = "" then none
  else if archive_path = "" then none
  else some (some (.CopyDirectory path archive_path "" true [] []))

/-- Branch `file` (lines 276-293). -/
def parse_file (node : XmlNode) : Option (Option Action) :=
  let path := node.attr "path"
  let archive_path := node.attr "archive"
  if path = "" then none
  else if archive_path = "" then none
  else some (some (.CopyFile path archive_path ""))

/-- Branch `registry` (lines 294-311). -/
def parse_registry (node : XmlNode) : Option (Option Action) :=
  let key := node.attr "key"
  let archive_path := node.attr "archive"
  if key = "" then none
  else if archive_path = "" then none
  else some (some (.Registry key archive_path ""))

/-- Branch `environment` (lines 312-341). -/
def parse_environment (node : XmlNode) : Option (Option Action) :=
  let name := node.attr "name"
  let archive_path := node.attr "archive"
  let scope_str := node.attr_or "scope" "user"
  if name = "" then none
  else if archive_path = "" then none
  else if equals_nocase scope_str "user" then
    some (some (.Environment name .User archive_path ""))
  else if equals_nocase scope_str "system" then
    some (some (.Environment name .System archive_path ""))
  else none

/-- Branch `delimited` (lines 342-374). -/
def parse_delimited (node : XmlNode) : Option (Option Action) :=
  let key := node.attr "key"
  let value_name := node.attr "value"
  let entry := node.attr "entry"
  let archive_path := node.attr "archive"
  let delimiter := node.attr_or "delimiter" ";"
  if key = "" then none
  else if value_name = "" then none
  else if entry = "" then none
  else if archive_path = "" then none
  else some (some (.DelimitedEntry key value_name entry archive_path delimiter .Append ""))

/-- Branch `multistring` (lines 375-405). -/
def parse_multistring (node : XmlNode) : Option (Option Action) :=
  let key := node.attr "key"
  let value_name := node.attr "value"
  let entry := node.attr "entry"
  let archive_path := node.attr "archive"
  if key = "" then none
  else if value_name = "" then none
  else if entry = "" then none
  else if archive_path = "" then none
  else some (some (.MultiStringEntry key value_name entry archive_path ""))

/-- Branch `service` (lines 406-423). -/
def parse_service (node : XmlNode) : Option (Option Action) :=
  let name := node.attr "name"
  let archive_path := node.attr "archive"
  if name = "" then none
  else if archive_path = "" then none
  else some (some (.Service name archive_path ""))

/-- Branch `hosts` (lines 424-441). -/
def parse_hosts (node : XmlNode) : Option (Option Action) :=
  let hostname := node.attr "hostname"
  let archive_path := node.attr "archive"
  if hostname = "" then none
  else if archive_path = "" then none
  else some (some (.Hosts hostname archive_path ""))

/-- The body of the loop over `<resources>` (lines 256-441) for one child:
`none` is `return false`, `some none` a child of another name (nothing is
done), `some (some a)` is `m_actions.push_back(a)`. -/
def parse_resource (node : XmlNode) : Option (Option Action) :=
  let node_name := node.name
  if node_name = "files" then parse_files node
  else if node_name = "file" then parse_file node
  else if node_name = "registry" then parse_registry node
  else if node_name = "environment" then parse_environment node
  else if node_name = "delimited" then parse_delimited node
  else if node_name = "multistring" then parse_multistring node
  else if node_name = "service" then parse_service node
  else if node_name = "hosts" then parse_hosts node
  else some none

/-- The loop over the children of `<resources>`, appending to `m_actions`. -/
def parse_resources : List XmlNode → List Action → Option (List Action)
  | [], actions => some actions
  | node :: rest, actions =>
    match parse_resource node with
    | none => none
    | some none => parse_resources rest actions
    | some (some a) => parse_resources rest (actions ++ [a])

/-- Branch `kill` of the loop over `<hooks>` (lines 467-479). -/
def parse_kill (node : XmlNode) (phase : Phase) : Option (Option (Phase × Hook)) :=
  let process := node.attr "process"
  if process = "" then none
  else
    let timeout := match var_find node.attributes "timeout" with
      | some t => as_uint t
      | none => 5000
    some (some (phase, .KillProcess process timeout))

/-- Branch `run` (lines 480-501). -/
def parse_run (node : XmlNode) (phase : Phase) : Option (Option (Phase × Hook)) :=
  let path := node.attr "path"
  if path = "" then none
  else
    let wait := match var_find node.attributes "wait" with
      | some t => as_bool t
      | none => true
    let ignore_exit := match var_find node.attributes "ignore-exit-code" with
      | some t => as_bool t
      | none => false
    let args := (node.children_named "arg").map XmlNode.text
    some (some (phase, .RunProcess path args wait ignore_exit))

/-- Branch `substitute` (lines 502-514). -/
def parse_substitute (node : XmlNode) (phase : Phase) : Option (Option (Phase × Hook)) :=
  let file := node.attr "file"
  if file = "" then none
  else some (some (phase, .Substitute file phase))

/-- Branch `sql` (lines 515-533). -/
def parse_sql (node : XmlNode) (phase : Phase) : Option (Option (Phase × Hook)) :=
  let file := node.attr "file"
  let query := node.attr "query"
  if file = "" then none
  else if query = "" then none
  else some (some (phase, .Sql file query phase))

/-- The body of the loop over `<hooks>` (lines 450-537) for one child: `none`
is `return false`, `some none` an unknown hook type (a warning only),
`some (some (phase, h))` is `m_hooks[phase].push_back(h)`. -/
def parse_hook (node : XmlNode) : Option (Option (Phase × Hook)) :=
  let node_name := node.name
  let phase_str := node.attr "phase"
  if phase_str = "" then none
  else
    match parse_phase phase_str with
    | none => none
    | some phase =>
      if node_name = "kill" then parse_kill node phase
      else if node_name = "run" then parse_run node phase
      else if node_name = "substitute" then parse_substitute node phase
      else if node_name = "sql" then parse_sql node phase
      else some none

/-- The statement `m_hooks[phase].push_back(h)`. -/
def push_hook (hooks : Phase → List Hook) (phase : Phase) (h : Hook) : Phase → List Hook :=
  fun p => if p = phase then hooks p ++ [h] else hooks p

/-- The loop over the children of `<hooks>`. -/
def parse_hooks : List XmlNode → (Phase → List Hook) → Option (Phase → List Hook)
  | [], hooks => some hooks
  | node :: rest, hooks =>
    match parse_hook node with
    | none => none
    | some none => parse_hooks rest hooks
    | some (some (phase, h)) => parse_hooks rest (push_hook hooks phase h)

/-- The loop over the `<var>` children of `<variables>` (lines 233-244). -/
def parse_variables : List XmlNode → VarMap → Option VarMap
  | [], user => some user
  | var :: rest, user =>
    let name := var.attr "name"
    if name = "" then none
    else parse_variables rest (var_set user name var.text)

/-- `Blueprint::parse_xml` (lines 186-542) on a blueprint that holds the
builtins of the host and nothing else.  `doc` is the result of
`doc.load_string`: `none` when the text is not well-formed, otherwise the
top-level elements.  The result is `none` for `return false`.  The loops of
`resolve_user_variables` visit the user variables by key here;
`parse_xml_in_order` takes the order as an argument. -/
def parse_xml (builtin : VarMap) (doc : Option (List XmlNode)) : Option Blueprint :=
  match doc with
  | none => none
  | some top =>
    match top.find? (fun c => c.name = "blueprint") with
    | none => none
    | some root =>
      let proj_name := root.attr "name"
      let proj_version := root.attr "version"
      if proj_name = "" then none
      else if proj_version = "" then none
      else
        let builtin1 := var_set (var_set builtin VAR_PROJECT_NAME proj_name)
          VAR_PROJECT_VERSION proj_version
        let installdir := root.attr "installdir"
        let user0 : VarMap := if installdir = "" then [] else var_set [] VAR_INSTALLDIR installdir
        let builtin2 := match root.child "description" with
          | some desc => var_set builtin1 VAR_PROJECT_DESCRIPTION desc.text
          | none => builtin1
        let user_opt := match root.child "variables" with
          | some vars => parse_variables (vars.children_named "var") user0
          | none => some user0
        match user_opt with
        | none => none
        | some user =>
          let r := resolve_user_variables builtin2 user
          if r.1 = false then none
          else
            let actions_opt := match root.child "resources" with
              | some resources => parse_resources resources.children []
              | none => some []
            match actions_opt with
            | none => none
            | some actions =>
              let hooks_opt := match root.child "hooks" with
                | some hooks_node => parse_hooks hooks_node.children (fun _ => [])
                | none => some (fun _ => [])
              match hooks_opt with
              | none => none
              | some hooks => some ⟨actions, hooks, user, builtin2, r.2⟩

/-- What `populate_builtins` reads from the host. -/
structure HostEnv where
  /-- Known folder `FOLDERID_ProgramFiles`. -/
  program_files : String
  /-- Known folder `FOLDERID_ProgramFilesX86`. -/
  program_files_x86 : String
  /-- Known folder `FOLDERID_ProgramData`. -/
  program_data : String
  /-- Known folder `FOLDERID_RoamingAppData`. -/
  appdata : String
  /-- Known folder `FOLDERID_LocalAppData`. -/
  local_appdata : String
  /-- Directory `pnq::directory::windows()`. -/
  windir : String
  /-- Result of `GetComputerNameW`, when it succeeds. -/
  computer_name : Option String
  /-- Result of `GetUserNameW`, when it succeeds. -/
  user_name : Option String
  /-- Environment variable `SYSTEMDRIVE`, when set. -/
  system_drive : Option String

/-- Assignment `m[k] = v` made only when `v` is there. -/
def var_set_opt (m : VarMap) (k : String) (v : Option String) : VarMap :=
  match v with
  | some x => var_set m k x
  | none => m

/-- `Blueprint::populate_builtins` (lines 13-38). -/
def populate_builtins (h : HostEnv) : VarMap :=
  let m1 := var_set [] "PROGRAMFILES" h.program_files
  let m2 := var_set m1 "PROGRAMFILES_X86" h.program_files_x86
  let m3 := var_set m2 "PROGRAMDATA" h.program_data
  let m4 := var_set m3 "APPDATA" h.appdata
  let m5 := var_set m4 "LOCALAPPDATA" h.local_appdata
  let m6 := var_set m5 "WINDIR" h.windir
  let m7 := var_set_opt m6 "COMPUTERNAME" h.computer_name
  let m8 := var_set_opt m7 "USERNAME" h.user_name
  var_set_opt m8 "SYSTEMDRIVE" h.system_drive

/-- `Blueprint::load_from_string` (lines 170-184): `none` is `nullptr`. -/
def load_from_string (h : HostEnv) (doc : Option (List XmlNode)) : Option Blueprint :=
  parse_xml (populate_builtins h) doc

/-- The element `to_xml` writes for one action (lines 594-598). -/
def action_to_node (a : Action) : XmlNode :=
  XmlNode.mk a.type_name a.to_params "" []

/-- The element `to_xml` writes for one user variable (lines 583-585). -/
def var_to_node (p : String × String) : XmlNode :=
  XmlNode.mk "var" [("name", p.1)] p.2 []

/-- The element `to_xml` writes for one hook of a phase (lines 621-656). -/
def hook_to_node (phase : Phase) : Hook → XmlNode
  | .KillProcess process_name timeout_ms =>
    XmlNode.mk "kill"
      ([("phase", phase_to_string phase), ("process", process_name)]
        ++ (if timeout_ms ≠ 5000 then [("timeout", uint_to_string timeout_ms)] else []))
      "" []
  | .RunProcess path args wait ignore_exit_code =>
    XmlNode.mk "run"
      ([("phase", phase_to_string phase), ("path", path)]
        ++ (if wait then [] else [("wait", bool_to_string false)])
        ++ (if ignore_exit_code then [("ignore-exit-code", bool_to_string true)] else []))
      "" (args.map (fun arg => XmlNode.mk "arg" [] arg []))
  | .Substitute file_pattern _ =>
    XmlNode.mk "substitute" [("phase", phase_to_string phase), ("file", file_pattern)] "" []
  | .Sql file_path query _ =>
    XmlNode.mk "sql"
      [("phase", phase_to_string phase), ("file", file_path), ("query", query)] "" []

/-- The attributes `to_xml` gives the root element (lines 552-559). -/
def to_xml_root_attrs (bp : Blueprint) : List (String × String) :=
  let installdir_attr : List (String × String) :=
    match var_find bp.user_variables VAR_INSTALLDIR with
    | some v => if v = "" then [] else [("installdir", v)]
    | none => []
  [("name", bp.get_var VAR_PROJECT_NAME), ("version", bp.get_var VAR_PROJECT_VERSION)]
    ++ installdir_attr

/-- The `<description>` child `to_xml` writes, if any (lines 561-562). -/
def to_xml_description (bp : Blueprint) : List XmlNode :=
  let description := bp.get_var VAR_PROJECT_DESCRIPTION
  if description = "" then [] else [XmlNode.mk "description" [] description []]

/-- The `<variables>` child `to_xml` writes, if any (lines 564-587). -/
def to_xml_variables (bp : Blueprint) : List XmlNode :=
  let other_vars := bp.user_variables.filter (fun p => p.1 ≠ VAR_INSTALLDIR)
  if other_vars.isEmpty then []
  else [XmlNode.mk "variables" [] "" (other_vars.map var_to_node)]

/-- The `<resources>` child `to_xml` writes, if any (lines 589-600). -/
def to_xml_resources (bp : Blueprint) : List XmlNode :=
  if bp.actions.isEmpty then []
  else [XmlNode.mk "resources" [] "" (bp.actions.map action_to_node)]

/-- The hooks of all phases in the order `to_xml` writes them, each with its
phase (lines 616-658). -/
def hooks_in_order (bp : Blueprint) : List (Phase × Hook) :=
  Phase.all.flatMap (fun p => (bp.hooks p).map (fun h => (p, h)))

/-- The `<hooks>` child `to_xml` writes, if any (lines 602-659). -/
def to_xml_hooks (bp : Blueprint) : List XmlNode :=
  let has_hooks := Phase.all.any (fun p => !(bp.hooks p).isEmpty)
  if has_hooks then
    [XmlNode.mk "hooks" [] "" ((hooks_in_order bp).map (fun x => hook_to_node x.1 x.2))]
  else []

/-- The root element `to_xml` writes. -/
def to_xml_root (bp : Blueprint) : XmlNode :=
  XmlNode.mk "blueprint" (to_xml_root_attrs bp) ""
    (to_xml_description bp ++ to_xml_variables bp ++ to_xml_resources bp ++ to_xml_hooks bp)

/-- `Blueprint::to_xml` (lines 544-664): the document handed to `doc.save`. -/
def to_xml (bp : Blueprint) : List XmlNode :=
  let decl := XmlNode.mk "xml" [("version", "1.0"), ("encoding", "UTF-8")] "" []
  [decl, to_xml_root bp]

/-! ## The entry points of the orchestrator -/

/-- The archive classes used by the orchestrator (`ZipSnapshotWriter`,
`ZipSnapshotReader`) and the `doc.save` of `pugixml`, all outside the modelled
code. -/
structure ArchiveBackend (W : Type) where
  /-- The `ZipSnapshotWriter` object. -/
  writer : SnapshotWriter W
  /-- The `ZipSnapshotReader` object. -/
  reader : SnapshotReader W
  /-- Method `ZipSnapshotReader::open`. -/
  open_reader : String → W → Bool × W
  /-- The text `doc.save` produces for a document. -/
  save : List XmlNode → String

namespace orchestrator

variable {W : Type}

/-- `orchestrator::backup` (lines 72-171). -/
def backup (impl : Impl W) (arch : ArchiveBackend W) (bp : Option Blueprint)
    (output_path : String) (cb : Option (IActionCallback W)) (s : Sys W) : Bool × Sys W :=
  match bp with
  | none => (false, s)
  | some bp =>
    let skip_all := false
    let pre := run_hooks impl bp .PreBackup cb skip_all s
    if pre.1 = false then (false, pre.2.2)
    else
      let skip_all := pre.2.1
      let created := arch.writer.create output_path pre.2.2.world
      let s1 : Sys W := ⟨created.2, pre.2.2.trace ++ [Event.writer_create created.1]⟩
      if created.1 = false then
        (false, s1.report cb "Failed to create snapshot file" output_path)
      else
        let ctx := (ActionContext.for_backup arch.writer cb).set_skip_all_errors skip_all
        let loop := backup_actions impl bp.actions 0 ctx s1
        let success := loop.1
        let skip_all := loop.2.1.skip_all_errors
        let s2 := loop.2.2
        if success = false then (false, s2)
        else
          let written := arch.writer.write_text "blueprint.xml" (arch.save (to_xml bp)) s2.world
          let s3 : Sys W := ⟨written.2, s2.trace ++ [Event.write_blueprint written.1]⟩
          if written.1 = false then
            (false, s3.report cb "Failed to write blueprint to archive" "blueprint.xml")
          else
            let finalized := arch.writer.finalize s3.world
            let s4 : Sys W := ⟨finalized.2, s3.trace ++ [Event.writer_finalize finalized.1]⟩
            if finalized.1 = false then
              (false, s4.report cb "Failed to finalize snapshot" output_path)
            else
              let post := run_hooks impl bp .PostBackup cb skip_all s4
              if post.1 = false then (false, post.2.2)
              else (true, post.2.2.progress cb "Backup" "Complete" 100)

/-- `orchestrator::restore(bp, archive_path, cb, simulate)` (lines 207-275). -/
def restore (impl : Impl W) (arch : ArchiveBackend W) (bp : Option Blueprint)
    (archive_path : String) (cb : Option (IActionCallback W)) (simulate : Bool)
    (s : Sys W) : Bool × Sys W :=
  match bp with
  | none => (false, s)
  | some bp =>
    let skip_all := false
    let opened := arch.open_reader archive_path s.world
    let s1 : Sys W := ⟨opened.2, s.trace ++ [Event.reader_open opened.1]⟩
    if opened.1 = false then
      (false, s1.report cb "Failed to open snapshot" archive_path)
    else
      let pre : Bool × Bool × Sys W :=
        if simulate then (true, skip_all, s1)
        else run_hooks impl bp .PreRestore cb skip_all s1
      if pre.1 = false then (false, pre.2.2)
      else
        let skip_all := pre.2.1
        let clean_ctx :=
          ((ActionContext.for_clean cb).set_skip_all_errors skip_all).set_simulate simulate
        let cleaned := clean_actions impl (reverse_indexed bp.actions) clean_ctx pre.2.2
        if cleaned.1 = false then (false, cleaned.2.2)
        else
          let skip_all := cleaned.2.1.skip_all_errors
          let ctx :=
            ((ActionContext.for_restore arch.reader cb).set_skip_all_errors skip_all).set_simulate
              simulate
          let loop := restore_actions impl bp.actions 0 ctx cleaned.2.2
          let success := loop.1
          let skip_all := loop.2.1.skip_all_errors
          if success = false then (false, loop.2.2)
          else
            let post : Bool × Bool × Sys W :=
              if simulate then (true, skip_all, loop.2.2)
              else run_hooks impl bp .PostRestore cb skip_all loop.2.2
            if post.1 = false then (false, post.2.2)
            else (true, post.2.2.progress cb "Restore" "Complete" 100)

/-- `orchestrator::clean` (lines 277-314). -/
def clean (impl : Impl W) (bp : Option Blueprint) (cb : Option (IActionCallback W))
    (simulate : Bool) (s : Sys W) : Bool × Sys W :=
  match bp with
  | none => (false, s)
  | some bp =>
    let skip_all := false
    let pre : Bool × Bool × Sys W :=
      if simulate then (true, skip_all, s)
      else run_hooks impl bp .PreClean cb skip_all s
    if pre.1 = false then (false, pre.2.2)
    else
      let skip_all := pre.2.1
      let ctx := ((ActionContext.for_clean cb).set_skip_all_errors skip_all).set_simulate simulate
      let loop := clean_actions impl (reverse_indexed bp.actions) ctx pre.2.2
      let success := loop.1
      let skip_all := loop.2.1.skip_all_errors
      let s1 :=
        if simulate then loop.2.2
        else (run_hooks impl bp .PostClean cb skip_all loop.2.2).2.2
      (success, s1)

end orchestrator

/-! ## Reading a trace -/

/-- Does the event record an `on_error` call? -/
def Event.is_on_error : Event → Bool
  | .cb e => e.is_error
  | _ => false

namespace orchestrator

variable {W : Type}

/-- The first step of `orchestrator::restore` (lines 215-217): what
`reader.open(archive_path)` returned, and the state after the call. -/
def restore_opened (arch : ArchiveBackend W) (archive_path : String) (s : Sys W) : Bool × Sys W :=
  let opened := arch.open_reader archive_path s.world
  (opened.1, ⟨opened.2, s.trace ++ [Event.reader_open opened.1]⟩)

/-- The second step of `orchestrator::restore` (line 225), taken after a
successful `open`: the PreRestore hooks, which are skipped in simulate mode.
Result: whether the run goes on, `skip_all`, and the state. -/
def restore_pre (impl : Impl W) (arch : ArchiveBackend W) (bp : Blueprint)
    (archive_path : String) (cb : Option (IActionCallback W)) (simulate : Bool)
    (s : Sys W) : Bool × Bool × Sys W :=
  if simulate then (true, false, (restore_opened arch archive_path s).2)
  else run_hooks impl bp .PreRestore cb false (restore_opened arch archive_path s).2

/-- The first step of `orchestrator::backup` (line 86): the PreBackup
hooks.  Result: whether the run goes on, `skip_all`, and the state. -/
def backup_pre (impl : Impl W) (bp : Blueprint) (cb : Option (IActionCallback W))
    (s : Sys W) : Bool × Bool × Sys W :=
  run_hooks impl bp .PreBackup cb false s

/-- The second step of `orchestrator::backup` (lines 94-97), taken after the
PreBackup hooks: what `writer.create(output_path)` returned, and the world
after the call. -/
def backup_created (impl : Impl W) (arch : ArchiveBackend W) (bp : Blueprint)
    (output_path : String) (cb : Option (IActionCallback W)) (s : Sys W) : Bool × W :=
  arch.writer.create output_path (backup_pre impl bp cb s).2.2.world

end orchestrator

/-! ## A run of the orchestrator on a small system -/

/-- Virtual functions for the examples below: `backup` and `restore` return
`false` on a registry action, every other operation returns `true`, nothing
touches the system. -/
def picky_impl : Impl Unit where
  backup := fun a x => (decide (a.type_name ≠ "registry"), x)
  restore := fun a x => (decide (a.type_name ≠ "registry"), x)
  do_clean := fun _ x => (true, x)
  execute := fun _ _ w => (true, w)

/-- An archive whose every operation succeeds. -/
def accepting_archive : ArchiveBackend Unit where
  writer := ⟨fun _ w => (true, w), fun _ _ w => (true, w), fun w => (true, w)⟩
  reader := ⟨fun _ _ => true, fun _ _ => ""⟩
  open_reader := fun _ w => (true, w)
  save := fun _ => ""

/-- A blueprint with three actions, the second one a registry action, and no
hooks. -/
def three_actions : Blueprint :=
  ⟨[.CopyFile "C:\\app.ini" "files/app.ini" "",
    .Registry "HKLM\\Software\\App" "registry/app.reg" "",
    .Hosts "app.local" "hosts/app.txt" ""], fun _ => [], [], [], []⟩

/-! ## The standard callbacks (`orchestrator.cpp`, `orchestrator.h`) -/

/-- `AbortOnErrorCallback` (`orchestrator.cpp` lines 343-363); the log lines it
writes are left out. -/
def AbortOnErrorCallback (W : Type) : IActionCallback W where
  on_progress := fun _ _ _ w => w
  on_warning := fun _ w => w
  on_error := fun _ _ w => (Decision.Abort, w)
  on_file_conflict := fun _ _ w => (Decision.Continue, w)

/-- A callback that answers every error with `Continue` (the "always-Continue
callback" of a best-effort host). -/
def ContinueCallback (W : Type) : IActionCallback W where
  on_progress := fun _ _ _ w => w
  on_warning := fun _ w => w
  on_error := fun _ _ w => (Decision.Continue, w)
  on_file_conflict := fun _ _ w => (Decision.Continue, w)

/-! ## Recipes used as examples -/

/-- The recipe of the cycle example: variables `A = "${B}"` and `B = "${A}"`,
and one file resource. -/
def cycle_recipe : List XmlNode :=
  [XmlNode.mk "blueprint" [("name", "app"), ("version", "1")] ""
    [XmlNode.mk "variables" [] ""
       [XmlNode.mk "var" [("name", "A")] "${B}" [], XmlNode.mk "var" [("name", "B")] "${A}" []],
     XmlNode.mk "resources" [] ""
       [XmlNode.mk "file" [("path", "${A}\\app.ini"), ("archive", "files/app.ini")] "" []]]]

/-- A host for the examples. -/
def example_host : HostEnv :=
  ⟨"C:\\Program Files", "C:\\Program Files (x86)", "C:\\ProgramData",
    "C:\\Users\\alice\\AppData\\Roaming", "C:\\Users\\alice\\AppData\\Local", "C:\\Windows",
    some "PC", some "alice", some "C:"⟩

/-- A recipe with a description, an install directory, two variables, three
resources and two hooks. -/
def full_recipe : List XmlNode :=
  [XmlNode.mk "blueprint" [("name", "app"), ("version", "1.2"),
      ("installdir", "${PROGRAMFILES}\\App")] ""
    [XmlNode.mk "description" [] "An application" [],
     XmlNode.mk "variables" [] ""
       [XmlNode.mk "var" [("name", "DATA")] "${PROGRAMDATA}\\App" [],
        XmlNode.mk "var" [("name", "LOGS")] "${DATA}\\logs" []],
     XmlNode.mk "resources" [] ""
       [XmlNode.mk "files" [("path", "${INSTALLDIR}"), ("archive", "files/app")] "" [],
        XmlNode.mk "registry" [("key", "HKLM\\Software\\App"), ("archive", "registry/app.reg")]
          "" [],
        XmlNode.mk "delimited" [("key", "HKLM\\Software\\App"), ("value", "Path"),
          ("entry", "${INSTALLDIR}\\bin"), ("archive", "registry/path.txt")] "" []],
     XmlNode.mk "hooks" [] ""
       [XmlNode.mk "kill" [("phase", "PreBackup"), ("process", "app.exe"), ("timeout", "70")] "" [],
        XmlNode.mk "run" [("phase", "PostRestore"), ("path", "${INSTALLDIR}\\setup.exe")] ""
          [XmlNode.mk "arg" [] "/quiet" []]]]]

/-- The blueprint that `full_recipe` loads into on `example_host`. -/
def full_blueprint : Blueprint :=
  (load_from_string example_host (some full_recipe)).getD ⟨[], fun _ => [], [], [], []⟩

/-- A recipe whose user variable `PROJECT_NAME` is empty. -/
def empty_name_recipe : List XmlNode :=
  [XmlNode.mk "blueprint" [("name", "app"), ("version", "1")] ""
    [XmlNode.mk "variables" [] "" [XmlNode.mk "var" [("name", "PROJECT_NAME")] "" []]]]

/-- The blueprint that `empty_name_recipe` loads into on `example_host`. -/
def empty_name_blueprint : Blueprint :=
  (load_from_string example_host (some empty_name_recipe)).getD ⟨[], fun _ => [], [], [], []⟩

/-! ## Order of iteration -/

/-- The entries of a map are listed by key, each key once. -/
def var_sorted (m : VarMap) : Prop :=
  List.Pairwise (fun p q => p.1.data < q.1.data) m

instance : IsTotal (String × String) longer_first :=
  ⟨fun a b => Nat.le_total b.2.data.length a.2.data.length⟩

instance : IsTrans (String × String) longer_first :=
  ⟨fun _ _ _ hab hbc => Nat.le_trans hbc hab⟩


/-! ## What a parse can produce -/

/-- An action that `parse_xml` can produce. -/
def Action.parsed (a : Action) : Prop := ∃ node, parse_resource node = some (some a)

/-- A hook that `parse_xml` can put into the list of phase `p`. -/
def Hook.parsed (p : Phase) (hk : Hook) : Prop := ∃ node, parse_hook node = some (some (p, hk))

/-! ## The iteration order of the user variables -/

/-- `Blueprint::parse_xml` (lines 186-542) with the iteration order of
`m_user_variables` as an argument: `order user` lists the entries of the map
in the order in which the loops of `resolve_user_variables` visit them.
`parse_xml` is the instance that visits them by key. -/
def parse_xml_in_order (order : VarMap → List (String × String)) (builtin : VarMap)
    (doc : Option (List XmlNode)) : Option Blueprint :=
  match doc with
  | none => none
  | some top =>
    match top.find? (fun c => c.name = "blueprint") with
    | none => none
    | some root =>
      let proj_name := root.attr "name"
      let proj_version := root.attr "version"
      if proj_name = "" then none
      else if proj_version = "" then none
      else
        let builtin1 := var_set (var_set builtin VAR_PROJECT_NAME proj_name)
          VAR_PROJECT_VERSION proj_version
        let installdir := root.attr "installdir"
        let user0 : VarMap := if installdir = "" then [] else var_set [] VAR_INSTALLDIR installdir
        let builtin2 := match root.child "description" with
          | some desc => var_set builtin1 VAR_PROJECT_DESCRIPTION desc.text
          | none => builtin1
        let user_opt := match root.child "variables" with
          | some vars => parse_variables (vars.children_named "var") user0
          | none => some user0
        match user_opt with
        | none => none
        | some user =>
          let r := resolve_user_variables builtin2 (order user)
          if r.1 = false then none
          else
            let actions_opt := match root.child "resources" with
              | some resources => parse_resources resources.children []
              | none => some []
            match actions_opt with
            | none => none
            | some actions =>
              let hooks_opt := match root.child "hooks" with
                | some hooks_node => parse_hooks hooks_node.children (fun _ => [])
                | none => some (fun _ => [])
              match hooks_opt with
              | none => none
              | some hooks => some ⟨actions, hooks, user, builtin2, r.2⟩

/-- `Blueprint::load_from_string` (lines 170-184) with the iteration order of
`m_user_variables` as an argument. -/
def load_from_string_in_order (order : VarMap → List (String × String)) (h : HostEnv)
    (doc : Option (List XmlNode)) : Option Blueprint :=
  parse_xml_in_order order (populate_builtins h) doc

/-- The `<variables>` child `to_xml` writes, if any (lines 564-587), the loop
over `m_user_variables` visiting the entries in the order
`order bp.user_variables`. -/
def to_xml_variables_in_order (order : VarMap → List (String × String)) (bp : Blueprint) :
    List XmlNode :=
  let other_vars := (order bp.user_variables).filter (fun p => p.1 ≠ VAR_INSTALLDIR)
  if other_vars.isEmpty then []
  else [XmlNode.mk "variables" [] "" (other_vars.map var_to_node)]

/-- The root element `to_xml` writes, for an iteration order of
`m_user_variables`. -/
def to_xml_root_in_order (order : VarMap → List (String × String)) (bp : Blueprint) : XmlNode :=
  XmlNode.mk "blueprint" (to_xml_root_attrs bp) ""
    (to_xml_description bp ++ to_xml_variables_in_order order bp ++ to_xml_resources bp
      ++ to_xml_hooks bp)

/-- `Blueprint::to_xml` (lines 544-664) for an iteration order of
`m_user_variables`: the document handed to `doc.save`. -/
def to_xml_in_order (order : VarMap → List (String × String)) (bp : Blueprint) : List XmlNode :=
  let decl := XmlNode.mk "xml" [("version", "1.0"), ("encoding", "UTF-8")] "" []
  [decl, to_xml_root_in_order order bp]

/-- An iteration order lists every map as a rearrangement of its entries. -/
def is_iteration_order (order : VarMap → List (String × String)) : Prop :=
  ∀ m : VarMap, (order m).Perm m

/-- The result of `resolve_user_variables` for these variables is the same in
whatever order the user variables are visited. -/
def resolves_in_any_order (builtin user : VarMap) : Prop :=
  ∀ order : List (String × String), order.Perm user →
    resolve_user_variables builtin order = resolve_user_variables builtin user

/-- A recipe whose user variables `A` and `INSTALLDIR` refer to each other. -/
def mutual_recipe : List XmlNode :=
  [XmlNode.mk "blueprint" [("name", "app"), ("version", "1")] ""
    [XmlNode.mk "variables" [] ""
       [XmlNode.mk "var" [("name", "A")] "${INSTALLDIR}" [],
        XmlNode.mk "var" [("name", "INSTALLDIR")] "${A}" []]]]

/-- The blueprint that `mutual_recipe` loads into on `example_host` when the
user variables are visited by key (`A`, then `INSTALLDIR`). -/
def mutual_blueprint : Blueprint :=
  (load_from_string_in_order (fun m => m) example_host (some mutual_recipe)).getD
    ⟨[], fun _ => [], [], [], []⟩

/-- Ranks of the user variables of `full_recipe`. -/
def full_rank (name : String) : Nat :=
  if name = "INSTALLDIR" then 1 else if name = "DATA" then 1 else if name = "LOGS" then 2 else 0

/-- The hook execution an event records: phase and position in the list. -/
def Event.hook? : Event → Option (Phase × Nat)
  | .hook_execute p i _ => some (p, i)
  | _ => none

/-- The hooks executed in a trace, in order. -/
def hooks_run (t : List Event) : List (Phase × Nat) := t.filterMap Event.hook?

/-- A registry that refuses writes and holds the list `a;b` in `Path`. -/
def locked_registry : Registry :=
  ⟨[(("HKLM\\Env", "Path"), "a;b")], true⟩

/-- A blueprint with one list-entry action for `b` in that list and one
PostClean hook. -/
def locked_blueprint : Blueprint :=
  ⟨[Action.DelimitedEntry "HKLM\\Env" "Path" "b" "registry/path.txt" ";" .Append ""],
    fun p => match p with
      | .PostClean => [Hook.KillProcess "app.exe" 1000]
      | _ => [],
    [], [], []⟩

/-- No operation of an action clears `skip_all_errors`: in `src/shared/src/actions`
every call of `set_skip_all_errors` passes `true`. -/
def Impl.keeps_skip_all (impl : Impl W) : Prop :=
  ∀ (a : Action) (x : Exec W), x.ctx.skip_all_errors = true →
    (impl.backup a x).2.ctx.skip_all_errors = true ∧
    (impl.restore a x).2.ctx.skip_all_errors = true ∧
    (impl.do_clean a x).2.ctx.skip_all_errors = true

/-- A callback that answers every error with `SkipAll`. -/
def SkipAllCallback (W : Type) : IActionCallback W where
  on_progress := fun _ _ _ w => w
  on_warning := fun _ w => w
  on_error := fun _ _ w => (Decision.SkipAll, w)
  on_file_conflict := fun _ _ w => (Decision.Continue, w)

/-- An archive in which every path exists and reads as `status`. -/
def constant_archive (W : Type) (status : String) : ArchiveBackend W where
  writer := ⟨fun _ w => (true, w), fun _ _ w => (true, w), fun w => (true, w)⟩
  reader := ⟨fun _ _ => true, fun _ _ => status⟩
  open_reader := fun _ w => (true, w)
  save := fun _ => ""

/-- A `<delimited>` element that asks for insertion at the front. -/
def prepend_node : XmlNode :=
  XmlNode.mk "delimited"
    [("key", "HKCU\\Environment"), ("value", "Path"), ("entry", "C:\\Tools"),
     ("insert", "prepend"), ("archive", "env/path")] "" []

/-- The loop of `MultiStringEntryAction::remove_from_list` (`multistring_entry.cpp`
lines 122-128): the entries that do not match. -/
def MultiStringEntryAction.filtered (entry : String) (entries : List String) : List String :=
  entries.filter (fun e => !equals_nocase e entry)

/-! ## Backup of a list entry, and a machine with a registry and a snapshot -/

/-- `DelimitedEntryAction::backup` (lines 109-133).  Without a writer in the
context nothing can be written, which counts as the failed `write_text`. -/
def DelimitedEntryAction.backup (reg : RegistryAccess W) (a : DelimitedEntryAction)
    (description : String) : Op W := fun x =>
  let cb := x.ctx.callback
  let x1 := match cb with
    | some c => x.on_progress c "Backup" description (-1)
    | none => x
  let present := a.is_in_list reg x1.world
  let status := if present then "present" else "absent"
  let r := match x1.ctx.writer with
    | some writer => writer.write_text a.archive_path status x1.world
    | none => (false, x1.world)
  let x2 := { x1 with world := r.2 }
  if r.1 = false then
    match cb with
    | some c =>
      let d := x2.on_error c "Failed to write list entry status to snapshot" a.archive_path
      handle_decision d.1 d.2
    | none => (false, x2)
  else (true, x2)

/-- A machine: its registry and the text entries of the snapshot at hand. -/
structure Machine where
  /-- The registry. -/
  registry : Registry
  /-- The snapshot: text by archive path. -/
  archive : VarMap
  deriving DecidableEq, Repr

/-- The registry calls on a `Machine`. -/
def Machine.access : RegistryAccess Machine where
  read_value := fun key value_name m => m.registry.get key value_name
  write_value := fun key value_name data m =>
    if m.registry.read_only then (false, m)
    else (true, { m with registry := m.registry.put key value_name data })

/-- A writer that stores text entries in the snapshot of the machine. -/
def Machine.writer : SnapshotWriter Machine where
  create := fun _ m => (true, { m with archive := [] })
  write_text := fun path text m => (true, { m with archive := var_set m.archive path text })
  finalize := fun m => (true, m)

/-- A reader of the snapshot of the machine. -/
def Machine.reader : SnapshotReader Machine where
  path_exists := fun path m => (var_find m.archive path).isSome
  read_text := fun path m => var_get m.archive path

/-- A machine whose `Path` list is `C:\Windows`, with an empty snapshot. -/
def plain_machine : Machine :=
  ⟨⟨[(("HKCU\\Environment", "Path"), "C:\\Windows")], false⟩, []⟩

/-- The list entry `C:\Tools` of that list. -/
def tools_entry : DelimitedEntryAction :=
  ⟨"HKCU\\Environment", "Path", "C:\\Tools", "env/path", ";", InsertPosition.Append⟩

/-- A registry access that reads back what a successful write stored. -/
def RegistryAccess.faithful (reg : RegistryAccess W) : Prop :=
  ∀ (key value_name data : String) (w : W), (reg.write_value key value_name data w).1 = true →
    reg.read_value key value_name (reg.write_value key value_name data w).2 = data

/-- A text that can stand as one entry of a list with the given delimiter
characters: not empty, free of delimiter characters, and without white space
at either end. -/
def list_entry_ok (delimiter : String) (entry : String) : Prop :=
  entry.data ≠ [] ∧ (∀ c ∈ entry.data, c ∉ delimiter.data) ∧ strip entry.data = entry.data

/-- The last steps of `split_stripped`: strip every piece, drop the empty ones. -/
def kept_pieces (pieces : List (List Char)) : List String :=
  ((pieces.map strip).filter (fun piece => !piece.isEmpty)).map String.mk

/-- The entry `C:\Tools` for the front of the `Path` list. -/
def front_entry : DelimitedEntryAction :=
  ⟨"HKCU\\Environment", "Path", "C:\\Tools", "env/path", ";", InsertPosition.Prepend⟩

/-- An entry that holds two paths with the delimiter between them. -/
def double_entry : DelimitedEntryAction :=
  ⟨"HKCU\\Environment", "Path", "C:\\Tools;C:\\Bin", "env/path", ";", InsertPosition.Append⟩

/-! ## `SnapshotReader::extract_directory_recursive` (`reader.cpp`) -/

/-- The normalisation `if (!prefix.empty() && prefix.back() == '/') prefix.pop_back()`. -/
def drop_trailing_slash (s : List Char) : List Char :=
  if s.getLast? = some '/' then s.dropLast else s

/-- Test `!path.empty() && path.back() == '/'`. -/
def is_dir_path (path : List Char) : Bool := path.getLast? = some '/'

/-- What a directory iterator says about an entry. -/
inductive EntryKind where
  | directory | regular_file | other
  deriving DecidableEq, Repr

/-- The calls that `CopyDirectoryAction` makes on `std::filesystem`, on
`pnq::directory`, on the archive writer and on the archive reader, none of
them under `src/`.  A path is the text of its `string()`.  An error is `none`
for a clear `ec` and the text of `ec.message()` otherwise. -/
structure DirectoryAccess (W : Type) where
  /-- Call `std::filesystem::exists(path)`. -/
  path_exists : String → W → Bool
  /-- Call `pnq::directory::exists(path)`. -/
  directory_exists : String → W → Bool
  /-- Call `std::filesystem::remove(path, ec)`. -/
  remove : String → W → Option String × W
  /-- Call `std::filesystem::create_directories(path, ec)`. -/
  create_directories : String → W → Option String × W
  /-- Call `std::filesystem::relative(file, base, ec)` with every `\` of the
  result replaced by `/`; `none` when `ec` is set. -/
  relative : String → String → W → Option String
  /-- What `std::filesystem::recursive_directory_iterator(base, ec)` yields. -/
  iterate : String → W → List (String × EntryKind)
  /-- Method `path::filename`. -/
  filename : String → String
  /-- Method `path::parent_path`, `none` when `has_parent_path()` is false. -/
  parent_path : String → Option String
  /-- The path `dest_base / rel`. -/
  append : String → String → String
  /-- Number of components, `std::distance(path.begin(), path.end())`. -/
  depth : String → Nat
  /-- Call `ctx->writer()->write_file(dest_path, src_path)`. -/
  write_file : String → String → W → Bool × W
  /-- Call `ctx->reader()->extract_to_file(archive_path, dest_path)`. -/
  extract_to_file : String → String → W → Bool × W

/-- The `while (true)` loop around the operation on one item (lines 161-193,
238-270, 402-436, 499-531, 635-672, 708-745, 761-798; the seven loops differ in
the operation and in the two texts handed to `on_error`).  `attempt` is the
operation with its error, `context` makes the second text from the error.
`fuel` is the number of passes through the loop that are left; the result is
`none` when they are used up, otherwise `true` for leaving the loop by `break`
and `false` for `return false`. -/
def retry_loop (attempt : W → Option String × W) (message : String)
    (context : String → String) (cb : Option (IActionCallback W)) :
    Nat → Exec W → Option (Bool × Exec W)
  | 0, _ => none
  | fuel + 1, x =>
    let r := attempt x.world
    let x1 : Exec W := { x with world := r.2 }
    match r.1 with
    | none => some (true, x1)
    | some err =>
      if x1.ctx.skip_all_errors then some (true, x1)
      else
        match cb with
        | some c =>
          let d := x1.on_error c message (context err)
          match d.1 with
          | .Retry => retry_loop attempt message context cb fuel d.2
          | .Skip => some (true, d.2)
          | .Continue => some (true, d.2)
          | .SkipAll => some (true, { d.2 with ctx := d.2.ctx.set_skip_all_errors true })
          | .Abort => some (false, d.2)
        | none => some (false, x1)

/-- What follows the retry loop of an item: `return false` ends the function,
`break` goes on with `next`. -/
def after_item (r : Option (Bool × Exec W)) (next : Exec W → Option (Bool × Exec W)) :
    Option (Bool × Exec W) :=
  match r with
  | none => none
  | some (false, x) => some (false, x)
  | some (true, x) => next x

/-- The value `static_cast<int>((i * 100) / total)` with `i` and `total` of
type `size_t`. -/
def percent_of (i total : Nat) : Int := ((i * 100 % 2 ^ 64 / total : Nat) : Int)

/-- Progress reporting at 1% thresholds (lines 215-223, 463-476, 611-619): the
state and `last_percent` afterwards. -/
def progress_step (cb : Option (IActionCallback W)) (total i : Nat) (last_percent : Int)
    (phase name : String) (x : Exec W) : Exec W × Int :=
  match cb with
  | some c =>
    if total > 0 ∧ percent_of i total ≥ last_percent + 1 then
      (x.on_progress c phase name (percent_of i total), percent_of i total)
    else (x, last_percent)
  | none => (x, last_percent)

/-- A call that returns `bool`, as an operation with an error. -/
def flag_attempt (op : W → Bool × W) : W → Option String × W := fun w =>
  let r := op w
  (if r.1 then none else some "", r.2)

/-- The operation of the delete loops: nothing to do when the path is gone,
otherwise `std::filesystem::remove`. -/
def remove_attempt (fs : DirectoryAccess W) (path : String) : W → Option String × W := fun w =>
  if fs.path_exists path w = false then (none, w) else fs.remove path w

/-- The loop of `backup_files` (lines 210-271) over the files that are left;
`i` is the position of the first of them. -/
def backup_files_loop (fs : DirectoryAccess W) (base archive_prefix : String)
    (cb : Option (IActionCallback W)) (total fuel : Nat) :
    List String → Nat → Int → Exec W → Option (Bool × Exec W)
  | [], _, _, x => some (true, x)
  | file :: rest, i, last_percent, x =>
    let p := progress_step cb total i last_percent "Backup" (fs.filename file) x
    match fs.relative file base p.1.world with
    | none => backup_files_loop fs base archive_prefix cb total fuel rest (i + 1) p.2 p.1
    | some rel_str =>
      let dest_path := archive_prefix ++ "/" ++ rel_str
      after_item
        (retry_loop (flag_attempt (fs.write_file dest_path file)) "Failed to backup file"
          (fun _ => file) cb fuel p.1)
        (fun x2 => backup_files_loop fs base archive_prefix cb total fuel rest (i + 1) p.2 x2)

/-- `CopyDirectoryAction::backup_files` (lines 199-274). -/
def backup_files (fs : DirectoryAccess W) (base : String) (files : List String)
    ( archive_prefix : String) (fuel : Nat) : Exec W → Option (Bool × Exec W) := fun x =>
  backup_files_loop fs base archive_prefix x.ctx.callback files.length fuel files 0 (-1) x

/-- The part of a relative path after its last `/` (lines 469-472). -/
def after_last_slash (s : String) : String :=
  String.mk ((s.data.reverse.takeWhile (fun c => c ≠ '/')).reverse)

/-- Lines 490-496 of `restore_files`: the parent directory of the destination
is created, errors ignored. -/
def ensure_parent (fs : DirectoryAccess W) (dest_path : String) (x : Exec W) : Exec W :=
  match fs.parent_path dest_path with
  | some parent => { x with world := (fs.create_directories parent x.world).2 }
  | none => x

/-- The loop of `restore_files` (lines 458-532). -/
def restore_files_loop (fs : DirectoryAccess W) (pfx dest_base : String)
    (cb : Option (IActionCallback W)) (simulate : Bool) (total fuel : Nat) :
    List String → Nat → Int → Exec W → Option (Bool × Exec W)
  | [], _, _, x => some (true, x)
  | rel_file :: rest, i, last_percent, x =>
    let p := progress_step cb total i last_percent "Restore" (after_last_slash rel_file) x
    let archive_path := pfx ++ "/" ++ rel_file
    let dest_path := fs.append dest_base rel_file
    if simulate then
      let x1 := match cb with
        | some c => p.1.on_progress c "Simulate" ("Would extract: " ++ dest_path) (-1)
        | none => p.1
      restore_files_loop fs pfx dest_base cb simulate total fuel rest (i + 1) p.2 x1
    else
      let x1 := ensure_parent fs dest_path p.1
      after_item
        (retry_loop (flag_attempt (fs.extract_to_file archive_path dest_path))
          "Failed to extract file" (fun _ => dest_path) cb fuel x1)
        (fun x2 => restore_files_loop fs pfx dest_base cb simulate total fuel rest (i + 1) p.2 x2)

/-- `CopyDirectoryAction::restore_files` (lines 442-535). -/
def restore_files (fs : DirectoryAccess W) ( archive_prefix dest_base : String)
    (rel_files : List String) (fuel : Nat) : Exec W → Option (Bool × Exec W) := fun x =>
  restore_files_loop fs (String.mk (drop_trailing_slash archive_prefix.data)) dest_base
    x.ctx.callback x.ctx.simulate rel_files.length fuel rel_files 0 (-1) x

/-- The loop of `clean_files` (lines 606-673). -/
def clean_files_loop (fs : DirectoryAccess W) (cb : Option (IActionCallback W))
    (simulate : Bool) (total fuel : Nat) :
    List String → Nat → Int → Exec W → Option (Bool × Exec W)
  | [], _, _, x => some (true, x)
  | file :: rest, i, last_percent, x =>
    let p := progress_step cb total i last_percent "Clean" (fs.filename file) x
    if simulate then
      let x1 :=
        if fs.path_exists file p.1.world then
          match cb with
          | some c => p.1.on_progress c "Simulate" ("Would delete: " ++ file) (-1)
          | none => p.1
        else p.1
      clean_files_loop fs cb simulate total fuel rest (i + 1) p.2 x1
    else
      after_item
        (retry_loop (remove_attempt fs file) "Failed to delete file"
          (fun err => file ++ ": " ++ err) cb fuel p.1)
        (fun x2 => clean_files_loop fs cb simulate total fuel rest (i + 1) p.2 x2)

/-- `CopyDirectoryAction::clean_files` (lines 598-676). -/
def clean_files (fs : DirectoryAccess W) (files : List String) (fuel : Nat) :
    Exec W → Option (Bool × Exec W) := fun x =>
  clean_files_loop fs x.ctx.callback x.ctx.simulate files.length fuel files 0 (-1) x

/-! ## Clean and verify of `CopyDirectoryAction` -/

/-- The loop of `clean_directories` over the sorted directories (lines 692-746). -/
def clean_dirs_loop (fs : DirectoryAccess W) (cb : Option (IActionCallback W))
    (simulate : Bool) (fuel : Nat) : List String → Exec W → Option (Bool × Exec W)
  | [], x => some (true, x)
  | dir :: rest, x =>
    if simulate then
      let x1 :=
        if fs.path_exists dir x.world then
          match cb with
          | some c => x.on_progress c "Simulate" ("Would delete dir: " ++ dir) (-1)
          | none => x
        else x
      clean_dirs_loop fs cb simulate fuel rest x1
    else
      after_item
        (retry_loop (remove_attempt fs dir) "Failed to delete directory"
          (fun err => dir ++ ": " ++ err) cb fuel x)
        (fun x2 => clean_dirs_loop fs cb simulate fuel rest x2)

/-- `CopyDirectoryAction::clean_directories` (lines 678-801).  `std::sort` leaves
the order of directories of equal depth open; the model keeps their order. -/
def clean_directories (fs : DirectoryAccess W) (base : String) (dirs : List String)
    (fuel : Nat) : Exec W → Option (Bool × Exec W) := fun x =>
  let cb := x.ctx.callback
  let simulate := x.ctx.simulate
  let sorted_dirs := dirs.insertionSort (fun a b => fs.depth b ≤ fs.depth a)
  after_item (clean_dirs_loop fs cb simulate fuel sorted_dirs x) (fun x1 =>
    if simulate then
      if fs.path_exists base x1.world then
        match cb with
        | some c => some (true, x1.on_progress c "Simulate" ("Would delete dir: " ++ base) (-1))
        | none => some (true, x1)
      else some (true, x1)
    else
      retry_loop (remove_attempt fs base) "Failed to delete base directory"
        (fun err => base ++ ": " ++ err) cb fuel x1)

/-- `CopyDirectoryAction::do_clean` (lines 803-874); `resolved_path` is
`ctx->blueprint()->resolve(m_path)`.  The `if (ec)` block inside the loop over
the iterator is left out: `ec` is written by the constructor of the iterator
only, and when it is set there the iterator is at its end. -/
def CopyDirectoryAction.do_clean (fs : DirectoryAccess W) (resolved_path : String)
    (fuel : Nat) : Exec W → Option (Bool × Exec W) := fun x =>
  if fs.path_exists resolved_path x.world = false then some (true, x)
  else
    let entries := fs.iterate resolved_path x.world
    let dirs := (entries.filter (fun e => e.2 = EntryKind.directory)).map Prod.fst
    let files := (entries.filter (fun e => e.2 = EntryKind.regular_file)).map Prod.fst
    after_item (clean_files fs files fuel x) (fun x1 =>
      clean_directories fs resolved_path dirs fuel x1)

/-- `VerifyResult::Status` (`action.h`). -/
inductive VerifyStatus where
  | Match | Mismatch | Missing | Extra
  deriving DecidableEq, Repr

/-- `CopyDirectoryAction::verify` (lines 876-907): status and detail. -/
def CopyDirectoryAction.verify (fs : DirectoryAccess W) (resolved_path archive_path : String)
    (ctx : ActionContext W) (w : W) : VerifyStatus × String :=
  let exists_on_system := fs.directory_exists resolved_path w
  let exists_in_snapshot := match ctx.reader with
    | some reader => reader.path_exists archive_path w
    | none => false
  if !exists_on_system && !exists_in_snapshot then
    (VerifyStatus.Missing, "Directory not found on system or in snapshot")
  else if exists_on_system && !exists_in_snapshot && ctx.reader.isSome then
    (VerifyStatus.Extra, "Directory exists on system but not in snapshot")
  else if !exists_on_system && exists_in_snapshot then
    (VerifyStatus.Missing, "Directory exists in snapshot but not on system")
  else (VerifyStatus.Match, "Directory exists")

/-- A disk as the list of its paths, each a directory or a file. -/
abbrev Disk := List (String × EntryKind)

/-- Is `path` strictly below `dir`? -/
def is_below (dir path : String) : Bool := (dir.data ++ ['/']).isPrefixOf path.data

/-- The calls of `CopyDirectoryAction` on a `Disk`: a path can be removed when
nothing is below it. -/
def Disk.access : DirectoryAccess Disk where
  path_exists := fun p d => d.any (fun e => e.1 = p)
  directory_exists := fun p d => d.any (fun e => e.1 = p ∧ e.2 = EntryKind.directory)
  remove := fun p d =>
    if d.any (fun e => is_below p e.1) then (some "directory not empty", d)
    else (none, d.filter (fun e => e.1 ≠ p))
  create_directories := fun p d =>
    if d.any (fun e => e.1 = p) then (none, d) else (none, d ++ [(p, EntryKind.directory)])
  relative := fun file base _ =>
    if is_below base file then some (String.mk (file.data.drop (base.data.length + 1))) else none
  iterate := fun base d => d.filter (fun e => is_below base e.1)
  filename := after_last_slash
  parent_path := fun _ => none
  append := fun a b => a ++ "/" ++ b
  depth := fun p => (p.data.filter (fun c => c = '/')).length + 1
  write_file := fun _ _ d => (true, d)
  extract_to_file := fun _ dest d => (true, d ++ [(dest, EntryKind.regular_file)])

/-- A disk with the directory `C:/app`, a file in it and an empty
subdirectory. -/
def app_disk : Disk :=
  [("C:/app", EntryKind.directory), ("C:/app/a.txt", EntryKind.regular_file),
   ("C:/app/empty", EntryKind.directory)]

/-! ## Second spellings of the phase names -/

/-- The second string each branch of `parse_phase` compares with (`phase.cpp`
lines 9, 14, 19, 24, 29, 34). -/
def phase_kebab_name : Phase → String
  | .PreBackup => "pre-backup"
  | .PostBackup => "post-backup"
  | .PreRestore => "pre-restore"
  | .PostRestore => "post-restore"
  | .PreClean => "pre-clean"
  | .PostClean => "post-clean"

/-! ## `HostsAction::verify` (`hosts.cpp`) -/

/-- `HostsEntry` (`hosts.h`). -/
structure HostsEntry where
  /-- Member `ip`. -/
  ip : String
  /-- Member `hostname`. -/
  hostname : String
  /-- Member `comment`. -/
  comment : String
  deriving DecidableEq, Repr

/-- What `HostsAction` calls outside `src/`: `pnq::HostsFile` (`load` followed by
`find`, `none` when either fails) and `toml::parse` with the three `value_or`
reads of `ip`, `hostname` and `comment` (`none` for a `parse_error`). -/
structure HostsAccess (W : Type) where
  /-- Calls `hosts.load()` and `hosts.find(hostname)`. -/
  find : String → W → Option HostsEntry
  /-- Call `toml::parse` and the reads of the three keys. -/
  parse_toml : String → Option (String × String × String)

/-- `HostsEntry::from_toml` (lines 36-57). -/
def HostsEntry.from_toml (hosts : HostsAccess W) (toml_str : String) : Option HostsEntry :=
  match hosts.parse_toml toml_str with
  | none => none
  | some (ip, hostname, comment) =>
    if ip.isEmpty || hostname.isEmpty then none else some ⟨ip, hostname, comment⟩

/-- `HostsAction::read_entry` (lines 68-79). -/
def HostsAction.read_entry (hosts : HostsAccess W) (hostname : String) (w : W) :
    Option HostsEntry :=
  match hosts.find hostname w with
  | none => none
  | some entry => some ⟨entry.ip, entry.hostname, entry.comment⟩

/-- `HostsAction::verify` (lines 210-249): status and detail.  The last two
statements read `system_entry->ip` and `snapshot_entry->ip`; `none` stands for
such a read through an optional that holds no entry, for which C++ defines no
result. -/
def HostsAction.verify (hosts : HostsAccess W) (hostname archive_path : String)
    (ctx : ActionContext W) (w : W) : Option (VerifyStatus × String) :=
  let system_entry := HostsAction.read_entry hosts hostname w
  let exists_on_system := system_entry.isSome
  let snapshot_entry : Option HostsEntry := match ctx.reader with
    | some reader =>
      if reader.path_exists archive_path w then
        HostsEntry.from_toml hosts (reader.read_text archive_path w)
      else none
    | none => none
  let exists_in_snapshot := snapshot_entry.isSome
  if !exists_on_system && !exists_in_snapshot then
    some (VerifyStatus.Missing, "Hosts entry not found on system or in snapshot")
  else if exists_on_system && !exists_in_snapshot && ctx.reader.isSome then
    some (VerifyStatus.Extra, "Hosts entry exists on system but not in snapshot")
  else if !exists_on_system && exists_in_snapshot then
    some (VerifyStatus.Missing, "Hosts entry exists in snapshot but not on system")
  else
    match system_entry, snapshot_entry with
    | some s, some n =>
      if s.ip ≠ n.ip then
        some (VerifyStatus.Mismatch,
          "IP mismatch: system='" ++ s.ip ++ "' snapshot='" ++ n.ip ++ "'")
      else some (VerifyStatus.Match, "Hosts entry matches")
    | _, _ => none

/-- A hosts file as the list of its entries; the text of a snapshot entry is
not looked at. -/
def list_hosts : HostsAccess (List HostsEntry) where
  find := fun hostname w => w.find? (fun e => e.hostname = hostname)
  parse_toml := fun _ => none

/-! ## The order of the `remove` calls of a clean -/

/-- The file system `fs` with a record of the paths handed to `remove`. -/
def DirectoryAccess.recording (fs : DirectoryAccess W) : DirectoryAccess (W × List String) where
  path_exists := fun p w => fs.path_exists p w.1
  directory_exists := fun p w => fs.directory_exists p w.1
  remove := fun p w => ((fs.remove p w.1).1, ((fs.remove p w.1).2, w.2 ++ [p]))
  create_directories := fun p w => ((fs.create_directories p w.1).1,
    ((fs.create_directories p w.1).2, w.2))
  relative := fun file base w => fs.relative file base w.1
  iterate := fun base w => fs.iterate base w.1
  filename := fs.filename
  parent_path := fs.parent_path
  append := fs.append
  depth := fs.depth
  write_file := fun d s w => ((fs.write_file d s w.1).1, ((fs.write_file d s w.1).2, w.2))
  extract_to_file := fun a d w =>
    ((fs.extract_to_file a d w.1).1, ((fs.extract_to_file a d w.1).2, w.2))

/-- The function `log` reads a record of the `remove` calls off the system:
`remove` adds its path at the end and the callback leaves the record alone. -/
def records_removes (fs : DirectoryAccess W) (cb : Option (IActionCallback W))
    (log : W → List String) : Prop :=
  (∀ p w, log (fs.remove p w).2 = log w ++ [p]) ∧
  (∀ c, cb = some c →
    (∀ phase detail percent w, log (c.on_progress phase detail percent w) = log w) ∧
    (∀ message context w, log (c.on_error message context w).2 = log w))

/-- A disk with files and directories at three levels below `C:/app`. -/
def deep_disk : Disk :=
  [("C:/app", EntryKind.directory), ("C:/app/sub", EntryKind.directory),
   ("C:/app/a.txt", EntryKind.regular_file), ("C:/app/sub/deep", EntryKind.directory),
   ("C:/app/sub/deep/f.txt", EntryKind.regular_file)]

/-! ## Recipes that `parse_xml` turns down -/

/-- `ProjectBlueprint`: a `Blueprint` with the member `m_source_path`. -/
structure ProjectBlueprint where
  /-- The base class. -/
  blueprint : Blueprint
  /-- Member `m_source_path`. -/
  source_path : String

/-- `ProjectBlueprint::load_from_string` (`project_blueprint.cpp` lines 20-33):
`none` is `nullptr`. -/
def ProjectBlueprint.load_from_string (h : HostEnv) (doc : Option (List XmlNode))
    (source_path : String) : Option ProjectBlueprint :=
  match parse_xml (populate_builtins h) doc with
  | none => none
  | some bp => some ⟨bp, source_path⟩

/-- The attribute that locates the resource of an element of `<resources>`, by
the name of the element (the first attribute read in each branch of the loop,
lines 258-441); `none` for a name that the loop does not know. -/
def locator_attribute (node_name : String) : Option String :=
  if node_name = "files" then some "path"
  else if node_name = "file" then some "path"
  else if node_name = "registry" then some "key"
  else if node_name = "environment" then some "name"
  else if node_name = "delimited" then some "key"
  else if node_name = "multistring" then some "key"
  else if node_name = "service" then some "name"
  else if node_name = "hosts" then some "hostname"
  else none

/-- A resource element of a known name without a locator or without an archive
path. -/
def resource_incomplete (node : XmlNode) : Prop :=
  ∃ locator, locator_attribute node.name = some locator ∧
    (node.attr locator = "" ∨ node.attr "archive" = "")

/-- A hook element without a phase or with a phase that `parse_phase` does not
know. -/
def hook_without_phase (node : XmlNode) : Prop :=
  node.attr "phase" = "" ∨ parse_phase (node.attr "phase") = none

/-- What the claim lists: the root has no name, or no version, or an element of
its `<resources>` is incomplete, or an element of its `<hooks>` has no phase. -/
def recipe_incomplete (root : XmlNode) : Prop :=
  root.attr "name" = "" ∨ root.attr "version" = "" ∨
  (∃ resources, root.child "resources" = some resources ∧
    ∃ node ∈ resources.children, resource_incomplete node) ∨
  (∃ hooks, root.child "hooks" = some hooks ∧
    ∃ node ∈ hooks.children, hook_without_phase node)

/-- A `<registry>` element that has no `archive` attribute. -/
def registry_without_archive : XmlNode :=
  XmlNode.mk "registry" [("key", "HKCU\\Software\\App")] "" []

/-- A `<resources>` element with a file and the registry element above. -/
def resources_without_archive : XmlNode :=
  XmlNode.mk "resources" [] ""
    [XmlNode.mk "file" [("archive", "files/a.txt"), ("path", "C:/app/a.txt")] "" [],
     registry_without_archive]

/-- A recipe with these resources. -/
def recipe_without_archive : XmlNode :=
  XmlNode.mk "blueprint" [("name", "App"), ("version", "1.0")] "" [resources_without_archive]

/-! ## The path cache of `SnapshotReader` (`reader.cpp`) -/

/-- The cache members of `SnapshotReader` (`reader.h` lines 99-103).  A set is
given by its `count`, the map `m_children` by its `find` (`none` for a key
that is not there). -/
structure PathCache where
  /-- Member `m_cache_built`. -/
  cache_built : Bool
  /-- Member `m_all_paths`. -/
  all_paths : String → Bool
  /-- Member `m_directories`. -/
  directories : String → Bool
  /-- Member `m_children`. -/
  children : String → Option (List String)
  /-- Member `m_ordered_paths`. -/
  ordered_paths : List String

/-- Method `insert` of a set of strings. -/
def set_insert (s : String → Bool) (x : String) : String → Bool :=
  fun y => decide (y = x) || s y

/-- Result of `current.rfind('/')`, `none` for `npos`. -/
def rfind_slash : List Char → Option Nat
  | [] => none
  | c :: cs =>
    match rfind_slash cs with
    | some i => some (i + 1)
    | none => if c = '/' then some 0 else none

/-- The value of `parent` in the loop (line 41). -/
def parent_of (current : String) : String :=
  match rfind_slash current.data with
  | none => ""
  | some last_slash => String.mk (current.data.take last_slash)

/-- The value of `child_name` in the loop (line 42). -/
def child_name_of (current : String) : String :=
  match rfind_slash current.data with
  | none => current
  | some last_slash => String.mk (current.data.drop (last_slash + 1))

/-- Lines 48-50: `m_children[parent]` (made empty when it is not there) gets
`child_name` at its end unless it has it. -/
def add_child (m : String → Option (List String)) (parent child_name : String) :
    String → Option (List String) :=
  let children := (m parent).getD []
  fun k =>
    if k = parent then some (if child_name ∈ children then children else children ++ [child_name])
    else m k

/-- The loop `while (!current.empty())` (lines 38-53); `fuel` bounds the number
of turns, `none` when it is used up. -/
def parent_chain : Nat → String → PathCache → Option PathCache
  | fuel, current, c =>
    if current = "" then some c
    else
      match fuel with
      | 0 => none
      | fuel + 1 =>
        parent_chain fuel (parent_of current)
          { c with directories := set_insert c.directories (parent_of current),
                   children := add_child c.children (parent_of current) (child_name_of current) }

/-- The value of `normalized` (line 31). -/
def normalized_path (path : String) : String :=
  if is_dir_path path.data then String.mk path.data.dropLast else path

/-- The body of the loop over the paths (lines 25-54). -/
def cache_path (c : PathCache) (path : String) : Option PathCache :=
  let c1 := { c with all_paths := set_insert c.all_paths path }
  let c2 := if is_dir_path path.data then
      { c1 with directories := set_insert c1.directories (normalized_path path) }
    else c1
  parent_chain (normalized_path path).length (normalized_path path) c2

/-- The loop over the paths (lines 25-54). -/
def cache_paths : List String → PathCache → Option PathCache
  | [], c => some c
  | path :: rest, c =>
    match cache_path c path with
    | none => none
    | some c1 => cache_paths rest c1

/-- `SnapshotReader::build_path_cache` (lines 7-57); `get_all_paths` is what
the virtual method of that name returns. -/
def build_path_cache (get_all_paths : List String) (c : PathCache) : Option PathCache :=
  if c.cache_built then some c
  else
    match cache_paths get_all_paths
      ⟨false, fun _ => false, set_insert (fun _ => false) "",
        fun k => if k = "" then some [] else none, get_all_paths⟩ with
    | none => none
    | some c1 => some { c1 with cache_built := true }

/-- `SnapshotReader::exists` (lines 59-74) on the cache that its call of
`build_path_cache` leaves. -/
def PathCache.path_exists (c : PathCache) (path : String) : Bool :=
  c.all_paths path || c.all_paths (path ++ "/") || c.directories path

/-- `SnapshotReader::is_directory` (lines 76-84), likewise. -/
def PathCache.is_directory (c : PathCache) (path : String) : Bool :=
  c.directories (String.mk (drop_trailing_slash path.data))

/-- `SnapshotReader::list_dir` (lines 86-98), likewise. -/
def PathCache.list_dir (c : PathCache) (path : String) : List String :=
  match c.children (String.mk (drop_trailing_slash path.data)) with
  | some children => children
  | none => []

/-- The reader before the first call: nothing cached. -/
def fresh_cache : PathCache := ⟨false, fun _ => false, fun _ => false, fun _ => none, []⟩

/-- Is `a` the root or a path that `path` goes on from with a slash? -/
def is_proper_ancestor (a path : String) : Bool :=
  a.data.isEmpty || (a.data ++ ['/']).isPrefixOf path.data

/-! ## Writing a directory tree to an archive and listing it (`writer.cpp`, `zip_writer.cpp`) -/

/-- What `SnapshotWriter::add_directory_recursive` and `ZipSnapshotWriter` call
outside `src/`: `std::filesystem` and the archive library. -/
structure WriterAccess (W : Type) where
  /-- Call `std::filesystem::exists(base)`. -/
  path_exists : String → W → Bool
  /-- What `std::filesystem::recursive_directory_iterator(base, ec)` yields. -/
  iterate : String → W → List (String × EntryKind)
  /-- The text `string()` of `std::filesystem::relative(path, base, ec)`, `none`
  when `ec` is set. -/
  relative : String → String → W → Option String
  /-- Call `mz_zip_writer_add_mem(zip, name, nullptr, 0, MZ_NO_COMPRESSION)`. -/
  add_mem : String → W → Bool × W
  /-- Call `mz_zip_writer_add_file(zip, name, src_path, ...)`. -/
  add_file : String → String → W → Bool × W

/-- `ZipSnapshotWriter::normalize_path` (`zip_writer.cpp` lines 52-58), which is
also what `std::replace(s.begin(), s.end(), '\\', '/')` does to `s`. -/
def normalize_path (path : String) : String :=
  String.mk (path.data.map (fun c => if c = '\\' then '/' else c))

/-- `ZipSnapshotWriter::create_directory` (`zip_writer.cpp` lines 60-80);
`m_open` is the member of that name, which no call made here changes. -/
def ZipSnapshotWriter.create_directory (io : WriterAccess W) (m_open : Bool) (path : String)
    (w : W) : Bool × W :=
  if m_open = false then (false, w)
  else
    let normalized := normalize_path path
    let normalized :=
      if normalized ≠ "" ∧ normalized.data.getLast? ≠ some '/' then normalized ++ "/"
      else normalized
    io.add_mem normalized w

/-- `ZipSnapshotWriter::write_file` (`zip_writer.cpp` lines 101-120). -/
def ZipSnapshotWriter.write_file (io : WriterAccess W) (m_open : Bool)
    (archive_path src_path : String) (w : W) : Bool × W :=
  if m_open = false then (false, w)
  else io.add_file (normalize_path archive_path) src_path w

/-- The inner loop of `add_directory_recursive` (lines 79-93): is there a file
whose relative path starts with `dir_rel_str + "/"`?  A relative path that
cannot be computed is the empty path. -/
def has_files (io : WriterAccess W) (base : String) (files : List String)
    (dir_rel_str : String) (w : W) : Bool :=
  files.any (fun file =>
    (dir_rel_str ++ "/").data.isPrefixOf
      (normalize_path ((io.relative file base w).getD "")).data)

/-- The loop "create empty directories" (lines 68-103) over the directories
that are left. -/
def create_empty_directories (io : WriterAccess W) (m_open : Bool) (base pfx : String)
    (files : List String) : List String → W → Bool × W
  | [], w => (true, w)
  | dir :: rest, w =>
    match io.relative dir base w with
    | none => (false, w)
    | some rel =>
      if has_files io base files (normalize_path rel) w then
        create_empty_directories io m_open base pfx files rest w
      else
        let r := ZipSnapshotWriter.create_directory io m_open (pfx ++ "/" ++ normalize_path rel) w
        if r.1 = false then (false, r.2)
        else create_empty_directories io m_open base pfx files rest r.2

/-- The loop "add all files" (lines 106-121) over the files that are left. -/
def add_all_files (io : WriterAccess W) (m_open : Bool) (base pfx : String) :
    List String → W → Bool × W
  | [], w => (true, w)
  | file :: rest, w =>
    match io.relative file base w with
    | none => (false, w)
    | some rel =>
      let r := ZipSnapshotWriter.write_file io m_open (pfx ++ "/" ++ normalize_path rel) file w
      if r.1 = false then (false, r.2)
      else add_all_files io m_open base pfx rest r.2

/-- `SnapshotWriter::add_directory_recursive` (`writer.cpp` lines 33-124) on a
`ZipSnapshotWriter`.  The `if (ec)` block inside the first loop is left out:
`ec` is written by the constructor of the iterator only, and when it is set
there the iterator is at its end. -/
def SnapshotWriter.add_directory_recursive (io : WriterAccess W) (m_open : Bool)
    ( archive_prefix src_dir : String) (w : W) : Bool × W :=
  if m_open = false then (false, w)
  else if io.path_exists src_dir w = false then (false, w)
  else
    let pfx := String.mk (drop_trailing_slash archive_prefix.data)
    let entries := io.iterate src_dir w
    let dirs := (entries.filter (fun e => e.2 = EntryKind.directory)).map Prod.fst
    let files := (entries.filter (fun e => e.2 = EntryKind.regular_file)).map Prod.fst
    let r := create_empty_directories io m_open src_dir pfx files dirs w
    if r.1 = false then (false, r.2)
    else add_all_files io m_open src_dir pfx files r.2

/-- The `ArchiveEntry` that `SnapshotReader::entries` makes of a path
(`reader.cpp` lines 206-210): the path without its trailing slash and the
flag `is_directory`. -/
def archive_entry (path : String) : String × Bool :=
  (normalized_path path, is_dir_path path.data)

/-- `SnapshotReader::entries` (`reader.cpp` lines 199-213) on a reader with
the cache `c`; `none` when the build of the cache does not end. -/
def SnapshotReader.entries (get_all_paths : List String) (c : PathCache) :
    Option (List (String × Bool)) :=
  match build_path_cache get_all_paths c with
  | none => none
  | some c1 => some (c1.ordered_paths.map archive_entry)

/-- The function `names` reads the entry names off the archive: an addition
that succeeds puts its name at the end. -/
def records_names (io : WriterAccess W) (names : W → List String) : Prop :=
  (∀ n w, (io.add_mem n w).1 = true → names (io.add_mem n w).2 = names w ++ [n]) ∧
  (∀ n src w, (io.add_file n src w).1 = true → names (io.add_file n src w).2 = names w ++ [n])

/-- Additions to the archive do not change the relative paths that the file
system reports. -/
def relative_is_stable (io : WriterAccess W) : Prop :=
  (∀ n w p b, io.relative p b (io.add_mem n w).2 = io.relative p b w) ∧
  (∀ n src w p b, io.relative p b (io.add_file n src w).2 = io.relative p b w)

/-- The relative paths of the given paths, with `/` for every `\\`. -/
def relative_strings (io : WriterAccess W) (base : String) (w : W) (paths : List String) :
    List String :=
  paths.map (fun p => normalize_path ((io.relative p base w).getD ""))

/-- The directories that none of the files is below. -/
def without_files (dir_rels file_rels : List String) : List String :=
  dir_rels.filter (fun d => !(file_rels.any (fun f => (d ++ "/").data.isPrefixOf f.data)))

/-- A disk next to an archive that takes every entry. -/
def tree_writer : WriterAccess (Disk × List String) where
  path_exists := fun p w => Disk.access.path_exists p w.1
  iterate := fun base w => Disk.access.iterate base w.1
  relative := fun file base w => Disk.access.relative file base w.1
  add_mem := fun n w => (true, (w.1, w.2 ++ [n]))
  add_file := fun n _ w => (true, (w.1, w.2 ++ [n]))

/-! ## Values made of plain text and placeholders -/

/-- A piece of a value: a character that starts no placeholder, a placeholder
`${name}` or a placeholder `%name%`. -/
inductive Token where
  | lit (c : Char)
  | dollar (name : List Char)
  | percent (name : List Char)
  deriving DecidableEq, Repr

/-- The text of a piece. -/
def Token.render : Token → List Char
  | .lit c => [c]
  | .dollar name => '$' :: '{' :: (name ++ ['}'])
  | .percent name => '%' :: (name ++ ['%'])

/-- A literal character is neither `$` nor `%`, and a name ends where its
placeholder ends. -/
def Token.ok : Token → Bool
  | .lit c => c ≠ '$' && c ≠ '%'
  | .dollar name => !name.contains '}'
  | .percent name => !name.contains '%'

/-- The variable that a placeholder names. -/
def Token.ref : Token → Option String
  | .lit _ => none
  | .dollar name => some (String.mk name)
  | .percent name => some (String.mk name)

/-- The text of a list of pieces. -/
def render_tokens (ts : List Token) : List Char :=
  (ts.map Token.render).flatten

/-- A text without `$` and `%`. -/
def is_plain (s : List Char) : Bool :=
  s.all (fun c => c ≠ '$' && c ≠ '%')

/-- What the expander of `resolve_user_variables` puts for a piece. -/
def Token.eval (m : VarMap) : Token → List Char
  | .lit c => [c]
  | .dollar name => Expander.emit ⟨m, false, true, true⟩ ['$', '{'] ['}'] name
  | .percent name => Expander.emit ⟨m, false, true, true⟩ ['%'] ['%'] name

/-- A name that a value may refer to: a user variable, or a builtin variable
whose value is plain text. -/
def ref_allowed (builtin : VarMap) (keys : List String) (r : String) : Prop :=
  r ∈ keys ∨ ∃ v, var_find builtin r = some v ∧ is_plain v.data = true

/-- The value is made of plain text and placeholders, and the variables it
refers to are allowed and stand at least `k + 1` ranks below `u`. -/
def at_level (builtin : VarMap) (keys : List String) (rank : String → Nat) (k : Nat)
    (u value : String) : Prop :=
  ∃ T : List Token, value.data = render_tokens T ∧
    ∀ t ∈ T, t.ok = true ∧ ∀ r, t.ref = some r → rank r + k < rank u ∧ ref_allowed builtin keys r

/-- User variables whose values are made of plain text and placeholders, every
placeholder naming a user variable or a builtin variable with a plain value,
and the referenced variable being of smaller rank (so that no variable refers
back to itself through others); the ranks are at most the number of user
variables, which any such numbering can be brought to. -/
def acyclic_user_variables (builtin : VarMap) (user : List (String × String))
    (rank : String → Nat) : Prop :=
  (user.map Prod.fst).Nodup ∧ var_sorted builtin ∧
  ∀ p ∈ user, rank p.1 ≤ user.length ∧ at_level builtin (user.map Prod.fst) rank 0 p.1 p.2

/-- The state of the map during the resolution: listed by key, the
builtins as they were, every user variable at level `k`. -/
def resolving (builtin : VarMap) (keys : List String) (rank : String → Nat) (k : Nat)
    (m : VarMap) : Prop :=
  var_sorted m ∧ (∀ key, key ∉ keys → var_find m key = var_find builtin key) ∧
  ∀ u ∈ keys, ∃ v, var_find m u = some v ∧ at_level builtin keys rank k u v

/-- A map that could be the result: the builtins as they were and a plain
value for every user variable. -/
def resolution_candidate (builtin : VarMap) (keys : List String) (g : VarMap) : Prop :=
  (∀ key, key ∉ keys → var_find g key = var_find builtin key) ∧
  ∀ u ∈ keys, ∃ v, var_find g u = some v ∧ is_plain v.data = true

/-- The values in `m` stand for the raw values: whatever candidate map expands
every value of `m` to its own value also expands every raw value to it. -/
def stands_for_raw (builtin : VarMap) (user : List (String × String)) (m : VarMap) : Prop :=
  ∀ g, resolution_candidate builtin (user.map Prod.fst) g →
    (∀ u ∈ user.map Prod.fst,
      Expander.expand ⟨g, false, true, true⟩ (var_get m u) = var_get g u) →
    ∀ p ∈ user, Expander.expand ⟨g, false, true, true⟩ p.2 = var_get g p.1

/-- A builtin directory. -/
def layered_builtin : VarMap := [("PROGRAMFILES", "C:\\Program Files")]

/-- Three user variables, each built on the one before. -/
def layered_variables : List (String × String) :=
  [("BIN", "${INSTALLDIR}\\bin"), ("INSTALLDIR", "${PROGRAMFILES}\\App"),
   ("LOG", "%BIN%\\log")]

/-- Ranks of the variables of `layered_variables`. -/
def layered_rank (name : String) : Nat :=
  if name = "INSTALLDIR" then 1 else if name = "BIN" then 2 else if name = "LOG" then 3 else 0

/-- Three user variables that refer to `D` only, whose value `$` makes new
placeholders of the text behind it. -/
def dollar_variables : List (String × String) :=
  [("A", "${D}{B}"), ("B", "${D}{A}"), ("D", "$")]

/-! # Theorems -/

/-! ## Traces of the orchestrator -/


/-- On `three_actions`, whose second action fails to restore, `restore` cleans
the actions from the last to the first, restores the first, stops at the
second and returns `false`. -/
theorem restore_of_three_actions :
    (orchestrator.restore_opened accepting_archive "app.zip" ⟨(), []⟩).1 = true ∧
    (orchestrator.restore_pre picky_impl accepting_archive three_actions "app.zip" none false
      ⟨(), []⟩).1 = true ∧
    (orchestrator.restore picky_impl accepting_archive (some three_actions) "app.zip" none false
      ⟨(), []⟩).1 = false ∧
    (orchestrator.restore picky_impl accepting_archive (some three_actions) "app.zip" none false
      ⟨(), []⟩).2.trace
      = [Event.reader_open true, Event.action_clean 2 true, Event.action_clean 1 true,
         Event.action_clean 0 true, Event.action_restore 0 true, Event.action_restore 1 false] := by
  decide

/-- On `three_actions`, whose second action fails to back up, `backup` backs
up the first action, stops at the second, writes nothing more to the archive
and returns `false`. -/
theorem backup_of_three_actions :
    (orchestrator.backup_pre picky_impl three_actions none ⟨(), []⟩).1 = true ∧
    (orchestrator.backup_created picky_impl accepting_archive three_actions "app.zip" none
      ⟨(), []⟩).1 = true ∧
    (orchestrator.backup picky_impl accepting_archive (some three_actions) "app.zip" none
      ⟨(), []⟩).1 = false ∧
    (orchestrator.backup picky_impl accepting_archive (some three_actions) "app.zip" none
      ⟨(), []⟩).2.trace
      = [Event.writer_create true, Event.action_backup 0 true, Event.action_backup 1 false] := by
  decide

/-! ## Variable maps: lookup after assignment -/

theorem var_find_set_eq (m : VarMap) (k v : String) : var_find (var_set m k v) k = some v := by
  induction m with
  | nil => simp [var_set, var_find]
  | cons p rest ih =>
    obtain ⟨k', v'⟩ := p
    simp only [var_set]
    split
    · simp [var_find]
    · split
      · simp [var_find]
      · rename_i h _
        simp [var_find, h, ih]

theorem var_find_set_ne (m : VarMap) (k v k' : String) (h : k ≠ k') :
    var_find (var_set m k v) k' = var_find m k' := by
  induction m with
  | nil => simp [var_set, var_find, h]
  | cons p rest ih =>
    obtain ⟨k1, v1⟩ := p
    simp only [var_set]
    split
    · rename_i h1
      subst h1
      simp [var_find, h]
    · split
      · simp [var_find, h]
      · simp only [var_find, ih]

theorem var_get_set_eq (m : VarMap) (k v : String) : var_get (var_set m k v) k = v := by
  simp [var_get, var_find_set_eq]

theorem var_get_set_ne (m : VarMap) (k v k' : String) (h : k ≠ k') :
    var_get (var_set m k v) k' = var_get m k' := by
  simp [var_get, var_find_set_ne m k v k' h]

theorem mem_var_set_subset (m : VarMap) (k v : String) (p : String × String)
    (h : p ∈ var_set m k v) : p = (k, v) ∨ p ∈ m := by
  induction m with
  | nil => simpa [var_set] using h
  | cons q rest ih =>
    obtain ⟨k', v'⟩ := q
    simp only [var_set] at h
    split at h
    · rcases List.mem_cons.mp h with h | h
      · exact Or.inl h
      · exact Or.inr (List.mem_cons_of_mem _ h)
    · split at h
      · rcases List.mem_cons.mp h with h | h
        · exact Or.inl h
        · exact Or.inr h
      · rcases List.mem_cons.mp h with h | h
        · exact Or.inr (by simp [h])
        · rcases ih h with h | h
          · exact Or.inl h
          · exact Or.inr (List.mem_cons_of_mem _ h)

theorem var_sorted_nil : var_sorted [] := List.Pairwise.nil

theorem var_sorted_set (m : VarMap) (k v : String) (h : var_sorted m) :
    var_sorted (var_set m k v) := by
  induction m with
  | nil => simp [var_set, var_sorted]
  | cons q rest ih =>
    obtain ⟨k', v'⟩ := q
    unfold var_sorted at h
    obtain ⟨hq, hrest⟩ := List.pairwise_cons.mp h
    simp only [var_set]
    split
    · rename_i hk
      subst hk
      exact List.pairwise_cons.mpr ⟨hq, hrest⟩
    · rename_i hk
      split
      · rename_i hlt
        refine List.pairwise_cons.mpr ⟨?_, h⟩
        intro p hp
        rcases List.mem_cons.mp hp with hp | hp
        · subst hp; exact hlt
        · exact lt_trans hlt (hq p hp)
      · rename_i hlt
        refine List.pairwise_cons.mpr ⟨?_, ih hrest⟩
        intro p hp
        rcases mem_var_set_subset rest k v p hp with hp | hp
        · subst hp
          have hne : k'.data ≠ k.data := fun he => hk (String.ext he)
          exact lt_of_le_of_ne (not_lt.mp hlt) hne
        · exact hq p hp

theorem var_sorted_keys_nodup (m : VarMap) (h : var_sorted m) : (m.map Prod.fst).Nodup := by
  unfold var_sorted at h
  rw [List.Nodup, List.pairwise_map]
  exact h.imp (fun hlt heq => by rw [heq] at hlt; exact lt_irrefl _ hlt)

theorem var_find_of_mem (m : VarMap) (h : var_sorted m) (p : String × String) (hp : p ∈ m) :
    var_find m p.1 = some p.2 := by
  induction m with
  | nil => cases hp
  | cons q rest ih =>
    obtain ⟨k', v'⟩ := q
    obtain ⟨hq, hrest⟩ := List.pairwise_cons.mp h
    rcases List.mem_cons.mp hp with hp | hp
    · subst hp; simp [var_find]
    · have hne : k' ≠ p.1 := by
        intro he
        have := hq p hp
        rw [he] at this
        exact lt_irrefl _ this
      simp [var_find, hne, ih hrest hp]

theorem mem_of_var_find (m : VarMap) (k v : String) (h : var_find m k = some v) : (k, v) ∈ m := by
  induction m with
  | nil => simp [var_find] at h
  | cons q rest ih =>
    obtain ⟨k', v'⟩ := q
    simp only [var_find] at h
    split at h
    · rename_i hk
      simp only [Option.some.injEq] at h
      subst hk; subst h
      simp
    · exact List.mem_cons_of_mem _ (ih h)

theorem mem_var_set (m : VarMap) (h : var_sorted m) (k v : String) (p : String × String) :
    p ∈ var_set m k v ↔ p = (k, v) ∨ (p ∈ m ∧ p.1 ≠ k) := by
  have hs := var_sorted_set m k v h
  constructor
  · intro hp
    by_cases hk : p.1 = k
    · left
      have := var_find_of_mem _ hs p hp
      rw [hk, var_find_set_eq] at this
      cases p; simp_all
    · right
      refine ⟨?_, hk⟩
      rcases mem_var_set_subset m k v p hp with h1 | h1
      · subst h1; exact absurd rfl hk
      · exact h1
  · rintro (hp | ⟨hp, hk⟩)
    · subst hp
      exact mem_of_var_find _ _ _ (var_find_set_eq m k v)
    · have := var_find_of_mem m h p hp
      rw [← var_find_set_ne m k v p.1 (Ne.symm hk)] at this
      exact mem_of_var_find _ _ _ this

theorem var_sorted_set_opt (m : VarMap) (k : String) (v : Option String) (h : var_sorted m) :
    var_sorted (var_set_opt m k v) := by
  cases v with
  | none => exact h
  | some x => exact var_sorted_set m k x h

theorem populate_builtins_sorted (h : HostEnv) : var_sorted (populate_builtins h) := by
  unfold populate_builtins
  exact var_sorted_set_opt _ _ _ (var_sorted_set_opt _ _ _ (var_sorted_set_opt _ _ _
    (var_sorted_set _ _ _ (var_sorted_set _ _ _ (var_sorted_set _ _ _ (var_sorted_set _ _ _
      (var_sorted_set _ _ _ (var_sorted_set _ _ _ var_sorted_nil))))))))

theorem var_find_of_mem_nodup (m : VarMap) (h : (m.map Prod.fst).Nodup) (p : String × String)
    (hp : p ∈ m) : var_find m p.1 = some p.2 := by
  induction m with
  | nil => cases hp
  | cons q rest ih =>
    obtain ⟨k', v'⟩ := q
    simp only [List.map_cons, List.nodup_cons] at h
    rcases List.mem_cons.mp hp with hp | hp
    · subst hp; simp [var_find]
    · have hne : k' ≠ p.1 := by
        intro he
        exact h.1 (he ▸ List.mem_map.mpr ⟨p, hp, rfl⟩)
      simp [var_find, hne, ih h.2 hp]

/-! ## `skip_all_errors` and `simulate` in the single-shot actions -/

/-- C7 (fails on the code): `IAction::clean` does not look at `skip_all_errors`.
With the flag already set, a callback present and a `do_clean` that fails (a
`DelimitedEntryAction` whose registry key cannot be written), `on_error` is
called all the same. -/
theorem clean_calls_on_error_with_skip_all_set :
    (IAction.clean Registry.impl
        (.DelimitedEntry "HKCU\\Environment" "Path" "C:\\Tools" "env/path" ";" .Append "")
        ⟨⟨none, none, some (ContinueCallback Registry), false, true⟩,
         ⟨[(("HKCU\\Environment", "Path"), "C:\\Windows;C:\\Tools")], true⟩, []⟩).2.events
      = [CbEvent.on_progress "Clean" "List entry: Path in HKCU\\Environment" (-1),
         CbEvent.on_error "delimited" "List entry: Path in HKCU\\Environment"] := by
  decide

/-- C8 (fails on the code): `DelimitedEntryAction::do_clean` ignores the
context, so `orchestrator::clean` with `simulate = true` removes the entry from
the registry value. -/
theorem simulated_clean_writes_registry :
    (orchestrator.clean Registry.impl
        (some ⟨[.DelimitedEntry "HKCU\\Environment" "Path" "C:\\Tools" "env/path" ";" .Append ""],
               fun _ => [], [], [], []⟩)
        none true
        ⟨⟨[(("HKCU\\Environment", "Path"), "C:\\Windows;C:\\Tools")], false⟩, []⟩).2.world
      = ⟨[(("HKCU\\Environment", "Path"), "C:\\Windows")], false⟩ := by
  decide

/-! ## `resolve_user_variables` and `resolve` -/

theorem cycle_resolves (builtin : VarMap) :
    resolve_user_variables builtin [("A", "${B}"), ("B", "${A}")]
      = (true, var_set (var_set (var_set builtin "A" "${B}") "B" "${A}") "A" "${A}") := by
  have hAB : ("A" : String) ≠ "B" := by decide
  have hBA : ("B" : String) ≠ "A" := by decide
  simp [resolve_user_variables, add_user_variables, resolve_loop, resolve_pass,
    var_get_set_eq, var_get_set_ne, var_find_set_eq, var_find_set_ne, hAB, hBA,
    Expander.expand, Expander.scan, Expander.emit]

theorem cycle_resolves_other_order (builtin : VarMap) :
    resolve_user_variables builtin [("B", "${A}"), ("A", "${B}")]
      = (true, var_set (var_set (var_set builtin "B" "${A}") "A" "${B}") "B" "${B}") := by
  have hAB : ("A" : String) ≠ "B" := by decide
  have hBA : ("B" : String) ≠ "A" := by decide
  simp [resolve_user_variables, add_user_variables, resolve_loop, resolve_pass,
    var_get_set_eq, var_get_set_ne, var_find_set_eq, var_find_set_ne, hAB, hBA,
    Expander.expand, Expander.scan, Expander.emit]

/-- C2 (fails on the code): for the recipe with `A = "${B}"` and `B = "${A}"`,
on every host, `resolve_user_variables` returns `true` in either iteration
order of the two variables, and `load_from_string` returns a blueprint whose
file action is there to be executed. -/
theorem cycle_recipe_loads (h : HostEnv) :
    (∀ builtin, (resolve_user_variables builtin [("A", "${B}"), ("B", "${A}")]).1 = true) ∧
    (∀ builtin, (resolve_user_variables builtin [("B", "${A}"), ("A", "${B}")]).1 = true) ∧
    ∃ bp, load_from_string h (some cycle_recipe) = some bp ∧
      bp.actions = [Action.CopyFile "${A}\\app.ini" "files/app.ini" ""] := by
  refine ⟨fun b => by rw [cycle_resolves], fun b => by rw [cycle_resolves_other_order], ?_⟩
  have hu : parse_variables
      [XmlNode.mk "var" [("name", "A")] "${B}" [], XmlNode.mk "var" [("name", "B")] "${A}" []] []
      = some [("A", "${B}"), ("B", "${A}")] := by decide
  simp [load_from_string, parse_xml, cycle_recipe, XmlNode.name, XmlNode.attr, XmlNode.attr_or,
    XmlNode.child, XmlNode.children, XmlNode.children_named, XmlNode.attributes, var_find, hu,
    cycle_resolves, parse_resources, parse_resource, parse_file]

/-- C3 (fails on the code): `resolve_user_variables` returns `true` for the
cycle `A = "${B}"`, `B = "${A}"` although the resolved value of `A` is the
placeholder `${A}`. -/
theorem resolved_value_keeps_placeholder (builtin : VarMap) :
    (resolve_user_variables builtin [("A", "${B}"), ("B", "${A}")]).1 = true ∧
    var_find (resolve_user_variables builtin [("A", "${B}"), ("B", "${A}")]).2 "A"
      = some "${A}" ∧
    has_dollar_brace ("${A}" : String).data = true := by
  rw [cycle_resolves]
  exact ⟨rfl, var_find_set_eq _ _ _, by decide⟩

/-- The expander of `Blueprint::resolve`. -/
theorem resolve_data (m : VarMap) (input : String) :
    (resolve m input).data = Expander.scan ⟨m, true, true, false⟩ .text input.data := rfl

theorem has_dollar_brace_cons (c : Char) (cs : List Char) :
    has_dollar_brace (c :: cs) = ((c == '$' && cs.head? == some '{') || has_dollar_brace cs) := by
  cases cs with
  | nil => simp [has_dollar_brace]
  | cons d ds => simp [has_dollar_brace]

theorem scan_literal (m : VarMap) (flag : Bool) (P : List Char)
    (hP : Expander.scan ⟨m, flag, true, false⟩ .dollar P
      = '$' :: Expander.scan ⟨m, flag, true, false⟩ .text P) :
    ∀ lit, has_dollar_brace lit = false →
      Expander.scan ⟨m, flag, true, false⟩ .text (lit ++ P)
        = lit ++ Expander.scan ⟨m, flag, true, false⟩ .text P ∧
      (lit.head? ≠ some '{' →
        Expander.scan ⟨m, flag, true, false⟩ .dollar (lit ++ P)
          = '$' :: (lit ++ Expander.scan ⟨m, flag, true, false⟩ .text P)) := by
  intro lit
  induction lit with
  | nil =>
    intro _
    exact ⟨rfl, fun _ => hP⟩
  | cons c cs ih =>
    intro h
    rw [has_dollar_brace_cons] at h
    simp only [Bool.or_eq_false_iff, Bool.and_eq_false_iff] at h
    obtain ⟨h1, h2⟩ := h
    obtain ⟨iht, ihd⟩ := ih h2
    have hcs : c = '$' → cs.head? ≠ some '{' := by
      intro hc
      rcases h1 with h1 | h1
      · simp [hc] at h1
      · simpa using h1
    constructor
    · by_cases hc : c = '$'
      · subst hc
        simp only [List.cons_append, Expander.scan, true_and, if_true]
        exact ihd (hcs rfl)
      · simp [Expander.scan, hc, iht]
    · intro hhead
      have hb : c ≠ '{' := by simpa using hhead
      by_cases hc : c = '$'
      · subst hc
        simp only [List.cons_append, Expander.scan, if_neg hb, if_true]
        exact congrArg (List.cons '$') (ihd (hcs rfl))
      · simp [Expander.scan, hc, hb, iht]

theorem scan_text_literal (m : VarMap) (flag : Bool) (lit X : List Char)
    (h : has_dollar_brace lit = false) :
    Expander.scan ⟨m, flag, true, false⟩ .text (lit ++ '$' :: '{' :: X)
      = lit ++ Expander.scan ⟨m, flag, true, false⟩ .text ('$' :: '{' :: X) :=
  (scan_literal m flag ('$' :: '{' :: X) (by simp [Expander.scan]) lit h).1

theorem scan_text_no_placeholder (m : VarMap) (flag : Bool) (lit : List Char)
    (h : has_dollar_brace lit = false) :
    Expander.scan ⟨m, flag, true, false⟩ .text lit = lit := by
  have := (scan_literal m flag [] (by simp [Expander.scan]) lit h).1
  simpa [Expander.scan] using this

theorem scan_dollar_name (e : Expander) (name rest : List Char) (h : '}' ∉ name) :
    ∀ acc, Expander.scan e (.dollarName acc) (name ++ '}' :: rest)
      = e.emit ['$', '{'] ['}'] (acc ++ name) ++ Expander.scan e .text rest := by
  induction name with
  | nil => intro acc; simp [Expander.scan]
  | cons c cs ih =>
    intro acc
    have hc : c ≠ '}' := fun hc => h (by simp [hc])
    have hcs : '}' ∉ cs := fun hcs => h (by simp [hcs])
    simp [Expander.scan, hc, ih hcs]

theorem scan_placeholder (m : VarMap) (flag percent : Bool) (name rest : List Char)
    (h : '}' ∉ name) :
    Expander.scan ⟨m, flag, true, percent⟩ .text ('$' :: '{' :: (name ++ '}' :: rest))
      = Expander.emit ⟨m, flag, true, percent⟩ ['$', '{'] ['}'] name
        ++ Expander.scan ⟨m, flag, true, percent⟩ .text rest := by
  have := scan_dollar_name ⟨m, flag, true, percent⟩ name rest h []
  simpa [Expander.scan] using this

theorem emit_resolve (m : VarMap) (percent : Bool) (name : List Char) :
    Expander.emit ⟨m, true, true, percent⟩ ['$', '{'] ['}'] name
      = (var_get m (String.mk name)).data := by
  unfold Expander.emit var_get
  cases var_find m (String.mk name) <;> simp

/-- C4: in a text `lit ${name} rest` whose part `lit` holds no `${`,
`Blueprint::resolve` keeps `lit` as it is (every `%NAME%` in it included),
puts the value of `name` in place of the placeholder, the empty string when
`name` is not in the map, and goes on with `rest`; a text without `${` comes
back unchanged. -/
theorem resolve_replaces_dollar_placeholders (m : VarMap) (lit name rest : List Char)
    (hlit : has_dollar_brace lit = false) (hname : '}' ∉ name) :
    resolve m (String.mk (lit ++ '$' :: '{' :: (name ++ '}' :: rest)))
      = String.mk (lit ++ (var_get m (String.mk name)).data ++ (resolve m (String.mk rest)).data)
    ∧ (var_find m (String.mk name) = none → var_get m (String.mk name) = "")
    ∧ (∀ v, var_find m (String.mk name) = some v → var_get m (String.mk name) = v)
    ∧ resolve m (String.mk lit) = String.mk lit := by
  refine ⟨?_, ?_, ?_, ?_⟩
  · apply String.ext
    rw [resolve_data]
    simp only [scan_text_literal m true lit _ hlit, scan_placeholder m true false name rest hname,
      emit_resolve, resolve_data, List.append_assoc]
  · intro h; simp [var_get, h]
  · intro v h; simp [var_get, h]
  · apply String.ext
    rw [resolve_data]
    exact scan_text_no_placeholder m true lit hlit

theorem resolve_replaces_dollar_placeholders_witness :
    has_dollar_brace "5$ %TEMP%;".data = false ∧ ('}' ∉ "INSTALLDIR".data) ∧
    resolve [("INSTALLDIR", "C:\\Apps")] "5$ %TEMP%;${INSTALLDIR}\\bin;${NOPE}%PATH%"
      = "5$ %TEMP%;C:\\Apps\\bin;%PATH%" := by
  refine ⟨by decide, by decide, ?_⟩
  have h := (resolve_replaces_dollar_placeholders [("INSTALLDIR", "C:\\Apps")]
    "5$ %TEMP%;".data "INSTALLDIR".data "\\bin;${NOPE}%PATH%".data (by decide) (by decide)).1
  rw [show String.mk ("5$ %TEMP%;".data ++ '$' :: '{' :: ("INSTALLDIR".data ++ '}' ::
      "\\bin;${NOPE}%PATH%".data)) = "5$ %TEMP%;${INSTALLDIR}\\bin;${NOPE}%PATH%" from by decide] at h
  rw [h]
  decide

/-! ## `unresolve` -/

theorem find_nocase_from_shift (needle : List Char) :
    ∀ (text : List Char) (i : Nat),
      find_nocase_from needle text i = (find_nocase_from needle text 0).map (· + i) := by
  intro text
  induction text with
  | nil => intro i; simp only [find_nocase_from]; split <;> simp
  | cons c cs ih =>
    intro i
    simp only [find_nocase_from]
    split
    · simp
    · rw [ih (i + 1), ih (0 + 1)]
      cases find_nocase_from needle cs 0 <;> simp
      omega

theorem find_nocase_from_none_shift (needle text : List Char) (i : Nat)
    (h : find_nocase_from needle text 0 = none) : find_nocase_from needle text i = none := by
  rw [find_nocase_from_shift, h]; rfl

theorem find_nocase_zero (haystack needle : List Char) :
    find_nocase haystack needle 0 = find_nocase_from needle haystack 0 := by
  simp [find_nocase]

/-- A value that does not occur leaves the text as it is. -/
theorem replace_loop_absent (value placeholder text : List Char) (fuel : Nat)
    (h : find_nocase_from value text 0 = none) :
    replace_loop value placeholder (fuel + 1) text 0 = some text := by
  simp [replace_loop, find_nocase_zero, h]

/-- A value that occurs once, at the end of `pre`, is replaced there. -/
theorem replace_loop_once (value placeholder pre occ post : List Char) (fuel : Nat)
    (hlen : occ.length = value.length)
    (hfirst : find_nocase_from value (pre ++ occ ++ post) 0 = some pre.length)
    (hpost : find_nocase_from value post 0 = none) :
    replace_loop value placeholder (fuel + 2) (pre ++ occ ++ post) 0
      = some (pre ++ placeholder ++ post) := by
  have h1 : (pre ++ occ ++ post).take pre.length = pre := by simp
  have h2 : (pre ++ occ ++ post).drop (pre.length + value.length) = post := by
    rw [← hlen, ← List.length_append, List.append_assoc, ← List.append_assoc pre occ post]
    simp
  have h3 : find_nocase (pre ++ placeholder ++ post) value (pre.length + placeholder.length)
      = none := by
    unfold find_nocase
    have : (pre ++ placeholder ++ post).drop (pre.length + placeholder.length) = post := by
      rw [← List.length_append]; simp
    rw [this, find_nocase_from_none_shift _ _ _ hpost]
    simp
  rw [replace_loop, find_nocase_zero, hfirst]
  simp only [h1, h2]
  rw [replace_loop, h3]

theorem sorted_vars_sorted (m : VarMap) : (sorted_vars m).Sorted longer_first :=
  List.sorted_insertionSort longer_first _

theorem sorted_vars_perm (m : VarMap) : (sorted_vars m).Perm (m.filter unresolve_eligible) :=
  List.perm_insertionSort longer_first _

theorem mem_sorted_vars {m : VarMap} {p : String × String} :
    p ∈ sorted_vars m ↔ p ∈ m ∧ unresolve_eligible p = true := by
  rw [(sorted_vars_perm m).mem_iff, List.mem_filter]

theorem sorted_vars_keys_nodup (m : VarMap) (h : (m.map Prod.fst).Nodup) :
    ((sorted_vars m).map Prod.fst).Nodup := by
  have h1 : ((m.filter unresolve_eligible).map Prod.fst).Nodup :=
    List.Nodup.sublist (List.Sublist.map _ (List.filter_sublist m)) h
  exact ((sorted_vars_perm m).map Prod.fst).nodup_iff.mpr h1

/-- Variables whose values do not occur in the text leave it as it is. -/
theorem unresolve_vars_absent (l rest : List (String × String)) (text : List Char)
    (h : ∀ p ∈ l, find_nocase_from p.2.data text 0 = none) :
    unresolve_vars (l ++ rest) text = unresolve_vars rest text := by
  induction l with
  | nil => rfl
  | cons p l ih =>
    obtain ⟨name, value⟩ := p
    have hp := h (name, value) (by simp)
    simp only [List.cons_append, unresolve_vars]
    rw [replace_loop_absent _ _ _ _ hp]
    exact ih (fun q hq => h q (by simp [hq]))

theorem unresolve_vars_absent_all (l : List (String × String)) (text : List Char)
    (h : ∀ p ∈ l, find_nocase_from p.2.data text 0 = none) :
    unresolve_vars l text = some text := by
  have := unresolve_vars_absent l [] text h
  simpa [unresolve_vars] using this

/-- The reverse substitution of a text that holds one occurrence of the value
of `B`, and no value of another variable that could interfere. -/
theorem unresolve_single (m : VarMap) (B vB : String) (pre occ post : List Char)
    (hnodup : (m.map Prod.fst).Nodup) (hB : (B, vB) ∈ m)
    (hBe : unresolve_eligible (B, vB) = true)
    (hlen : occ.length = vB.data.length)
    (hfirst : find_nocase_from vB.data (pre ++ occ ++ post) 0 = some pre.length)
    (hpost : find_nocase_from vB.data post 0 = none)
    (hothers : ∀ p ∈ m, unresolve_eligible p = true → p.1 ≠ B →
      (vB.data.length ≤ p.2.data.length →
        find_nocase_from p.2.data (pre ++ occ ++ post) 0 = none) ∧
      find_nocase_from p.2.data (pre ++ placeholder_of B ++ post) 0 = none) :
    unresolve m (String.mk (pre ++ occ ++ post))
      = some (String.mk (pre ++ placeholder_of B ++ post)) := by
  have hmem : (B, vB) ∈ sorted_vars m := mem_sorted_vars.mpr ⟨hB, hBe⟩
  obtain ⟨l1, l2, hsplit⟩ := List.append_of_mem hmem
  have hsorted := sorted_vars_sorted m
  have hkeys := sorted_vars_keys_nodup m hnodup
  rw [hsplit] at hsorted hkeys
  have hl1 : ∀ p ∈ l1, p ∈ m ∧ unresolve_eligible p = true ∧ p.1 ≠ B ∧
      vB.data.length ≤ p.2.data.length := by
    intro p hp
    have hpm : p ∈ sorted_vars m := by rw [hsplit]; simp [hp]
    obtain ⟨h1, h2⟩ := mem_sorted_vars.mp hpm
    refine ⟨h1, h2, ?_, ?_⟩
    · intro hpB
      simp only [List.map_append, List.map_cons] at hkeys
      have := (List.nodup_append.mp hkeys).2.2
      exact this (List.mem_map.mpr ⟨p, hp, rfl⟩) (by simp [hpB])
    · have := (List.pairwise_append.mp hsorted).2.2 p hp (B, vB) (by simp)
      exact this
  have hl2 : ∀ p ∈ l2, p ∈ m ∧ unresolve_eligible p = true ∧ p.1 ≠ B := by
    intro p hp
    have hpm : p ∈ sorted_vars m := by rw [hsplit]; simp [hp]
    obtain ⟨h1, h2⟩ := mem_sorted_vars.mp hpm
    refine ⟨h1, h2, ?_⟩
    intro hpB
    simp only [List.map_append, List.map_cons] at hkeys
    have := (List.nodup_cons.mp (List.nodup_append.mp hkeys).2.1).1
    exact this (List.mem_map.mpr ⟨p, hp, hpB⟩)
  have hne : 1 ≤ occ.length := by
    rw [hlen]
    simp only [unresolve_eligible, Bool.and_eq_true, Bool.not_eq_true'] at hBe
    have : vB.data ≠ [] := by
      intro h0; simp [h0] at hBe
    exact List.length_pos.mpr this
  unfold unresolve
  rw [hsplit]
  rw [unresolve_vars_absent l1 _ _ (fun p hp =>
    (hothers p (hl1 p hp).1 (hl1 p hp).2.1 (hl1 p hp).2.2.1).1 (hl1 p hp).2.2.2)]
  simp only [unresolve_vars]
  have hfuel : (pre ++ occ ++ post).length + 1 = (pre.length + (occ.length - 1) + post.length) + 2 := by
    simp only [List.length_append]; omega
  rw [hfuel, replace_loop_once _ _ _ _ _ _ hlen hfirst hpost]
  simp only
  rw [unresolve_vars_absent_all l2 _ (fun p hp =>
    (hothers p (hl2 p hp).1 (hl2 p hp).2.1 (hl2 p hp).2.2).2)]
  rfl

theorem installdir_resolved (builtin : VarMap) :
    resolve_user_variables builtin [("INSTALLDIR", "C:\\Apps\\Foo")]
      = (true, var_set builtin "INSTALLDIR" "C:\\Apps\\Foo") := by
  simp [resolve_user_variables, add_user_variables, resolve_loop, resolve_pass,
    var_get_set_eq, Expander.expand, Expander.scan]

/-- C6 (amended): for a blueprint with the user variable
`INSTALLDIR = "C:\Apps\Foo"` and builtin variables of which no eligible value
occurs, ignoring case, in `C:\Apps\Foo\data.db` or in
`${INSTALLDIR}\data.db`, variable resolution succeeds and
`resolve(unresolve("C:\Apps\Foo\data.db"))` is `C:\Apps\Foo\data.db`. -/
theorem installdir_unresolve_resolve (builtin : VarMap) (hsorted : var_sorted builtin)
    (hfree : ∀ p ∈ builtin, unresolve_eligible p = true → p.1 ≠ "INSTALLDIR" →
      find_nocase_from p.2.data "C:\\Apps\\Foo\\data.db".data 0 = none ∧
      find_nocase_from p.2.data "${INSTALLDIR}\\data.db".data 0 = none) :
    (resolve_user_variables builtin [("INSTALLDIR", "C:\\Apps\\Foo")]).1 = true ∧
    (unresolve (resolve_user_variables builtin [("INSTALLDIR", "C:\\Apps\\Foo")]).2
        "C:\\Apps\\Foo\\data.db").map
      (resolve (resolve_user_variables builtin [("INSTALLDIR", "C:\\Apps\\Foo")]).2)
      = some "C:\\Apps\\Foo\\data.db" := by
  rw [installdir_resolved]
  refine ⟨rfl, ?_⟩
  have hs := var_sorted_set builtin "INSTALLDIR" "C:\\Apps\\Foo" hsorted
  have hu := unresolve_single (var_set builtin "INSTALLDIR" "C:\\Apps\\Foo")
    "INSTALLDIR" "C:\\Apps\\Foo" [] "C:\\Apps\\Foo".data "\\data.db".data
    (var_sorted_keys_nodup _ hs)
    ((mem_var_set builtin hsorted _ _ _).mpr (Or.inl rfl))
    (by decide) rfl (by decide) (by decide)
    (by
      intro p hp he hne
      rcases (mem_var_set builtin hsorted _ _ _).mp hp with h1 | ⟨h1, _⟩
      · subst h1; exact absurd rfl hne
      · obtain ⟨h2, h3⟩ := hfree p h1 he hne
        exact ⟨fun _ => h2, h3⟩)
  have hin : String.mk ([] ++ "C:\\Apps\\Foo".data ++ "\\data.db".data) = "C:\\Apps\\Foo\\data.db" := by
    decide
  rw [hin] at hu
  rw [hu]
  simp only [Option.map_some', Option.some.injEq]
  apply String.ext
  rw [resolve_data]
  have hph : ([] ++ placeholder_of "INSTALLDIR" ++ "\\data.db".data)
      = '$' :: '{' :: ("INSTALLDIR".data ++ '}' :: "\\data.db".data) := by decide
  simp only [hph]
  rw [scan_placeholder _ true false "INSTALLDIR".data "\\data.db".data (by decide), emit_resolve,
    scan_text_no_placeholder _ true _ (by decide)]
  have : (String.mk "INSTALLDIR".data) = "INSTALLDIR" := rfl
  rw [this, var_get_set_eq]
  decide

theorem installdir_unresolve_resolve_witness :
    (unresolve (resolve_user_variables
        [("COMPUTERNAME", "BUILD01"), ("PROGRAMFILES", "C:\\Program Files"),
         ("PROJECT_NAME", "Foo"), ("USERNAME", "alice")]
        [("INSTALLDIR", "C:\\Apps\\Foo")]).2 "C:\\Apps\\Foo\\data.db").map
      (resolve (resolve_user_variables
        [("COMPUTERNAME", "BUILD01"), ("PROGRAMFILES", "C:\\Program Files"),
         ("PROJECT_NAME", "Foo"), ("USERNAME", "alice")]
        [("INSTALLDIR", "C:\\Apps\\Foo")]).2)
      = some "C:\\Apps\\Foo\\data.db" :=
  (installdir_unresolve_resolve
    [("COMPUTERNAME", "BUILD01"), ("PROGRAMFILES", "C:\\Program Files"),
     ("PROJECT_NAME", "Foo"), ("USERNAME", "alice")]
    (by unfold var_sorted; decide) (by decide)).2

/-- C6 (as stated, fails): on a host whose computer name is `DATA`,
`unresolve` turns `data` into `${COMPUTERNAME}` (the match ignores case) and
`resolve` gives back `C:\Apps\Foo\DATA.db`, not the original text. -/
theorem installdir_roundtrip_changes_case :
    (unresolve (resolve_user_variables
        (populate_builtins ⟨"C:\\Program Files", "C:\\Program Files (x86)", "C:\\ProgramData",
          "C:\\Users\\alice\\AppData\\Roaming", "C:\\Users\\alice\\AppData\\Local", "C:\\Windows",
          some "DATA", some "alice", some "C:"⟩)
        [("INSTALLDIR", "C:\\Apps\\Foo")]).2 "C:\\Apps\\Foo\\data.db").map
      (resolve (resolve_user_variables
        (populate_builtins ⟨"C:\\Program Files", "C:\\Program Files (x86)", "C:\\ProgramData",
          "C:\\Users\\alice\\AppData\\Roaming", "C:\\Users\\alice\\AppData\\Local", "C:\\Windows",
          some "DATA", some "alice", some "C:"⟩)
        [("INSTALLDIR", "C:\\Apps\\Foo")]).2)
      = some "C:\\Apps\\Foo\\DATA.db" := by
  decide

/-! ## The hooks a run executes -/

theorem hooks_run_append (A B : List Event) : hooks_run (A ++ B) = hooks_run A ++ hooks_run B := by
  simp [hooks_run, List.filterMap_append]

theorem progress_hooks_run (s : Sys W) (cb : Option (IActionCallback W)) (a b : String) (n : Int) :
    ∃ T, (s.progress cb a b n).trace = s.trace ++ T ∧ hooks_run T = [] ∧
      ∀ e ∈ T, e.is_on_error = false := by
  cases cb with
  | none => exact ⟨[], by simp [Sys.progress], rfl, by simp⟩
  | some c =>
    refine ⟨[Event.cb (CbEvent.on_progress a b n)], rfl, rfl, ?_⟩
    intro e he
    simp only [List.mem_singleton] at he
    subst he; rfl

/-- What one run of the loop of `run_hooks` adds to the trace: the hooks from
position `index` on, one after the other, each once; all of them when the
loop returns `true`; and with `skip_all` set beforehand it returns `true`,
leaves `skip_all` set and makes no `on_error` call. -/
theorem run_hooks_loop_order (impl : Impl W) (vars : VarMap) (phase : Phase)
    (cb : Option (IActionCallback W)) (hooks : List Hook) :
    ∀ (index : Nat) (skip_all : Bool) (s : Sys W),
    ∃ T k, (run_hooks_loop impl vars phase cb hooks index skip_all s).2.2.trace = s.trace ++ T ∧
      hooks_run T = (List.range' index k).map (fun i => (phase, i)) ∧
      k ≤ hooks.length ∧ (hooks ≠ [] → 0 < k) ∧
      ((run_hooks_loop impl vars phase cb hooks index skip_all s).1 = true → k = hooks.length) ∧
      (skip_all = true →
        (run_hooks_loop impl vars phase cb hooks index skip_all s).1 = true ∧
        (run_hooks_loop impl vars phase cb hooks index skip_all s).2.1 = true ∧
        ∀ e ∈ T, e.is_on_error = false) := by
  induction hooks with
  | nil =>
    intro index skip_all s
    refine ⟨[], 0, by simp [run_hooks_loop], rfl, le_refl _, by simp, fun _ => rfl, ?_⟩
    intro h
    simp [run_hooks_loop, h]
  | cons hook rest ih =>
    intro index skip_all s
    obtain ⟨T1, h1, n1, e1⟩ := progress_hooks_run s cb (phase_to_string phase) hook.type_name (-1)
    simp only [run_hooks_loop]
    generalize s.progress cb (phase_to_string phase) hook.type_name (-1) = s1 at h1 ⊢
    generalize impl.execute (hook.set_phase phase) vars s1.world = r
    have step : ∀ (X : List Event) (sk : Bool) (s3 : Sys W),
        s3.trace = s.trace ++ (T1 ++ [Event.hook_execute phase index r.1] ++ X) →
        hooks_run X = [] →
        (skip_all = true → sk = true ∧ ∀ e ∈ X, e.is_on_error = false) →
        ∃ T k, (run_hooks_loop impl vars phase cb rest (index + 1) sk s3).2.2.trace
            = s.trace ++ T ∧
          hooks_run T = (List.range' index k).map (fun i => (phase, i)) ∧
          k ≤ (hook :: rest).length ∧ (hook :: rest ≠ [] → 0 < k) ∧
          ((run_hooks_loop impl vars phase cb rest (index + 1) sk s3).1 = true
            → k = (hook :: rest).length) ∧
          (skip_all = true →
            (run_hooks_loop impl vars phase cb rest (index + 1) sk s3).1 = true ∧
            (run_hooks_loop impl vars phase cb rest (index + 1) sk s3).2.1 = true ∧
            ∀ e ∈ T, e.is_on_error = false) := by
      intro X sk s3 h3 hX hsk
      obtain ⟨T, k, hT, hr, hk, _, hall, hskip⟩ := ih (index + 1) sk s3
      refine ⟨T1 ++ [Event.hook_execute phase index r.1] ++ X ++ T, k + 1, ?_, ?_, ?_, ?_, ?_, ?_⟩
      · rw [hT, h3]; simp
      · rw [hooks_run_append, hooks_run_append, hooks_run_append, n1, hX, hr, List.range'_succ]
        simp [hooks_run, Event.hook?]
      · simp only [List.length_cons]; omega
      · intro _; omega
      · intro h; rw [hall h]; rfl
      · intro h
        obtain ⟨hsk1, hXe⟩ := hsk h
        obtain ⟨a, b, c⟩ := hskip hsk1
        refine ⟨a, b, ?_⟩
        intro e he
        simp only [List.mem_append, List.mem_singleton] at he
        rcases he with ((he | he) | he) | he
        · exact e1 e he
        · subst he; rfl
        · exact hXe e he
        · exact c e he
    split
    · split
      · rename_i hsk
        exact step [] skip_all _ (by simp [h1]) rfl (fun _ => ⟨hsk, by simp⟩)
      · rename_i hsk
        have hfalse : ¬ skip_all = true := hsk
        cases cb with
        | none =>
          refine ⟨T1 ++ [Event.hook_execute phase index r.1], 1, by simp [h1], ?_, ?_, ?_, ?_, ?_⟩
          · rw [hooks_run_append, n1]; simp [hooks_run, Event.hook?]
          · simp
          · intro _; omega
          · intro h; cases h
          · intro h; exact absurd h hfalse
        | some c =>
          simp only
          split
          · refine ⟨T1 ++ [Event.hook_execute phase index r.1] ++
              [Event.cb (CbEvent.on_error "Hook execution failed" hook.type_name)], 1,
              by simp [Sys.error, h1], ?_, ?_, ?_, ?_, ?_⟩
            · rw [hooks_run_append, hooks_run_append, n1]; simp [hooks_run, Event.hook?]
            · simp
            · intro _; omega
            · intro h; cases h
            · intro h; exact absurd h hfalse
          · exact step [Event.cb (CbEvent.on_error "Hook execution failed" hook.type_name)] true _
              (by simp [Sys.error, h1]) rfl (fun h => absurd h hfalse)
          · exact step [Event.cb (CbEvent.on_error "Hook execution failed" hook.type_name)]
              skip_all _ (by simp [Sys.error, h1]) rfl (fun h => absurd h hfalse)
    · exact step [] skip_all _ (by simp [h1]) rfl (fun h => ⟨h, by simp⟩)

/-- C11: in `orchestrator::clean` without simulation, once the PreClean hooks
have returned `true`, the result is the result of the reverse loop over the
actions, whatever that is, and the state is the one `run_hooks` leaves for the
PostClean hooks run after the loop: the trace goes on with the PostClean
hooks from the first one, in order (at least one when there are any, all of
them when `run_hooks` returns `true`). -/
theorem clean_runs_post_clean_hooks (impl : Impl W) (bp : Blueprint)
    (cb : Option (IActionCallback W)) (s : Sys W)
    (hpre : (run_hooks impl bp .PreClean cb false s).1 = true) :
    let pre := run_hooks impl bp .PreClean cb false s
    let ctx := ((ActionContext.for_clean cb).set_skip_all_errors pre.2.1).set_simulate false
    let loop := clean_actions impl (reverse_indexed bp.actions) ctx pre.2.2
    let post := run_hooks impl bp .PostClean cb loop.2.1.skip_all_errors loop.2.2
    let r := orchestrator.clean impl (some bp) cb false s
    r.1 = loop.1 ∧ r.2 = post.2.2 ∧
    ∃ P k, r.2.trace = loop.2.2.trace ++ P ∧
      hooks_run P = (List.range k).map (fun i => (Phase.PostClean, i)) ∧
      k ≤ (bp.hooks .PostClean).length ∧ (bp.hooks .PostClean ≠ [] → 0 < k) ∧
      (post.1 = true → k = (bp.hooks .PostClean).length) := by
  intro pre ctx loop post r
  have hr : r = (loop.1, post.2.2) := by
    show orchestrator.clean impl (some bp) cb false s = _
    simp only [orchestrator.clean, Bool.false_eq_true, if_false]
    rw [if_neg (by rw [hpre]; simp)]
  refine ⟨by rw [hr], by rw [hr], ?_⟩
  obtain ⟨T, k, hT, hrun, hk, hpos, hall, _⟩ :=
    run_hooks_loop_order impl bp.resolved_variables .PostClean cb (bp.hooks .PostClean) 0
      loop.2.1.skip_all_errors loop.2.2
  refine ⟨T, k, ?_, by rw [hrun, List.range_eq_range'], hk, hpos, hall⟩
  rw [hr]
  exact hT

/-- C11 (witness): on `locked_registry` the only action of `locked_blueprint` fails
to clean, and the PostClean hook is executed all the same. -/
theorem clean_runs_post_clean_hooks_witness :
    (run_hooks Registry.impl locked_blueprint .PreClean none false ⟨locked_registry, []⟩).1
      = true ∧
    (orchestrator.clean Registry.impl (some locked_blueprint) none false
      ⟨locked_registry, []⟩).1 = false ∧
    hooks_run (orchestrator.clean Registry.impl (some locked_blueprint) none false
      ⟨locked_registry, []⟩).2.trace = [(Phase.PostClean, 0)] ∧
    (let pre := run_hooks Registry.impl locked_blueprint .PreClean none false
        ⟨locked_registry, []⟩
     let ctx := ((ActionContext.for_clean none).set_skip_all_errors pre.2.1).set_simulate false
     let loop := clean_actions Registry.impl (reverse_indexed locked_blueprint.actions) ctx
        pre.2.2
     let post := run_hooks Registry.impl locked_blueprint .PostClean none
        loop.2.1.skip_all_errors loop.2.2
     let r := orchestrator.clean Registry.impl (some locked_blueprint) none false
        ⟨locked_registry, []⟩
     r.1 = loop.1 ∧ r.2 = post.2.2 ∧
     ∃ P k, r.2.trace = loop.2.2.trace ++ P ∧
       hooks_run P = (List.range k).map (fun i => (Phase.PostClean, i)) ∧
       k ≤ (locked_blueprint.hooks .PostClean).length ∧
       (locked_blueprint.hooks .PostClean ≠ [] → 0 < k) ∧
       (post.1 = true → k = (locked_blueprint.hooks .PostClean).length)) :=
  ⟨by decide, by decide, by decide,
    clean_runs_post_clean_hooks Registry.impl locked_blueprint none ⟨locked_registry, []⟩
      (by decide)⟩

/-! ## Maps as sorted lists: extensionality -/

theorem var_find_none_of_lt (m : VarMap) (k : String)
    (h : ∀ p ∈ m, k.data < p.1.data) : var_find m k = none := by
  induction m with
  | nil => rfl
  | cons q rest ih =>
    obtain ⟨k', v'⟩ := q
    have hq := h (k', v') (by simp)
    have hne : k' ≠ k := by
      intro he; subst he; exact lt_irrefl _ hq
    simp only [var_find, if_neg hne]
    exact ih (fun p hp => h p (by simp [hp]))

/-- Two maps listed by key with the same lookups are the same map. -/
theorem var_sorted_ext : ∀ (m1 m2 : VarMap), var_sorted m1 → var_sorted m2 →
    (∀ k, var_find m1 k = var_find m2 k) → m1 = m2 := by
  intro m1
  induction m1 with
  | nil =>
    intro m2 _ _ h
    cases m2 with
    | nil => rfl
    | cons q rest =>
      have := h q.1
      simp [var_find] at this
  | cons p1 r1 ih =>
    intro m2 hs1 hs2 h
    obtain ⟨k1, v1⟩ := p1
    cases m2 with
    | nil =>
      have := h k1
      simp [var_find] at this
    | cons p2 r2 =>
      obtain ⟨k2, v2⟩ := p2
      obtain ⟨hq1, hr1⟩ := List.pairwise_cons.mp hs1
      obtain ⟨hq2, hr2⟩ := List.pairwise_cons.mp hs2
      have hk : k1 = k2 := by
        by_contra hne
        rcases lt_or_gt_of_ne (fun he => hne (String.ext he) : k1.data ≠ k2.data) with hlt | hgt
        · have h1 := h k1
          have hn : var_find ((k2, v2) :: r2) k1 = none :=
            var_find_none_of_lt _ _ (by
              intro p hp
              rcases List.mem_cons.mp hp with hp | hp
              · subst hp; exact hlt
              · exact lt_trans hlt (hq2 p hp))
          rw [hn] at h1
          simp [var_find] at h1
        · have h1 := h k2
          have hn : var_find ((k1, v1) :: r1) k2 = none :=
            var_find_none_of_lt _ _ (by
              intro p hp
              rcases List.mem_cons.mp hp with hp | hp
              · subst hp; exact hgt
              · exact lt_trans hgt (hq1 p hp))
          rw [hn] at h1
          simp [var_find] at h1
      subst hk
      have hv : v1 = v2 := by
        have := h k1
        simpa [var_find] using this
      subst hv
      have hrest : r1 = r2 := by
        apply ih r2 hr1 hr2
        intro k
        by_cases hk : k1 = k
        · subst hk
          rw [var_find_none_of_lt r1 k1 hq1, var_find_none_of_lt r2 k1 hq2]
        · have := h k
          simpa [var_find, hk] using this
      rw [hrest]

theorem var_sorted_foldl (l : List (String × String)) :
    ∀ m, var_sorted m → var_sorted (l.foldl (fun m p => var_set m p.1 p.2) m) := by
  induction l with
  | nil => intro m h; exact h
  | cons p rest ih => intro m h; exact ih _ (var_sorted_set _ _ _ h)

/-- Lookup after a run of assignments from a list with unique keys. -/
theorem var_find_foldl (l : List (String × String)) (hl : (l.map Prod.fst).Nodup) :
    ∀ (m : VarMap) (k : String),
      var_find (l.foldl (fun m p => var_set m p.1 p.2) m) k
        = (var_find l k).orElse (fun _ => var_find m k) := by
  induction l with
  | nil => intro m k; simp [var_find]
  | cons p rest ih =>
    intro m k
    obtain ⟨k1, v1⟩ := p
    simp only [List.map_cons, List.nodup_cons] at hl
    simp only [List.foldl_cons, ih hl.2]
    by_cases hk : k1 = k
    · subst hk
      have hnone : var_find rest k1 = none := by
        cases hf : var_find rest k1 with
        | none => rfl
        | some v =>
          exact absurd (List.mem_map.mpr ⟨(k1, v), mem_of_var_find _ _ _ hf, rfl⟩) hl.1
      simp [hnone, var_find, var_find_set_eq]
    · simp [var_find, hk, var_find_set_ne _ _ _ _ hk]

theorem var_find_filter_ne (m : VarMap) (x k : String) :
    var_find (m.filter (fun p => p.1 ≠ x)) k = if k = x then none else var_find m k := by
  induction m with
  | nil => simp [var_find]
  | cons p rest ih =>
    obtain ⟨k1, v1⟩ := p
    rw [List.filter_cons]
    by_cases h1 : k1 = x
    · have hd : decide ((k1, v1).1 ≠ x) = false := by simp [h1]
      rw [hd]
      simp only [Bool.false_eq_true, if_false]
      rw [ih]
      by_cases hk : k = x
      · simp [hk]
      · have : ¬ k1 = k := fun h => hk (h ▸ h1)
        simp [hk, var_find, this]
    · have hd : decide ((k1, v1).1 ≠ x) = true := by simp [h1]
      rw [hd]
      simp only [if_true, var_find, ih]
      by_cases hk : k1 = k
      · subst hk; simp [h1]
      · simp [hk]

theorem add_user_variables_sorted (b u : VarMap) (h : var_sorted b) :
    var_sorted (add_user_variables b u) := var_sorted_foldl u b h

theorem var_find_add_user (b u : VarMap) (hu : var_sorted u) (k : String) :
    var_find (add_user_variables b u) k = (var_find u k).orElse (fun _ => var_find b k) :=
  var_find_foldl u (var_sorted_keys_nodup u hu) b k

/-! ## Parsing what `to_xml` writes -/

theorem parse_xml_facts (b : VarMap) (top : List XmlNode) (bp : Blueprint)
    (h : parse_xml b (some top) = some bp) :
    ∃ (name version : String) (desc : Option String) (user0 : VarMap)
      (varnodes resnodes hooknodes : List XmlNode),
      name ≠ "" ∧ version ≠ "" ∧
      bp.builtin_variables
        = var_set_opt (var_set (var_set b VAR_PROJECT_NAME name) VAR_PROJECT_VERSION version)
            VAR_PROJECT_DESCRIPTION desc ∧
      (user0 = [] ∨ ∃ v, v ≠ "" ∧ user0 = var_set [] VAR_INSTALLDIR v) ∧
      parse_variables varnodes user0 = some bp.user_variables ∧
      resolve_user_variables bp.builtin_variables bp.user_variables
        = (true, bp.resolved_variables) ∧
      parse_resources resnodes [] = some bp.actions ∧
      parse_hooks hooknodes (fun _ => []) = some bp.hooks := by
  simp only [parse_xml] at h
  split at h
  · cases h
  · rename_i root hroot
    split at h
    · cases h
    · rename_i hname
      split at h
      · cases h
      · rename_i hversion
        split at h
        · cases h
        · rename_i user huser
          split at h
          · cases h
          · rename_i hres
            split at h
            · cases h
            · rename_i actions hactions
              split at h
              · cases h
              · rename_i hooks hhooks
                simp only [Option.some.injEq] at h
                subst h
                refine ⟨root.attr "name", root.attr "version",
                  (root.child "description").map XmlNode.text,
                  (if root.attr "installdir" = "" then []
                    else var_set [] VAR_INSTALLDIR (root.attr "installdir")),
                  (match root.child "variables" with
                    | some vars => vars.children_named "var"
                    | none => []),
                  (match root.child "resources" with
                    | some resources => resources.children
                    | none => []),
                  (match root.child "hooks" with
                    | some hooks_node => hooks_node.children
                    | none => []),
                  hname, hversion, ?_, ?_, ?_, ?_, ?_, ?_⟩
                · cases root.child "description" <;> rfl
                · by_cases hi : root.attr "installdir" = ""
                  · left; simp [hi]
                  · right; exact ⟨_, hi, by simp [hi]⟩
                · cases hv : root.child "variables" with
                  | none => rw [hv] at huser; simpa [parse_variables] using huser
                  | some vars => rw [hv] at huser; simpa using huser
                · apply Prod.ext
                  · simpa using hres
                  · rfl
                · cases hv : root.child "resources" with
                  | none => rw [hv] at hactions; simpa [parse_resources] using hactions
                  | some vars => rw [hv] at hactions; simpa using hactions
                · cases hv : root.child "hooks" with
                  | none => rw [hv] at hhooks; simpa [parse_hooks] using hhooks
                  | some vars => rw [hv] at hhooks; simpa using hhooks

theorem action_to_node_name (a : Action) : (action_to_node a).name = a.type_name := rfl

theorem parse_files_roundtrip (node : XmlNode) (a : Action)
    (h : parse_files node = some (some a)) :
    a.type_name = "files" ∧ parse_files (action_to_node a) = some (some a) := by
  unfold parse_files at h
  dsimp only at h
  split at h
  · cases h
  · split at h
    · cases h
    · simp only [Option.some.injEq] at h
      subst h
      refine ⟨rfl, ?_⟩
      simp_all [parse_files, action_to_node, XmlNode.attr, XmlNode.attr_or,
        XmlNode.attributes, Action.type_name, Action.to_params, var_find]

theorem parse_file_roundtrip (node : XmlNode) (a : Action)
    (h : parse_file node = some (some a)) :
    a.type_name = "file" ∧ parse_file (action_to_node a) = some (some a) := by
  unfold parse_file at h
  dsimp only at h
  split at h
  · cases h
  · split at h
    · cases h
    · simp only [Option.some.injEq] at h
      subst h
      refine ⟨rfl, ?_⟩
      simp_all [parse_file, action_to_node, XmlNode.attr, XmlNode.attr_or,
        XmlNode.attributes, Action.type_name, Action.to_params, var_find]

theorem parse_registry_roundtrip (node : XmlNode) (a : Action)
    (h : parse_registry node = some (some a)) :
    a.type_name = "registry" ∧ parse_registry (action_to_node a) = some (some a) := by
  unfold parse_registry at h
  dsimp only at h
  split at h
  · cases h
  · split at h
    · cases h
    · simp only [Option.some.injEq] at h
      subst h
      refine ⟨rfl, ?_⟩
      simp_all [parse_registry, action_to_node, XmlNode.attr, XmlNode.attr_or,
        XmlNode.attributes, Action.type_name, Action.to_params, var_find]

theorem parse_environment_roundtrip (node : XmlNode) (a : Action)
    (h : parse_environment node = some (some a)) :
    a.type_name = "environment" ∧ parse_environment (action_to_node a) = some (some a) := by
  unfold parse_environment at h
  dsimp only at h
  split at h
  · cases h
  · split at h
    · cases h
    · split at h
      · simp only [Option.some.injEq] at h
        subst h
        refine ⟨rfl, ?_⟩
        have : equals_nocase "user" "user" = true := by decide
        simp_all [parse_environment, action_to_node, XmlNode.attr, XmlNode.attr_or,
          XmlNode.attributes, Action.type_name, Action.to_params, var_find]
      · split at h
        · simp only [Option.some.injEq] at h
          subst h
          refine ⟨rfl, ?_⟩
          have h1 : equals_nocase "system" "user" = false := by decide
          have h2 : equals_nocase "system" "system" = true := by decide
          simp_all [parse_environment, action_to_node, XmlNode.attr, XmlNode.attr_or,
            XmlNode.attributes, Action.type_name, Action.to_params, var_find]
        · cases h

theorem parse_delimited_roundtrip (node : XmlNode) (a : Action)
    (h : parse_delimited node = some (some a)) :
    a.type_name = "delimited" ∧ parse_delimited (action_to_node a) = some (some a) := by
  unfold parse_delimited at h
  dsimp only at h
  split at h
  · cases h
  · split at h
    · cases h
    · split at h
      · cases h
      · split at h
        · cases h
        · simp only [Option.some.injEq] at h
          subst h
          refine ⟨rfl, ?_⟩
          simp_all [parse_delimited, action_to_node, XmlNode.attr, XmlNode.attr_or,
            XmlNode.attributes, Action.type_name, Action.to_params, var_find]

theorem parse_multistring_roundtrip (node : XmlNode) (a : Action)
    (h : parse_multistring node = some (some a)) :
    a.type_name = "multistring" ∧ parse_multistring (action_to_node a) = some (some a) := by
  unfold parse_multistring at h
  dsimp only at h
  split at h
  · cases h
  · split at h
    · cases h
    · split at h
      · cases h
      · split at h
        · cases h
        · simp only [Option.some.injEq] at h
          subst h
          refine ⟨rfl, ?_⟩
          simp_all [parse_multistring, action_to_node, XmlNode.attr, XmlNode.attr_or,
            XmlNode.attributes, Action.type_name, Action.to_params, var_find]

theorem parse_service_roundtrip (node : XmlNode) (a : Action)
    (h : parse_service node = some (some a)) :
    a.type_name = "service" ∧ parse_service (action_to_node a) = some (some a) := by
  unfold parse_service at h
  dsimp only at h
  split at h
  · cases h
  · split at h
    · cases h
    · simp only [Option.some.injEq] at h
      subst h
      refine ⟨rfl, ?_⟩
      simp_all [parse_service, action_to_node, XmlNode.attr, XmlNode.attr_or,
        XmlNode.attributes, Action.type_name, Action.to_params, var_find]

theorem parse_hosts_roundtrip (node : XmlNode) (a : Action)
    (h : parse_hosts node = some (some a)) :
    a.type_name = "hosts" ∧ parse_hosts (action_to_node a) = some (some a) := by
  unfold parse_hosts at h
  dsimp only at h
  split at h
  · cases h
  · split at h
    · cases h
    · simp only [Option.some.injEq] at h
      subst h
      refine ⟨rfl, ?_⟩
      simp_all [parse_hosts, action_to_node, XmlNode.attr, XmlNode.attr_or,
        XmlNode.attributes, Action.type_name, Action.to_params, var_find]

theorem parse_resource_roundtrip (node : XmlNode) (a : Action)
    (h : parse_resource node = some (some a)) :
    parse_resource (action_to_node a) = some (some a) := by
  unfold parse_resource at h
  dsimp only at h
  unfold parse_resource
  dsimp only
  rw [action_to_node_name]
  split at h
  · obtain ⟨h1, h2⟩ := parse_files_roundtrip node a h
    simp [h1, h2]
  · split at h
    · obtain ⟨h1, h2⟩ := parse_file_roundtrip node a h
      simp [h1, h2]
    · split at h
      · obtain ⟨h1, h2⟩ := parse_registry_roundtrip node a h
        simp [h1, h2]
      · split at h
        · obtain ⟨h1, h2⟩ := parse_environment_roundtrip node a h
          simp [h1, h2]
        · split at h
          · obtain ⟨h1, h2⟩ := parse_delimited_roundtrip node a h
            simp [h1, h2]
          · split at h
            · obtain ⟨h1, h2⟩ := parse_multistring_roundtrip node a h
              simp [h1, h2]
            · split at h
              · obtain ⟨h1, h2⟩ := parse_service_roundtrip node a h
                simp [h1, h2]
              · split at h
                · obtain ⟨h1, h2⟩ := parse_hosts_roundtrip node a h
                  simp [h1, h2]
                · cases h

theorem digitChar_value : ∀ m, m < 10 →
    (Nat.digitChar m).isDigit = true ∧ (Nat.digitChar m).toNat - 48 = m := by
  decide

theorem digits_value_toDigitsCore (fuel : Nat) :
    ∀ (n : Nat) (acc : List Char), n < fuel →
      ∃ k, ∀ a, digits_value (Nat.toDigitsCore 10 fuel n acc) a
        = digits_value acc (a * 10 ^ k + n) := by
  induction fuel with
  | zero => intro n acc h; omega
  | succ f ih =>
    intro n acc h
    obtain ⟨hd, hv⟩ := digitChar_value (n % 10) (Nat.mod_lt _ (by norm_num))
    simp only [Nat.toDigitsCore]
    split
    · rename_i h0
      refine ⟨1, fun a => ?_⟩
      simp only [digits_value, hd, if_true, hv, pow_one]
      congr 1
      have := Nat.div_add_mod n 10
      omega
    · rename_i h0
      have hlt : n / 10 < f := by omega
      obtain ⟨k, hk⟩ := ih (n / 10) (Nat.digitChar (n % 10) :: acc) hlt
      refine ⟨k + 1, fun a => ?_⟩
      rw [hk a]
      simp only [digits_value, hd, if_true, hv]
      congr 1
      have := Nat.div_add_mod n 10
      rw [pow_succ]
      nlinarith

theorem as_uint_uint_to_string (n : Nat) (h : n ≤ UINT_MAX) : as_uint (uint_to_string n) = n := by
  obtain ⟨k, hk⟩ := digits_value_toDigitsCore (n + 1) n [] (Nat.lt_succ_self n)
  unfold as_uint uint_to_string Nat.toDigits
  simp only [hk 0, digits_value]
  simpa using h

theorem as_uint_le (t : String) : as_uint t ≤ UINT_MAX := by
  unfold as_uint; exact Nat.min_le_right _ _

theorem parse_phase_phase_to_string (p : Phase) :
    parse_phase (phase_to_string p) = some p ∧ phase_to_string p ≠ "" := by
  cases p <;> decide

theorem hook_to_node_name (p : Phase) (hk : Hook) : (hook_to_node p hk).name = hk.type_name := by
  cases hk <;> rfl

theorem hook_to_node_phase (p : Phase) (hk : Hook) :
    (hook_to_node p hk).attr "phase" = phase_to_string p := by
  cases hk <;> simp [hook_to_node, XmlNode.attr, XmlNode.attr_or, XmlNode.attributes, var_find]

theorem kill_node_roundtrip (p : Phase) (process : String) (timeout : Nat)
    (hproc : process ≠ "") (ht : timeout ≤ UINT_MAX) :
    parse_kill (hook_to_node p (.KillProcess process timeout)) p
      = some (some (p, .KillProcess process timeout)) := by
  by_cases h5 : timeout = 5000
  · simp [parse_kill, hook_to_node, XmlNode.attr, XmlNode.attr_or, XmlNode.attributes,
      var_find, hproc, h5]
  · simp [parse_kill, hook_to_node, XmlNode.attr, XmlNode.attr_or, XmlNode.attributes,
      var_find, hproc, h5, as_uint_uint_to_string timeout ht]

theorem parse_kill_roundtrip (node : XmlNode) (p q : Phase) (hk : Hook)
    (h : parse_kill node p = some (some (q, hk))) :
    hk.type_name = "kill" ∧ q = p ∧ parse_kill (hook_to_node p hk) p = some (some (p, hk)) := by
  unfold parse_kill at h
  dsimp only at h
  split at h
  · cases h
  · rename_i hproc
    have ht : (match var_find node.attributes "timeout" with
        | some t => as_uint t
        | none => 5000) ≤ UINT_MAX := by
      split
      · exact as_uint_le _
      · decide
    simp only [Option.some.injEq, Prod.mk.injEq] at h
    obtain ⟨hq, hh⟩ := h
    subst hq hh
    exact ⟨rfl, rfl, kill_node_roundtrip _ _ _ hproc ht⟩

theorem children_named_args (args : List String) :
    (List.filter (fun c => decide (c.name = "arg"))
      (List.map (fun arg => XmlNode.mk "arg" [] arg []) args)).map XmlNode.text = args := by
  induction args with
  | nil => rfl
  | cons a rest ih => simp [XmlNode.name, XmlNode.text, List.filter_cons] at ih ⊢; exact ih

theorem run_node_roundtrip (p : Phase) (path : String) (args : List String)
    (wait ignore_exit : Bool) (hpath : path ≠ "") :
    parse_run (hook_to_node p (.RunProcess path args wait ignore_exit)) p
      = some (some (p, .RunProcess path args wait ignore_exit)) := by
  have hb1 : as_bool (bool_to_string false) = false := by decide
  have hb2 : as_bool (bool_to_string true) = true := by decide
  cases wait <;> cases ignore_exit <;>
    simp [parse_run, hook_to_node, XmlNode.attr, XmlNode.attr_or, XmlNode.attributes,
      XmlNode.children_named, XmlNode.children, var_find, hpath, hb1, hb2, children_named_args]

theorem parse_run_roundtrip (node : XmlNode) (p q : Phase) (hk : Hook)
    (h : parse_run node p = some (some (q, hk))) :
    hk.type_name = "run" ∧ q = p ∧ parse_run (hook_to_node p hk) p = some (some (p, hk)) := by
  unfold parse_run at h
  dsimp only at h
  split at h
  · cases h
  · rename_i hpath
    simp only [Option.some.injEq, Prod.mk.injEq] at h
    obtain ⟨hq, hh⟩ := h
    subst hq hh
    exact ⟨rfl, rfl, run_node_roundtrip _ _ _ _ _ hpath⟩

theorem substitute_node_roundtrip (p : Phase) (file : String) (hfile : file ≠ "") :
    parse_substitute (hook_to_node p (.Substitute file p)) p
      = some (some (p, .Substitute file p)) := by
  simp [parse_substitute, hook_to_node, XmlNode.attr, XmlNode.attr_or, XmlNode.attributes,
    var_find, hfile]

theorem parse_substitute_roundtrip (node : XmlNode) (p q : Phase) (hk : Hook)
    (h : parse_substitute node p = some (some (q, hk))) :
    hk.type_name = "substitute" ∧ q = p ∧
      parse_substitute (hook_to_node p hk) p = some (some (p, hk)) := by
  unfold parse_substitute at h
  dsimp only at h
  split at h
  · cases h
  · rename_i hfile
    simp only [Option.some.injEq, Prod.mk.injEq] at h
    obtain ⟨hq, hh⟩ := h
    subst hq hh
    exact ⟨rfl, rfl, substitute_node_roundtrip _ _ hfile⟩

theorem sql_node_roundtrip (p : Phase) (file query : String) (hfile : file ≠ "")
    (hquery : query ≠ "") :
    parse_sql (hook_to_node p (.Sql file query p)) p = some (some (p, .Sql file query p)) := by
  simp [parse_sql, hook_to_node, XmlNode.attr, XmlNode.attr_or, XmlNode.attributes,
    var_find, hfile, hquery]

theorem parse_sql_roundtrip (node : XmlNode) (p q : Phase) (hk : Hook)
    (h : parse_sql node p = some (some (q, hk))) :
    hk.type_name = "sql" ∧ q = p ∧ parse_sql (hook_to_node p hk) p = some (some (p, hk)) := by
  unfold parse_sql at h
  dsimp only at h
  split at h
  · cases h
  · rename_i hfile
    split at h
    · cases h
    · rename_i hquery
      simp only [Option.some.injEq, Prod.mk.injEq] at h
      obtain ⟨hq, hh⟩ := h
      subst hq hh
      exact ⟨rfl, rfl, sql_node_roundtrip _ _ _ hfile hquery⟩

theorem parse_hook_roundtrip (node : XmlNode) (p : Phase) (hk : Hook)
    (h : parse_hook node = some (some (p, hk))) :
    parse_hook (hook_to_node p hk) = some (some (p, hk)) := by
  unfold parse_hook at h
  dsimp only at h
  obtain ⟨hpp, hpne⟩ := parse_phase_phase_to_string p
  split at h
  · cases h
  · split at h
    · cases h
    · rename_i phase hphase
      split at h
      · obtain ⟨h1, h2, h3⟩ := parse_kill_roundtrip node phase p hk h
        subst h2
        unfold parse_hook
        dsimp only
        rw [hook_to_node_name, hook_to_node_phase, hpp]
        simp [hpne, h1, h3]
      · split at h
        · obtain ⟨h1, h2, h3⟩ := parse_run_roundtrip node phase p hk h
          subst h2
          unfold parse_hook
          dsimp only
          rw [hook_to_node_name, hook_to_node_phase, hpp]
          simp [hpne, h1, h3]
        · split at h
          · obtain ⟨h1, h2, h3⟩ := parse_substitute_roundtrip node phase p hk h
            subst h2
            unfold parse_hook
            dsimp only
            rw [hook_to_node_name, hook_to_node_phase, hpp]
            simp [hpne, h1, h3]
          · split at h
            · obtain ⟨h1, h2, h3⟩ := parse_sql_roundtrip node phase p hk h
              subst h2
              unfold parse_hook
              dsimp only
              rw [hook_to_node_name, hook_to_node_phase, hpp]
              simp [hpne, h1, h3]
            · cases h

theorem parse_resources_parsed (nodes : List XmlNode) :
    ∀ (acc acts : List Action), parse_resources nodes acc = some acts →
      (∀ a ∈ acc, a.parsed) → ∀ a ∈ acts, a.parsed := by
  induction nodes with
  | nil =>
    intro acc acts h hacc
    simp only [parse_resources, Option.some.injEq] at h
    subst h; exact hacc
  | cons node rest ih =>
    intro acc acts h hacc
    simp only [parse_resources] at h
    split at h
    · cases h
    · exact ih acc acts h hacc
    · rename_i a ha
      refine ih (acc ++ [a]) acts h ?_
      intro x hx
      rcases List.mem_append.mp hx with hx | hx
      · exact hacc x hx
      · simp only [List.mem_singleton] at hx
        subst hx; exact ⟨node, ha⟩

theorem parse_resources_map (l : List Action) :
    ∀ acc, (∀ a ∈ l, a.parsed) →
      parse_resources (l.map action_to_node) acc = some (acc ++ l) := by
  induction l with
  | nil => intro acc _; simp [parse_resources]
  | cons a rest ih =>
    intro acc h
    obtain ⟨node, hn⟩ := h a (by simp)
    simp only [List.map_cons, parse_resources, parse_resource_roundtrip node a hn]
    rw [ih (acc ++ [a]) (fun x hx => h x (by simp [hx]))]
    simp

theorem parse_hooks_parsed (nodes : List XmlNode) :
    ∀ (hs0 hs : Phase → List Hook), parse_hooks nodes hs0 = some hs →
      (∀ p, ∀ hk ∈ hs0 p, hk.parsed p) → ∀ p, ∀ hk ∈ hs p, hk.parsed p := by
  induction nodes with
  | nil =>
    intro hs0 hs h h0
    simp only [parse_hooks, Option.some.injEq] at h
    subst h; exact h0
  | cons node rest ih =>
    intro hs0 hs h h0
    simp only [parse_hooks] at h
    split at h
    · cases h
    · exact ih hs0 hs h h0
    · rename_i q hk hq
      refine ih (push_hook hs0 q hk) hs h ?_
      intro p x hx
      unfold push_hook at hx
      split at hx
      · rename_i hp
        subst hp
        rcases List.mem_append.mp hx with hx | hx
        · exact h0 p x hx
        · simp only [List.mem_singleton] at hx
          subst hx; exact ⟨node, hq⟩
      · exact h0 p x hx

theorem parse_hooks_map (l : List (Phase × Hook)) :
    ∀ hs0, (∀ x ∈ l, x.2.parsed x.1) →
      parse_hooks (l.map (fun x => hook_to_node x.1 x.2)) hs0
        = some (l.foldl (fun acc x => push_hook acc x.1 x.2) hs0) := by
  induction l with
  | nil => intro hs0 _; simp [parse_hooks]
  | cons x rest ih =>
    intro hs0 h
    obtain ⟨p, hk⟩ := x
    obtain ⟨node, hn⟩ := h (p, hk) (by simp)
    simp only [List.map_cons, parse_hooks, parse_hook_roundtrip node p hk hn, List.foldl_cons]
    exact ih _ (fun y hy => h y (by simp [hy]))

theorem foldl_push_hook (l : List (Phase × Hook)) :
    ∀ (hs0 : Phase → List Hook) (q : Phase),
      (l.foldl (fun acc x => push_hook acc x.1 x.2) hs0) q
        = hs0 q ++ (l.filter (fun x => x.1 = q)).map Prod.snd := by
  induction l with
  | nil => intro hs0 q; simp
  | cons x rest ih =>
    intro hs0 q
    obtain ⟨p, hk⟩ := x
    simp only [List.foldl_cons, ih]
    by_cases hpq : p = q
    · subst hpq
      simp [push_hook, List.filter_cons]
    · have hqp : ¬ q = p := fun h => hpq h.symm
      simp [push_hook, List.filter_cons, hpq, hqp]

theorem parse_variables_facts (nodes : List XmlNode) :
    ∀ (u0 u : VarMap), parse_variables nodes u0 = some u →
      var_sorted u0 → (∀ p ∈ u0, p.1 ≠ "") → var_sorted u ∧ ∀ p ∈ u, p.1 ≠ "" := by
  induction nodes with
  | nil =>
    intro u0 u h hs hk
    simp only [parse_variables, Option.some.injEq] at h
    subst h; exact ⟨hs, hk⟩
  | cons node rest ih =>
    intro u0 u h hs hk
    simp only [parse_variables] at h
    split at h
    · cases h
    · rename_i hname
      refine ih _ u h (var_sorted_set _ _ _ hs) ?_
      intro p hp
      rcases mem_var_set_subset _ _ _ p hp with hp | hp
      · subst hp; exact hname
      · exact hk p hp

theorem parse_variables_map (l : List (String × String)) :
    ∀ u0, (∀ p ∈ l, p.1 ≠ "") →
      parse_variables (l.map var_to_node) u0 = some (l.foldl (fun m p => var_set m p.1 p.2) u0) := by
  induction l with
  | nil => intro u0 _; simp [parse_variables]
  | cons p rest ih =>
    intro u0 h
    have hp : p.1 ≠ "" := h p (by simp)
    simp only [List.map_cons, parse_variables, List.foldl_cons]
    have h1 : (var_to_node p).attr "name" = p.1 := by
      simp [var_to_node, XmlNode.attr, XmlNode.attr_or, XmlNode.attributes, var_find]
    have h2 : (var_to_node p).text = p.2 := rfl
    rw [h1, h2, if_neg hp]
    exact ih _ (fun q hq => h q (by simp [hq]))

/-! ## `skip_all_errors` is never cleared -/

theorem handle_decision_keeps (d : Decision) (x : Exec W) (h : x.ctx.skip_all_errors = true) :
    (handle_decision d x).2.ctx.skip_all_errors = true := by
  cases d <;> simp [handle_decision, ActionContext.set_skip_all_errors, h]

theorem IAction_clean_keeps (impl : Impl W) (hk : impl.keeps_skip_all) (a : Action) (x : Exec W)
    (h : x.ctx.skip_all_errors = true) :
    (IAction.clean impl a x).2.ctx.skip_all_errors = true := by
  simp only [IAction.clean]
  cases hc : x.ctx.callback with
  | none =>
    simp only
    exact (hk a x h).2.2
  | some c =>
    simp only
    have h1 : (impl.do_clean a (x.on_progress c "Clean" a.description (-1))).2.ctx.skip_all_errors
        = true := (hk a _ (by simpa [Exec.on_progress] using h)).2.2
    split
    · exact handle_decision_keeps _ _ (by simpa [Exec.on_error] using h1)
    · exact h1

theorem clean_actions_keeps (impl : Impl W) (hk : impl.keeps_skip_all) (l : List (Nat × Action)) :
    ∀ (ctx : ActionContext W) (s : Sys W), ctx.skip_all_errors = true →
      (clean_actions impl l ctx s).2.1.skip_all_errors = true := by
  induction l with
  | nil => intro ctx s h; simpa [clean_actions] using h
  | cons p rest ih =>
    intro ctx s h
    obtain ⟨i, a⟩ := p
    simp only [clean_actions]
    have h1 : (run_op (IAction.clean impl a) ctx s).2.1.skip_all_errors = true :=
      IAction_clean_keeps impl hk a ⟨ctx, s.world, []⟩ h
    split
    · exact h1
    · exact ih _ _ h1

theorem restore_actions_keeps (impl : Impl W) (hk : impl.keeps_skip_all) (l : List Action) :
    ∀ (index : Nat) (ctx : ActionContext W) (s : Sys W), ctx.skip_all_errors = true →
      (restore_actions impl l index ctx s).2.1.skip_all_errors = true := by
  induction l with
  | nil => intro index ctx s h; simpa [restore_actions] using h
  | cons a rest ih =>
    intro index ctx s h
    simp only [restore_actions]
    have h1 : (run_op (impl.restore a) ctx s).2.1.skip_all_errors = true :=
      (hk a ⟨ctx, s.world, []⟩ h).2.1
    split
    · exact h1
    · exact ih _ _ _ h1

theorem check_archive_exists_keeps (p : String) (x : Exec W)
    (h : x.ctx.skip_all_errors = true) :
    (check_archive_exists p x).2.ctx.skip_all_errors = true := by
  simp only [check_archive_exists, h]
  split <;> exact h

theorem DelimitedEntryAction.restore_keeps (reg : RegistryAccess W) (a : DelimitedEntryAction)
    (description : String) (x : Exec W) (h : x.ctx.skip_all_errors = true) :
    (DelimitedEntryAction.restore reg a description x).2.ctx.skip_all_errors = true := by
  obtain ⟨⟨rd, wr, cb, sim, sk⟩, w, ev⟩ := x
  simp only at h
  subst h
  cases cb with
  | none =>
    simp only [DelimitedEntryAction.restore]
    have h2 := check_archive_exists_keeps a.archive_path ⟨⟨rd, wr, none, sim, true⟩, w, ev⟩ rfl
    generalize check_archive_exists a.archive_path ⟨⟨rd, wr, none, sim, true⟩, w, ev⟩ = chk
      at h2 ⊢
    split <;> exact h2
  | some c =>
    simp only [DelimitedEntryAction.restore]
    have h2 := check_archive_exists_keeps a.archive_path
      (Exec.on_progress ⟨⟨rd, wr, some c, sim, true⟩, w, ev⟩ c "Restore" description (-1)) rfl
    generalize check_archive_exists a.archive_path
      (Exec.on_progress ⟨⟨rd, wr, some c, sim, true⟩, w, ev⟩ c "Restore" description (-1)) = chk
      at h2 ⊢
    split
    · exact h2
    · split <;> split <;>
        first
        | exact h2
        | exact handle_decision_keeps _ _ (by simpa [Exec.on_error] using h2)

theorem Registry_impl_keeps : Registry.impl.keeps_skip_all := by
  intro a x h
  refine ⟨h, ?_, ?_⟩
  · cases a <;> try exact h
    exact DelimitedEntryAction.restore_keeps _ _ _ x h
  · cases a <;> exact h

/-- C12: the stages of `orchestrator::restore` hand `skip_all` on without ever
clearing it, for actions that keep the flag.  If it is set after the
PreRestore hooks it is set in the context at the end of the clean pass; if it
is set then, the context of the restore pass starts with it set, still has it
set at the end, and `run_hooks` for PostRestore is entered with it set: those
hooks make no `on_error` call and `run_hooks` returns `true` with the flag
set.  The first part says that the call is made of these stages. -/
theorem restore_carries_skip_all (impl : Impl W) (hk : impl.keeps_skip_all)
    (arch : ArchiveBackend W) (bp : Blueprint) (archive_path : String)
    (cb : Option (IActionCallback W)) (simulate : Bool) (s : Sys W) :
    let opened := arch.open_reader archive_path s.world
    let s1 : Sys W := ⟨opened.2, s.trace ++ [Event.reader_open opened.1]⟩
    let pre : Bool × Bool × Sys W :=
      if simulate then (true, false, s1) else run_hooks impl bp .PreRestore cb false s1
    let clean_ctx :=
      ((ActionContext.for_clean cb).set_skip_all_errors pre.2.1).set_simulate simulate
    let cleaned := clean_actions impl (reverse_indexed bp.actions) clean_ctx pre.2.2
    let ctx :=
      ((ActionContext.for_restore arch.reader cb).set_skip_all_errors
        cleaned.2.1.skip_all_errors).set_simulate simulate
    let loop := restore_actions impl bp.actions 0 ctx cleaned.2.2
    let post : Bool × Bool × Sys W :=
      if simulate then (true, loop.2.1.skip_all_errors, loop.2.2)
      else run_hooks impl bp .PostRestore cb loop.2.1.skip_all_errors loop.2.2
    (opened.1 = true → pre.1 = true → cleaned.1 = true → loop.1 = true →
      orchestrator.restore impl arch (some bp) archive_path cb simulate s
        = (post.1, if post.1 = true then post.2.2.progress cb "Restore" "Complete" 100
                   else post.2.2)) ∧
    clean_ctx.skip_all_errors = pre.2.1 ∧
    (pre.2.1 = true → cleaned.2.1.skip_all_errors = true) ∧
    (cleaned.2.1.skip_all_errors = true →
      ctx.skip_all_errors = true ∧ loop.2.1.skip_all_errors = true ∧ post.2.1 = true ∧
      (simulate = false → post.1 = true ∧
        ∃ T, post.2.2.trace = loop.2.2.trace ++ T ∧ ∀ e ∈ T, e.is_on_error = false)) := by
  intro opened s1 pre clean_ctx cleaned ctx loop post
  refine ⟨?_, rfl, ?_, ?_⟩
  · intro ho hp hc hl
    have ho1 : ¬ opened.1 = false := by rw [ho]; simp
    have hp1 : ¬ pre.1 = false := by rw [hp]; simp
    have hc1 : ¬ cleaned.1 = false := by rw [hc]; simp
    have hl1 : ¬ loop.1 = false := by rw [hl]; simp
    show orchestrator.restore impl arch (some bp) archive_path cb simulate s = _
    simp only [orchestrator.restore]
    rw [if_neg ho1, if_neg hp1, if_neg hc1, if_neg hl1]
    by_cases hpost : post.1 = true
    · have hpost1 : ¬ post.1 = false := by rw [hpost]; simp
      rw [if_neg hpost1, if_pos hpost, hpost]
    · have hpost1 : post.1 = false := by simpa using hpost
      rw [if_pos hpost1, if_neg hpost, hpost1]
  · intro hpre
    exact clean_actions_keeps impl hk _ clean_ctx pre.2.2 hpre
  · intro hcl
    have h1 : ctx.skip_all_errors = true := hcl
    have h2 : loop.2.1.skip_all_errors = true :=
      restore_actions_keeps impl hk _ 0 ctx cleaned.2.2 h1
    obtain ⟨T, k, hT, _, _, _, _, hskip⟩ :=
      run_hooks_loop_order impl bp.resolved_variables .PostRestore cb (bp.hooks .PostRestore) 0
        loop.2.1.skip_all_errors loop.2.2
    obtain ⟨ha, hb, hc⟩ := hskip h2
    refine ⟨h1, h2, ?_, ?_⟩
    · show (if simulate then (true, loop.2.1.skip_all_errors, loop.2.2)
        else run_hooks impl bp .PostRestore cb loop.2.1.skip_all_errors loop.2.2).2.1 = true
      split
      · exact h2
      · exact hb
    · intro hsim
      have hpost : post = run_hooks impl bp .PostRestore cb loop.2.1.skip_all_errors loop.2.2 := by
        show (if simulate then (true, loop.2.1.skip_all_errors, loop.2.2)
          else run_hooks impl bp .PostRestore cb loop.2.1.skip_all_errors loop.2.2) = _
        rw [hsim]; simp
      rw [hpost]
      exact ⟨ha, T, hT, hc⟩

/-- C12 (witness): on `locked_registry` with a callback that answers `SkipAll`, the
flag is set by the first failed clean and stays set to the end. -/
theorem restore_carries_skip_all_witness :
    Registry.impl.keeps_skip_all ∧
    (let opened := (constant_archive Registry "absent").open_reader "app.zip" locked_registry
     let s1 : Sys Registry := ⟨opened.2, [] ++ [Event.reader_open opened.1]⟩
     let pre : Bool × Bool × Sys Registry :=
       if false then (true, false, s1)
       else run_hooks Registry.impl locked_blueprint .PreRestore
         (some (SkipAllCallback Registry)) false s1
     let clean_ctx :=
       ((ActionContext.for_clean (some (SkipAllCallback Registry))).set_skip_all_errors
         pre.2.1).set_simulate false
     let cleaned := clean_actions Registry.impl (reverse_indexed locked_blueprint.actions)
       clean_ctx pre.2.2
     let ctx :=
       ((ActionContext.for_restore (constant_archive Registry "absent").reader
         (some (SkipAllCallback Registry))).set_skip_all_errors
         cleaned.2.1.skip_all_errors).set_simulate false
     let loop := restore_actions Registry.impl locked_blueprint.actions 0 ctx cleaned.2.2
     let post : Bool × Bool × Sys Registry :=
       if false then (true, loop.2.1.skip_all_errors, loop.2.2)
       else run_hooks Registry.impl locked_blueprint .PostRestore
         (some (SkipAllCallback Registry)) loop.2.1.skip_all_errors loop.2.2
     (opened.1 = true → pre.1 = true → cleaned.1 = true → loop.1 = true →
       orchestrator.restore Registry.impl (constant_archive Registry "absent")
           (some locked_blueprint) "app.zip" (some (SkipAllCallback Registry)) false
           ⟨locked_registry, []⟩
         = (post.1, if post.1 = true then
                      post.2.2.progress (some (SkipAllCallback Registry)) "Restore" "Complete" 100
                    else post.2.2)) ∧
     clean_ctx.skip_all_errors = pre.2.1 ∧
     (pre.2.1 = true → cleaned.2.1.skip_all_errors = true) ∧
     (cleaned.2.1.skip_all_errors = true →
       ctx.skip_all_errors = true ∧ loop.2.1.skip_all_errors = true ∧ post.2.1 = true ∧
       (false = false → post.1 = true ∧
         ∃ T, post.2.2.trace = loop.2.2.trace ++ T ∧ ∀ e ∈ T, e.is_on_error = false))) ∧
    (clean_actions Registry.impl (reverse_indexed locked_blueprint.actions)
      (((ActionContext.for_clean (some (SkipAllCallback Registry))).set_skip_all_errors
        false).set_simulate false) ⟨locked_registry, [Event.reader_open true]⟩).2.1.skip_all_errors
      = true :=
  ⟨Registry_impl_keeps,
    restore_carries_skip_all Registry.impl Registry_impl_keeps (constant_archive Registry "absent")
      locked_blueprint "app.zip" (some (SkipAllCallback Registry)) false ⟨locked_registry, []⟩,
    by decide⟩

/-! ## The insert position of a `<delimited>` element -/

/-- C19 (fails on the code): `parse_xml` never reads the `insert` attribute.  The
element `prepend_node` carries `insert="prepend"` and becomes an action with
`Append`: `to_params` writes `insert="append"` for it, and its restore puts
the new entry at the back of the list. -/
theorem parse_delimited_ignores_insert :
    parse_resource prepend_node
      = some (some (Action.DelimitedEntry "HKCU\\Environment" "Path" "C:\\Tools" "env/path" ";"
          InsertPosition.Append "")) ∧
    var_find (Action.DelimitedEntry "HKCU\\Environment" "Path" "C:\\Tools" "env/path" ";"
          InsertPosition.Append "").to_params "insert" = some "append" ∧
    (Registry.impl.restore
        (Action.DelimitedEntry "HKCU\\Environment" "Path" "C:\\Tools" "env/path" ";"
          InsertPosition.Append "")
        ⟨ActionContext.for_restore (constant_archive Registry "present").reader none,
         ⟨[(("HKCU\\Environment", "Path"), "C:\\Windows")], false⟩, []⟩).2.world
      = ⟨[(("HKCU\\Environment", "Path"), "C:\\Windows;C:\\Tools")], false⟩ := by
  decide

/-- C17 (fails on the code): `remove_from_list` erases the first match only.  With
the list `C:\Tools;C:\Windows;c:\tools` the clean of the entry `C:\Tools`
returns `true`, and so does a restore with the marker `absent`, and afterwards
`is_in_list` still finds the entry.  The loop of the multi-string action keeps
no match of the same list. -/
theorem remove_leaves_second_occurrence :
    (IAction.clean Registry.impl
        (Action.DelimitedEntry "HKCU\\Environment" "Path" "C:\\Tools" "env/path" ";"
          InsertPosition.Append "")
        ⟨ActionContext.for_clean none,
         ⟨[(("HKCU\\Environment", "Path"), "C:\\Tools;C:\\Windows;c:\\tools")], false⟩, []⟩).1
      = true ∧
    (IAction.clean Registry.impl
        (Action.DelimitedEntry "HKCU\\Environment" "Path" "C:\\Tools" "env/path" ";"
          InsertPosition.Append "")
        ⟨ActionContext.for_clean none,
         ⟨[(("HKCU\\Environment", "Path"), "C:\\Tools;C:\\Windows;c:\\tools")], false⟩, []⟩).2.world
      = ⟨[(("HKCU\\Environment", "Path"), "C:\\Windows;c:\\tools")], false⟩ ∧
    (Registry.impl.restore
        (Action.DelimitedEntry "HKCU\\Environment" "Path" "C:\\Tools" "env/path" ";"
          InsertPosition.Append "")
        ⟨ActionContext.for_restore (constant_archive Registry "absent").reader none,
         ⟨[(("HKCU\\Environment", "Path"), "C:\\Tools;C:\\Windows;c:\\tools")], false⟩, []⟩).1
      = true ∧
    (Registry.impl.restore
        (Action.DelimitedEntry "HKCU\\Environment" "Path" "C:\\Tools" "env/path" ";"
          InsertPosition.Append "")
        ⟨ActionContext.for_restore (constant_archive Registry "absent").reader none,
         ⟨[(("HKCU\\Environment", "Path"), "C:\\Tools;C:\\Windows;c:\\tools")], false⟩, []⟩).2.world
      = ⟨[(("HKCU\\Environment", "Path"), "C:\\Windows;c:\\tools")], false⟩ ∧
    DelimitedEntryAction.is_in_list Registry.access
        ⟨"HKCU\\Environment", "Path", "C:\\Tools", "env/path", ";", InsertPosition.Append⟩
        ⟨[(("HKCU\\Environment", "Path"), "C:\\Windows;c:\\tools")], false⟩ = true ∧
    MultiStringEntryAction.filtered "C:\\Tools" ["C:\\Tools", "C:\\Windows", "c:\\tools"]
      = ["C:\\Windows"] := by
  decide

/-! ## Writing a blueprint and reading it back -/

theorem resolve_pass_find (k : String) : ∀ (l : List (String × String)) (m : VarMap) (c : Bool),
    (∀ p ∈ l, p.1 ≠ k) → var_find (resolve_pass l m c).1 k = var_find m k := by
  intro l
  induction l with
  | nil => intro m c _; rfl
  | cons p rest ih =>
    intro m c h
    obtain ⟨name, v⟩ := p
    simp only [resolve_pass]
    have hne : name ≠ k := h (name, v) (by simp)
    have hrest : ∀ p ∈ rest, p.1 ≠ k := fun p hp => h p (by simp [hp])
    split
    · rw [ih _ _ hrest, var_find_set_ne _ _ _ _ hne]
    · exact ih _ _ hrest

theorem resolve_loop_find (k : String) (l : List (String × String)) (h : ∀ p ∈ l, p.1 ≠ k) :
    ∀ (n : Nat) (m : VarMap), var_find (resolve_loop l n m).2 k = var_find m k := by
  intro n
  induction n with
  | zero => intro m; rfl
  | succ n ih =>
    intro m
    simp only [resolve_loop]
    split
    · exact resolve_pass_find k l m false h
    · rw [ih, resolve_pass_find k l m false h]

/-- Resolution only touches the user variables. -/
theorem resolve_user_variables_find (b u : VarMap) (k : String) (h : ∀ p ∈ u, p.1 ≠ k) :
    var_find (resolve_user_variables b u).2 k = var_find (add_user_variables b u) k := by
  simp only [resolve_user_variables]
  split
  · exact resolve_loop_find k u h _ _
  · split <;> exact resolve_loop_find k u h _ _

theorem resolve_user_variables_congr (b1 b2 u : VarMap)
    (h : add_user_variables b1 u = add_user_variables b2 u) :
    resolve_user_variables b1 u = resolve_user_variables b2 u := by
  simp only [resolve_user_variables, h]

theorem not_mem_of_var_find_none (u : VarMap) (hu : var_sorted u) (k : String)
    (h : var_find u k = none) : ∀ p ∈ u, p.1 ≠ k := by
  intro p hp hk
  have := var_find_of_mem u hu p hp
  rw [hk, h] at this
  cases this

/-- A key that is no user variable resolves to its builtin value. -/
theorem resolved_find_builtin (b u : VarMap) (hu : var_sorted u) (k : String)
    (h : var_find u k = none) :
    var_find (resolve_user_variables b u).2 k = var_find b k := by
  rw [resolve_user_variables_find b u k (not_mem_of_var_find_none u hu k h),
    var_find_add_user b u hu k, h]
  rfl

/-- The builtins that a second parse sets up from the resolved name, version
and description give the same starting map for resolution. -/
theorem builtins_rebuilt (b u : VarMap) (name version : String) (desc : Option String)
    (hb : var_sorted b) (hu : var_sorted u)
    (hd : var_find (var_set_opt (var_set (var_set b VAR_PROJECT_NAME name)
        VAR_PROJECT_VERSION version) VAR_PROJECT_DESCRIPTION desc) VAR_PROJECT_DESCRIPTION
          ≠ some "")
    (R : VarMap)
    (hR : R = (resolve_user_variables (var_set_opt (var_set (var_set b VAR_PROJECT_NAME name)
        VAR_PROJECT_VERSION version) VAR_PROJECT_DESCRIPTION desc) u).2) :
    add_user_variables
        (var_set_opt (var_set (var_set b VAR_PROJECT_NAME (var_get R VAR_PROJECT_NAME))
          VAR_PROJECT_VERSION (var_get R VAR_PROJECT_VERSION)) VAR_PROJECT_DESCRIPTION
          (if var_get R VAR_PROJECT_DESCRIPTION = "" then none
            else some (var_get R VAR_PROJECT_DESCRIPTION))) u
      = add_user_variables
        (var_set_opt (var_set (var_set b VAR_PROJECT_NAME name)
          VAR_PROJECT_VERSION version) VAR_PROJECT_DESCRIPTION desc) u := by
  have hs2 : ∀ n v, var_sorted (var_set (var_set b VAR_PROJECT_NAME n) VAR_PROJECT_VERSION v) :=
    fun n v => var_sorted_set _ _ _ (var_sorted_set _ _ _ hb)
  apply var_sorted_ext _ _ (add_user_variables_sorted _ _ (var_sorted_set_opt _ _ _ (hs2 _ _)))
    (add_user_variables_sorted _ _ (var_sorted_set_opt _ _ _ (hs2 _ _)))
  intro k
  rw [var_find_add_user _ u hu, var_find_add_user _ u hu]
  cases hk : var_find u k with
  | some v => rfl
  | none =>
    simp only [Option.orElse]
    have hRk : ∀ k, var_find u k = none → var_get R k = (var_find (var_set_opt (var_set
        (var_set b VAR_PROJECT_NAME name) VAR_PROJECT_VERSION version)
          VAR_PROJECT_DESCRIPTION desc) k).getD "" := by
      intro k hk
      rw [hR, var_get, resolved_find_builtin _ u hu k hk]
    have hnv : VAR_PROJECT_NAME ≠ VAR_PROJECT_VERSION := by decide
    have hnd : VAR_PROJECT_NAME ≠ VAR_PROJECT_DESCRIPTION := by decide
    have hvd : VAR_PROJECT_VERSION ≠ VAR_PROJECT_DESCRIPTION := by decide
    by_cases h1 : k = VAR_PROJECT_DESCRIPTION
    · subst h1
      rw [hRk _ hk]
      cases desc with
      | some d =>
        have hd0 : d ≠ "" := by
          intro h0; apply hd; simp [var_set_opt, var_find_set_eq, h0]
        simp [var_set_opt, var_find_set_eq, hd0]
      | none =>
        simp only [var_set_opt] at hd ⊢
        cases hf : var_find (var_set (var_set b VAR_PROJECT_NAME name) VAR_PROJECT_VERSION
            version) VAR_PROJECT_DESCRIPTION with
        | none =>
          simp only [Option.getD_none, if_true]
          rw [var_find_set_ne _ _ _ _ hvd, var_find_set_ne _ _ _ _ hnd] at hf ⊢
          exact hf
        | some d =>
          have hd0 : d ≠ "" := by
            intro h0; apply hd; rw [hf, h0]
          simp [hd0, var_find_set_eq]
    · have hset : ∀ m o, var_find (var_set_opt m VAR_PROJECT_DESCRIPTION o) k = var_find m k := by
        intro m o
        cases o with
        | none => rfl
        | some d => exact var_find_set_ne _ _ _ _ (fun h => h1 h.symm)
      rw [hset, hset]
      by_cases h2 : k = VAR_PROJECT_VERSION
      · subst h2
        rw [var_find_set_eq, var_find_set_eq, hRk _ hk, hset, var_find_set_eq]
        rfl
      · rw [var_find_set_ne _ _ _ _ (fun h => h2 h.symm),
          var_find_set_ne _ _ _ _ (fun h => h2 h.symm)]
        by_cases h3 : k = VAR_PROJECT_NAME
        · subst h3
          rw [var_find_set_eq, var_find_set_eq, hRk _ hk, hset,
            var_find_set_ne _ _ _ _ hnv.symm, var_find_set_eq]
          rfl
        · rw [var_find_set_ne _ _ _ _ (fun h => h3 h.symm),
            var_find_set_ne _ _ _ _ (fun h => h3 h.symm)]

theorem hooks_in_order_filter (bp : Blueprint) (q : Phase) :
    ((hooks_in_order bp).filter (fun x => x.1 = q)).map Prod.snd = bp.hooks q := by
  cases q <;>
    simp [hooks_in_order, Phase.all, List.flatMap, List.filter_append, List.filter_map,
      Function.comp_def]

theorem hooks_rebuilt (bp : Blueprint) :
    (hooks_in_order bp).foldl (fun acc x => push_hook acc x.1 x.2) (fun _ => []) = bp.hooks := by
  funext q
  rw [foldl_push_hook, hooks_in_order_filter]
  rfl

theorem hooks_in_order_nil (bp : Blueprint)
    (h : ¬ Phase.all.any (fun p => !(bp.hooks p).isEmpty) = true) : hooks_in_order bp = [] := by
  simp [Phase.all] at h
  simp [hooks_in_order, Phase.all, List.flatMap, h]

theorem mem_hooks_in_order (bp : Blueprint) (x : Phase × Hook) (hx : x ∈ hooks_in_order bp) :
    x.2 ∈ bp.hooks x.1 := by
  simp only [hooks_in_order, List.mem_flatMap, List.mem_map] at hx
  obtain ⟨p, _, hk, hk1, rfl⟩ := hx
  exact hk1

theorem children_named_var (l : List (String × String)) :
    (XmlNode.mk "variables" [] "" (l.map var_to_node)).children_named "var"
      = l.map var_to_node := by
  simp only [XmlNode.children_named, XmlNode.children]
  apply List.filter_eq_self.mpr
  intro a ha
  obtain ⟨p, _, rfl⟩ := List.mem_map.mp ha
  simp [var_to_node, XmlNode.name]

theorem eq_some_getD {α : Type} (o : Option α) (d : α) (h : o.isSome = true) :
    o = some (o.getD d) := by
  cases o with
  | none => cases h
  | some x => rfl

/-! ## Backup of an absent entry, then restore -/

theorem erase_first_nocase_none (entry : String) (entries : List String)
    (h : entries.any (fun e => equals_nocase e entry) = false) :
    DelimitedEntryAction.erase_first_nocase entry entries = none := by
  induction entries with
  | nil => rfl
  | cons e rest ih =>
    simp only [List.any_cons, Bool.or_eq_false_iff] at h
    simp [DelimitedEntryAction.erase_first_nocase, h.1, ih h.2]

theorem remove_from_list_absent (reg : RegistryAccess W) (a : DelimitedEntryAction) (w : W)
    (h : a.is_in_list reg w = false) : a.remove_from_list reg w = (true, w) := by
  simp only [DelimitedEntryAction.remove_from_list]
  rw [erase_first_nocase_none _ _ h]

/-- C16 (counterexample): on `plain_machine`, whose list does not hold `C:\Tools`, the
backup stores the marker `absent`, and after two restores from that snapshot
the list is `C:\Windows` and does not contain the entry. -/
theorem absent_entry_stays_absent :
    tools_entry.is_in_list Machine.access plain_machine = false ∧
    (tools_entry.restore Machine.access "d"
      ⟨ActionContext.for_restore Machine.reader none,
       (tools_entry.restore Machine.access "d"
         ⟨ActionContext.for_restore Machine.reader none,
          (tools_entry.backup Machine.access "d"
            ⟨ActionContext.for_backup Machine.writer none, plain_machine, []⟩).2.world,
          []⟩).2.world,
       []⟩).2.world
      = ⟨⟨[(("HKCU\\Environment", "Path"), "C:\\Windows")], false⟩, [("env/path", "absent")]⟩ ∧
    (split_stripped "C:\\Windows" ";").count "C:\\Tools" = 0 := by
  decide

theorem restore_absent_marker (a : DelimitedEntryAction) (description : String)
    (cb : Option (IActionCallback Machine))
    (hcb : ∀ c, cb = some c → ∀ p d n w, c.on_progress p d n w = w)
    (m : Machine) (ev : List CbEvent)
    (hm : var_find m.archive a.archive_path = some "absent")
    (h : a.is_in_list Machine.access m = false) :
    (a.restore Machine.access description
        ⟨ActionContext.for_restore Machine.reader cb, m, ev⟩).1 = true ∧
    (a.restore Machine.access description
        ⟨ActionContext.for_restore Machine.reader cb, m, ev⟩).2.world = m := by
  have hne : ¬ ("absent" : String) = "present" := by decide
  cases cb with
  | none =>
    simp [DelimitedEntryAction.restore, check_archive_exists, ActionContext.for_restore,
      Machine.reader, hm, var_get, hne, remove_from_list_absent _ _ _ h]
  | some c =>
    have hc := hcb c rfl
    simp [DelimitedEntryAction.restore, check_archive_exists, ActionContext.for_restore,
      Machine.reader, hm, var_get, hne, remove_from_list_absent _ _ _ h, Exec.on_progress, hc]

/-- C16 (amended): on a machine whose snapshot stores what is written to it, the backup
of a list entry that is absent from the list stores the marker `absent`, and
two restores in a row from that snapshot both return `true` and leave the
registry as it was: the list still does not contain the entry.  The callback,
if there is one, is one whose `on_progress` leaves the machine alone. -/
theorem backup_absent_then_restore_twice (a : DelimitedEntryAction) (description : String)
    (cb : Option (IActionCallback Machine))
    (hcb : ∀ c, cb = some c → ∀ p d n w, c.on_progress p d n w = w)
    (m : Machine) (h : a.is_in_list Machine.access m = false) :
    let b := a.backup Machine.access description
      ⟨ActionContext.for_backup Machine.writer cb, m, []⟩
    let r1 := a.restore Machine.access description
      ⟨ActionContext.for_restore Machine.reader cb, b.2.world, []⟩
    let r2 := a.restore Machine.access description
      ⟨ActionContext.for_restore Machine.reader cb, r1.2.world, []⟩
    b.1 = true ∧ var_find b.2.world.archive a.archive_path = some "absent" ∧
    r1.1 = true ∧ r2.1 = true ∧
    r2.2.world.registry = m.registry ∧
    a.is_in_list Machine.access r2.2.world = false := by
  intro b r1 r2
  have hb : b.1 = true ∧ b.2.world = { m with archive := var_set m.archive a.archive_path "absent" } := by
    show (a.backup Machine.access description
      ⟨ActionContext.for_backup Machine.writer cb, m, []⟩).1 = true ∧
      (a.backup Machine.access description
      ⟨ActionContext.for_backup Machine.writer cb, m, []⟩).2.world = _
    cases cb with
    | none =>
      simp [DelimitedEntryAction.backup, ActionContext.for_backup, Machine.writer, h]
    | some c =>
      have hc := hcb c rfl
      simp [DelimitedEntryAction.backup, ActionContext.for_backup, Machine.writer, h,
        Exec.on_progress, hc]
  have hm : var_find b.2.world.archive a.archive_path = some "absent" := by
    rw [hb.2]; exact var_find_set_eq _ _ _
  have hin : a.is_in_list Machine.access b.2.world = false := by
    rw [hb.2]; exact h
  have h1 := restore_absent_marker a description cb hcb b.2.world [] hm hin
  have h2 : r2.1 = true ∧ r2.2.world = b.2.world := by
    have := restore_absent_marker a description cb hcb b.2.world [] hm hin
    show (a.restore Machine.access description
        ⟨ActionContext.for_restore Machine.reader cb, r1.2.world, []⟩).1 = true ∧
      (a.restore Machine.access description
        ⟨ActionContext.for_restore Machine.reader cb, r1.2.world, []⟩).2.world = _
    have e1 : r1.2.world = b.2.world := h1.2
    rw [e1]
    exact this
  refine ⟨hb.1, hm, h1.1, h2.1, ?_, ?_⟩
  · rw [h2.2, hb.2]
  · rw [h2.2]; exact hin

/-- C16 (witness): the amended property on `plain_machine` for `tools_entry`, with the
always-Continue callback. -/
theorem backup_absent_then_restore_twice_witness :
    tools_entry.is_in_list Machine.access plain_machine = false ∧
    (let b := tools_entry.backup Machine.access "Path entry"
      ⟨ActionContext.for_backup Machine.writer (some (ContinueCallback Machine)),
        plain_machine, []⟩
     let r1 := tools_entry.restore Machine.access "Path entry"
      ⟨ActionContext.for_restore Machine.reader (some (ContinueCallback Machine)),
        b.2.world, []⟩
     let r2 := tools_entry.restore Machine.access "Path entry"
      ⟨ActionContext.for_restore Machine.reader (some (ContinueCallback Machine)),
        r1.2.world, []⟩
     b.1 = true ∧ var_find b.2.world.archive tools_entry.archive_path = some "absent" ∧
     r1.1 = true ∧ r2.1 = true ∧
     r2.2.world.registry = plain_machine.registry ∧
     tools_entry.is_in_list Machine.access r2.2.world = false) :=
  ⟨by decide,
    backup_absent_then_restore_twice tools_entry "Path entry" (some (ContinueCallback Machine))
      (fun c hc p d n w => by cases hc; rfl) plain_machine (by decide)⟩

/-! ## Splitting what `join` wrote -/

theorem intercalate_go_data (d : String) (l : List String) :
    ∀ acc : String, (String.intercalate.go acc d l).data
      = acc.data ++ (l.map (fun a => d.data ++ a.data)).flatten := by
  induction l with
  | nil => intro acc; simp [String.intercalate.go]
  | cons a rest ih =>
    intro acc
    simp [String.intercalate.go, ih, String.data_append]

theorem join_data_cons (a : String) (rest : List String) (d : String) :
    (join (a :: rest) d).data = a.data ++ (rest.map (fun x => d.data ++ x.data)).flatten := by
  simp [join, String.intercalate, intercalate_go_data]

theorem split_chars_clean (seps : List Char) (u : List Char) (hu : ∀ c ∈ u, c ∉ seps) :
    ∀ (t acc : List Char), split_chars seps (u ++ t) acc = split_chars seps t (acc ++ u) := by
  induction u with
  | nil => intro t acc; simp
  | cons c rest ih =>
    intro t acc
    have hc : c ∉ seps := hu c (by simp)
    simp only [List.cons_append, split_chars, if_neg hc]
    show split_chars seps (rest ++ t) (acc ++ [c]) = _
    rw [ih (fun x hx => hu x (by simp [hx]))]
    simp

theorem split_stripped_eq (text delimiter : String) :
    split_stripped text delimiter = kept_pieces (split_chars delimiter.data text.data []) := rfl

theorem kept_pieces_nil_cons (X : List (List Char)) : kept_pieces ([] :: X) = kept_pieces X := by
  simp [kept_pieces, strip]

theorem kept_pieces_ok_cons (p : List Char) (X : List (List Char)) (h1 : strip p = p)
    (h2 : p ≠ []) : kept_pieces (p :: X) = String.mk p :: kept_pieces X := by
  have : p.isEmpty = false := by cases p <;> simp_all
  simp [kept_pieces, h1, this]

theorem kept_pieces_cons (p : List Char) (X : List (List Char)) :
    kept_pieces (p :: X) = kept_pieces [p] ++ kept_pieces X := by
  have : p :: X = [p] ++ X := rfl
  rw [this]
  simp only [kept_pieces, List.map_append, List.filter_append]

theorem split_chars_sep (seps : List Char) (c : Char) (hc : c ∈ seps) (t acc : List Char) :
    split_chars seps (c :: t) acc = acc :: split_chars seps t [] := by
  simp [split_chars, hc]

theorem kept_split_seps (seps : List Char) (ds : List Char) (hds : ∀ c ∈ ds, c ∈ seps) :
    ∀ t, kept_pieces (split_chars seps (ds ++ t) []) = kept_pieces (split_chars seps t []) := by
  induction ds with
  | nil => intro t; rfl
  | cons c rest ih =>
    intro t
    rw [List.cons_append, split_chars_sep seps c (hds c (by simp)), kept_pieces_nil_cons]
    exact ih (fun x hx => hds x (by simp [hx])) t

/-- Splitting a text made of delimiter-free entries, each led in by the
delimiter, gives the entries back. -/
theorem kept_split_entries (d : String) (hd : d.data ≠ []) (l : List String)
    (hl : ∀ x ∈ l, list_entry_ok d x) :
    ∀ acc : List Char, (∀ c ∈ acc, c ∉ d.data) →
      kept_pieces (split_chars d.data ((l.map (fun a => d.data ++ a.data)).flatten) acc)
        = kept_pieces [acc] ++ l := by
  induction l with
  | nil => intro acc _; simp [split_chars]
  | cons a rest ih =>
    intro acc hacc
    obtain ⟨h1, h2, h3⟩ := hl a (by simp)
    obtain ⟨c, cs, hcs⟩ := List.exists_cons_of_ne_nil hd
    have hc : c ∈ d.data := by rw [hcs]; simp
    have hcsm : ∀ x ∈ cs, x ∈ d.data := fun x hx => by rw [hcs]; simp [hx]
    simp only [List.map_cons, List.flatten_cons]
    rw [hcs, List.cons_append, List.cons_append, ← hcs, split_chars_sep d.data c hc]
    rw [kept_pieces_cons, List.append_assoc cs, kept_split_seps d.data cs hcsm,
      split_chars_clean d.data a.data h2, List.nil_append,
      ih (fun x hx => hl x (by simp [hx])) a.data h2, kept_pieces_ok_cons a.data [] h3 h1]
    simp [kept_pieces]

theorem split_stripped_join (d : String) (hd : d.data ≠ []) (l : List String)
    (hl : ∀ x ∈ l, list_entry_ok d x) : split_stripped (join l d) d = l := by
  rw [split_stripped_eq]
  cases l with
  | nil => simp [join, String.intercalate, split_chars, kept_pieces, strip]
  | cons a rest =>
    obtain ⟨h1, h2, h3⟩ := hl a (by simp)
    rw [join_data_cons, split_chars_clean d.data a.data h2, List.nil_append,
      kept_split_entries d hd rest (fun x hx => hl x (by simp [hx])) a.data h2,
      kept_pieces_ok_cons a.data [] h3 h1]
    simp [kept_pieces]

/-! ## What `split_stripped` returns -/

theorem strip_eq (s : List Char) :
    strip s = (s.dropWhile Char.isWhitespace).rdropWhile Char.isWhitespace := rfl

theorem dropWhile_head_not {α : Type} (p : α → Bool) (s : List α) (r : α) (X : List α)
    (h : s.dropWhile p = r :: X) : p r = false := by
  have := List.head?_dropWhile_not p s
  rw [h] at this
  simpa using this

theorem strip_idem (s : List Char) : strip (strip s) = strip s := by
  rw [strip_eq, strip_eq]
  have h : ((s.dropWhile Char.isWhitespace).rdropWhile Char.isWhitespace).dropWhile
      Char.isWhitespace = (s.dropWhile Char.isWhitespace).rdropWhile Char.isWhitespace := by
    obtain ⟨t, ht⟩ := List.rdropWhile_prefix Char.isWhitespace
      (s.dropWhile Char.isWhitespace)
    cases hR : (s.dropWhile Char.isWhitespace).rdropWhile Char.isWhitespace with
    | nil => rfl
    | cons r R =>
      rw [hR] at ht
      have hr : Char.isWhitespace r = false :=
        dropWhile_head_not Char.isWhitespace s r (R ++ t) ht.symm
      simp [List.dropWhile, hr]
  rw [h, List.rdropWhile_idempotent]

theorem strip_subset (s : List Char) : ∀ c ∈ strip s, c ∈ s := by
  intro c hc
  rw [strip_eq] at hc
  exact List.dropWhile_subset _ ((List.rdropWhile_prefix Char.isWhitespace _).subset hc)

theorem split_chars_pieces_clean (seps : List Char) :
    ∀ (t acc : List Char), (∀ c ∈ acc, c ∉ seps) →
      ∀ p ∈ split_chars seps t acc, ∀ c ∈ p, c ∉ seps := by
  intro t
  induction t with
  | nil =>
    intro acc hacc p hp
    simp only [split_chars, List.mem_singleton] at hp
    subst hp; exact hacc
  | cons x rest ih =>
    intro acc hacc p hp
    simp only [split_chars] at hp
    split at hp
    · simp only [List.mem_cons] at hp
      rcases hp with hp | hp
      · subst hp; exact hacc
      · exact ih [] (by simp) p hp
    · rename_i hx
      refine ih (acc ++ [x]) ?_ p hp
      intro c hc
      simp only [List.mem_append, List.mem_singleton] at hc
      rcases hc with hc | hc
      · exact hacc c hc
      · subst hc; exact hx

theorem split_stripped_ok (text d : String) : ∀ x ∈ split_stripped text d, list_entry_ok d x := by
  intro x hx
  rw [split_stripped_eq] at hx
  simp only [kept_pieces, List.mem_map, List.mem_filter] at hx
  obtain ⟨q, ⟨⟨p, hp, rfl⟩, hne⟩, rfl⟩ := hx
  refine ⟨?_, ?_, ?_⟩
  · intro h
    simp only at h
    rw [h] at hne
    simp at hne
  · intro c hc
    exact split_chars_pieces_clean d.data text.data [] (by simp) p hp c (strip_subset p c hc)
  · exact strip_idem p

/-! ## Restoring a present entry twice -/

theorem eq_nocase_list_refl (l : List Char) : eq_nocase_list l l = true := by
  induction l with
  | nil => rfl
  | cons c rest ih => simp [eq_nocase_list, eq_nocase, ih]

theorem equals_nocase_refl (e : String) : equals_nocase e e = true := eq_nocase_list_refl _

theorem restore_present_marker (reg : RegistryAccess W) (a : DelimitedEntryAction)
    (description : String) (rd : SnapshotReader W) (cb : Option (IActionCallback W))
    (hcb : ∀ c, cb = some c → ∀ p d n w, c.on_progress p d n w = w)
    (hex : ∀ w, rd.path_exists a.archive_path w = true)
    (hrd : ∀ w, rd.read_text a.archive_path w = "present")
    (w : W) (ev : List CbEvent) (hw : (a.add_to_list reg w).1 = true) :
    (a.restore reg description ⟨ActionContext.for_restore rd cb, w, ev⟩).1 = true ∧
    (a.restore reg description ⟨ActionContext.for_restore rd cb, w, ev⟩).2.world
      = (a.add_to_list reg w).2 := by
  cases cb with
  | none =>
    simp [DelimitedEntryAction.restore, check_archive_exists, ActionContext.for_restore,
      hex, hrd, hw]
  | some c =>
    have hc := hcb c rfl
    simp [DelimitedEntryAction.restore, check_archive_exists, ActionContext.for_restore,
      hex, hrd, hw, Exec.on_progress, hc]

theorem add_to_list_present (reg : RegistryAccess W) (a : DelimitedEntryAction) (w : W)
    (h : a.is_in_list reg w = true) : a.add_to_list reg w = (true, w) := by
  simp [DelimitedEntryAction.add_to_list, h]

/-- The list after `add_to_list` has written it. -/
theorem add_to_list_absent (reg : RegistryAccess W) (hreg : reg.faithful)
    (a : DelimitedEntryAction) (hd : a.delimiter.data ≠ [])
    (he : list_entry_ok a.delimiter a.entry) (w : W)
    (h : a.is_in_list reg w = false) (hw : (a.add_to_list reg w).1 = true) :
    split_stripped (reg.read_value a.key a.value_name (a.add_to_list reg w).2) a.delimiter
      = (if a.insert_pos = InsertPosition.Prepend
          then a.entry :: split_stripped (reg.read_value a.key a.value_name w) a.delimiter
          else split_stripped (reg.read_value a.key a.value_name w) a.delimiter ++ [a.entry]) := by
  simp only [DelimitedEntryAction.add_to_list, h, Bool.false_eq_true, if_false] at hw ⊢
  rw [hreg _ _ _ _ hw]
  apply split_stripped_join _ hd
  intro x hx
  split at hx
  · simp only [List.mem_cons] at hx
    rcases hx with hx | hx
    · subst hx; exact he
    · exact split_stripped_ok _ _ x hx
  · simp only [List.mem_append, List.mem_singleton] at hx
    rcases hx with hx | hx
    · exact split_stripped_ok _ _ x hx
    · subst hx; exact he

theorem Registry_access_faithful : Registry.access.faithful := by
  intro key value_name data r h
  simp only [Registry.access] at h ⊢
  by_cases hr : r.read_only = true
  · simp [hr] at h
  · simp [hr, Registry.get, Registry.put, List.find?]

/-- C18 (amended): for an entry that is one list element (`list_entry_ok`), a delimiter
that is not empty and a registry that reads back what was written, two restores
with the marker `present` whose list change succeeds both return `true`, and
the second one finds the entry in the list and leaves the system as the first
one left it.  If the entry was in the list the first one changes nothing
either; if not, the list afterwards is the old one with the entry in front
(`Prepend`) or at the back (`Append`), and the entry is its only element equal
to the entry ignoring case. -/
theorem restore_present_twice (reg : RegistryAccess W) (hreg : reg.faithful)
    (a : DelimitedEntryAction) (description : String) (rd : SnapshotReader W)
    (cb : Option (IActionCallback W))
    (hcb : ∀ c, cb = some c → ∀ p d n w, c.on_progress p d n w = w)
    (hex : ∀ w, rd.path_exists a.archive_path w = true)
    (hrd : ∀ w, rd.read_text a.archive_path w = "present")
    (hd : a.delimiter.data ≠ []) (he : list_entry_ok a.delimiter a.entry)
    (w : W) (hw : (a.add_to_list reg w).1 = true) :
    let r1 := a.restore reg description ⟨ActionContext.for_restore rd cb, w, []⟩
    let r2 := a.restore reg description ⟨ActionContext.for_restore rd cb, r1.2.world, []⟩
    let before := split_stripped (reg.read_value a.key a.value_name w) a.delimiter
    let after := split_stripped (reg.read_value a.key a.value_name r2.2.world) a.delimiter
    r1.1 = true ∧ r2.1 = true ∧ a.is_in_list reg r1.2.world = true ∧
    r2.2.world = r1.2.world ∧
    (a.is_in_list reg w = true → r1.2.world = w) ∧
    (a.is_in_list reg w = false →
      after = (if a.insert_pos = InsertPosition.Prepend then a.entry :: before
               else before ++ [a.entry]) ∧
      after.filter (fun x => equals_nocase x a.entry) = [a.entry]) := by
  intro r1 r2 before after
  obtain ⟨h1a, h1b⟩ := restore_present_marker reg a description rd cb hcb hex hrd w [] hw
  have hr1 : r1.2.world = (a.add_to_list reg w).2 := h1b
  have hlist : a.is_in_list reg w = false →
      split_stripped (reg.read_value a.key a.value_name r1.2.world) a.delimiter
        = (if a.insert_pos = InsertPosition.Prepend then a.entry :: before
           else before ++ [a.entry]) := by
    intro h
    rw [hr1]
    exact add_to_list_absent reg hreg a hd he w h hw
  have hin : a.is_in_list reg r1.2.world = true := by
    by_cases h : a.is_in_list reg w = true
    · rw [hr1, add_to_list_present reg a w h]; exact h
    · have h0 : a.is_in_list reg w = false := by simpa using h
      show (split_stripped (reg.read_value a.key a.value_name r1.2.world) a.delimiter).any
        (fun e => equals_nocase e a.entry) = true
      rw [hlist h0]
      split <;> simp [equals_nocase_refl]
  have hw2 : (a.add_to_list reg r1.2.world).1 = true := by
    rw [add_to_list_present reg a _ hin]
  obtain ⟨h2a, h2b⟩ :=
    restore_present_marker reg a description rd cb hcb hex hrd r1.2.world [] hw2
  have hr2 : r2.2.world = r1.2.world := by
    show (a.restore reg description ⟨ActionContext.for_restore rd cb, r1.2.world, []⟩).2.world
      = _
    rw [h2b, add_to_list_present reg a _ hin]
  refine ⟨h1a, h2a, hin, hr2, ?_, ?_⟩
  · intro h
    rw [hr1, add_to_list_present reg a w h]
  · intro h
    have hafter : after = (if a.insert_pos = InsertPosition.Prepend then a.entry :: before
        else before ++ [a.entry]) := by
      show split_stripped (reg.read_value a.key a.value_name r2.2.world) a.delimiter = _
      rw [hr2]
      exact hlist h
    refine ⟨hafter, ?_⟩
    have hnone : before.filter (fun x => equals_nocase x a.entry) = [] := by
      rw [List.filter_eq_nil_iff]
      intro x hx hxe
      have : before.any (fun e => equals_nocase e a.entry) = true :=
        List.any_eq_true.mpr ⟨x, hx, hxe⟩
      have h' : before.any (fun e => equals_nocase e a.entry) = false := h
      rw [h'] at this
      cases this
    rw [hafter]
    split
    · simp [List.filter_cons, equals_nocase_refl, hnone]
    · simp [List.filter_append, List.filter_cons, equals_nocase_refl, hnone]

/-- C18 (witness): `front_entry` restored twice into the list `C:\Windows`. -/
theorem restore_present_twice_witness :
    Registry.access.faithful ∧ front_entry.delimiter.data ≠ [] ∧
    list_entry_ok front_entry.delimiter front_entry.entry ∧
    (front_entry.add_to_list Registry.access
      ⟨[(("HKCU\\Environment", "Path"), "C:\\Windows")], false⟩).1 = true ∧
    (let r1 := front_entry.restore Registry.access "Path entry"
       ⟨ActionContext.for_restore (constant_archive Registry "present").reader none,
        ⟨[(("HKCU\\Environment", "Path"), "C:\\Windows")], false⟩, []⟩
     let r2 := front_entry.restore Registry.access "Path entry"
       ⟨ActionContext.for_restore (constant_archive Registry "present").reader none,
        r1.2.world, []⟩
     let before := split_stripped (Registry.access.read_value front_entry.key
       front_entry.value_name ⟨[(("HKCU\\Environment", "Path"), "C:\\Windows")], false⟩)
       front_entry.delimiter
     let after := split_stripped (Registry.access.read_value front_entry.key
       front_entry.value_name r2.2.world) front_entry.delimiter
     r1.1 = true ∧ r2.1 = true ∧ front_entry.is_in_list Registry.access r1.2.world = true ∧
     r2.2.world = r1.2.world ∧
     (front_entry.is_in_list Registry.access
        ⟨[(("HKCU\\Environment", "Path"), "C:\\Windows")], false⟩ = true →
       r1.2.world = ⟨[(("HKCU\\Environment", "Path"), "C:\\Windows")], false⟩) ∧
     (front_entry.is_in_list Registry.access
        ⟨[(("HKCU\\Environment", "Path"), "C:\\Windows")], false⟩ = false →
       after = (if front_entry.insert_pos = InsertPosition.Prepend
                then front_entry.entry :: before else before ++ [front_entry.entry]) ∧
       after.filter (fun x => equals_nocase x front_entry.entry) = [front_entry.entry])) :=
  ⟨Registry_access_faithful, by decide, by unfold list_entry_ok; decide, by decide,
    restore_present_twice Registry.access Registry_access_faithful front_entry "Path entry"
      (constant_archive Registry "present").reader none (fun c hc => by cases hc)
      (fun _ => rfl) (fun _ => rfl) (by decide) (by unfold list_entry_ok; decide)
      ⟨[(("HKCU\\Environment", "Path"), "C:\\Windows")], false⟩ (by decide)⟩

/-- C18 (counterexample): `double_entry`, whose entry holds the delimiter, is added again
by the second restore: after one restore the list is
`C:\Windows;C:\Tools;C:\Bin`, after two it holds both paths twice. -/
theorem second_restore_adds_again :
    (double_entry.restore Registry.access "Path entry"
       ⟨ActionContext.for_restore (constant_archive Registry "present").reader none,
        ⟨[(("HKCU\\Environment", "Path"), "C:\\Windows")], false⟩, []⟩).2.world
      = ⟨[(("HKCU\\Environment", "Path"), "C:\\Windows;C:\\Tools;C:\\Bin")], false⟩ ∧
    (double_entry.restore Registry.access "Path entry"
       ⟨ActionContext.for_restore (constant_archive Registry "present").reader none,
        ⟨[(("HKCU\\Environment", "Path"), "C:\\Windows;C:\\Tools;C:\\Bin")], false⟩,
        []⟩).2.world
      = ⟨[(("HKCU\\Environment", "Path"),
            "C:\\Windows;C:\\Tools;C:\\Bin;C:\\Tools;C:\\Bin")], false⟩ := by
  decide

/-! ## The order of the steps of a recursive extraction -/

theorem retry_loop_failed (attempt : W → Option String × W) (message : String)
    (context : String → String) (c : IActionCallback W) (fuel : Nat) (x : Exec W) (err : String)
    (hr : (attempt x.world).1 = some err) (hs : x.ctx.skip_all_errors = false) :
    retry_loop attempt message context (some c) (fuel + 1) x
      = match (Exec.on_error { x with world := (attempt x.world).2 } c message
          (context err)).1 with
        | .Retry => retry_loop attempt message context (some c) fuel
            (Exec.on_error { x with world := (attempt x.world).2 } c message (context err)).2
        | .Skip => some (true,
            (Exec.on_error { x with world := (attempt x.world).2 } c message (context err)).2)
        | .Continue => some (true,
            (Exec.on_error { x with world := (attempt x.world).2 } c message (context err)).2)
        | .SkipAll => some (true,
            { (Exec.on_error { x with world := (attempt x.world).2 } c message
                (context err)).2 with
              ctx := (Exec.on_error { x with world := (attempt x.world).2 } c message
                (context err)).2.ctx.set_skip_all_errors true })
        | .Abort => some (false,
            (Exec.on_error { x with world := (attempt x.world).2 } c message (context err)).2) := by
  simp only [retry_loop]
  rw [hr]
  simp only [hs, Bool.false_eq_true, if_false]

theorem retry_loop_isSome (attempt : W → Option String × W) (message : String)
    (context : String → String) (cb : Option (IActionCallback W))
    (hcb : ∀ c, cb = some c → ∀ m t w, (c.on_error m t w).1 ≠ Decision.Retry)
    (fuel : Nat) (x : Exec W) :
    (retry_loop attempt message context cb (fuel + 1) x).isSome = true := by
  simp only [retry_loop]
  cases hr : (attempt x.world).1 with
  | none => rfl
  | some err =>
    simp only
    split
    · rfl
    · cases cb with
      | none => rfl
      | some c =>
        simp only
        have hne := hcb c rfl message (context err) (attempt x.world).2
        cases hd : (Exec.on_error { x with world := (attempt x.world).2 } c message
            (context err)).1 with
        | Retry => exact absurd hd hne
        | _ => rfl

theorem after_item_isSome (r : Option (Bool × Exec W)) (next : Exec W → Option (Bool × Exec W))
    (hr : r.isSome = true) (hn : ∀ x, (next x).isSome = true) :
    (after_item r next).isSome = true := by
  cases r with
  | none => cases hr
  | some p =>
    obtain ⟨b, x⟩ := p
    cases b
    · rfl
    · exact hn x

theorem backup_files_loop_isSome (fs : DirectoryAccess W) (base archive_prefix : String)
    (cb : Option (IActionCallback W))
    (hcb : ∀ c, cb = some c → ∀ m t w, (c.on_error m t w).1 ≠ Decision.Retry)
    (total fuel : Nat) (files : List String) :
    ∀ (i : Nat) (last_percent : Int) (x : Exec W),
      (backup_files_loop fs base archive_prefix cb total (fuel + 1) files i last_percent
        x).isSome = true := by
  induction files with
  | nil => intro i lp x; rfl
  | cons file rest ih =>
    intro i lp x
    simp only [backup_files_loop]
    split
    · exact ih _ _ _
    · exact after_item_isSome _ _ (retry_loop_isSome _ _ _ cb hcb fuel _) (fun x2 => ih _ _ x2)

theorem restore_files_loop_isSome (fs : DirectoryAccess W) (pfx dest_base : String)
    (cb : Option (IActionCallback W))
    (hcb : ∀ c, cb = some c → ∀ m t w, (c.on_error m t w).1 ≠ Decision.Retry)
    (simulate : Bool) (total fuel : Nat) (files : List String) :
    ∀ (i : Nat) (last_percent : Int) (x : Exec W),
      (restore_files_loop fs pfx dest_base cb simulate total (fuel + 1) files i last_percent
        x).isSome = true := by
  induction files with
  | nil => intro i lp x; rfl
  | cons file rest ih =>
    intro i lp x
    simp only [restore_files_loop]
    split
    · exact ih _ _ _
    · exact after_item_isSome _ _ (retry_loop_isSome _ _ _ cb hcb fuel _) (fun x2 => ih _ _ x2)

theorem clean_files_loop_isSome (fs : DirectoryAccess W) (cb : Option (IActionCallback W))
    (hcb : ∀ c, cb = some c → ∀ m t w, (c.on_error m t w).1 ≠ Decision.Retry)
    (simulate : Bool) (total fuel : Nat) (files : List String) :
    ∀ (i : Nat) (last_percent : Int) (x : Exec W),
      (clean_files_loop fs cb simulate total (fuel + 1) files i last_percent x).isSome
        = true := by
  induction files with
  | nil => intro i lp x; rfl
  | cons file rest ih =>
    intro i lp x
    simp only [clean_files_loop]
    split
    · exact ih _ _ _
    · exact after_item_isSome _ _ (retry_loop_isSome _ _ _ cb hcb fuel _) (fun x2 => ih _ _ x2)

/-- C13: the loops of `backup_files`, `restore_files` and `clean_files` put the retry
loop around the operation on each item and go on with the next item when it
ends by `break`, and return `false` at once when it ends by `return false`.
In the retry loop, when the operation fails with `skip_all_errors` unset and a
callback present, `Retry` runs the loop again on the same item, `Skip` and
`Continue` end it by `break`, `SkipAll` sets the flag and ends it by `break`,
`Abort` ends it by `return false`; with the flag set a failure ends it by
`break` in the state right after the operation, without an `on_error` call.
With a callback that never answers `Retry` the three loops return a result for
any positive bound on the passes of the retry loop. -/
theorem copy_directory_loops_follow_decisions (fs : DirectoryAccess W) :
    (∀ (attempt : W → Option String × W) (message : String) (context : String → String)
        (c : IActionCallback W) (fuel : Nat) (x : Exec W) (err : String),
      (attempt x.world).1 = some err → x.ctx.skip_all_errors = false →
      (((Exec.on_error { x with world := (attempt x.world).2 } c message (context err)).1
            = Decision.Retry →
          retry_loop attempt message context (some c) (fuel + 1) x
            = retry_loop attempt message context (some c) fuel
                (Exec.on_error { x with world := (attempt x.world).2 } c message
                  (context err)).2) ∧
       ((Exec.on_error { x with world := (attempt x.world).2 } c message (context err)).1
            = Decision.Skip ∨
         (Exec.on_error { x with world := (attempt x.world).2 } c message (context err)).1
            = Decision.Continue →
          retry_loop attempt message context (some c) (fuel + 1) x
            = some (true, (Exec.on_error { x with world := (attempt x.world).2 } c message
                (context err)).2)) ∧
       ((Exec.on_error { x with world := (attempt x.world).2 } c message (context err)).1
            = Decision.SkipAll →
          retry_loop attempt message context (some c) (fuel + 1) x
            = some (true,
                { (Exec.on_error { x with world := (attempt x.world).2 } c message
                    (context err)).2 with
                  ctx := (Exec.on_error { x with world := (attempt x.world).2 } c message
                    (context err)).2.ctx.set_skip_all_errors true })) ∧
       ((Exec.on_error { x with world := (attempt x.world).2 } c message (context err)).1
            = Decision.Abort →
          retry_loop attempt message context (some c) (fuel + 1) x
            = some (false, (Exec.on_error { x with world := (attempt x.world).2 } c message
                (context err)).2)))) ∧
    (∀ (attempt : W → Option String × W) (message : String) (context : String → String)
        (cb : Option (IActionCallback W)) (fuel : Nat) (x : Exec W) (err : String),
      (attempt x.world).1 = some err → x.ctx.skip_all_errors = true →
      retry_loop attempt message context cb (fuel + 1) x
        = some (true, { x with world := (attempt x.world).2 })) ∧
    (∀ (x : Exec W) (next : Exec W → Option (Bool × Exec W)),
      after_item (some (false, x)) next = some (false, x) ∧
      after_item (some (true, x)) next = next x) ∧
    (∀ (base archive_prefix : String) (cb : Option (IActionCallback W)) (total fuel : Nat)
        (file : String) (rest : List String) (i : Nat) (last_percent : Int) (x : Exec W)
        (rel_str : String),
      fs.relative file base
          (progress_step cb total i last_percent "Backup" (fs.filename file) x).1.world
        = some rel_str →
      backup_files_loop fs base archive_prefix cb total fuel (file :: rest) i last_percent x
        = after_item
            (retry_loop (flag_attempt (fs.write_file ( archive_prefix ++ "/" ++ rel_str) file))
              "Failed to backup file" (fun _ => file) cb fuel
              (progress_step cb total i last_percent "Backup" (fs.filename file) x).1)
            (fun x2 => backup_files_loop fs base archive_prefix cb total fuel rest (i + 1)
              (progress_step cb total i last_percent "Backup" (fs.filename file) x).2 x2)) ∧
    (∀ (pfx dest_base : String) (cb : Option (IActionCallback W)) (total fuel : Nat)
        (rel_file : String) (rest : List String) (i : Nat) (last_percent : Int) (x : Exec W),
      restore_files_loop fs pfx dest_base cb false total fuel (rel_file :: rest) i
          last_percent x
        = after_item
            (retry_loop (flag_attempt (fs.extract_to_file (pfx ++ "/" ++ rel_file)
                (fs.append dest_base rel_file)))
              "Failed to extract file" (fun _ => fs.append dest_base rel_file) cb fuel
              (ensure_parent fs (fs.append dest_base rel_file)
                (progress_step cb total i last_percent "Restore" (after_last_slash rel_file)
                  x).1))
            (fun x2 => restore_files_loop fs pfx dest_base cb false total fuel rest (i + 1)
              (progress_step cb total i last_percent "Restore" (after_last_slash rel_file)
                x).2 x2)) ∧
    (∀ (cb : Option (IActionCallback W)) (total fuel : Nat)
        (file : String) (rest : List String) (i : Nat) (last_percent : Int) (x : Exec W),
      clean_files_loop fs cb false total fuel (file :: rest) i last_percent x
        = after_item
            (retry_loop (remove_attempt fs file) "Failed to delete file"
              (fun err => file ++ ": " ++ err) cb fuel
              (progress_step cb total i last_percent "Clean" (fs.filename file) x).1)
            (fun x2 => clean_files_loop fs cb false total fuel rest (i + 1)
              (progress_step cb total i last_percent "Clean" (fs.filename file) x).2 x2)) ∧
    (∀ (cb : Option (IActionCallback W)),
      (∀ c, cb = some c → ∀ m t w, (c.on_error m t w).1 ≠ Decision.Retry) →
      ∀ (fuel : Nat) (files : List String) (x : Exec W),
        (∀ base archive_prefix,
          (backup_files_loop fs base archive_prefix cb files.length (fuel + 1) files 0 (-1)
            x).isSome = true) ∧
        (∀ pfx dest_base simulate,
          (restore_files_loop fs pfx dest_base cb simulate files.length (fuel + 1) files 0 (-1)
            x).isSome = true) ∧
        (∀ simulate,
          (clean_files_loop fs cb simulate files.length (fuel + 1) files 0 (-1) x).isSome
            = true)) := by
  refine ⟨?_, ?_, ?_, ?_, ?_, ?_, ?_⟩
  · intro attempt message context c fuel x err hr hs
    have h := retry_loop_failed attempt message context c fuel x err hr hs
    refine ⟨?_, ?_, ?_, ?_⟩
    · intro hd; rw [h, hd]
    · intro hd; rcases hd with hd | hd <;> rw [h, hd]
    · intro hd; rw [h, hd]
    · intro hd; rw [h, hd]
  · intro attempt message context cb fuel x err hr hs
    simp only [retry_loop]
    rw [hr]
    simp only [hs, if_true]
  · intro x next
    exact ⟨rfl, rfl⟩
  · intro base archive_prefix cb total fuel file rest i lp x rel_str hrel
    simp only [backup_files_loop]
    rw [hrel]
  · intro pfx dest_base cb total fuel rel_file rest i lp x
    simp only [restore_files_loop, Bool.false_eq_true, if_false]
  · intro cb total fuel file rest i lp x
    simp only [clean_files_loop, Bool.false_eq_true, if_false]
  · intro cb hcb fuel files x
    exact ⟨fun base archive_prefix =>
        backup_files_loop_isSome fs base archive_prefix cb hcb _ fuel files 0 (-1) x,
      fun pfx dest_base simulate =>
        restore_files_loop_isSome fs pfx dest_base cb hcb simulate _ fuel files 0 (-1) x,
      fun simulate => clean_files_loop_isSome fs cb hcb simulate _ fuel files 0 (-1) x⟩

/-! ## Verify after clean -/

/-- C15 (counterexample): a simulated clean of `C:/app` on `app_disk` returns `true` and
leaves the disk as it is, and so does a clean that is answered with `Continue`
on a disk that has a file of another kind in the directory; `verify` with a
context without reader then reports `Match`. -/
theorem verify_after_simulated_clean :
    ((CopyDirectoryAction.do_clean Disk.access "C:/app" 1
        ⟨(ActionContext.for_clean none).set_simulate true, app_disk, []⟩).map
      (fun r => (r.1, r.2.world))) = some (true, app_disk) ∧
    (CopyDirectoryAction.verify Disk.access "C:/app" "files/app"
        (ActionContext.for_clean none) app_disk).1 = VerifyStatus.Match ∧
    ((CopyDirectoryAction.do_clean Disk.access "C:/app" 1
        ⟨ActionContext.for_clean (some (ContinueCallback Disk)),
          [("C:/app", EntryKind.directory), ("C:/app/link", EntryKind.other)], []⟩).map
      (fun r => (r.1, r.2.world)))
      = some (true, [("C:/app", EntryKind.directory), ("C:/app/link", EntryKind.other)]) := by
  decide

theorem retry_loop_events (attempt : W → Option String × W) (message : String)
    (context : String → String) (cb : Option (IActionCallback W)) (fuel : Nat) :
    ∀ (x : Exec W) (b : Bool) (x' : Exec W),
      retry_loop attempt message context cb fuel x = some (b, x') →
      ∃ E, x'.events = x.events ++ E := by
  induction fuel with
  | zero => intro x b x' h; simp [retry_loop] at h
  | succ fuel ih =>
    intro x b x' h
    simp only [retry_loop] at h
    cases hr : (attempt x.world).1 with
    | none =>
      rw [hr] at h
      simp only [Option.some.injEq, Prod.mk.injEq] at h
      exact ⟨[], by rw [← h.2]; simp⟩
    | some err =>
      rw [hr] at h
      simp only at h
      split at h
      · simp only [Option.some.injEq, Prod.mk.injEq] at h
        exact ⟨[], by rw [← h.2]; simp⟩
      · cases cb with
        | none =>
          simp only [Option.some.injEq, Prod.mk.injEq] at h
          exact ⟨[], by rw [← h.2]; simp⟩
        | some c =>
          simp only at h
          split at h
          · obtain ⟨E, hE⟩ := ih _ b x' h
            exact ⟨[CbEvent.on_error message (context err)] ++ E, by
              rw [hE]; simp [Exec.on_error]⟩
          all_goals
            simp only [Option.some.injEq, Prod.mk.injEq] at h
            exact ⟨[CbEvent.on_error message (context err)], by
              rw [← h.2]; simp [Exec.on_error]⟩

/-- A retry loop that ends by `break` with the flag unset beforehand and no
`on_error` call on record has succeeded at the first attempt. -/
theorem retry_loop_no_error (attempt : W → Option String × W) (message : String)
    (context : String → String) (cb : Option (IActionCallback W)) (fuel : Nat)
    (x x' : Exec W)
    (h : retry_loop attempt message context cb fuel x = some (true, x'))
    (hs : x.ctx.skip_all_errors = false) (hq : ∀ e ∈ x'.events, e.is_error = false) :
    (attempt x.world).1 = none ∧ x' = { x with world := (attempt x.world).2 } := by
  cases fuel with
  | zero => simp [retry_loop] at h
  | succ fuel =>
    simp only [retry_loop] at h
    cases hr : (attempt x.world).1 with
    | none =>
      rw [hr] at h
      simp only [Option.some.injEq, Prod.mk.injEq, true_and] at h
      exact ⟨rfl, h.symm⟩
    | some err =>
      exfalso
      rw [hr] at h
      simp only [hs, Bool.false_eq_true, if_false] at h
      cases cb with
      | none => simp at h
      | some c =>
        simp only at h
        have herr : ∀ (y : Exec W), (∃ E, y.events = (Exec.on_error
            { x with world := (attempt x.world).2 } c message (context err)).2.events ++ E) →
            (∀ e ∈ y.events, e.is_error = false) → False := by
          intro y hy hyq
          obtain ⟨E, hE⟩ := hy
          have := hyq (CbEvent.on_error message (context err)) (by
            rw [hE]; simp [Exec.on_error])
          simp [CbEvent.is_error] at this
        split at h
        · exact herr x' (retry_loop_events _ _ _ _ _ _ _ _ h) hq
        · simp only [Option.some.injEq, Prod.mk.injEq, true_and] at h
          exact herr x' ⟨[], by rw [← h]; simp⟩ hq
        · simp only [Option.some.injEq, Prod.mk.injEq, true_and] at h
          exact herr x' ⟨[], by rw [← h]; simp⟩ hq
        · simp only [Option.some.injEq, Prod.mk.injEq, true_and] at h
          exact herr x' ⟨[], by rw [← h]; simp⟩ hq
        · simp at h

theorem progress_step_ctx (cb : Option (IActionCallback W)) (total i : Nat) (lp : Int)
    (phase name : String) (x : Exec W) :
    (progress_step cb total i lp phase name x).1.ctx = x.ctx ∧
    ∃ E, (progress_step cb total i lp phase name x).1.events = x.events ++ E := by
  unfold progress_step
  cases cb with
  | none => exact ⟨rfl, [], by simp⟩
  | some c =>
    simp only
    split
    · exact ⟨rfl, _, rfl⟩
    · exact ⟨rfl, [], by simp⟩

theorem after_item_true (r : Option (Bool × Exec W)) (next : Exec W → Option (Bool × Exec W))
    (b : Bool) (x' : Exec W) (h : after_item r next = some (b, x')) :
    (r = some (false, x') ∧ b = false) ∨ ∃ x2, r = some (true, x2) ∧ next x2 = some (b, x') := by
  cases r with
  | none => simp [after_item] at h
  | some p =>
    obtain ⟨b1, x1⟩ := p
    cases b1
    · simp only [after_item, Option.some.injEq, Prod.mk.injEq] at h
      exact Or.inl ⟨by rw [h.2], h.1.symm⟩
    · exact Or.inr ⟨x1, rfl, h⟩

theorem no_error_of_append {A B : List CbEvent} (h : ∀ e ∈ A ++ B, e.is_error = false) :
    ∀ e ∈ A, e.is_error = false :=
  fun e he => h e (List.mem_append.mpr (Or.inl he))

theorem clean_files_loop_events (fs : DirectoryAccess W) (cb : Option (IActionCallback W))
    (simulate : Bool) (total fuel : Nat) (files : List String) :
    ∀ (i : Nat) (lp : Int) (x : Exec W) (b : Bool) (x' : Exec W),
      clean_files_loop fs cb simulate total fuel files i lp x = some (b, x') →
      ∃ E, x'.events = x.events ++ E := by
  induction files with
  | nil =>
    intro i lp x b x' h
    simp only [clean_files_loop, Option.some.injEq, Prod.mk.injEq] at h
    exact ⟨[], by rw [← h.2]; simp⟩
  | cons file rest ih =>
    intro i lp x b x' h
    simp only [clean_files_loop] at h
    obtain ⟨_, P, hP⟩ := progress_step_ctx cb total i lp "Clean" (fs.filename file) x
    generalize progress_step cb total i lp "Clean" (fs.filename file) x = p at h hP
    split at h
    · cases cb with
      | none =>
        simp only [ite_self] at h
        obtain ⟨E, hE⟩ := ih _ _ _ b x' h
        exact ⟨P ++ E, by rw [hE, hP, List.append_assoc]⟩
      | some c =>
        simp only at h
        by_cases hex : fs.path_exists file p.1.world = true
        · simp only [hex, if_true] at h
          obtain ⟨E, hE⟩ := ih _ _ _ b x' h
          exact ⟨P ++ [CbEvent.on_progress "Simulate" ("Would delete: " ++ file) (-1)] ++ E, by
            rw [hE]; simp [Exec.on_progress, hP]⟩
        · simp only [hex, Bool.false_eq_true, if_false] at h
          obtain ⟨E, hE⟩ := ih _ _ _ b x' h
          exact ⟨P ++ E, by rw [hE, hP, List.append_assoc]⟩
    · rcases after_item_true _ _ b x' h with ⟨hr, _⟩ | ⟨x2, hr, hn⟩
      · obtain ⟨E, hE⟩ := retry_loop_events _ _ _ _ _ _ _ _ hr
        exact ⟨P ++ E, by rw [hE, hP, List.append_assoc]⟩
      · obtain ⟨E, hE⟩ := retry_loop_events _ _ _ _ _ _ _ _ hr
        obtain ⟨E2, hE2⟩ := ih _ _ _ b x' hn
        exact ⟨P ++ E ++ E2, by rw [hE2, hE, hP]; simp⟩

theorem clean_files_loop_quiet (fs : DirectoryAccess W) (cb : Option (IActionCallback W))
    (total fuel : Nat) (files : List String) :
    ∀ (i : Nat) (lp : Int) (x x' : Exec W),
      clean_files_loop fs cb false total fuel files i lp x = some (true, x') →
      x.ctx.skip_all_errors = false → (∀ e ∈ x'.events, e.is_error = false) →
      x'.ctx = x.ctx := by
  induction files with
  | nil =>
    intro i lp x x' h _ _
    simp only [clean_files_loop, Option.some.injEq, Prod.mk.injEq, true_and] at h
    rw [h]
  | cons file rest ih =>
    intro i lp x x' h hs hq
    simp only [clean_files_loop, Bool.false_eq_true, if_false] at h
    obtain ⟨hctx, P, hP⟩ := progress_step_ctx cb total i lp "Clean" (fs.filename file) x
    generalize progress_step cb total i lp "Clean" (fs.filename file) x = p at h hP hctx
    rcases after_item_true _ _ true x' h with ⟨_, hb⟩ | ⟨x2, hr, hn⟩
    · cases hb
    · obtain ⟨E2, hE2⟩ := clean_files_loop_events fs cb false total fuel rest _ _ _ _ _ hn
      have hq2 : ∀ e ∈ x2.events, e.is_error = false := no_error_of_append (by rw [← hE2]; exact hq)
      obtain ⟨_, hx2⟩ := retry_loop_no_error _ _ _ _ _ _ _ hr (by rw [hctx]; exact hs) hq2
      have hc2 : x2.ctx = x.ctx := by rw [hx2]; exact hctx
      rw [ih _ _ x2 x' hn (by rw [hc2]; exact hs) hq, hc2]

theorem clean_dirs_loop_events (fs : DirectoryAccess W) (cb : Option (IActionCallback W))
    (simulate : Bool) (fuel : Nat) (dirs : List String) :
    ∀ (x : Exec W) (b : Bool) (x' : Exec W),
      clean_dirs_loop fs cb simulate fuel dirs x = some (b, x') →
      ∃ E, x'.events = x.events ++ E := by
  induction dirs with
  | nil =>
    intro x b x' h
    simp only [clean_dirs_loop, Option.some.injEq, Prod.mk.injEq] at h
    exact ⟨[], by rw [← h.2]; simp⟩
  | cons dir rest ih =>
    intro x b x' h
    simp only [clean_dirs_loop] at h
    split at h
    · cases cb with
      | none =>
        simp only [ite_self] at h
        exact ih _ b x' h
      | some c =>
        simp only at h
        by_cases hex : fs.path_exists dir x.world = true
        · simp only [hex, if_true] at h
          obtain ⟨E, hE⟩ := ih _ b x' h
          exact ⟨[CbEvent.on_progress "Simulate" ("Would delete dir: " ++ dir) (-1)] ++ E, by
            rw [hE]; simp [Exec.on_progress]⟩
        · simp only [hex, Bool.false_eq_true, if_false] at h
          exact ih _ b x' h
    · rcases after_item_true _ _ b x' h with ⟨hr, _⟩ | ⟨x2, hr, hn⟩
      · exact retry_loop_events _ _ _ _ _ _ _ _ hr
      · obtain ⟨E, hE⟩ := retry_loop_events _ _ _ _ _ _ _ _ hr
        obtain ⟨E2, hE2⟩ := ih _ b x' hn
        exact ⟨E ++ E2, by rw [hE2, hE]; simp⟩

theorem clean_dirs_loop_quiet (fs : DirectoryAccess W) (cb : Option (IActionCallback W))
    (fuel : Nat) (dirs : List String) :
    ∀ (x x' : Exec W),
      clean_dirs_loop fs cb false fuel dirs x = some (true, x') →
      x.ctx.skip_all_errors = false → (∀ e ∈ x'.events, e.is_error = false) →
      x'.ctx = x.ctx := by
  induction dirs with
  | nil =>
    intro x x' h _ _
    simp only [clean_dirs_loop, Option.some.injEq, Prod.mk.injEq, true_and] at h
    rw [h]
  | cons dir rest ih =>
    intro x x' h hs hq
    simp only [clean_dirs_loop, Bool.false_eq_true, if_false] at h
    rcases after_item_true _ _ true x' h with ⟨_, hb⟩ | ⟨x2, hr, hn⟩
    · cases hb
    · obtain ⟨E2, hE2⟩ := clean_dirs_loop_events fs cb false fuel rest _ _ _ hn
      have hq2 : ∀ e ∈ x2.events, e.is_error = false := no_error_of_append (by rw [← hE2]; exact hq)
      obtain ⟨_, hx2⟩ := retry_loop_no_error _ _ _ _ _ _ _ hr hs hq2
      have hc2 : x2.ctx = x.ctx := by rw [hx2]
      rw [ih x2 x' hn (by rw [hc2]; exact hs) hq, hc2]

theorem clean_directories_events (fs : DirectoryAccess W) (base : String) (dirs : List String)
    (fuel : Nat) (x : Exec W) (b : Bool) (x' : Exec W)
    (h : clean_directories fs base dirs fuel x = some (b, x')) :
    ∃ E, x'.events = x.events ++ E := by
  simp only [clean_directories] at h
  rcases after_item_true _ _ b x' h with ⟨hr, _⟩ | ⟨x1, hr, hn⟩
  · exact clean_dirs_loop_events fs _ _ fuel _ _ _ _ hr
  · obtain ⟨E, hE⟩ := clean_dirs_loop_events fs _ _ fuel _ _ _ _ hr
    split at hn
    · split at hn
      · cases hc : x.ctx.callback with
        | none =>
          rw [hc] at hn
          simp only [Option.some.injEq, Prod.mk.injEq] at hn
          exact ⟨E, by rw [← hn.2, hE]⟩
        | some c =>
          rw [hc] at hn
          simp only [Option.some.injEq, Prod.mk.injEq] at hn
          exact ⟨E ++ [CbEvent.on_progress "Simulate" ("Would delete dir: " ++ base) (-1)], by
            rw [← hn.2]; simp [Exec.on_progress, hE]⟩
      · simp only [Option.some.injEq, Prod.mk.injEq] at hn
        exact ⟨E, by rw [← hn.2, hE]⟩
    · obtain ⟨E2, hE2⟩ := retry_loop_events _ _ _ _ _ _ _ _ hn
      exact ⟨E ++ E2, by rw [hE2, hE]; simp⟩

/-- A clean of the directories that was not simulated, began with the flag
unset, returned `true` and made no `on_error` call has removed the base. -/
theorem clean_directories_removes (fs : DirectoryAccess W)
    (hrm : ∀ p w, (fs.remove p w).1 = none → fs.path_exists p (fs.remove p w).2 = false)
    (base : String) (dirs : List String) (fuel : Nat) (x x' : Exec W)
    (h : clean_directories fs base dirs fuel x = some (true, x'))
    (hsim : x.ctx.simulate = false) (hs : x.ctx.skip_all_errors = false)
    (hq : ∀ e ∈ x'.events, e.is_error = false) :
    fs.path_exists base x'.world = false := by
  simp only [clean_directories, hsim, Bool.false_eq_true, if_false] at h
  rcases after_item_true _ _ true x' h with ⟨_, hb⟩ | ⟨x1, hr, hn⟩
  · cases hb
  · obtain ⟨E, hE⟩ := retry_loop_events _ _ _ _ _ _ _ _ hn
    have hq1 : ∀ e ∈ x1.events, e.is_error = false := no_error_of_append (by rw [← hE]; exact hq)
    have hc1 : x1.ctx = x.ctx := clean_dirs_loop_quiet fs _ fuel _ x x1 hr hs hq1
    obtain ⟨hok, hx'⟩ := retry_loop_no_error _ _ _ _ _ _ _ hn (by rw [hc1]; exact hs) hq
    rw [hx']
    simp only [remove_attempt] at hok ⊢
    by_cases hex : fs.path_exists base x1.world = false
    · simp only [hex, if_true]
    · simp only [hex, if_false] at hok ⊢
      exact hrm _ _ hok

theorem do_clean_removes (fs : DirectoryAccess W)
    (hrm : ∀ p w, (fs.remove p w).1 = none → fs.path_exists p (fs.remove p w).2 = false)
    (resolved_path : String) (fuel : Nat) (x x' : Exec W)
    (h : CopyDirectoryAction.do_clean fs resolved_path fuel x = some (true, x'))
    (hsim : x.ctx.simulate = false) (hs : x.ctx.skip_all_errors = false)
    (hq : ∀ e ∈ x'.events, e.is_error = false) :
    fs.path_exists resolved_path x'.world = false := by
  simp only [CopyDirectoryAction.do_clean] at h
  split at h
  · rename_i hex
    simp only [Option.some.injEq, Prod.mk.injEq, true_and] at h
    rw [← h]; exact hex
  · rcases after_item_true _ _ true x' h with ⟨_, hb⟩ | ⟨x1, hr, hn⟩
    · cases hb
    · obtain ⟨E, hE⟩ := clean_directories_events fs _ _ _ _ _ _ hn
      have hq1 : ∀ e ∈ x1.events, e.is_error = false :=
        no_error_of_append (by rw [← hE]; exact hq)
      simp only [clean_files, hsim] at hr
      have hc1 : x1.ctx = x.ctx := clean_files_loop_quiet fs _ _ fuel _ _ _ x x1 hr hs hq1
      exact clean_directories_removes fs hrm _ _ fuel x1 x' hn (by rw [hc1]; exact hsim)
        (by rw [hc1]; exact hs) hq

theorem Disk_directory_is_path (p : String) (d : Disk) :
    Disk.access.directory_exists p d = true → Disk.access.path_exists p d = true := by
  simp only [Disk.access, List.any_eq_true, decide_eq_true_eq]
  rintro ⟨e, he, h1, _⟩
  exact ⟨e, he, h1⟩

theorem Disk_remove_removes (p : String) (d : Disk) :
    (Disk.access.remove p d).1 = none →
      Disk.access.path_exists p (Disk.access.remove p d).2 = false := by
  simp only [Disk.access]
  split
  · intro h; cases h
  · intro _
    simp [List.any_eq_false]

/-- C15 (amended): with a context without reader, such as `orchestrator::verify` builds
with `for_clean`, `CopyDirectoryAction::verify` reports `Match` when the
resolved directory exists and `Missing` when it does not, never `Extra` or
`Mismatch`.  It reports `Missing` right after a `do_clean` of the action that
was not simulated, began with `skip_all_errors` unset, returned `true` and
made no `on_error` call, on a file system where a directory that exists is a
path that exists and a path is gone once `remove` has succeeded. -/
theorem verify_without_reader (fs : DirectoryAccess W)
    (hdir : ∀ p w, fs.directory_exists p w = true → fs.path_exists p w = true)
    (hrm : ∀ p w, (fs.remove p w).1 = none → fs.path_exists p (fs.remove p w).2 = false)
    (resolved_path archive_path : String) :
    (∀ cb : Option (IActionCallback W), (ActionContext.for_clean cb).reader = none) ∧
    (∀ (ctx : ActionContext W) (w : W), ctx.reader = none →
      (CopyDirectoryAction.verify fs resolved_path archive_path ctx w).1
        = (if fs.directory_exists resolved_path w = true then VerifyStatus.Match
           else VerifyStatus.Missing) ∧
      (CopyDirectoryAction.verify fs resolved_path archive_path ctx w).1 ≠ VerifyStatus.Extra ∧
      (CopyDirectoryAction.verify fs resolved_path archive_path ctx w).1
        ≠ VerifyStatus.Mismatch) ∧
    (∀ (fuel : Nat) (x x' : Exec W),
      x.ctx.simulate = false → x.ctx.skip_all_errors = false →
      CopyDirectoryAction.do_clean fs resolved_path fuel x = some (true, x') →
      (∀ e ∈ x'.events, e.is_error = false) →
      fs.directory_exists resolved_path x'.world = false ∧
      ∀ ctx : ActionContext W, ctx.reader = none →
        (CopyDirectoryAction.verify fs resolved_path archive_path ctx x'.world).1
          = VerifyStatus.Missing) := by
  have hv : ∀ (ctx : ActionContext W) (w : W), ctx.reader = none →
      (CopyDirectoryAction.verify fs resolved_path archive_path ctx w).1
        = (if fs.directory_exists resolved_path w = true then VerifyStatus.Match
           else VerifyStatus.Missing) := by
    intro ctx w hr
    simp only [CopyDirectoryAction.verify, hr]
    cases fs.directory_exists resolved_path w <;> simp
  refine ⟨fun _ => rfl, ?_, ?_⟩
  · intro ctx w hr
    rw [hv ctx w hr]
    refine ⟨rfl, ?_, ?_⟩ <;> split <;> simp
  · intro fuel x x' hsim hs h hq
    have hgone := do_clean_removes fs hrm resolved_path fuel x x' h hsim hs hq
    have hd : fs.directory_exists resolved_path x'.world = false := by
      cases hde : fs.directory_exists resolved_path x'.world with
      | false => rfl
      | true => rw [hdir _ _ hde] at hgone; cases hgone
    refine ⟨hd, ?_⟩
    intro ctx hr
    rw [hv ctx _ hr, hd]
    simp

/-- C15 (witness): on `app_disk` the clean of `C:/app` removes everything, and `verify`
reports `Missing`. -/
theorem verify_without_reader_witness :
    ((CopyDirectoryAction.do_clean Disk.access "C:/app" 1
        ⟨ActionContext.for_clean none, app_disk, []⟩).map
      (fun r => (r.1, r.2.world, r.2.events))) = some (true, [], []) ∧
    (CopyDirectoryAction.verify Disk.access "C:/app" "files/app"
      (ActionContext.for_clean none) []).1 = VerifyStatus.Missing ∧
    ((∀ cb : Option (IActionCallback Disk), (ActionContext.for_clean cb).reader = none) ∧
     (∀ (ctx : ActionContext Disk) (w : Disk), ctx.reader = none →
       (CopyDirectoryAction.verify Disk.access "C:/app" "files/app" ctx w).1
         = (if Disk.access.directory_exists "C:/app" w = true then VerifyStatus.Match
            else VerifyStatus.Missing) ∧
       (CopyDirectoryAction.verify Disk.access "C:/app" "files/app" ctx w).1
         ≠ VerifyStatus.Extra ∧
       (CopyDirectoryAction.verify Disk.access "C:/app" "files/app" ctx w).1
         ≠ VerifyStatus.Mismatch) ∧
     (∀ (fuel : Nat) (x x' : Exec Disk),
       x.ctx.simulate = false → x.ctx.skip_all_errors = false →
       CopyDirectoryAction.do_clean Disk.access "C:/app" fuel x = some (true, x') →
       (∀ e ∈ x'.events, e.is_error = false) →
       Disk.access.directory_exists "C:/app" x'.world = false ∧
       ∀ ctx : ActionContext Disk, ctx.reader = none →
         (CopyDirectoryAction.verify Disk.access "C:/app" "files/app" ctx x'.world).1
           = VerifyStatus.Missing)) :=
  ⟨by decide, by decide,
    verify_without_reader Disk.access Disk_directory_is_path Disk_remove_removes
      "C:/app" "files/app"⟩

/-! ## `parse_phase` and `handle_decision` -/

theorem eq_nocase_list_iff (a b : List Char) :
    eq_nocase_list a b = true ↔ a.map Char.toLower = b.map Char.toLower := by
  induction a generalizing b with
  | nil => cases b <;> simp [eq_nocase_list]
  | cons x xs ih =>
    cases b with
    | nil => simp [eq_nocase_list]
    | cons y ys => simp [eq_nocase_list, eq_nocase, ih]

theorem equals_nocase_iff (a b : String) :
    equals_nocase a b = true ↔ a.data.map Char.toLower = b.data.map Char.toLower :=
  eq_nocase_list_iff _ _

theorem parse_phase_sound (str : String) (p : Phase) (h : parse_phase str = some p) :
    equals_nocase str (phase_to_string p) = true ∨
      equals_nocase str (phase_kebab_name p) = true := by
  unfold parse_phase at h
  repeat' split at h
  all_goals first
    | (cases h; rename_i hc; simpa [phase_to_string, phase_kebab_name] using hc)
    | (cases h)

theorem parse_phase_complete (str : String) (p : Phase)
    (h : equals_nocase str (phase_to_string p) = true ∨
      equals_nocase str (phase_kebab_name p) = true) : parse_phase str ≠ none := by
  unfold parse_phase
  cases p <;> simp only [phase_to_string, phase_kebab_name] at h <;>
    rcases h with h | h <;> simp only [h, Bool.or_true, Bool.true_or, if_true] <;>
    repeat' split
  all_goals simp

theorem phase_names_distinct (p q : Phase) (a b : String)
    (ha : a = phase_to_string p ∨ a = phase_kebab_name p)
    (hb : b = phase_to_string q ∨ b = phase_kebab_name q)
    (h : a.data.map Char.toLower = b.data.map Char.toLower) : p = q := by
  rcases ha with ha | ha <;> rcases hb with hb | hb <;> subst ha <;> subst hb <;>
    cases p <;> cases q <;> first | rfl | (exact absurd h (by decide))

theorem parse_phase_matches (str : String) (p : Phase) :
    parse_phase str = some p ↔
      (equals_nocase str (phase_to_string p) = true ∨
        equals_nocase str (phase_kebab_name p) = true) := by
  constructor
  · exact parse_phase_sound str p
  · intro h
    cases hq : parse_phase str with
    | none => exact absurd hq (parse_phase_complete str p h)
    | some q =>
      have hq2 := parse_phase_sound str q hq
      have : q = p := by
        rcases h with h | h <;> rcases hq2 with h2 | h2 <;>
          rw [equals_nocase_iff] at h h2
        · exact phase_names_distinct q p _ _ (Or.inl rfl) (Or.inl rfl) (h2.symm.trans h)
        · exact phase_names_distinct q p _ _ (Or.inr rfl) (Or.inl rfl) (h2.symm.trans h)
        · exact phase_names_distinct q p _ _ (Or.inl rfl) (Or.inr rfl) (h2.symm.trans h)
        · exact phase_names_distinct q p _ _ (Or.inr rfl) (Or.inr rfl) (h2.symm.trans h)
      rw [this]

/-- C24: `parse_phase` returns the phase `p` exactly for the strings that equal,
ignoring letter case, the PascalCase name of `p` or its kebab-case form, it
fails exactly on the strings that match none of the twelve names, and it maps
the name `phase_to_string p` back to `p`. -/
theorem parse_phase_accepts_exactly (str : String) (p : Phase) :
    (parse_phase str = some p ↔
      (equals_nocase str (phase_to_string p) = true ∨
        equals_nocase str (phase_kebab_name p) = true)) ∧
    (parse_phase str = none ↔
      ∀ q, equals_nocase str (phase_to_string q) = false ∧
        equals_nocase str (phase_kebab_name q) = false) ∧
    parse_phase (phase_to_string p) = some p := by
  refine ⟨parse_phase_matches str p, ?_, by cases p <;> decide⟩
  constructor
  · intro h q
    have := (parse_phase_matches str q).not.mp (by rw [h]; simp)
    simpa using this
  · intro h
    cases hq : parse_phase str with
    | none => rfl
    | some q =>
      have := (parse_phase_matches str q).mp hq
      simp [h q] at this

/-- C25: `handle_decision` answers `true` for `Continue`, `Skip` and `SkipAll`
and `false` for `Abort` and `Retry`; the context it leaves has
`skip_all_errors` set when the decision is `SkipAll` and is the context it was
given otherwise, and nothing else of the state changes. -/
theorem handle_decision_result (decision : Decision) (x : Exec W) :
    ((handle_decision decision x).1 = true ↔
      (decision = .Continue ∨ decision = .Skip ∨ decision = .SkipAll)) ∧
    ((handle_decision decision x).1 = false ↔ (decision = .Abort ∨ decision = .Retry)) ∧
    ((handle_decision decision x).2.ctx.skip_all_errors =
      (if decision = .SkipAll then true else x.ctx.skip_all_errors)) ∧
    (handle_decision decision x).2.ctx.reader = x.ctx.reader ∧
    (handle_decision decision x).2.ctx.writer = x.ctx.writer ∧
    (handle_decision decision x).2.ctx.callback = x.ctx.callback ∧
    (handle_decision decision x).2.ctx.simulate = x.ctx.simulate ∧
    (handle_decision decision x).2 =
      (if decision = .SkipAll then { x with ctx := x.ctx.set_skip_all_errors true } else x) ∧
    (handle_decision decision x).2.world = x.world ∧
    (handle_decision decision x).2.events = x.events := by
  cases decision <;> simp [handle_decision, ActionContext.set_skip_all_errors]

/-! ## The entries that a recursive extraction processes -/

/-- C28 (failing input): with the context that `orchestrator::verify` builds (`for_clean`, no
reader) and a hosts file that has an entry for the host name, `verify` passes
its three early returns and reads the IP of a snapshot entry that was never
parsed. -/
theorem hosts_verify_reads_absent_snapshot_entry :
    HostsAction.verify list_hosts "myapp.local" "hosts/myapp.toml"
      (ActionContext.for_clean none) [⟨"127.0.0.1", "myapp.local", ""⟩] = none := by
  decide

/-- The read of an IP through an empty optional happens exactly when the context
has no reader and the hosts file has an entry for the host name. -/
theorem hosts_verify_undefined_iff (hosts : HostsAccess W) (hostname archive_path : String)
    (ctx : ActionContext W) (w : W) :
    HostsAction.verify hosts hostname archive_path ctx w = none ↔
      (ctx.reader = none ∧ (HostsAction.read_entry hosts hostname w).isSome = true) := by
  obtain ⟨rd, wr, cb, sim, sk⟩ := ctx
  cases rd with
  | none =>
    cases hs : HostsAction.read_entry hosts hostname w <;>
      simp [HostsAction.verify, hs]
  | some reader =>
    cases hs : HostsAction.read_entry hosts hostname w <;>
    by_cases hex : reader.path_exists archive_path w = true <;>
    cases hn : HostsEntry.from_toml hosts (reader.read_text archive_path w) <;>
      simp [HostsAction.verify, hs, hex, hn]
    split <;> simp

/-! ## Termination of `unresolve` -/

theorem match_nocase_length (needle : List Char) :
    ∀ text, match_nocase needle text = true → needle.length ≤ text.length := by
  induction needle with
  | nil => intro text _; simp
  | cons n ns ih =>
    intro text h
    cases text with
    | nil => simp [match_nocase] at h
    | cons c cs =>
      simp only [match_nocase, Bool.and_eq_true] at h
      simpa using ih cs h.2

theorem find_nocase_from_bounds (needle : List Char) :
    ∀ (text : List Char) (i p : Nat), find_nocase_from needle text i = some p →
      i ≤ p ∧ p + needle.length ≤ i + text.length := by
  intro text
  induction text with
  | nil =>
    intro i p h
    simp only [find_nocase_from] at h
    split at h
    · rename_i hn; cases h; simp [hn]
    · cases h
  | cons c cs ih =>
    intro i p h
    simp only [find_nocase_from] at h
    split at h
    · rename_i hm
      cases h
      exact ⟨le_refl _, by have := match_nocase_length needle _ hm; omega⟩
    · obtain ⟨h1, h2⟩ := ih (i + 1) p h
      simp only [List.length_cons]
      omega

theorem find_nocase_bounds (haystack needle : List Char) (pos p : Nat)
    (h : find_nocase haystack needle pos = some p) :
    pos ≤ p ∧ p + needle.length ≤ haystack.length := by
  unfold find_nocase at h
  split at h
  · rename_i hle
    obtain ⟨h1, h2⟩ := find_nocase_from_bounds needle _ pos p h
    simp only [List.length_drop] at h2
    omega
  · cases h

/-- The `while` loop for a non-empty value ends: each turn leaves less text
behind the search position. -/
theorem replace_loop_ends (value placeholder : List Char) (hv : value ≠ []) :
    ∀ (fuel : Nat) (result : List Char) (pos : Nat), result.length - pos < fuel →
      (replace_loop value placeholder fuel result pos).isSome = true := by
  intro fuel
  induction fuel with
  | zero => intro result pos h; omega
  | succ fuel ih =>
    intro result pos h
    simp only [replace_loop]
    cases hf : find_nocase result value pos with
    | none => rfl
    | some p =>
      obtain ⟨h1, h2⟩ := find_nocase_bounds result value pos p hf
      have hvl : 0 < value.length := List.length_pos.mpr hv
      apply ih
      simp only [List.length_append, List.length_take, List.length_drop]
      omega

/-- More turns than the loop needs do not change what it returns. -/
theorem replace_loop_more_fuel (value placeholder : List Char) :
    ∀ (fuel : Nat) (result : List Char) (pos : Nat) (r : List Char) (extra : Nat),
      replace_loop value placeholder fuel result pos = some r →
      replace_loop value placeholder (fuel + extra) result pos = some r := by
  intro fuel
  induction fuel with
  | zero => intro result pos r extra h; simp [replace_loop] at h
  | succ fuel ih =>
    intro result pos r extra h
    rw [Nat.add_right_comm]
    simp only [replace_loop] at h ⊢
    cases hf : find_nocase result value pos with
    | none => rw [hf] at h; exact h
    | some p => rw [hf] at h; exact ih _ _ r extra h

theorem unresolve_vars_ends (l : List (String × String)) (hl : ∀ p ∈ l, p.2.data ≠ []) :
    ∀ result : List Char, (unresolve_vars l result).isSome = true := by
  induction l with
  | nil => intro result; rfl
  | cons a rest ih =>
    intro result
    obtain ⟨name, value⟩ := a
    simp only [unresolve_vars]
    have h := replace_loop_ends value.data (placeholder_of name)
      (hl (name, value) (List.mem_cons_self _ _)) (result.length + 1) result 0 (by omega)
    cases hr : replace_loop value.data (placeholder_of name) (result.length + 1) result 0 with
    | none => rw [hr] at h; cases h
    | some r => exact ih (fun p hp => hl p (List.mem_cons_of_mem _ hp)) r

theorem sorted_vars_nonempty (resolved : VarMap) :
    ∀ p ∈ sorted_vars resolved, p.2.data ≠ [] := by
  intro p hp
  have hp2 : p ∈ resolved.filter unresolve_eligible :=
    (sorted_vars_perm resolved).mem_iff.mp hp
  have := (List.mem_filter.mp hp2).2
  simp only [unresolve_eligible, Bool.and_eq_true, Bool.not_eq_true', List.isEmpty_eq_false] at this
  exact this.1.1.1.1

/-- C30: `unresolve` returns a text for every input and every variable map.  The
variables whose value is searched for all have a non-empty value; the `while`
loop of a variable with a non-empty value ends after at most as many
replacements as the text behind the search position has characters, whatever
the placeholder is (so also when the value occurs in the placeholder), and
further turns would change nothing; after a replacement at index `p` the
search goes on at `p` plus the length of the placeholder.  For a variable `X`
with value `x` or `$` every occurrence is replaced once. -/
theorem unresolve_terminates (resolved : VarMap) (input : String) :
    (unresolve resolved input).isSome = true ∧
    (∀ p ∈ sorted_vars resolved, p.2 ≠ "") ∧
    (∀ (value placeholder result : List Char) (pos fuel : Nat), value ≠ [] →
      result.length - pos < fuel →
      ∃ r, replace_loop value placeholder fuel result pos = some r ∧
        ∀ extra, replace_loop value placeholder (fuel + extra) result pos = some r) ∧
    (∀ (value placeholder result : List Char) (pos fuel p : Nat),
      find_nocase result value pos = some p →
      pos ≤ p ∧ p + value.length ≤ result.length ∧
      replace_loop value placeholder (fuel + 1) result pos =
        replace_loop value placeholder fuel
          (result.take p ++ placeholder ++ result.drop (p + value.length))
          (p + placeholder.length)) ∧
    unresolve [("X", "x")] "axbXc" = some "a${X}b${X}c" ∧
    unresolve [("X", "$")] "$5 and $$" = some "${X}5 and ${X}${X}" := by
  refine ⟨?_, ?_, ?_, ?_, by decide, by decide⟩
  · have := unresolve_vars_ends (sorted_vars resolved) (sorted_vars_nonempty resolved) input.data
    simpa [unresolve] using this
  · intro p hp h
    have := sorted_vars_nonempty resolved p hp
    rw [h] at this
    exact this rfl
  · intro value placeholder result pos fuel hv hlt
    have h := replace_loop_ends value placeholder hv fuel result pos hlt
    cases hr : replace_loop value placeholder fuel result pos with
    | none => rw [hr] at h; cases h
    | some r => exact ⟨r, rfl, fun extra => replace_loop_more_fuel _ _ _ _ _ r extra hr⟩
  · intro value placeholder result pos fuel p hf
    obtain ⟨h1, h2⟩ := find_nocase_bounds result value pos p hf
    refine ⟨h1, h2, ?_⟩
    simp only [replace_loop, hf]

/-! ## The order of the `remove` calls of a clean -/

theorem retry_loop_removes (fs : DirectoryAccess W) (cb : Option (IActionCallback W))
    (log : W → List String) (hlog : records_removes fs cb log) (path message : String)
    (context : String → String) (fuel : Nat) :
    ∀ (x : Exec W) (b : Bool) (x' : Exec W),
      retry_loop (remove_attempt fs path) message context cb fuel x = some (b, x') →
      ∃ n, log x'.world = log x.world ++ List.replicate n path := by
  have hatt : ∀ w, log (remove_attempt fs path w).2 = log w ∨
      log (remove_attempt fs path w).2 = log w ++ [path] := by
    intro w
    unfold remove_attempt
    split
    · exact Or.inl rfl
    · exact Or.inr (hlog.1 path w)
  have hatt2 : ∀ w, ∃ n, log (remove_attempt fs path w).2 = log w ++ List.replicate n path := by
    intro w
    rcases hatt w with h | h
    · exact ⟨0, by simp [h]⟩
    · exact ⟨1, by simp [h]⟩
  induction fuel with
  | zero => intro x b x' h; simp [retry_loop] at h
  | succ fuel ih =>
    intro x b x' h
    obtain ⟨n, hn⟩ := hatt2 x.world
    simp only [retry_loop] at h
    cases hr : (remove_attempt fs path x.world).1 with
    | none =>
      rw [hr] at h
      simp only [Option.some.injEq, Prod.mk.injEq] at h
      exact ⟨n, by rw [← h.2]; exact hn⟩
    | some err =>
      rw [hr] at h
      simp only at h
      split at h
      · simp only [Option.some.injEq, Prod.mk.injEq] at h
        exact ⟨n, by rw [← h.2]; exact hn⟩
      · cases cb with
        | none =>
          simp only [Option.some.injEq, Prod.mk.injEq] at h
          exact ⟨n, by rw [← h.2]; exact hn⟩
        | some c =>
          have herr := (hlog.2 c rfl).2 message (context err) (remove_attempt fs path x.world).2
          simp only at h
          split at h
          · obtain ⟨m, hm⟩ := ih _ b x' h
            refine ⟨n + m, ?_⟩
            rw [hm]
            simp only [Exec.on_error]
            rw [herr, hn, List.replicate_add, List.append_assoc]
          all_goals
            simp only [Option.some.injEq, Prod.mk.injEq] at h
            exact ⟨n, by rw [← h.2]; simp only [Exec.on_error]; rw [herr, hn]⟩

theorem progress_step_removes (cb : Option (IActionCallback W)) (log : W → List String)
    (hcb : ∀ c, cb = some c →
      ∀ phase detail percent w, log (c.on_progress phase detail percent w) = log w)
    (total i : Nat) (lp : Int) (phase name : String) (x : Exec W) :
    log (progress_step cb total i lp phase name x).1.world = log x.world := by
  unfold progress_step
  cases cb with
  | none => rfl
  | some c =>
    simp only
    split
    · exact hcb c rfl _ _ _ _
    · rfl

theorem clean_files_loop_removes (fs : DirectoryAccess W) (cb : Option (IActionCallback W))
    (log : W → List String) (hlog : records_removes fs cb log)
    (simulate : Bool) (total fuel : Nat) (files : List String) :
    ∀ (i : Nat) (lp : Int) (x : Exec W) (b : Bool) (x' : Exec W),
      clean_files_loop fs cb simulate total fuel files i lp x = some (b, x') →
      ∃ counts : List Nat, (b = true → counts.length = files.length) ∧
        log x'.world = log x.world ++ (List.zipWith List.replicate counts files).flatten := by
  have hprog := fun c hc => (hlog.2 c hc).1
  induction files with
  | nil =>
    intro i lp x b x' h
    simp only [clean_files_loop, Option.some.injEq, Prod.mk.injEq] at h
    exact ⟨[], fun _ => rfl, by rw [← h.2]; simp⟩
  | cons file rest ih =>
    intro i lp x b x' h
    simp only [clean_files_loop] at h
    have hp := progress_step_removes cb log hprog total i lp "Clean" (fs.filename file) x
    cases simulate with
    | true =>
      simp only [if_true] at h
      have hx1 : ∀ (lp1 : Int) (y : Exec W),
          clean_files_loop fs cb true total fuel rest (i + 1) lp1 y = some (b, x') →
          log y.world = log x.world →
          ∃ counts : List Nat, (b = true → counts.length = (file :: rest).length) ∧
            log x'.world = log x.world ++
              (List.zipWith List.replicate counts (file :: rest)).flatten := by
        intro lp1 y hy hyl
        obtain ⟨counts, hc, hl⟩ := ih _ _ _ b x' hy
        exact ⟨0 :: counts, fun hb => by simp [hc hb], by rw [hl, hyl]; simp⟩
      apply hx1 _ _ h
      split
      · cases cb with
        | none => exact hp
        | some c =>
          simp only [Exec.on_progress]
          rw [hprog c rfl, hp]
      · exact hp
    | false =>
      simp only [Bool.false_eq_true, if_false] at h
      rcases after_item_true _ _ _ _ h with ⟨hr, hb⟩ | ⟨x2, hr, hnext⟩
      · obtain ⟨n, hn⟩ := retry_loop_removes fs cb log hlog file _ _ fuel _ _ _ hr
        refine ⟨[n], ?_, ?_⟩
        · intro h; rw [hb] at h; cases h
        · rw [hn, hp]
          cases rest <;> simp
      · obtain ⟨n, hn⟩ := retry_loop_removes fs cb log hlog file _ _ fuel _ _ _ hr
        obtain ⟨counts, hc, hl⟩ := ih _ _ _ b x' hnext
        refine ⟨n :: counts, fun hb => by simp [hc hb], ?_⟩
        rw [hl, hn, hp]
        simp

theorem clean_dirs_loop_removes (fs : DirectoryAccess W) (cb : Option (IActionCallback W))
    (log : W → List String) (hlog : records_removes fs cb log)
    (simulate : Bool) (fuel : Nat) (dirs : List String) :
    ∀ (x : Exec W) (b : Bool) (x' : Exec W),
      clean_dirs_loop fs cb simulate fuel dirs x = some (b, x') →
      ∃ counts : List Nat, (b = true → counts.length = dirs.length) ∧
        log x'.world = log x.world ++ (List.zipWith List.replicate counts dirs).flatten := by
  have hprog := fun c hc => (hlog.2 c hc).1
  induction dirs with
  | nil =>
    intro x b x' h
    simp only [clean_dirs_loop, Option.some.injEq, Prod.mk.injEq] at h
    exact ⟨[], fun _ => rfl, by rw [← h.2]; simp⟩
  | cons dir rest ih =>
    intro x b x' h
    simp only [clean_dirs_loop] at h
    cases simulate with
    | true =>
      simp only [if_true] at h
      have hx1 : ∀ (y : Exec W),
          clean_dirs_loop fs cb true fuel rest y = some (b, x') →
          log y.world = log x.world →
          ∃ counts : List Nat, (b = true → counts.length = (dir :: rest).length) ∧
            log x'.world = log x.world ++
              (List.zipWith List.replicate counts (dir :: rest)).flatten := by
        intro y hy hyl
        obtain ⟨counts, hc, hl⟩ := ih _ b x' hy
        exact ⟨0 :: counts, fun hb => by simp [hc hb], by rw [hl, hyl]; simp⟩
      apply hx1 _ h
      split
      · cases cb with
        | none => rfl
        | some c =>
          simp only [Exec.on_progress]
          rw [hprog c rfl]
      · rfl
    | false =>
      simp only [Bool.false_eq_true, if_false] at h
      rcases after_item_true _ _ _ _ h with ⟨hr, hb⟩ | ⟨x2, hr, hnext⟩
      · obtain ⟨n, hn⟩ := retry_loop_removes fs cb log hlog dir _ _ fuel _ _ _ hr
        refine ⟨[n], ?_, ?_⟩
        · intro h; rw [hb] at h; cases h
        · rw [hn]
          cases rest <;> simp
      · obtain ⟨n, hn⟩ := retry_loop_removes fs cb log hlog dir _ _ fuel _ _ _ hr
        obtain ⟨counts, hc, hl⟩ := ih _ b x' hnext
        refine ⟨n :: counts, fun hb => by simp [hc hb], ?_⟩
        rw [hl, hn]
        simp

theorem retry_loop_callback (attempt : W → Option String × W) (message : String)
    (context : String → String) (cb : Option (IActionCallback W)) (fuel : Nat) :
    ∀ (x : Exec W) (b : Bool) (x' : Exec W),
      retry_loop attempt message context cb fuel x = some (b, x') →
      x'.ctx.callback = x.ctx.callback ∧ x'.ctx.simulate = x.ctx.simulate := by
  induction fuel with
  | zero => intro x b x' h; simp [retry_loop] at h
  | succ fuel ih =>
    intro x b x' h
    simp only [retry_loop] at h
    cases hr : (attempt x.world).1 with
    | none =>
      rw [hr] at h
      simp only [Option.some.injEq, Prod.mk.injEq] at h
      rw [← h.2]; exact ⟨rfl, rfl⟩
    | some err =>
      rw [hr] at h
      simp only at h
      split at h
      · simp only [Option.some.injEq, Prod.mk.injEq] at h
        rw [← h.2]; exact ⟨rfl, rfl⟩
      · cases cb with
        | none =>
          simp only [Option.some.injEq, Prod.mk.injEq] at h
          rw [← h.2]; exact ⟨rfl, rfl⟩
        | some c =>
          simp only at h
          split at h
          · simpa [Exec.on_error] using ih _ b x' h
          all_goals
            simp only [Option.some.injEq, Prod.mk.injEq] at h
            rw [← h.2]; exact ⟨rfl, rfl⟩

theorem clean_files_loop_callback (fs : DirectoryAccess W) (cb : Option (IActionCallback W))
    (simulate : Bool) (total fuel : Nat) (files : List String) :
    ∀ (i : Nat) (lp : Int) (x : Exec W) (b : Bool) (x' : Exec W),
      clean_files_loop fs cb simulate total fuel files i lp x = some (b, x') →
      x'.ctx.callback = x.ctx.callback ∧ x'.ctx.simulate = x.ctx.simulate := by
  induction files with
  | nil =>
    intro i lp x b x' h
    simp only [clean_files_loop, Option.some.injEq, Prod.mk.injEq] at h
    rw [← h.2]; exact ⟨rfl, rfl⟩
  | cons file rest ih =>
    intro i lp x b x' h
    simp only [clean_files_loop] at h
    have hp := (progress_step_ctx cb total i lp "Clean" (fs.filename file) x).1
    cases simulate with
    | true =>
      simp only [if_true] at h
      have hx1 : ∀ (lp1 : Int) (y : Exec W),
          clean_files_loop fs cb true total fuel rest (i + 1) lp1 y = some (b, x') →
          y.ctx = x.ctx →
          x'.ctx.callback = x.ctx.callback ∧ x'.ctx.simulate = x.ctx.simulate := by
        intro lp1 y hy hyl
        rw [← hyl]
        exact ih _ _ _ b x' hy
      apply hx1 _ _ h
      split
      · cases cb with
        | none => exact hp
        | some c => exact hp
      · exact hp
    | false =>
      simp only [Bool.false_eq_true, if_false] at h
      rcases after_item_true _ _ _ _ h with ⟨hr, _⟩ | ⟨x2, hr, hnext⟩
      · have := retry_loop_callback _ _ _ _ _ _ _ _ hr
        rw [hp] at this
        exact this
      · have h1 := retry_loop_callback _ _ _ _ _ _ _ _ hr
        have h2 := ih _ _ _ b x' hnext
        rw [hp] at h1
        exact ⟨h2.1.trans h1.1, h2.2.trans h1.2⟩

theorem sorted_by_depth (fs : DirectoryAccess W) (dirs : List String) :
    (dirs.insertionSort (fun a b => fs.depth b ≤ fs.depth a)).Perm dirs ∧
    (dirs.insertionSort (fun a b => fs.depth b ≤ fs.depth a)).Pairwise
      (fun a b => fs.depth b ≤ fs.depth a) := by
  refine ⟨List.perm_insertionSort _ _, ?_⟩
  haveI : IsTotal String (fun a b => fs.depth b ≤ fs.depth a) := ⟨fun a b => le_total _ _⟩
  haveI : IsTrans String (fun a b => fs.depth b ≤ fs.depth a) :=
    ⟨fun a b c h1 h2 => le_trans h2 h1⟩
  exact List.sorted_insertionSort _ _

/-- C22: on a system that keeps a record of its `remove` calls, the calls that
`do_clean` adds are calls for the collected files in their order, then calls
for the collected directories in the sorted order, then calls for the base
directory (a path has several calls in a row when the callback answers
`Retry`, and none when it is gone or the clean is simulated or was ended
before).  The sorted order has the same directories, none of them behind one
with fewer components, hence none behind one of its ancestors.  A clean that
returns `true` for a base directory that exists has passed through the loop of
every file and of every directory. -/
theorem clean_removes_files_then_directories (fs : DirectoryAccess W) (log : W → List String)
    (resolved_path : String) (fuel : Nat) (x x' : Exec W) (b : Bool)
    (hlog : records_removes fs x.ctx.callback log)
    (h : CopyDirectoryAction.do_clean fs resolved_path fuel x = some (b, x')) :
    ∃ (file_calls dir_calls : List Nat) (base_calls : Nat),
      log x'.world = log x.world
        ++ (List.zipWith List.replicate file_calls
            (((fs.iterate resolved_path x.world).filter
              (fun e => e.2 = EntryKind.regular_file)).map Prod.fst)).flatten
        ++ (List.zipWith List.replicate dir_calls
            ((((fs.iterate resolved_path x.world).filter
              (fun e => e.2 = EntryKind.directory)).map Prod.fst).insertionSort
                (fun a b => fs.depth b ≤ fs.depth a))).flatten
        ++ List.replicate base_calls resolved_path ∧
      ((((fs.iterate resolved_path x.world).filter
          (fun e => e.2 = EntryKind.directory)).map Prod.fst).insertionSort
            (fun a b => fs.depth b ≤ fs.depth a)).Perm
        (((fs.iterate resolved_path x.world).filter
          (fun e => e.2 = EntryKind.directory)).map Prod.fst) ∧
      ((((fs.iterate resolved_path x.world).filter
          (fun e => e.2 = EntryKind.directory)).map Prod.fst).insertionSort
            (fun a b => fs.depth b ≤ fs.depth a)).Pairwise
        (fun a b => fs.depth b ≤ fs.depth a) ∧
      (∀ ancestor_of : String → String → Prop,
        (∀ a d, ancestor_of a d → fs.depth a < fs.depth d) →
        ((((fs.iterate resolved_path x.world).filter
          (fun e => e.2 = EntryKind.directory)).map Prod.fst).insertionSort
            (fun a b => fs.depth b ≤ fs.depth a)).Pairwise
          (fun first second => ¬ ancestor_of first second)) ∧
      (fs.path_exists resolved_path x.world = true → b = true →
        file_calls.length = (((fs.iterate resolved_path x.world).filter
              (fun e => e.2 = EntryKind.regular_file)).map Prod.fst).length ∧
        dir_calls.length = (((fs.iterate resolved_path x.world).filter
              (fun e => e.2 = EntryKind.directory)).map Prod.fst).length) := by
  obtain ⟨hperm, hsorted⟩ := sorted_by_depth fs
    (((fs.iterate resolved_path x.world).filter (fun e => e.2 = EntryKind.directory)).map Prod.fst)
  have hanc : ∀ ancestor_of : String → String → Prop,
      (∀ a d, ancestor_of a d → fs.depth a < fs.depth d) →
      ((((fs.iterate resolved_path x.world).filter
        (fun e => e.2 = EntryKind.directory)).map Prod.fst).insertionSort
          (fun a b => fs.depth b ≤ fs.depth a)).Pairwise
        (fun first second => ¬ ancestor_of first second) := by
    intro anc hdepth
    refine hsorted.imp ?_
    intro a d hle ha
    have := hdepth a d ha
    omega
  simp only [CopyDirectoryAction.do_clean] at h
  split at h
  · rename_i hex
    simp only [Option.some.injEq, Prod.mk.injEq] at h
    refine ⟨[], [], 0, by rw [← h.2]; simp, hperm, hsorted, hanc, ?_⟩
    intro hx; rw [hex] at hx; cases hx
  · rcases after_item_true _ _ _ _ h with ⟨hr, hb⟩ | ⟨x1, hr, hnext⟩
    · obtain ⟨cf, _, hl⟩ := clean_files_loop_removes fs _ log hlog _ _ _ _ _ _ _ _ _ hr
      refine ⟨cf, [], 0, by rw [hl]; simp, hperm, hsorted, hanc, ?_⟩
      intro _ hbt; rw [hb] at hbt; cases hbt
    · obtain ⟨cf, hcf, hl⟩ := clean_files_loop_removes fs _ log hlog _ _ _ _ _ _ _ _ _ hr
      obtain ⟨hcb, hsim⟩ := clean_files_loop_callback fs _ _ _ _ _ _ _ _ _ _ hr
      simp only [clean_directories] at hnext
      rw [hcb, hsim] at hnext
      rcases after_item_true _ _ _ _ hnext with ⟨hr2, hb⟩ | ⟨x2, hr2, hbase⟩
      · obtain ⟨cd, _, hl2⟩ := clean_dirs_loop_removes fs _ log hlog _ _ _ _ _ _ hr2
        refine ⟨cf, cd, 0, by rw [hl2, hl]; simp, hperm, hsorted, hanc, ?_⟩
        intro _ hbt; rw [hb] at hbt; cases hbt
      · obtain ⟨cd, hcd, hl2⟩ := clean_dirs_loop_removes fs _ log hlog _ _ _ _ _ _ hr2
        have hbn : ∃ n, log x'.world = log x2.world ++ List.replicate n resolved_path := by
          cases hsimv : x.ctx.simulate with
          | true =>
            rw [hsimv] at hbase
            simp only [if_true] at hbase
            refine ⟨0, ?_⟩
            split at hbase
            · cases hcbv : x.ctx.callback with
              | none =>
                rw [hcbv] at hbase
                simp only [Option.some.injEq, Prod.mk.injEq] at hbase
                rw [← hbase.2]; simp
              | some c =>
                rw [hcbv] at hbase
                simp only [Option.some.injEq, Prod.mk.injEq] at hbase
                rw [← hbase.2]
                simp only [Exec.on_progress, List.replicate_zero, List.append_nil]
                exact (hlog.2 c hcbv).1 _ _ _ _
            · simp only [Option.some.injEq, Prod.mk.injEq] at hbase
              rw [← hbase.2]; simp
          | false =>
            rw [hsimv] at hbase
            simp only [Bool.false_eq_true, if_false] at hbase
            exact retry_loop_removes fs _ log hlog resolved_path _ _ fuel _ _ _ hbase
        obtain ⟨n, hn⟩ := hbn
        refine ⟨cf, cd, n, by rw [hn, hl2, hl], hperm, hsorted, hanc, ?_⟩
        intro _ _
        refine ⟨hcf rfl, ?_⟩
        rw [hcd rfl]
        exact hperm.length_eq

/-- C22 (witness): the clean of `C:/app` on `deep_disk` removes the two files, then the
directory `C:/app/sub/deep`, then `C:/app/sub`, then `C:/app`. -/
theorem clean_removes_files_then_directories_witness :
    records_removes (DirectoryAccess.recording Disk.access)
      (ActionContext.for_clean (none : Option (IActionCallback (Disk × List String)))).callback
      Prod.snd ∧
    CopyDirectoryAction.do_clean (DirectoryAccess.recording Disk.access) "C:/app" 1
        ⟨ActionContext.for_clean none, (deep_disk, []), []⟩
      = some (true, ⟨ActionContext.for_clean none,
          ([], ["C:/app/a.txt", "C:/app/sub/deep/f.txt", "C:/app/sub/deep", "C:/app/sub",
                "C:/app"]), []⟩) ∧
    ∃ (file_calls dir_calls : List Nat) (base_calls : Nat),
      ["C:/app/a.txt", "C:/app/sub/deep/f.txt", "C:/app/sub/deep", "C:/app/sub", "C:/app"]
        = ([] : List String)
        ++ (List.zipWith List.replicate file_calls
            ((((DirectoryAccess.recording Disk.access).iterate "C:/app"
                (deep_disk, ([] : List String))).filter
              (fun e => e.2 = EntryKind.regular_file)).map Prod.fst)).flatten
        ++ (List.zipWith List.replicate dir_calls
            (((((DirectoryAccess.recording Disk.access).iterate "C:/app"
                (deep_disk, ([] : List String))).filter
              (fun e => e.2 = EntryKind.directory)).map Prod.fst).insertionSort
                (fun a b => (DirectoryAccess.recording Disk.access).depth b
                  ≤ (DirectoryAccess.recording Disk.access).depth a))).flatten
        ++ List.replicate base_calls "C:/app" ∧
      (((((DirectoryAccess.recording Disk.access).iterate "C:/app"
          (deep_disk, ([] : List String))).filter
          (fun e => e.2 = EntryKind.directory)).map Prod.fst).insertionSort
            (fun a b => (DirectoryAccess.recording Disk.access).depth b
              ≤ (DirectoryAccess.recording Disk.access).depth a)).Perm
        ((((DirectoryAccess.recording Disk.access).iterate "C:/app"
          (deep_disk, ([] : List String))).filter
          (fun e => e.2 = EntryKind.directory)).map Prod.fst) ∧
      (((((DirectoryAccess.recording Disk.access).iterate "C:/app"
          (deep_disk, ([] : List String))).filter
          (fun e => e.2 = EntryKind.directory)).map Prod.fst).insertionSort
            (fun a b => (DirectoryAccess.recording Disk.access).depth b
              ≤ (DirectoryAccess.recording Disk.access).depth a)).Pairwise
        (fun a b => (DirectoryAccess.recording Disk.access).depth b
          ≤ (DirectoryAccess.recording Disk.access).depth a) ∧
      (∀ ancestor_of : String → String → Prop,
        (∀ a d, ancestor_of a d → (DirectoryAccess.recording Disk.access).depth a
          < (DirectoryAccess.recording Disk.access).depth d) →
        (((((DirectoryAccess.recording Disk.access).iterate "C:/app"
            (deep_disk, ([] : List String))).filter
          (fun e => e.2 = EntryKind.directory)).map Prod.fst).insertionSort
            (fun a b => (DirectoryAccess.recording Disk.access).depth b
              ≤ (DirectoryAccess.recording Disk.access).depth a)).Pairwise
          (fun first second => ¬ ancestor_of first second)) ∧
      ((DirectoryAccess.recording Disk.access).path_exists "C:/app"
          (deep_disk, ([] : List String)) = true → true = true →
        file_calls.length = ((((DirectoryAccess.recording Disk.access).iterate "C:/app"
              (deep_disk, ([] : List String))).filter
              (fun e => e.2 = EntryKind.regular_file)).map Prod.fst).length ∧
        dir_calls.length = ((((DirectoryAccess.recording Disk.access).iterate "C:/app"
              (deep_disk, ([] : List String))).filter
              (fun e => e.2 = EntryKind.directory)).map Prod.fst).length) :=
  ⟨⟨fun _ _ => rfl, fun _ hc => nomatch hc⟩, rfl,
    clean_removes_files_then_directories (DirectoryAccess.recording Disk.access) Prod.snd
      "C:/app" 1 ⟨ActionContext.for_clean none, (deep_disk, []), []⟩
      ⟨ActionContext.for_clean none,
          ([], ["C:/app/a.txt", "C:/app/sub/deep/f.txt", "C:/app/sub/deep", "C:/app/sub",
                "C:/app"]), []⟩ true
      ⟨fun _ _ => rfl, fun _ hc => nomatch hc⟩ rfl⟩

/-! ## Recipes that `parse_xml` turns down -/

theorem parse_resource_incomplete (node : XmlNode) (h : resource_incomplete node) :
    parse_resource node = none := by
  obtain ⟨locator, hloc, hempty⟩ := h
  unfold locator_attribute at hloc
  unfold parse_resource
  simp only
  repeat' split at hloc
  all_goals first
    | (cases hloc; done)
    | skip
  all_goals
    cases hloc
    rcases hempty with he | he <;>
      simp [*, parse_files, parse_file, parse_registry, parse_environment, parse_delimited,
        parse_multistring, parse_service, parse_hosts]

theorem parse_resources_incomplete (nodes : List XmlNode) :
    ∀ actions, (∃ node ∈ nodes, resource_incomplete node) →
      parse_resources nodes actions = none := by
  induction nodes with
  | nil => intro actions h; obtain ⟨n, hn, _⟩ := h; cases hn
  | cons node rest ih =>
    intro actions h
    obtain ⟨n, hn, hinc⟩ := h
    simp only [parse_resources]
    rcases List.mem_cons.mp hn with rfl | hrest
    · rw [parse_resource_incomplete n hinc]
    · split
      · rfl
      · exact ih _ ⟨n, hrest, hinc⟩
      · exact ih _ ⟨n, hrest, hinc⟩

theorem parse_hook_without_phase (node : XmlNode) (h : hook_without_phase node) :
    parse_hook node = none := by
  unfold parse_hook
  simp only
  rcases h with h | h
  · simp [h]
  · split
    · rfl
    · rw [h]

theorem parse_hooks_without_phase (nodes : List XmlNode) :
    ∀ hooks, (∃ node ∈ nodes, hook_without_phase node) →
      parse_hooks nodes hooks = none := by
  induction nodes with
  | nil => intro hooks h; obtain ⟨n, hn, _⟩ := h; cases hn
  | cons node rest ih =>
    intro hooks h
    obtain ⟨n, hn, hinc⟩ := h
    simp only [parse_hooks]
    rcases List.mem_cons.mp hn with rfl | hrest
    · rw [parse_hook_without_phase n hinc]
    · split
      · rfl
      · exact ih _ ⟨n, hrest, hinc⟩
      · exact ih _ ⟨n, hrest, hinc⟩

theorem parse_xml_incomplete (builtin : VarMap) (top : List XmlNode) (root : XmlNode)
    (hroot : top.find? (fun c => c.name = "blueprint") = some root)
    (h : recipe_incomplete root) : parse_xml builtin (some top) = none := by
  cases hp : parse_xml builtin (some top) with
  | none => rfl
  | some bp =>
    exfalso
    simp only [parse_xml] at hp
    split at hp
    · cases hp
    · rename_i root1 hroot1
      have hrr : root1 = root := by
        have := hroot1.symm.trans hroot
        simpa using this
      subst hrr
      split at hp
      · cases hp
      · rename_i hname
        split at hp
        · cases hp
        · rename_i hversion
          split at hp
          · cases hp
          · rename_i user huser
            split at hp
            · cases hp
            · rename_i hres
              split at hp
              · cases hp
              · rename_i actions hactions
                split at hp
                · cases hp
                · rename_i hooks hhooks
                  rcases h with h | h | h | h
                  · exact hname h
                  · exact hversion h
                  · obtain ⟨rs, hrs, hnode⟩ := h
                    rw [hrs] at hactions
                    simp only at hactions
                    rw [parse_resources_incomplete _ _ hnode] at hactions
                    cases hactions
                  · obtain ⟨hs, hhs, hnode⟩ := h
                    rw [hhs] at hhooks
                    simp only at hhooks
                    rw [parse_hooks_without_phase _ _ hnode] at hhooks
                    cases hhooks

/-- C23: when the root element of a recipe has no name or no version, or an
element of a known name in its `<resources>` has no locator or no archive
path, or an element of its `<hooks>` has no phase or a phase that
`parse_phase` turns down, then `parse_xml` fails, and `Blueprint::load_from_string`
and `ProjectBlueprint::load_from_string` return no blueprint. -/
theorem incomplete_recipe_is_rejected (builtin : VarMap) (host : HostEnv)
    (top : List XmlNode) (root : XmlNode) (source_path : String)
    (hroot : top.find? (fun c => c.name = "blueprint") = some root)
    (h : recipe_incomplete root) :
    parse_xml builtin (some top) = none ∧
    load_from_string host (some top) = none ∧
    ProjectBlueprint.load_from_string host (some top) source_path = none := by
  refine ⟨parse_xml_incomplete builtin top root hroot h, ?_, ?_⟩
  · exact parse_xml_incomplete _ top root hroot h
  · unfold ProjectBlueprint.load_from_string
    rw [parse_xml_incomplete _ top root hroot h]

/-- C23 (witness): the recipe `recipe_without_archive` is turned down. -/
theorem incomplete_recipe_is_rejected_witness :
    [recipe_without_archive].find? (fun c => c.name = "blueprint")
      = some recipe_without_archive ∧
    recipe_incomplete recipe_without_archive ∧
    parse_xml (populate_builtins example_host) (some [recipe_without_archive]) = none ∧
    load_from_string example_host (some [recipe_without_archive]) = none ∧
    ProjectBlueprint.load_from_string example_host (some [recipe_without_archive])
      "C:/recipes/app.xml" = none :=
  ⟨rfl,
   Or.inr (Or.inr (Or.inl ⟨resources_without_archive, rfl, registry_without_archive,
     List.mem_cons_of_mem _ (List.mem_cons_self _ _), "key", by decide, Or.inr (by decide)⟩)),
   incomplete_recipe_is_rejected (populate_builtins example_host) example_host
     [recipe_without_archive] recipe_without_archive "C:/recipes/app.xml" rfl
     (Or.inr (Or.inr (Or.inl ⟨resources_without_archive, rfl, registry_without_archive,
       List.mem_cons_of_mem _ (List.mem_cons_self _ _), "key", by decide,
       Or.inr (by decide)⟩)))⟩

/-! ## The path cache of `SnapshotReader` -/

/-- C27 (counterexample): for the entry `a//b/c` the directory `a//b` is cached as a child
of `a/`, where `list_dir` does not look: the listing of the parent of `a//b`
does not have its last component `b`. -/
theorem list_dir_misses_child_after_empty_component :
    is_proper_ancestor "a//b" (normalized_path "a//b/c") = true ∧
    parent_of "a//b" = "a/" ∧ child_name_of "a//b" = "b" ∧
    (build_path_cache ["a//b/c"] fresh_cache).map
      (fun c => (c.is_directory "a//b", c.list_dir (parent_of "a//b"))) = some (true, [""]) := by
  decide

theorem rfind_slash_none (s : List Char) : rfind_slash s = none ↔ '/' ∉ s := by
  induction s with
  | nil => simp [rfind_slash]
  | cons c cs ih =>
    simp only [rfind_slash]
    cases h : rfind_slash cs with
    | none =>
      have := ih.mp h
      by_cases hc : c = '/'
      · simp [hc]
      · simp [hc, this, Ne.symm hc]
    | some i =>
      have : '/' ∈ cs := by
        by_contra hn
        rw [ih.mpr hn] at h; cases h
      simp [this]

theorem rfind_slash_some (s : List Char) :
    ∀ i, rfind_slash s = some i →
      ∃ pre post, s = pre ++ '/' :: post ∧ pre.length = i ∧ '/' ∉ post := by
  induction s with
  | nil => intro i h; simp [rfind_slash] at h
  | cons c cs ih =>
    intro i h
    simp only [rfind_slash] at h
    cases hr : rfind_slash cs with
    | none =>
      rw [hr] at h
      simp only at h
      split at h
      · rename_i hc
        cases h
        exact ⟨[], cs, by simp [hc], rfl, (rfind_slash_none cs).mp hr⟩
      · cases h
    | some j =>
      rw [hr] at h
      simp only [Option.some.injEq] at h
      obtain ⟨pre, post, hs, hl, hp⟩ := ih j hr
      exact ⟨c :: pre, post, by simp [hs], by simp [hl, h], hp⟩

theorem parent_child_split (cur : String) :
    ('/' ∉ cur.data ∧ parent_of cur = "" ∧ child_name_of cur = cur) ∨
    (∃ pre post, cur.data = pre ++ '/' :: post ∧ '/' ∉ post ∧
      parent_of cur = String.mk pre ∧ child_name_of cur = String.mk post) := by
  unfold parent_of child_name_of
  cases h : rfind_slash cur.data with
  | none => exact Or.inl ⟨(rfind_slash_none _).mp h, rfl, rfl⟩
  | some i =>
    obtain ⟨pre, post, hs, hl, hp⟩ := rfind_slash_some _ i h
    refine Or.inr ⟨pre, post, hs, hp, ?_, ?_⟩
    · simp [hs, ← hl]
    · simp only [hs, ← hl]
      congr 1
      rw [← List.drop_drop]
      simp

theorem string_eq_empty_iff (a : String) : a = "" ↔ a.data = [] := by
  constructor
  · intro h; rw [h]
  · intro h; exact String.ext h

theorem is_proper_ancestor_iff (a p : String) :
    is_proper_ancestor a p = true ↔ (a = "" ∨ ∃ rest, p.data = a.data ++ '/' :: rest) := by
  unfold is_proper_ancestor
  rw [Bool.or_eq_true, List.isEmpty_iff, List.isPrefixOf_iff_prefix, string_eq_empty_iff]
  constructor
  · rintro (h | ⟨t, ht⟩)
    · exact Or.inl h
    · exact Or.inr ⟨t, by rw [← ht]; simp⟩
  · rintro (h | ⟨t, ht⟩)
    · exact Or.inl h
    · exact Or.inr ⟨t, by rw [ht]; simp⟩

theorem ancestor_step (cur d : String) :
    is_proper_ancestor d cur = true ↔
      (d = "" ∨ (cur ≠ "" ∧ (d = parent_of cur ∨ is_proper_ancestor d (parent_of cur) = true))) := by
  simp only [is_proper_ancestor_iff]
  constructor
  · rintro (h | ⟨rest, hrest⟩)
    · exact Or.inl h
    · right
      have hne : cur ≠ "" := by
        intro h; rw [h] at hrest; simp at hrest
      refine ⟨hne, ?_⟩
      rcases parent_child_split cur with ⟨hno, _, _⟩ | ⟨pre, post, hs, hp, hpar, _⟩
      · exfalso; apply hno; rw [hrest]; simp
      · rw [hpar]
        rw [hs] at hrest
        rcases List.append_eq_append_iff.mp hrest with ⟨a, h1, h2⟩ | ⟨c, h1, h2⟩
        · cases a with
          | nil =>
            simp only [List.append_nil] at h1
            exact Or.inl (String.ext h1)
          | cons x a =>
            simp only [List.cons_append, List.cons.injEq] at h2
            exfalso; apply hp; rw [h2.2]; simp
        · cases c with
          | nil =>
            simp only [List.append_nil] at h1
            exact Or.inl (String.ext h1.symm)
          | cons x c =>
            simp only [List.cons_append, List.cons.injEq] at h2
            right; right
            exact ⟨c, by rw [h1, h2.1]⟩
  · rintro (h | ⟨hne, h | h | ⟨rest, hrest⟩⟩)
    · exact Or.inl h
    · rcases parent_child_split cur with ⟨_, hpar, _⟩ | ⟨pre, post, hs, _, hpar, _⟩
      · left; rw [h, hpar]
      · right; exact ⟨post, by rw [hs, h, hpar]⟩
    · exact Or.inl h
    · rcases parent_child_split cur with ⟨_, hpar, _⟩ | ⟨pre, post, hs, _, hpar, _⟩
      · rw [hpar] at hrest; simp at hrest
      · right
        rw [hpar] at hrest
        simp only at hrest
        exact ⟨rest ++ '/' :: post, by rw [hs, hrest]; simp⟩

theorem parent_of_length (cur : String) (hne : cur ≠ "") :
    (parent_of cur).length < cur.length := by
  rcases parent_child_split cur with ⟨_, hpar, _⟩ | ⟨pre, post, hs, _, hpar, _⟩
  · rw [hpar]
    have : cur.data ≠ [] := fun h => hne (String.ext h)
    show (0 : Nat) < cur.data.length
    exact List.length_pos.mpr this
  · rw [hpar]
    show pre.length < cur.data.length
    rw [hs]; simp

theorem parent_chain_spec (fuel : Nat) :
    ∀ (cur : String) (c : PathCache), cur.length ≤ fuel →
      (∀ k l, c.children k = some l → l.Nodup) →
      ∃ c1, parent_chain fuel cur c = some c1 ∧
        c1.cache_built = c.cache_built ∧ c1.all_paths = c.all_paths ∧
        c1.ordered_paths = c.ordered_paths ∧
        (∀ k l, c1.children k = some l → l.Nodup) ∧
        (∀ d, c1.directories d = true ↔
          (c.directories d = true ∨ (cur ≠ "" ∧ is_proper_ancestor d cur = true))) ∧
        (∀ k x, (∃ l, c1.children k = some l ∧ x ∈ l) ↔
          ((∃ l, c.children k = some l ∧ x ∈ l) ∨
            ∃ z, z ≠ "" ∧ (z = cur ∨ is_proper_ancestor z cur = true) ∧
              parent_of z = k ∧ child_name_of z = x)) := by
  induction fuel with
  | zero =>
    intro cur c hlen hnd
    have hcur : cur = "" := String.ext (List.length_eq_zero.mp (Nat.le_zero.mp hlen))
    subst hcur
    refine ⟨c, by simp [parent_chain], rfl, rfl, rfl, hnd, ?_, ?_⟩
    · intro d; simp
    · intro k x
      constructor
      · exact Or.inl
      · rintro (h | ⟨z, hz, hz2, _⟩)
        · exact h
        · exfalso
          rcases hz2 with h | h
          · exact hz h
          · rw [ancestor_step] at h
            rcases h with h | ⟨h, _⟩
            · exact hz h
            · exact h rfl
  | succ fuel ih =>
    intro cur c hlen hnd
    by_cases hcur : cur = ""
    · subst hcur
      refine ⟨c, by simp [parent_chain], rfl, rfl, rfl, hnd, ?_, ?_⟩
      · intro d; simp
      · intro k x
        constructor
        · exact Or.inl
        · rintro (h | ⟨z, hz, hz2, _⟩)
          · exact h
          · exfalso
            rcases hz2 with h | h
            · exact hz h
            · rw [ancestor_step] at h
              rcases h with h | ⟨h, _⟩
              · exact hz h
              · exact h rfl
    · have hpl := parent_of_length cur hcur
      have hnd2 : ∀ k l, add_child c.children (parent_of cur) (child_name_of cur) k = some l →
          l.Nodup := by
        intro k l hkl
        unfold add_child at hkl
        split at hkl
        · simp only [Option.some.injEq] at hkl
          have hold : ((c.children (parent_of cur)).getD []).Nodup := by
            cases hc : c.children (parent_of cur) with
            | none => simp
            | some l0 => simpa using hnd _ _ hc
          split at hkl
          · rw [← hkl]; exact hold
          · rename_i hnotin
            rw [← hkl]
            exact List.Nodup.append hold (List.nodup_singleton _)
              (by simpa [List.disjoint_singleton] using hnotin)
        · exact hnd k l hkl
      obtain ⟨c1, h1, hb, ha, ho, hn, hd, hch⟩ := ih (parent_of cur)
        { c with directories := set_insert c.directories (parent_of cur),
                 children := add_child c.children (parent_of cur) (child_name_of cur) }
        (by omega) hnd2
      refine ⟨c1, ?_, hb, ha, ho, hn, ?_, ?_⟩
      · rw [parent_chain]; simp only [hcur, if_false]; exact h1
      · intro d
        rw [hd, ancestor_step cur d]
        simp only [set_insert, Bool.or_eq_true, decide_eq_true_eq]
        constructor
        · rintro ((h | h) | ⟨hp, h⟩)
          · exact Or.inr ⟨hcur, Or.inr ⟨hcur, Or.inl h⟩⟩
          · exact Or.inl h
          · exact Or.inr ⟨hcur, Or.inr ⟨hcur, Or.inr h⟩⟩
        · rintro (h | ⟨_, h | ⟨_, h | h⟩⟩)
          · exact Or.inl (Or.inr h)
          · by_cases hp : parent_of cur = ""
            · exact Or.inl (Or.inl (by rw [h, hp]))
            · exact Or.inr ⟨hp, by rw [ancestor_step]; exact Or.inl h⟩
          · exact Or.inl (Or.inl h)
          · by_cases hp : parent_of cur = ""
            · rw [hp, ancestor_step] at h
              rcases h with h | ⟨h, _⟩
              · exact Or.inl (Or.inl (by rw [h, hp]))
              · exact absurd rfl h
            · exact Or.inr ⟨hp, h⟩
      · intro k x
        rw [hch]
        have hadd : (∃ l, add_child c.children (parent_of cur) (child_name_of cur) k = some l
            ∧ x ∈ l) ↔ ((∃ l, c.children k = some l ∧ x ∈ l) ∨
              (parent_of cur = k ∧ child_name_of cur = x)) := by
          unfold add_child
          by_cases hk : k = parent_of cur
          · subst hk
            simp only [if_true, Option.some.injEq, exists_eq_left', true_and]
            cases hc : c.children (parent_of cur) with
            | none =>
              simp only [Option.getD_none, List.not_mem_nil, if_false, List.nil_append,
                List.mem_singleton, false_and, exists_false, false_or]
              constructor
              · intro h; exact Or.inr h.symm
              · rintro (⟨l, hl, _⟩ | h)
                · cases hl
                · exact h.symm
            | some l0 =>
              simp only [Option.getD_some, Option.some.injEq, exists_eq_left']
              split
              · rename_i hin
                constructor
                · exact Or.inl
                · rintro (h | h)
                  · exact h
                  · rw [← h]; exact hin
              · simp only [List.mem_append, List.mem_singleton]
                constructor
                · rintro (h | h)
                  · exact Or.inl h
                  · exact Or.inr h.symm
                · rintro (h | h)
                  · exact Or.inl h
                  · exact Or.inr h.symm
          · simp only [hk, if_false]
            constructor
            · exact Or.inl
            · rintro (h | ⟨h, _⟩)
              · exact h
              · exact absurd h.symm hk
        rw [hadd]
        constructor
        · rintro ((h | ⟨h1, h2⟩) | ⟨z, hz, hz2, hz3⟩)
          · exact Or.inl h
          · exact Or.inr ⟨cur, hcur, Or.inl rfl, h1, h2⟩
          · refine Or.inr ⟨z, hz, Or.inr ?_, hz3⟩
            rw [ancestor_step]
            rcases hz2 with h | h
            · exact Or.inr ⟨hcur, Or.inl h⟩
            · exact Or.inr ⟨hcur, Or.inr h⟩
        · rintro (h | ⟨z, hz, hz2, hz3⟩)
          · exact Or.inl (Or.inl h)
          · rcases hz2 with h | h
            · subst h
              exact Or.inl (Or.inr hz3)
            · rw [ancestor_step] at h
              rcases h with h | ⟨_, h | h⟩
              · exact absurd h hz
              · exact Or.inr ⟨z, hz, Or.inl h, hz3⟩
              · exact Or.inr ⟨z, hz, Or.inr h, hz3⟩

theorem cache_path_spec (c : PathCache) (path : String)
    (hnd : ∀ k l, c.children k = some l → l.Nodup) :
    ∃ c1, cache_path c path = some c1 ∧
      c1.cache_built = c.cache_built ∧ c1.ordered_paths = c.ordered_paths ∧
      (∀ p, c1.all_paths p = true ↔ (p = path ∨ c.all_paths p = true)) ∧
      (∀ k l, c1.children k = some l → l.Nodup) ∧
      (∀ d, c1.directories d = true ↔
        (c.directories d = true ∨ (is_dir_path path.data = true ∧ d = normalized_path path) ∨
          (normalized_path path ≠ "" ∧ is_proper_ancestor d (normalized_path path) = true))) ∧
      (∀ k x, (∃ l, c1.children k = some l ∧ x ∈ l) ↔
        ((∃ l, c.children k = some l ∧ x ∈ l) ∨
          ∃ z, z ≠ "" ∧ (z = normalized_path path ∨
              is_proper_ancestor z (normalized_path path) = true) ∧
            parent_of z = k ∧ child_name_of z = x)) := by
  unfold cache_path
  by_cases hdir : is_dir_path path.data = true
  · simp only [hdir, if_true]
    obtain ⟨c1, h1, hb, ha, ho, hn, hd, hch⟩ := parent_chain_spec (normalized_path path).length
      (normalized_path path)
      { c with all_paths := set_insert c.all_paths path,
               directories := set_insert c.directories (normalized_path path) }
      (le_refl _) hnd
    refine ⟨c1, h1, hb, ho, ?_, hn, ?_, hch⟩
    · intro p; rw [ha]; simp [set_insert]
    · intro d; rw [hd]
      simp only [set_insert, Bool.or_eq_true, decide_eq_true_eq, true_and]
      tauto
  · simp only [hdir, Bool.false_eq_true, if_false]
    obtain ⟨c1, h1, hb, ha, ho, hn, hd, hch⟩ := parent_chain_spec (normalized_path path).length
      (normalized_path path)
      { c with all_paths := set_insert c.all_paths path }
      (le_refl _) hnd
    refine ⟨c1, h1, hb, ho, ?_, hn, ?_, hch⟩
    · intro p; rw [ha]; simp [set_insert]
    · intro d; rw [hd]
      simp only [false_and, false_or]

theorem cache_paths_spec (paths : List String) :
    ∀ (c : PathCache), (∀ k l, c.children k = some l → l.Nodup) →
    ∃ c1, cache_paths paths c = some c1 ∧
      c1.cache_built = c.cache_built ∧ c1.ordered_paths = c.ordered_paths ∧
      (∀ p, c1.all_paths p = true ↔ (p ∈ paths ∨ c.all_paths p = true)) ∧
      (∀ k l, c1.children k = some l → l.Nodup) ∧
      (∀ d, c1.directories d = true ↔
        (c.directories d = true ∨ ∃ e ∈ paths,
          (is_dir_path e.data = true ∧ d = normalized_path e) ∨
          (normalized_path e ≠ "" ∧ is_proper_ancestor d (normalized_path e) = true))) ∧
      (∀ k x, (∃ l, c1.children k = some l ∧ x ∈ l) ↔
        ((∃ l, c.children k = some l ∧ x ∈ l) ∨
          ∃ e ∈ paths, ∃ z, z ≠ "" ∧ (z = normalized_path e ∨
              is_proper_ancestor z (normalized_path e) = true) ∧
            parent_of z = k ∧ child_name_of z = x)) := by
  induction paths with
  | nil =>
    intro c hnd
    exact ⟨c, rfl, rfl, rfl, by simp, hnd, by simp, by simp⟩
  | cons path rest ih =>
    intro c hnd
    obtain ⟨c1, h1, hb1, ho1, ha1, hn1, hd1, hch1⟩ := cache_path_spec c path hnd
    obtain ⟨c2, h2, hb2, ho2, ha2, hn2, hd2, hch2⟩ := ih c1 hn1
    refine ⟨c2, ?_, hb2.trans hb1, ho2.trans ho1, ?_, hn2, ?_, ?_⟩
    · simp only [cache_paths, h1]; exact h2
    · intro p; rw [ha2, ha1]; simp only [List.mem_cons]; tauto
    · intro d; rw [hd2, hd1]
      simp only [List.mem_cons, exists_eq_or_imp]
      exact or_assoc
    · intro k x; rw [hch2, hch1]
      simp only [List.mem_cons, exists_eq_or_imp]
      exact or_assoc

theorem ancestor_without_slash (a n : String) (h : is_proper_ancestor a n = true) :
    is_proper_ancestor (String.mk (drop_trailing_slash a.data)) n = true := by
  unfold drop_trailing_slash
  split
  · rename_i hlast
    rw [is_proper_ancestor_iff] at h ⊢
    rcases h with h | ⟨rest, hrest⟩
    · rw [h] at hlast; simp at hlast
    · right
      have hsplit : a.data = a.data.dropLast ++ ['/'] := by
        have := List.dropLast_append_getLast? '/' hlast
        exact this.symm
      exact ⟨'/' :: rest, by rw [hrest]; nth_rewrite 1 [hsplit]; simp⟩
  · exact h

theorem ancestor_of_nonempty (a n : String) (ha : a ≠ "")
    (h : is_proper_ancestor a n = true) : n ≠ "" := by
  rw [is_proper_ancestor_iff] at h
  rcases h with h | ⟨rest, hrest⟩
  · exact absurd h ha
  · intro hn; rw [hn] at hrest; simp at hrest

/-- C27 (amended): `build_path_cache` on a reader whose cache is not built ends with the
cache built over the given entries.  The root and, for every entry, every
proper ancestor `a` of its path without the trailing slash are directories and
exist; when the parent of such an `a` does not itself end in a slash (no empty
component before it), the listing of the parent has the last component of `a`
exactly once.  `is_directory p` holds exactly when `p` without one trailing
slash is the root, an explicit directory entry without its slash, or a proper
ancestor of an entry.  A further call of `build_path_cache` returns the cache
as it is. -/
theorem build_path_cache_is_path_tree (get_all_paths : List String) (c : PathCache) :
    ∃ c1, build_path_cache get_all_paths { c with cache_built := false } = some c1 ∧
      c1.cache_built = true ∧ c1.ordered_paths = get_all_paths ∧
      c1.is_directory "" = true ∧ c1.path_exists "" = true ∧
      (∀ e ∈ get_all_paths, ∀ a, is_proper_ancestor a (normalized_path e) = true →
        c1.is_directory a = true ∧ c1.path_exists a = true) ∧
      (∀ e ∈ get_all_paths, ∀ a, a ≠ "" → is_proper_ancestor a (normalized_path e) = true →
        is_dir_path (parent_of a).data = false →
        (c1.list_dir (parent_of a)).count (child_name_of a) = 1) ∧
      (∀ p, c1.is_directory p = true ↔
        (String.mk (drop_trailing_slash p.data) = "" ∨
         (∃ e ∈ get_all_paths, is_dir_path e.data = true ∧
            String.mk (drop_trailing_slash p.data) = normalized_path e) ∨
         (∃ e ∈ get_all_paths,
            is_proper_ancestor (String.mk (drop_trailing_slash p.data)) (normalized_path e)
              = true))) ∧
      (∀ later_paths, build_path_cache later_paths c1 = some c1) := by
  obtain ⟨c1, h1, hb, ho, ha, hn, hd, hch⟩ := cache_paths_spec get_all_paths
    ⟨false, fun _ => false, set_insert (fun _ => false) "",
      fun k => if k = "" then some [] else none, get_all_paths⟩
    (by
      intro k l hkl
      simp only at hkl
      split at hkl
      · cases hkl; exact List.nodup_nil
      · cases hkl)
  have hdirs : ∀ d, c1.directories d = true ↔
      (d = "" ∨ ∃ e ∈ get_all_paths,
        (is_dir_path e.data = true ∧ d = normalized_path e) ∨
        (normalized_path e ≠ "" ∧ is_proper_ancestor d (normalized_path e) = true)) := by
    intro d; rw [hd]; simp [set_insert]
  have hanc : ∀ e ∈ get_all_paths, ∀ a, is_proper_ancestor a (normalized_path e) = true →
      c1.directories a = true := by
    intro e he a hae
    rw [hdirs]
    by_cases ha0 : a = ""
    · exact Or.inl ha0
    · exact Or.inr ⟨e, he, Or.inr ⟨ancestor_of_nonempty a _ ha0 hae, hae⟩⟩
  refine ⟨{ c1 with cache_built := true }, ?_, rfl, ho, ?_, ?_, ?_, ?_, ?_, ?_⟩
  · simp only [build_path_cache, Bool.false_eq_true, if_false, h1]
  · show c1.directories (String.mk (drop_trailing_slash "".data)) = true
    rw [hdirs]; left; rfl
  · show (c1.all_paths "" || c1.all_paths ("" ++ "/") || c1.directories "") = true
    rw [(hdirs "").mpr (Or.inl rfl)]; simp
  · intro e he a hae
    constructor
    · show c1.directories (String.mk (drop_trailing_slash a.data)) = true
      exact hanc e he _ (ancestor_without_slash a _ hae)
    · show (c1.all_paths a || c1.all_paths (a ++ "/") || c1.directories a) = true
      rw [hanc e he a hae]; simp
  · intro e he a ha0 hae hpar
    have hkey : String.mk (drop_trailing_slash (parent_of a).data) = parent_of a := by
      unfold drop_trailing_slash
      unfold is_dir_path at hpar
      simp only [decide_eq_false_iff_not] at hpar
      simp only [hpar, if_false]
    have hmem : ∃ l, c1.children (parent_of a) = some l ∧ child_name_of a ∈ l := by
      rw [hch]
      exact Or.inr ⟨e, he, a, ha0, Or.inr hae, rfl, rfl⟩
    obtain ⟨l, hl, hin⟩ := hmem
    show (match c1.children (String.mk (drop_trailing_slash (parent_of a).data)) with
      | some children => children
      | none => []).count (child_name_of a) = 1
    rw [hkey, hl]
    exact List.count_eq_one_of_mem (hn _ _ hl) hin
  · intro p
    show c1.directories (String.mk (drop_trailing_slash p.data)) = true ↔ _
    rw [hdirs]
    constructor
    · rintro (h | ⟨e, he, h | ⟨_, h⟩⟩)
      · exact Or.inl h
      · exact Or.inr (Or.inl ⟨e, he, h⟩)
      · exact Or.inr (Or.inr ⟨e, he, h⟩)
    · rintro (h | ⟨e, he, h⟩ | ⟨e, he, h⟩)
      · exact Or.inl h
      · exact Or.inr ⟨e, he, Or.inl h⟩
      · by_cases hq : String.mk (drop_trailing_slash p.data) = ""
        · exact Or.inl hq
        · exact Or.inr ⟨e, he, Or.inr ⟨ancestor_of_nonempty _ _ hq h, h⟩⟩
  · intro later_paths
    simp [build_path_cache]

/-- The cache of an archive with one file two levels down. -/
theorem path_cache_of_small_archive :
    (build_path_cache ["app/sub/a"] fresh_cache).map
      (fun c => (c.list_dir "", c.list_dir "app", c.list_dir "app/sub/"))
      = some (["app"], ["sub"], ["a"]) ∧
    (build_path_cache ["app/sub/a"] fresh_cache).map
      (fun c => [c.is_directory "app", c.is_directory "app/sub/",
        c.is_directory "app/sub/a", c.path_exists "app/sub/a", c.path_exists "app/b"])
      = some [true, true, false, true, false] := by
  decide

/-! ## Writing a directory tree to an archive and listing it -/

theorem normalize_path_append (a b : String) :
    normalize_path (a ++ b) = normalize_path a ++ normalize_path b := by
  apply String.ext
  simp [normalize_path, String.data_append]

theorem normalize_path_idem (a : String) : normalize_path (normalize_path a) = normalize_path a := by
  apply String.ext
  simp only [normalize_path, List.map_map]
  apply List.map_congr_left
  intro c _
  simp only [Function.comp]
  split <;> simp_all

theorem normalize_path_slash : normalize_path "/" = "/" := by decide

theorem has_files_eq (io : WriterAccess W) (base : String) (files : List String)
    (d : String) (w : W) :
    has_files io base files d w
      = (relative_strings io base w files).any (fun f => (d ++ "/").data.isPrefixOf f.data) := by
  simp only [has_files, relative_strings, List.any_map]
  rfl

theorem create_directory_name (io : WriterAccess W) (pfx rel : String) (w : W)
    (hrel : normalize_path rel ≠ "" ∧ (normalize_path rel).data.getLast? ≠ some '/') :
    ZipSnapshotWriter.create_directory io true (pfx ++ "/" ++ normalize_path rel) w
      = io.add_mem (normalize_path pfx ++ "/" ++ normalize_path rel ++ "/") w := by
  unfold ZipSnapshotWriter.create_directory
  simp only [Bool.true_eq_false, if_false]
  rw [normalize_path_append, normalize_path_append, normalize_path_idem, normalize_path_slash]
  have hne : (normalize_path rel).data ≠ [] := fun h => hrel.1 (String.ext h)
  have h1 : normalize_path pfx ++ "/" ++ normalize_path rel ≠ "" := by
    intro h
    have := congrArg String.data h
    simp [String.data_append] at this
  have h2 : (normalize_path pfx ++ "/" ++ normalize_path rel).data.getLast? ≠ some '/' := by
    simp only [String.data_append]
    rw [List.getLast?_append_of_ne_nil _ hne]
    exact hrel.2
  simp only [h1, h2, ne_eq, not_false_eq_true, and_self, if_true]

theorem write_file_name (io : WriterAccess W) (pfx rel src : String) (w : W) :
    ZipSnapshotWriter.write_file io true (pfx ++ "/" ++ normalize_path rel) src w
      = io.add_file (normalize_path pfx ++ "/" ++ normalize_path rel) src w := by
  unfold ZipSnapshotWriter.write_file
  simp only [Bool.true_eq_false, if_false]
  rw [normalize_path_append, normalize_path_append, normalize_path_idem, normalize_path_slash]

theorem relative_strings_congr (io : WriterAccess W) (base : String) (w w0 : W)
    (hw : ∀ p, io.relative p base w = io.relative p base w0) (l : List String) :
    relative_strings io base w l = relative_strings io base w0 l := by
  unfold relative_strings
  apply List.map_congr_left
  intro p _
  rw [hw p]

theorem without_files_cons (d : String) (dir_rels file_rels : List String) :
    without_files (d :: dir_rels) file_rels =
      if file_rels.any (fun f => (d ++ "/").data.isPrefixOf f.data) = true then
        without_files dir_rels file_rels
      else d :: without_files dir_rels file_rels := by
  unfold without_files
  rw [List.filter_cons]
  cases file_rels.any (fun f => (d ++ "/").data.isPrefixOf f.data) <;> simp

theorem create_empty_directories_names (io : WriterAccess W) (names : W → List String)
    (hrec : records_names io names) (hstable : relative_is_stable io)
    (base pfx : String) (files : List String) (w0 : W)
    (dirs : List String) :
    ∀ (w w' : W), (∀ p, io.relative p base w = io.relative p base w0) →
      (∀ p ∈ dirs, ∀ rel, io.relative p base w0 = some rel →
        normalize_path rel ≠ "" ∧ (normalize_path rel).data.getLast? ≠ some '/') →
      create_empty_directories io true base pfx files dirs w = (true, w') →
      names w' = names w ++
        (without_files (relative_strings io base w0 dirs)
          (relative_strings io base w0 files)).map
          (fun rel => normalize_path pfx ++ "/" ++ rel ++ "/") ∧
      (∀ p, io.relative p base w' = io.relative p base w0) ∧
      (∀ d ∈ dirs, ∃ rel, io.relative d base w0 = some rel) := by
  induction dirs with
  | nil =>
    intro w w' hw _ h
    simp only [create_empty_directories, Prod.mk.injEq, true_and] at h
    subst h
    exact ⟨by simp [relative_strings, without_files], hw, by simp⟩
  | cons dir rest ih =>
    intro w w' hw hrel h
    have hrel2 : ∀ p ∈ rest, ∀ rel, io.relative p base w0 = some rel →
        normalize_path rel ≠ "" ∧ (normalize_path rel).data.getLast? ≠ some '/' :=
      fun p hp => hrel p (List.mem_cons_of_mem _ hp)
    simp only [create_empty_directories] at h
    rw [hw dir] at h
    cases hr : io.relative dir base w0 with
    | none => rw [hr] at h; simp at h
    | some rel =>
      rw [hr] at h
      simp only at h
      rw [has_files_eq, relative_strings_congr io base w w0 hw] at h
      have hcons : relative_strings io base w0 (dir :: rest)
          = normalize_path rel :: relative_strings io base w0 rest := by
        simp [relative_strings, hr]
      split at h
      · rename_i hhas
        obtain ⟨h1, h2, h3⟩ := ih w w' hw hrel2 h
        refine ⟨?_, h2, ?_⟩
        · rw [h1, hcons, without_files_cons, if_pos hhas]
        · intro d hd
          rcases List.mem_cons.mp hd with rfl | hd
          · exact ⟨rel, hr⟩
          · exact h3 d hd
      · rename_i hhas
        rw [create_directory_name io pfx rel w (hrel dir (List.mem_cons_self _ _) rel hr)] at h
        split at h
        · simp at h
        · rename_i hok
          simp only [Bool.not_eq_false] at hok
          obtain ⟨h1, h2, h3⟩ := ih _ w' (fun p => (hstable.1 _ w p base).trans (hw p)) hrel2 h
          refine ⟨?_, h2, ?_⟩
          · rw [h1, hrec.1 _ w hok, hcons, without_files_cons, if_neg hhas]
            simp
          · intro d hd
            rcases List.mem_cons.mp hd with rfl | hd
            · exact ⟨rel, hr⟩
            · exact h3 d hd

theorem add_all_files_names (io : WriterAccess W) (names : W → List String)
    (hrec : records_names io names) (hstable : relative_is_stable io)
    (base pfx : String) (w0 : W) (files : List String) :
    ∀ (w w' : W), (∀ p, io.relative p base w = io.relative p base w0) →
      add_all_files io true base pfx files w = (true, w') →
      names w' = names w ++
        (relative_strings io base w0 files).map (fun rel => normalize_path pfx ++ "/" ++ rel) ∧
      (∀ f ∈ files, ∃ rel, io.relative f base w0 = some rel) := by
  induction files with
  | nil =>
    intro w w' hw h
    simp only [add_all_files, Prod.mk.injEq, true_and] at h
    subst h
    exact ⟨by simp [relative_strings], by simp⟩
  | cons file rest ih =>
    intro w w' hw h
    simp only [add_all_files] at h
    rw [hw file] at h
    cases hr : io.relative file base w0 with
    | none => rw [hr] at h; simp at h
    | some rel =>
      rw [hr] at h
      simp only at h
      rw [write_file_name] at h
      split at h
      · simp at h
      · rename_i hok
        simp only [Bool.not_eq_false] at hok
        obtain ⟨h1, h3⟩ := ih _ w' (fun p => (hstable.2 _ _ w p base).trans (hw p)) h
        refine ⟨?_, ?_⟩
        · rw [h1, hrec.2 _ _ w hok]
          simp [relative_strings, hr]
        · intro d hd
          rcases List.mem_cons.mp hd with rfl | hd
          · exact ⟨rel, hr⟩
          · exact h3 d hd

theorem entries_of_fresh_reader (paths : List String) :
    SnapshotReader.entries paths fresh_cache = some (paths.map archive_entry) := by
  obtain ⟨c1, h1, _, ho, _⟩ := cache_paths_spec paths
    ⟨false, fun _ => false, set_insert (fun _ => false) "",
      fun k => if k = "" then some [] else none, paths⟩
    (by
      intro k l hkl
      simp only at hkl
      split at hkl
      · cases hkl; exact List.nodup_nil
      · cases hkl)
  simp only [SnapshotReader.entries, build_path_cache, fresh_cache, Bool.false_eq_true,
    if_false, h1, ho]

theorem archive_entry_directory (p rel : String) :
    archive_entry (p ++ "/" ++ rel ++ "/") = (p ++ "/" ++ rel, true) := by
  have hlast : (p ++ "/" ++ rel ++ "/").data.getLast? = some '/' := by
    simp only [String.data_append]
    show ((p.data ++ ['/'] ++ rel.data) ++ ['/']).getLast? = some '/'
    rw [List.getLast?_append_of_ne_nil _ (by simp)]
    rfl
  unfold archive_entry normalized_path is_dir_path
  simp only [hlast, decide_True, if_true, Prod.mk.injEq, and_true]
  apply String.ext
  simp only [String.data_append]
  show ((p.data ++ ['/'] ++ rel.data) ++ ['/']).dropLast = _
  rw [List.dropLast_concat]

theorem archive_entry_file (p rel : String)
    (hrel : rel ≠ "" ∧ rel.data.getLast? ≠ some '/') :
    archive_entry (p ++ "/" ++ rel) = (p ++ "/" ++ rel, false) := by
  have hne : rel.data ≠ [] := fun h => hrel.1 (String.ext h)
  have hlast : (p ++ "/" ++ rel).data.getLast? ≠ some '/' := by
    simp only [String.data_append]
    rw [List.getLast?_append_of_ne_nil _ hne]
    exact hrel.2
  unfold archive_entry normalized_path is_dir_path
  simp only [hlast, decide_False, Bool.false_eq_true, if_false]

/-- C21: when `add_directory_recursive` returns `true` (on a file system whose
relative paths are not empty and do not end in a slash, with an archive that
keeps the names it is given), it has added to the archive, after the entries
that were there, one entry `prefix/rel/` for each collected directory that no
collected regular file is below, in the order of the iteration, and then one
entry `prefix/rel` for each collected regular file (`prefix` without one
trailing slash, `/` for every `\`).  `entries()` of a reader opened on the
result lists the paths of these entries without the trailing slash, the
directories with `is_directory` set and the files with `is_directory` unset. -/
theorem add_directory_recursive_then_entries (io : WriterAccess W) (names : W → List String)
    (m_open : Bool) ( archive_prefix src_dir : String) (w w' : W)
    (hrec : records_names io names) (hstable : relative_is_stable io)
    (hrel : ∀ p ∈ (io.iterate src_dir w).map Prod.fst, ∀ rel,
      io.relative p src_dir w = some rel →
      normalize_path rel ≠ "" ∧ (normalize_path rel).data.getLast? ≠ some '/')
    (hrun : SnapshotWriter.add_directory_recursive io m_open archive_prefix src_dir w
      = (true, w')) :
    let pfx := normalize_path (String.mk (drop_trailing_slash archive_prefix.data))
    let dir_rels := relative_strings io src_dir w
      (((io.iterate src_dir w).filter (fun e => e.2 = EntryKind.directory)).map Prod.fst)
    let file_rels := relative_strings io src_dir w
      (((io.iterate src_dir w).filter (fun e => e.2 = EntryKind.regular_file)).map Prod.fst)
    names w' = names w
      ++ (without_files dir_rels file_rels).map (fun rel => pfx ++ "/" ++ rel ++ "/")
      ++ file_rels.map (fun rel => pfx ++ "/" ++ rel) ∧
    SnapshotReader.entries (names w') fresh_cache
      = some ((names w).map archive_entry
        ++ (without_files dir_rels file_rels).map (fun rel => (pfx ++ "/" ++ rel, true))
        ++ file_rels.map (fun rel => (pfx ++ "/" ++ rel, false))) := by
  intro pfx dir_rels file_rels
  unfold SnapshotWriter.add_directory_recursive at hrun
  cases m_open with
  | false => simp at hrun
  | true =>
    simp only [Bool.true_eq_false, if_false] at hrun
    split at hrun
    · simp at hrun
    · split at hrun
      · simp at hrun
      · rename_i hok
        have hsub : ∀ (q : String × EntryKind → Bool),
            ∀ p ∈ ((io.iterate src_dir w).filter q).map Prod.fst,
              p ∈ (io.iterate src_dir w).map Prod.fst :=
          fun q p hp => ((List.filter_sublist _).map Prod.fst).subset hp
        obtain ⟨h1, h2, _⟩ := create_empty_directories_names io names hrec hstable src_dir
          (String.mk (drop_trailing_slash archive_prefix.data)) _ w _ w _ (fun _ => rfl)
          (fun p hp => hrel p (hsub _ p hp))
          (Prod.ext (by simpa using hok) rfl)
        obtain ⟨h3, h4⟩ := add_all_files_names io names hrec hstable src_dir
          (String.mk (drop_trailing_slash archive_prefix.data)) w _ _ w' h2 hrun
        have hnames : names w' = names w
            ++ (without_files dir_rels file_rels).map (fun rel => pfx ++ "/" ++ rel ++ "/")
            ++ file_rels.map (fun rel => pfx ++ "/" ++ rel) := by
          rw [h3, h1]
        refine ⟨hnames, ?_⟩
        rw [entries_of_fresh_reader, hnames]
        simp only [List.map_append, List.map_map]
        have hB : List.map (archive_entry ∘ fun rel => pfx ++ "/" ++ rel ++ "/")
            (without_files dir_rels file_rels)
            = List.map (fun rel => (pfx ++ "/" ++ rel, true))
              (without_files dir_rels file_rels) := by
          apply List.map_congr_left
          intro rel _
          exact archive_entry_directory pfx rel
        have hC : List.map (archive_entry ∘ fun rel => pfx ++ "/" ++ rel) file_rels
            = List.map (fun rel => (pfx ++ "/" ++ rel, false)) file_rels := by
          apply List.map_congr_left
          intro rel hrelmem
          simp only [Function.comp]
          apply archive_entry_file
          obtain ⟨f, hf, rfl⟩ := List.mem_map.mp hrelmem
          obtain ⟨r, hr⟩ := h4 f hf
          rw [hr]
          exact hrel f (hsub _ f hf) r hr
        rw [hB, hC]

/-- C21 (witness): the directory `C:/app` of `app_disk`, with the file `a.txt` and the empty
directory `empty`, written under `files/app/` and listed again. -/
theorem add_directory_recursive_then_entries_witness :
    records_names tree_writer Prod.snd ∧ relative_is_stable tree_writer ∧
    SnapshotWriter.add_directory_recursive tree_writer true "files/app/" "C:/app" (app_disk, [])
      = (true, (app_disk, ["files/app/empty/", "files/app/a.txt"])) ∧
    (let pfx := normalize_path (String.mk (drop_trailing_slash "files/app/".data))
     let dir_rels := relative_strings tree_writer "C:/app" (app_disk, [])
      (((tree_writer.iterate "C:/app" (app_disk, [])).filter
        (fun e => e.2 = EntryKind.directory)).map Prod.fst)
     let file_rels := relative_strings tree_writer "C:/app" (app_disk, [])
      (((tree_writer.iterate "C:/app" (app_disk, [])).filter
        (fun e => e.2 = EntryKind.regular_file)).map Prod.fst)
     ["files/app/empty/", "files/app/a.txt"] = ([] : List String)
      ++ (without_files dir_rels file_rels).map (fun rel => pfx ++ "/" ++ rel ++ "/")
      ++ file_rels.map (fun rel => pfx ++ "/" ++ rel) ∧
     SnapshotReader.entries ["files/app/empty/", "files/app/a.txt"] fresh_cache
      = some (([] : List String).map archive_entry
        ++ (without_files dir_rels file_rels).map (fun rel => (pfx ++ "/" ++ rel, true))
        ++ file_rels.map (fun rel => (pfx ++ "/" ++ rel, false)))) :=
  ⟨⟨fun _ _ _ => rfl, fun _ _ _ _ => rfl⟩, ⟨fun _ _ _ _ => rfl, fun _ _ _ _ _ => rfl⟩, by decide,
   add_directory_recursive_then_entries tree_writer Prod.snd true "files/app/" "C:/app"
     (app_disk, []) (app_disk, ["files/app/empty/", "files/app/a.txt"])
     ⟨fun _ _ _ => rfl, fun _ _ _ _ => rfl⟩ ⟨fun _ _ _ _ => rfl, fun _ _ _ _ _ => rfl⟩
     (by
       intro p hp rel hr
       have hp2 : p = "C:/app/a.txt" ∨ p = "C:/app/empty" := by
         simpa [tree_writer, Disk.access, app_disk, is_below] using hp
       rcases hp2 with rfl | rfl
       · have : rel = "a.txt" := by
           have h2 : tree_writer.relative "C:/app/a.txt" "C:/app" (app_disk, []) = some "a.txt" := by
             decide
           rw [h2] at hr; exact (Option.some.inj hr).symm
         subst this; decide
       · have : rel = "empty" := by
           have h2 : tree_writer.relative "C:/app/empty" "C:/app" (app_disk, []) = some "empty" := by
             decide
           rw [h2] at hr; exact (Option.some.inj hr).symm
         subst this; decide)
     (by decide)⟩

/-! ## Resolution of user variables without cycles -/

theorem scan_percent_name (e : Expander) (name rest : List Char) (h : '%' ∉ name) :
    ∀ acc, Expander.scan e (.percentName acc) (name ++ '%' :: rest)
      = e.emit ['%'] ['%'] (acc ++ name) ++ Expander.scan e .text rest := by
  induction name with
  | nil => intro acc; simp [Expander.scan]
  | cons c cs ih =>
    intro acc
    have hc : c ≠ '%' := fun hc => h (by simp [hc])
    have hcs : '%' ∉ cs := fun hcs => h (by simp [hcs])
    simp [Expander.scan, hc, ih hcs]

theorem render_tokens_cons (t : Token) (ts : List Token) :
    render_tokens (t :: ts) = t.render ++ render_tokens ts := by
  simp [render_tokens]

theorem render_tokens_append (a b : List Token) :
    render_tokens (a ++ b) = render_tokens a ++ render_tokens b := by
  simp [render_tokens]

/-- The expander goes through a text piece by piece. -/
theorem scan_tokens (m : VarMap) (ts : List Token) (hok : ∀ t ∈ ts, t.ok = true) :
    Expander.scan ⟨m, false, true, true⟩ .text (render_tokens ts)
      = (ts.map (Token.eval m)).flatten := by
  induction ts with
  | nil => simp [render_tokens, Expander.scan]
  | cons t ts ih =>
    have ih2 := ih (fun t ht => hok t (List.mem_cons_of_mem _ ht))
    have ht := hok t (List.mem_cons_self _ _)
    rw [render_tokens_cons]
    cases t with
    | lit c =>
      simp only [Token.ok, Bool.and_eq_true, decide_eq_true_eq] at ht
      simp [Token.render, Expander.scan, ht.1, ht.2, ih2, Token.eval]
    | dollar name =>
      simp only [Token.ok, Bool.not_eq_true', List.contains_eq_any_beq, List.any_eq_false,
        beq_iff_eq] at ht
      have hn : '}' ∉ name := fun h => ht _ h rfl
      have := scan_placeholder m false true name (render_tokens ts) hn
      simp only [Token.render, List.cons_append, List.append_assoc, List.singleton_append,
        List.nil_append]
      rw [this, ih2]
      simp [Token.eval]
    | percent name =>
      simp only [Token.ok, Bool.not_eq_true', List.contains_eq_any_beq, List.any_eq_false,
        beq_iff_eq] at ht
      have hn : '%' ∉ name := fun h => ht _ h rfl
      have := scan_percent_name ⟨m, false, true, true⟩ name (render_tokens ts) hn []
      simp only [Token.render, List.cons_append, List.append_assoc, List.singleton_append]
      simp only [Expander.scan, and_self, if_true]
      have h2 : ¬ ('%' = '$') := by decide
      simp only [h2, false_and, if_false, List.nil_append]
      rw [this, ih2]
      simp [Token.eval]

theorem render_lits (s : List Char) : render_tokens (s.map Token.lit) = s := by
  induction s with
  | nil => rfl
  | cons c cs ih => rw [List.map_cons, render_tokens_cons, ih]; rfl

theorem is_plain_iff (s : List Char) :
    is_plain s = true ↔ ∀ c ∈ s, c ≠ '$' ∧ c ≠ '%' := by
  simp [is_plain]

/-- A plain text is a text of literal pieces. -/
theorem plain_tokens (s : List Char) (h : is_plain s = true) :
    s = render_tokens (s.map Token.lit) ∧
    ∀ t ∈ s.map Token.lit, t.ok = true ∧ t.ref = none := by
  refine ⟨(render_lits s).symm, ?_⟩
  intro t ht
  obtain ⟨c, hc, rfl⟩ := List.mem_map.mp ht
  have := (is_plain_iff s).mp h c hc
  simp [Token.ok, Token.ref, this.1, this.2]

/-- A text of pieces without placeholders is plain. -/
theorem plain_of_no_refs (T : List Token) (hok : ∀ t ∈ T, t.ok = true)
    (href : ∀ t ∈ T, t.ref = none) : is_plain (render_tokens T) = true := by
  induction T with
  | nil => rfl
  | cons t ts ih =>
    rw [render_tokens_cons]
    have h1 := hok t (List.mem_cons_self _ _)
    have h2 := href t (List.mem_cons_self _ _)
    have ih2 := ih (fun t ht => hok t (List.mem_cons_of_mem _ ht))
      (fun t ht => href t (List.mem_cons_of_mem _ ht))
    cases t with
    | lit c =>
      simp only [Token.ok, Bool.and_eq_true, decide_eq_true_eq] at h1
      simp only [is_plain, Token.render, List.singleton_append, List.all_cons, Bool.and_eq_true,
        decide_eq_true_eq]
      exact ⟨⟨h1.1, h1.2⟩, ih2⟩
    | dollar n => simp [Token.ref] at h2
    | percent n => simp [Token.ref] at h2

theorem at_level_mono (builtin : VarMap) (keys : List String) (rank : String → Nat)
    (j k : Nat) (hjk : j ≤ k) (u value : String)
    (h : at_level builtin keys rank k u value) : at_level builtin keys rank j u value := by
  obtain ⟨T, hT, hall⟩ := h
  refine ⟨T, hT, fun t ht => ⟨(hall t ht).1, fun r hr => ?_⟩⟩
  obtain ⟨h1, h2⟩ := (hall t ht).2 r hr
  exact ⟨by omega, h2⟩

theorem eval_ref (m : VarMap) (t : Token) (r v : String) (hr : t.ref = some r)
    (hv : var_find m r = some v) : t.eval m = v.data := by
  cases t with
  | lit c => simp [Token.ref] at hr
  | dollar n =>
    simp only [Token.ref, Option.some.injEq] at hr
    simp [Token.eval, Expander.emit, hr, hv]
  | percent n =>
    simp only [Token.ref, Option.some.injEq] at hr
    simp [Token.eval, Expander.emit, hr, hv]

theorem eval_lit (m : VarMap) (t : Token) (hr : t.ref = none) : t.eval m = t.render := by
  cases t with
  | lit c => rfl
  | dollar n => simp [Token.ref] at hr
  | percent n => simp [Token.ref] at hr

theorem token_eval_level (builtin : VarMap) (keys : List String) (rank : String → Nat)
    (k : Nat) (m : VarMap) (hm : resolving builtin keys rank k m) (u : String) (t : Token)
    (hok : t.ok = true)
    (href : ∀ r, t.ref = some r → rank r + k < rank u ∧ ref_allowed builtin keys r) :
    ∃ T1 : List Token, t.eval m = render_tokens T1 ∧
      ∀ t ∈ T1, t.ok = true ∧ ∀ r, t.ref = some r → rank r + (k + 1) < rank u ∧
        ref_allowed builtin keys r := by
  cases hr : t.ref with
  | none =>
    refine ⟨[t], by rw [eval_lit m t hr]; simp [render_tokens], ?_⟩
    intro t' ht'
    rw [List.mem_singleton.mp ht']
    exact ⟨hok, fun r hr2 => by rw [hr] at hr2; cases hr2⟩
  | some r =>
    obtain ⟨hrank, hallowed⟩ := href r hr
    by_cases hkey : r ∈ keys
    · obtain ⟨v, hv, T1, hT1, hall1⟩ := hm.2.2 r hkey
      refine ⟨T1, by rw [eval_ref m t r v hr hv, hT1], ?_⟩
      intro t' ht'
      refine ⟨(hall1 t' ht').1, fun r' hr' => ?_⟩
      obtain ⟨h3, h4⟩ := (hall1 t' ht').2 r' hr'
      exact ⟨by omega, h4⟩
    · rcases hallowed with hin | ⟨v, hv, hplain⟩
      · exact absurd hin hkey
      · have hv2 : var_find m r = some v := by rw [hm.2.1 r hkey]; exact hv
        obtain ⟨h5, h6⟩ := plain_tokens v.data hplain
        refine ⟨v.data.map Token.lit, by rw [eval_ref m t r v hr hv2]; exact h5, ?_⟩
        intro t' ht'
        refine ⟨(h6 t' ht').1, fun r' hr' => ?_⟩
        rw [(h6 t' ht').2] at hr'; cases hr'

theorem tokens_eval_level (builtin : VarMap) (keys : List String) (rank : String → Nat)
    (k : Nat) (m : VarMap) (hm : resolving builtin keys rank k m) (u : String)
    (T : List Token)
    (hall : ∀ t ∈ T, t.ok = true ∧ ∀ r, t.ref = some r → rank r + k < rank u ∧
        ref_allowed builtin keys r) :
    ∃ T2 : List Token, (T.map (Token.eval m)).flatten = render_tokens T2 ∧
      ∀ t ∈ T2, t.ok = true ∧ ∀ r, t.ref = some r → rank r + (k + 1) < rank u ∧
        ref_allowed builtin keys r := by
  induction T with
  | nil => exact ⟨[], rfl, by simp⟩
  | cons t ts ih =>
    obtain ⟨T2, h2, hall2⟩ := ih (fun t ht => hall t (List.mem_cons_of_mem _ ht))
    obtain ⟨hok, href⟩ := hall t (List.mem_cons_self _ _)
    obtain ⟨T1, h1, hall1⟩ := token_eval_level builtin keys rank k m hm u t hok href
    refine ⟨T1 ++ T2, ?_, ?_⟩
    · rw [List.map_cons, List.flatten_cons, h1, h2, render_tokens_append]
    · intro t' ht'
      rcases List.mem_append.mp ht' with h | h
      · exact hall1 t' h
      · exact hall2 t' h

theorem expand_data (m : VarMap) (value : String) (T : List Token)
    (hT : value.data = render_tokens T) (hok : ∀ t ∈ T, t.ok = true) :
    (Expander.expand ⟨m, false, true, true⟩ value).data = (T.map (Token.eval m)).flatten := by
  show Expander.scan ⟨m, false, true, true⟩ .text value.data = _
  rw [hT]
  exact scan_tokens m T hok

/-- What the expander makes of a value at level `k` is a value at level `k + 1`. -/
theorem expand_level (builtin : VarMap) (keys : List String) (rank : String → Nat) (k : Nat)
    (m : VarMap) (hm : resolving builtin keys rank k m) (u value : String)
    (hv : at_level builtin keys rank k u value) :
    at_level builtin keys rank (k + 1) u (Expander.expand ⟨m, false, true, true⟩ value) := by
  obtain ⟨T, hT, hall⟩ := hv
  obtain ⟨T2, h2, hall2⟩ := tokens_eval_level builtin keys rank k m hm u T hall
  exact ⟨T2, by rw [expand_data m value T hT (fun t ht => (hall t ht).1), h2], hall2⟩

theorem expand_plain (m : VarMap) (value : String) (h : is_plain value.data = true) :
    Expander.expand ⟨m, false, true, true⟩ value = value := by
  apply String.ext
  obtain ⟨h1, h2⟩ := plain_tokens value.data h
  rw [expand_data m value _ h1 (fun t ht => (h2 t ht).1)]
  have : ∀ s : List Char, ((s.map Token.lit).map (Token.eval m)).flatten = s := by
    intro s
    induction s with
    | nil => rfl
    | cons c cs ih => simp only [List.map_cons, List.flatten_cons, ih]; rfl
  exact this _

/-- One turn of the inner loop: the map after the variable `name` has been
looked at. -/
theorem resolve_pass_cons (name value : String) (rest : List (String × String)) (m : VarMap)
    (c : Bool) :
    ∃ m1 c1, resolve_pass ((name, value) :: rest) m c = resolve_pass rest m1 c1 ∧
      (c1 = false → c = false ∧ m1 = m ∧
        Expander.expand ⟨m, false, true, true⟩ (var_get m name) = var_get m name) ∧
      (c = true → c1 = true) ∧
      (var_sorted m → var_sorted m1) ∧
      (∀ key, key ≠ name → var_find m1 key = var_find m key) ∧
      (∀ v, var_find m name = some v →
        var_find m1 name = some (Expander.expand ⟨m, false, true, true⟩ v)) := by
  simp only [resolve_pass]
  by_cases h : Expander.expand ⟨m, false, true, true⟩ (var_get m name) = var_get m name
  · refine ⟨m, c, by simp [h], fun hc => ⟨hc, rfl, h⟩, fun hc => hc, fun hs => hs,
      fun _ _ => rfl, ?_⟩
    intro v hv
    have hg : var_get m name = v := by simp [var_get, hv]
    rw [hg] at h
    rw [h, hv]
  · refine ⟨var_set m name (Expander.expand ⟨m, false, true, true⟩ (var_get m name)), true,
      by simp [h], fun hc => Bool.noConfusion hc, fun _ => rfl,
      fun hs => var_sorted_set _ _ _ hs,
      fun key hkey => var_find_set_ne _ _ _ _ (Ne.symm hkey), ?_⟩
    intro v hv
    have hg : var_get m name = v := by simp [var_get, hv]
    rw [hg, var_find_set_eq]

theorem step_resolving (builtin : VarMap) (keys : List String) (rank : String → Nat) (k : Nat)
    (m m1 : VarMap) (name : String) (hm : resolving builtin keys rank k m) (hname : name ∈ keys)
    (hs : var_sorted m → var_sorted m1)
    (hother : ∀ key, key ≠ name → var_find m1 key = var_find m key)
    (hself : ∀ v, var_find m name = some v →
      var_find m1 name = some (Expander.expand ⟨m, false, true, true⟩ v)) :
    resolving builtin keys rank k m1 ∧
    ∃ v, var_find m1 name = some v ∧ at_level builtin keys rank (k + 1) name v := by
  obtain ⟨v, hv, hlv⟩ := hm.2.2 name hname
  have hnew := expand_level builtin keys rank k m hm name v hlv
  refine ⟨⟨hs hm.1, ?_, ?_⟩, _, hself v hv, hnew⟩
  · intro key hkey
    have hne : key ≠ name := fun h => hkey (h ▸ hname)
    rw [hother key hne]
    exact hm.2.1 key hkey
  · intro u hu
    by_cases hun : u = name
    · subst hun
      exact ⟨_, hself v hv, at_level_mono builtin keys rank k (k + 1) (by omega) _ _ hnew⟩
    · rw [hother u hun]
      exact hm.2.2 u hu

/-- A pass over the variables that are left brings every user variable one
level up. -/
theorem resolve_pass_level (builtin : VarMap) (keys : List String) (rank : String → Nat)
    (k : Nat) (l : List (String × String)) (hl : ∀ p ∈ l, p.1 ∈ keys) :
    ∀ (m : VarMap) (c : Bool), resolving builtin keys rank k m →
      (∀ u ∈ keys, u ∉ l.map Prod.fst →
        ∃ v, var_find m u = some v ∧ at_level builtin keys rank (k + 1) u v) →
      resolving builtin keys rank (k + 1) (resolve_pass l m c).1 := by
  induction l with
  | nil =>
    intro m c hm hdone
    exact ⟨hm.1, hm.2.1, fun u hu => hdone u hu (by simp)⟩
  | cons p rest ih =>
    intro m c hm hdone
    obtain ⟨name, value⟩ := p
    obtain ⟨m1, c1, heq, _, _, hs, hother, hself⟩ := resolve_pass_cons name value rest m c
    rw [heq]
    have hname : name ∈ keys := hl (name, value) (List.mem_cons_self _ _)
    obtain ⟨hm1, v1, hv1, hlv1⟩ :=
      step_resolving builtin keys rank k m m1 name hm hname hs hother hself
    apply ih (fun p hp => hl p (List.mem_cons_of_mem _ hp)) m1 c1 hm1
    intro u hu hnot
    by_cases hun : u = name
    · subst hun; exact ⟨v1, hv1, hlv1⟩
    · rw [hother u hun]
      apply hdone u hu
      simp only [List.map_cons, List.mem_cons, not_or]
      exact ⟨hun, hnot⟩

/-- A pass that reports no change has left the map as it was, and the expander
leaves the value of every variable of the pass as it is. -/
theorem resolve_pass_unchanged (l : List (String × String)) :
    ∀ (m : VarMap) (c : Bool), (resolve_pass l m c).2 = false →
      c = false ∧ (resolve_pass l m c).1 = m ∧
      ∀ p ∈ l, Expander.expand ⟨m, false, true, true⟩ (var_get m p.1) = var_get m p.1 := by
  induction l with
  | nil => intro m c h; exact ⟨h, rfl, by simp⟩
  | cons p rest ih =>
    intro m c h
    obtain ⟨name, value⟩ := p
    obtain ⟨m1, c1, heq, hc1, _, _, _, _⟩ := resolve_pass_cons name value rest m c
    rw [heq] at h ⊢
    obtain ⟨h1, h2, h3⟩ := ih m1 c1 h
    obtain ⟨h4, h5, h6⟩ := hc1 h1
    subst h5
    refine ⟨h4, h2, ?_⟩
    intro p hp
    rcases List.mem_cons.mp hp with rfl | hp
    · exact h6
    · exact h3 p hp

/-- A pass over plain values changes nothing. -/
theorem resolve_pass_plain (l : List (String × String)) (m : VarMap)
    (hplain : ∀ p ∈ l, is_plain (var_get m p.1).data = true) :
    ∀ c, resolve_pass l m c = (m, c) := by
  induction l with
  | nil => intro c; rfl
  | cons p rest ih =>
    intro c
    obtain ⟨name, value⟩ := p
    simp only [resolve_pass]
    rw [expand_plain m _ (hplain (name, value) (List.mem_cons_self _ _))]
    simp only [ne_eq, not_true_eq_false, if_false]
    exact ih (fun p hp => hplain p (List.mem_cons_of_mem _ hp)) c

theorem scan_render_append (g : VarMap) (A B : List Token) (hA : ∀ t ∈ A, t.ok = true)
    (hB : ∀ t ∈ B, t.ok = true) :
    Expander.scan ⟨g, false, true, true⟩ .text (render_tokens A ++ render_tokens B)
      = Expander.scan ⟨g, false, true, true⟩ .text (render_tokens A)
        ++ Expander.scan ⟨g, false, true, true⟩ .text (render_tokens B) := by
  rw [← render_tokens_append, scan_tokens g (A ++ B) (fun t ht => by
      rcases List.mem_append.mp ht with h | h
      · exact hA t h
      · exact hB t h),
    scan_tokens g A hA, scan_tokens g B hB]
  simp

theorem scan_plain (g : VarMap) (s : List Char) (h : is_plain s = true) :
    Expander.scan ⟨g, false, true, true⟩ .text s = s := by
  have := expand_plain g (String.mk s) h
  exact congrArg String.data this

/-- Expanding with `g` what the expander has made with `m` gives what `g` makes
of the pieces, when `g` expands the current value of every variable referred
to to its own value. -/
theorem scan_eval (builtin : VarMap) (keys : List String) (rank : String → Nat) (k : Nat)
    (m g : VarMap) (hm : resolving builtin keys rank k m)
    (hg : resolution_candidate builtin keys g) (name : String)
    (hothers : ∀ u ∈ keys, u ≠ name →
      Expander.expand ⟨g, false, true, true⟩ (var_get m u) = var_get g u)
    (T : List Token)
    (hall : ∀ t ∈ T, t.ok = true ∧ ∀ r, t.ref = some r → rank r + k < rank name ∧
        ref_allowed builtin keys r) :
    Expander.scan ⟨g, false, true, true⟩ .text (T.map (Token.eval m)).flatten
      = (T.map (Token.eval g)).flatten := by
  induction T with
  | nil => simp [Expander.scan]
  | cons t ts ih =>
    have ih2 := ih (fun t ht => hall t (List.mem_cons_of_mem _ ht))
    obtain ⟨hok, href⟩ := hall t (List.mem_cons_self _ _)
    obtain ⟨T1, h1, hall1⟩ := token_eval_level builtin keys rank k m hm name t hok href
    obtain ⟨T2, h2, hall2⟩ := tokens_eval_level builtin keys rank k m hm name ts
      (fun t ht => hall t (List.mem_cons_of_mem _ ht))
    have hone : Expander.scan ⟨g, false, true, true⟩ .text (t.eval m) = t.eval g := by
      cases hr : t.ref with
      | none =>
        rw [eval_lit m t hr, eval_lit g t hr]
        have := scan_tokens g [t] (fun t' ht' => by rw [List.mem_singleton.mp ht']; exact hok)
        simpa [render_tokens, eval_lit g t hr] using this
      | some r =>
        obtain ⟨hrank, hallowed⟩ := href r hr
        by_cases hkey : r ∈ keys
        · have hne : r ≠ name := by
            intro h; rw [h] at hrank; omega
          obtain ⟨v, hv, _⟩ := hm.2.2 r hkey
          obtain ⟨gv, hgv, _⟩ := hg.2 r hkey
          rw [eval_ref m t r v hr hv, eval_ref g t r gv hr hgv]
          have := hothers r hkey hne
          have hv2 : var_get m r = v := by simp [var_get, hv]
          have hgv2 : var_get g r = gv := by simp [var_get, hgv]
          rw [hv2, hgv2] at this
          exact congrArg String.data this
        · rcases hallowed with hin | ⟨v, hv, hplain⟩
          · exact absurd hin hkey
          · have hv2 : var_find m r = some v := by rw [hm.2.1 r hkey]; exact hv
            have hv3 : var_find g r = some v := by rw [hg.1 r hkey]; exact hv
            rw [eval_ref m t r v hr hv2, eval_ref g t r v hr hv3]
            exact scan_plain g v.data hplain
    rw [List.map_cons, List.flatten_cons, List.map_cons, List.flatten_cons, ← hone, ← ih2, h1, h2]
    exact scan_render_append g T1 T2 (fun t ht => (hall1 t ht).1) (fun t ht => (hall2 t ht).1)

theorem step_stands (builtin : VarMap) (user : List (String × String)) (rank : String → Nat)
    (k : Nat) (m m1 : VarMap) (name : String)
    (hm : resolving builtin (user.map Prod.fst) rank k m)
    (hst : stands_for_raw builtin user m) (hname : name ∈ user.map Prod.fst)
    (hother : ∀ key, key ≠ name → var_find m1 key = var_find m key)
    (hself : ∀ v, var_find m name = some v →
      var_find m1 name = some (Expander.expand ⟨m, false, true, true⟩ v)) :
    stands_for_raw builtin user m1 := by
  intro g hg H1
  apply hst g hg
  have hget : ∀ u, u ≠ name → var_get m1 u = var_get m u := by
    intro u hu; simp only [var_get, hother u hu]
  intro u hu
  by_cases hun : u = name
  · subst hun
    obtain ⟨v, hv, T, hT, hall⟩ := hm.2.2 u hu
    have hv2 : var_get m u = v := by simp [var_get, hv]
    have hv3 : var_get m1 u = Expander.expand ⟨m, false, true, true⟩ v := by
      simp [var_get, hself v hv]
    have h1 := H1 u hu
    rw [hv3] at h1
    rw [hv2, ← h1]
    apply String.ext
    rw [expand_data g v T hT (fun t ht => (hall t ht).1)]
    show _ = Expander.scan ⟨g, false, true, true⟩ .text
      (Expander.expand ⟨m, false, true, true⟩ v).data
    rw [expand_data m v T hT (fun t ht => (hall t ht).1)]
    symm
    apply scan_eval builtin (user.map Prod.fst) rank k m g hm hg u _ T hall
    intro w hw hwu
    rw [← hget w hwu]
    exact H1 w hw
  · rw [← hget u hun]
    exact H1 u hu

theorem resolve_pass_stands (builtin : VarMap) (user : List (String × String))
    (rank : String → Nat) (k : Nat) (l : List (String × String))
    (hl : ∀ p ∈ l, p.1 ∈ user.map Prod.fst) :
    ∀ (m : VarMap) (c : Bool), resolving builtin (user.map Prod.fst) rank k m →
      stands_for_raw builtin user m → stands_for_raw builtin user (resolve_pass l m c).1 := by
  induction l with
  | nil => intro m c _ h; exact h
  | cons p rest ih =>
    intro m c hm hst
    obtain ⟨name, value⟩ := p
    obtain ⟨m1, c1, heq, _, _, hs, hother, hself⟩ := resolve_pass_cons name value rest m c
    rw [heq]
    have hname : name ∈ user.map Prod.fst := hl (name, value) (List.mem_cons_self _ _)
    obtain ⟨hm1, _⟩ :=
      step_resolving builtin (user.map Prod.fst) rank k m m1 name hm hname hs hother hself
    exact ih (fun p hp => hl p (List.mem_cons_of_mem _ hp)) m1 c1 hm1
      (step_stands builtin user rank k m m1 name hm hst hname hother hself)

theorem level_top_plain (builtin : VarMap) (keys : List String) (rank : String → Nat)
    (n : Nat) (hrank : ∀ u ∈ keys, rank u ≤ n) (m : VarMap)
    (hm : resolving builtin keys rank n m) :
    ∀ u ∈ keys, ∃ v, var_find m u = some v ∧ is_plain v.data = true := by
  intro u hu
  obtain ⟨v, hv, T, hT, hall⟩ := hm.2.2 u hu
  refine ⟨v, hv, ?_⟩
  rw [hT]
  apply plain_of_no_refs T (fun t ht => (hall t ht).1)
  intro t ht
  cases hr : t.ref with
  | none => rfl
  | some r =>
    have := ((hall t ht).2 r hr).1
    have := hrank u hu
    omega

theorem fixpoint_levels (builtin : VarMap) (keys : List String) (rank : String → Nat)
    (k : Nat) (m : VarMap) (hm : resolving builtin keys rank k m)
    (hfix : ∀ u ∈ keys, Expander.expand ⟨m, false, true, true⟩ (var_get m u) = var_get m u) :
    ∀ j, resolving builtin keys rank j m := by
  intro j
  induction j with
  | zero =>
    refine ⟨hm.1, hm.2.1, fun u hu => ?_⟩
    obtain ⟨v, hv, hl⟩ := hm.2.2 u hu
    exact ⟨v, hv, at_level_mono builtin keys rank 0 k (by omega) u v hl⟩
  | succ j ih =>
    refine ⟨hm.1, hm.2.1, fun u hu => ?_⟩
    obtain ⟨v, hv, hl⟩ := ih.2.2 u hu
    have hv2 : var_get m u = v := by simp [var_get, hv]
    have := expand_level builtin keys rank j m ih u v hl
    have hf := hfix u hu
    rw [hv2] at hf
    rw [hf] at this
    exact ⟨v, hv, this⟩

/-- The outer loop ends by a pass without change, with every user variable
plain, when it has at least as many passes left as there are ranks to go. -/
theorem resolve_loop_spec (builtin : VarMap) (user : List (String × String))
    (rank : String → Nat) (n : Nat) (hrank : ∀ u ∈ user.map Prod.fst, rank u ≤ n)
    (order : List (String × String)) (horder : ∀ p ∈ order, p.1 ∈ user.map Prod.fst)
    (hcover : ∀ u ∈ user.map Prod.fst, u ∈ order.map Prod.fst) :
    ∀ (fuel k : Nat) (m : VarMap), resolving builtin (user.map Prod.fst) rank k m →
      stands_for_raw builtin user m → k ≤ n → n + 1 ≤ fuel + k →
      ∃ F, resolve_loop order fuel m = (true, F) ∧
        resolving builtin (user.map Prod.fst) rank n F ∧ stands_for_raw builtin user F := by
  intro fuel
  induction fuel with
  | zero => intro k m _ _ h1 h2; omega
  | succ fuel ih =>
    intro k m hm hst hk hfuel
    simp only [resolve_loop]
    cases hflag : (resolve_pass order m false).2 with
    | false =>
      obtain ⟨_, h2, h3⟩ := resolve_pass_unchanged order m false hflag
      have hfix : ∀ u ∈ user.map Prod.fst,
          Expander.expand ⟨m, false, true, true⟩ (var_get m u) = var_get m u := by
        intro u hu
        obtain ⟨p, hp, rfl⟩ := List.mem_map.mp (hcover u hu)
        exact h3 p hp
      simp only [if_true]
      rw [h2]
      exact ⟨m, rfl, fixpoint_levels builtin _ rank k m hm hfix n, hst⟩
    | true =>
      simp only [Bool.true_eq_false, if_false]
      have hlt : k < n := by
        by_contra hge
        have hkn : k = n := by omega
        subst hkn
        have hplain := level_top_plain builtin _ rank k hrank m hm
        have := resolve_pass_plain order m (fun p hp => by
          obtain ⟨v, hv, hp2⟩ := hplain p.1 (horder p hp)
          simpa [var_get, hv] using hp2) false
        rw [this] at hflag
        cases hflag
      have hnext := resolve_pass_level builtin (user.map Prod.fst) rank k order horder m false hm
        (fun u hu hnot => absurd (hcover u hu) hnot)
      have hst2 := resolve_pass_stands builtin user rank k order horder m false hm hst
      exact ih (k + 1) _ hnext hst2 (by omega) (by omega)

theorem var_find_none_of_not_key (l : List (String × String)) (k : String)
    (h : k ∉ l.map Prod.fst) : var_find l k = none := by
  cases hf : var_find l k with
  | none => rfl
  | some v => exact absurd (List.mem_map.mpr ⟨(k, v), mem_of_var_find _ _ _ hf, rfl⟩) h

/-- The run of `resolve_user_variables` for one order of iteration. -/
theorem resolve_order_spec (builtin : VarMap) (user : List (String × String))
    (rank : String → Nat) (h : acyclic_user_variables builtin user rank)
    (order : List (String × String)) (hperm : order.Perm user) :
    ∃ F, resolve_user_variables builtin order = (true, F) ∧
      (resolve_loop order (order.length + 1) (add_user_variables builtin order)).1 = true ∧
      var_sorted F ∧ resolution_candidate builtin (user.map Prod.fst) F ∧
      ∀ p ∈ user, Expander.expand ⟨F, false, true, true⟩ p.2 = var_get F p.1 := by
  obtain ⟨hnodup, hsorted, hall⟩ := h
  have hnodup2 : (order.map Prod.fst).Nodup := (hperm.map Prod.fst).nodup_iff.mpr hnodup
  have hfind : ∀ k, var_find (add_user_variables builtin order) k
      = (var_find order k).orElse (fun _ => var_find builtin k) :=
    fun k => var_find_foldl order hnodup2 builtin k
  have hraw : ∀ p ∈ user, var_find (add_user_variables builtin order) p.1 = some p.2 := by
    intro p hp
    rw [hfind, var_find_of_mem_nodup order hnodup2 p (hperm.mem_iff.mpr hp)]
    rfl
  have hm0 : resolving builtin (user.map Prod.fst) rank 0 (add_user_variables builtin order) := by
    refine ⟨add_user_variables_sorted builtin order hsorted, ?_, ?_⟩
    · intro key hkey
      have : key ∉ order.map Prod.fst := fun hin => hkey ((hperm.map Prod.fst).mem_iff.mp hin)
      rw [hfind, var_find_none_of_not_key order key this]
      rfl
    · intro u hu
      obtain ⟨p, hp, rfl⟩ := List.mem_map.mp hu
      exact ⟨p.2, hraw p hp, (hall p hp).2⟩
  have hst0 : stands_for_raw builtin user (add_user_variables builtin order) := by
    intro g _ H p hp
    have := H p.1 (List.mem_map.mpr ⟨p, hp, rfl⟩)
    simpa [var_get, hraw p hp] using this
  have hlen : order.length = user.length := hperm.length_eq
  obtain ⟨F, hF, hres, hst⟩ := resolve_loop_spec builtin user rank user.length
    (fun u hu => by
      obtain ⟨p, hp, rfl⟩ := List.mem_map.mp hu
      exact (hall p hp).1)
    order
    (fun p hp => List.mem_map.mpr ⟨p, hperm.mem_iff.mp hp, rfl⟩)
    (fun u hu => (hperm.map Prod.fst).mem_iff.mpr hu)
    (order.length + 1) 0 _ hm0 hst0 (by omega) (by omega)
  have hplain := level_top_plain builtin _ rank user.length
    (fun u hu => by
      obtain ⟨p, hp, rfl⟩ := List.mem_map.mp hu
      exact (hall p hp).1) F hres
  have hcand : resolution_candidate builtin (user.map Prod.fst) F := ⟨hres.2.1, hplain⟩
  refine ⟨F, ?_, by rw [hF], hres.1, hcand, ?_⟩
  · simp only [resolve_user_variables, hF, if_true]
  · apply hst F hcand
    intro u hu
    obtain ⟨v, hv, hp⟩ := hplain u hu
    have : var_get F u = v := by simp [var_get, hv]
    rw [this]
    exact expand_plain F v hp

/-- Two candidate maps that expand every raw value to their own value hold the
same values. -/
theorem candidates_agree (builtin : VarMap) (user : List (String × String))
    (rank : String → Nat) (h : acyclic_user_variables builtin user rank) (F1 F2 : VarMap)
    (hc1 : resolution_candidate builtin (user.map Prod.fst) F1)
    (hc2 : resolution_candidate builtin (user.map Prod.fst) F2)
    (he1 : ∀ p ∈ user, Expander.expand ⟨F1, false, true, true⟩ p.2 = var_get F1 p.1)
    (he2 : ∀ p ∈ user, Expander.expand ⟨F2, false, true, true⟩ p.2 = var_get F2 p.1) :
    ∀ key, var_find F1 key = var_find F2 key := by
  have huser : ∀ n, ∀ p ∈ user, rank p.1 < n → var_get F1 p.1 = var_get F2 p.1 := by
    intro n
    induction n with
    | zero => intro p _ hlt; omega
    | succ n ih =>
      intro p hp _
      obtain ⟨T, hT, hall⟩ := (h.2.2 p hp).2
      rw [← he1 p hp, ← he2 p hp]
      apply String.ext
      rw [expand_data F1 p.2 T hT (fun t ht => (hall t ht).1),
        expand_data F2 p.2 T hT (fun t ht => (hall t ht).1)]
      congr 1
      apply List.map_congr_left
      intro t ht
      cases hr : t.ref with
      | none => rw [eval_lit F1 t hr, eval_lit F2 t hr]
      | some r =>
        obtain ⟨hrank, hallowed⟩ := (hall t ht).2 r hr
        by_cases hkey : r ∈ user.map Prod.fst
        · obtain ⟨v1, hv1, _⟩ := hc1.2 r hkey
          obtain ⟨v2, hv2, _⟩ := hc2.2 r hkey
          obtain ⟨q, hq, rfl⟩ := List.mem_map.mp hkey
          have := ih q hq (by omega)
          simp only [var_get, hv1, hv2, Option.getD_some] at this
          rw [eval_ref F1 t _ v1 hr hv1, eval_ref F2 t _ v2 hr hv2, this]
        · rcases hallowed with hin | ⟨v, hv, _⟩
          · exact absurd hin hkey
          · have hv1 : var_find F1 r = some v := by rw [hc1.1 r hkey]; exact hv
            have hv2 : var_find F2 r = some v := by rw [hc2.1 r hkey]; exact hv
            rw [eval_ref F1 t r v hr hv1, eval_ref F2 t r v hr hv2]
  intro key
  by_cases hkey : key ∈ user.map Prod.fst
  · obtain ⟨v1, hv1, _⟩ := hc1.2 key hkey
    obtain ⟨v2, hv2, _⟩ := hc2.2 key hkey
    obtain ⟨q, hq, rfl⟩ := List.mem_map.mp hkey
    have := huser (rank q.1 + 1) q hq (by omega)
    simp only [var_get, hv1, hv2, Option.getD_some] at this
    rw [hv1, hv2, this]
  · rw [hc1.1 key hkey, hc2.1 key hkey]

/-- C29 (counterexample): the variables `A = ${D}{B}`, `B = ${D}{A}` and `D = $` refer to
the defined variable `D` only.  `resolve_user_variables` returns `true` after
three passes, with placeholders left in the values of `A` and `B`, and with
other values when `B` comes before `A` in the iteration. -/
theorem resolution_depends_on_order :
    resolve_user_variables [] dollar_variables
      = (true, [("A", "${A}"), ("B", "${A}"), ("D", "$")]) ∧
    resolve_user_variables [] [("B", "${D}{A}"), ("A", "${D}{B}"), ("D", "$")]
      = (true, [("A", "${B}"), ("B", "${B}"), ("D", "$")]) ∧
    resolve_loop dollar_variables 3 (add_user_variables [] dollar_variables)
      = (true, [("A", "${A}"), ("B", "${A}"), ("D", "$")]) := by
  decide

/-- C29 (amended): let the values of the user variables be made of plain text (no `$`, no
`%`) and placeholders, each placeholder naming a user variable or a builtin
variable with a plain value, and let the variables be ranked so that every
variable only refers to variables of smaller rank.  Then there is one map `F`
that `resolve_user_variables` returns, with `true`, for every order in which
the user variables are iterated, the loop ending by a pass without change
within the number of user variables plus one passes; in `F` every user
variable has a plain value, which is its raw value with every placeholder
replaced by the value that `F` has for it, and the other variables are as in
the builtins. -/
theorem acyclic_variables_resolve (builtin : VarMap) (user : List (String × String))
    (rank : String → Nat) (h : acyclic_user_variables builtin user rank) :
    ∃ F : VarMap,
      (∀ order : List (String × String), order.Perm user →
        resolve_user_variables builtin order = (true, F) ∧
        (resolve_loop order (order.length + 1) (add_user_variables builtin order)).1 = true) ∧
      (∀ p ∈ user, is_plain (var_get F p.1).data = true ∧
        var_get F p.1 = Expander.expand ⟨F, false, true, true⟩ p.2) ∧
      (∀ key, key ∉ user.map Prod.fst → var_find F key = var_find builtin key) := by
  obtain ⟨F, hF, _, hs, hc, he⟩ := resolve_order_spec builtin user rank h user (List.Perm.refl _)
  refine ⟨F, ?_, ?_, hc.1⟩
  · intro order hperm
    obtain ⟨F2, hF2, hloop, hs2, hc2, he2⟩ := resolve_order_spec builtin user rank h order hperm
    have : F2 = F := var_sorted_ext F2 F hs2 hs
      (candidates_agree builtin user rank h F2 F hc2 hc he2 he)
    rw [← this]
    exact ⟨hF2, hloop⟩
  · intro p hp
    obtain ⟨v, hv, hplain⟩ := hc.2 p.1 (List.mem_map.mpr ⟨p, hp, rfl⟩)
    refine ⟨by simpa [var_get, hv] using hplain, (he p hp).symm⟩

theorem at_level_of_tokens (builtin : VarMap) (keys : List String) (rank : String → Nat)
    (k : Nat) (u value : String) (T : List Token) (h1 : value.data = render_tokens T)
    (h2 : T.all Token.ok = true)
    (h3 : ∀ r ∈ T.filterMap Token.ref, rank r + k < rank u ∧ ref_allowed builtin keys r) :
    at_level builtin keys rank k u value := by
  refine ⟨T, h1, fun t ht => ⟨List.all_eq_true.mp h2 t ht, fun r hr => ?_⟩⟩
  exact h3 r (List.mem_filterMap.mpr ⟨t, ht, hr⟩)

theorem layered_variables_acyclic :
    acyclic_user_variables layered_builtin layered_variables layered_rank := by
  refine ⟨by decide, List.pairwise_singleton _ _, ?_⟩
  intro p hp
  simp only [layered_variables, List.mem_cons, List.mem_singleton, List.not_mem_nil,
    or_false] at hp
  rcases hp with rfl | rfl | rfl
  · refine ⟨by decide, at_level_of_tokens _ _ _ _ _ _
      [.dollar "INSTALLDIR".data, .lit '\\', .lit 'b', .lit 'i', .lit 'n'] (by decide)
      (by decide) ?_⟩
    intro r hr
    have : r = "INSTALLDIR" := by simpa [Token.ref] using hr
    subst this
    exact ⟨by decide, Or.inl (by decide)⟩
  · refine ⟨by decide, at_level_of_tokens _ _ _ _ _ _
      [.dollar "PROGRAMFILES".data, .lit '\\', .lit 'A', .lit 'p', .lit 'p'] (by decide)
      (by decide) ?_⟩
    intro r hr
    have : r = "PROGRAMFILES" := by simpa [Token.ref] using hr
    subst this
    exact ⟨by decide, Or.inr ⟨"C:\\Program Files", by decide, by decide⟩⟩
  · refine ⟨by decide, at_level_of_tokens _ _ _ _ _ _
      [.percent "BIN".data, .lit '\\', .lit 'l', .lit 'o', .lit 'g'] (by decide)
      (by decide) ?_⟩
    intro r hr
    have : r = "BIN" := by simpa [Token.ref] using hr
    subst this
    exact ⟨by decide, Or.inl (by decide)⟩

/-- C29 (witness): the three variables of `layered_variables` over `layered_builtin`. -/
theorem acyclic_variables_resolve_witness :
    acyclic_user_variables layered_builtin layered_variables layered_rank ∧
    ∃ F : VarMap,
      (∀ order : List (String × String), order.Perm layered_variables →
        resolve_user_variables layered_builtin order = (true, F) ∧
        (resolve_loop order (order.length + 1)
          (add_user_variables layered_builtin order)).1 = true) ∧
      (∀ p ∈ layered_variables, is_plain (var_get F p.1).data = true ∧
        var_get F p.1 = Expander.expand ⟨F, false, true, true⟩ p.2) ∧
      (∀ key, key ∉ layered_variables.map Prod.fst →
        var_find F key = var_find layered_builtin key) :=
  ⟨layered_variables_acyclic,
   acyclic_variables_resolve layered_builtin layered_variables layered_rank
     layered_variables_acyclic⟩

/-- The values that `layered_variables` resolve to. -/
theorem layered_variables_resolved :
    resolve_user_variables layered_builtin layered_variables
      = (true, [("BIN", "C:\\Program Files\\App\\bin"),
          ("INSTALLDIR", "C:\\Program Files\\App"),
          ("LOG", "C:\\Program Files\\App\\bin\\log"),
          ("PROGRAMFILES", "C:\\Program Files")]) := by
  decide

/-! ## Writing a blueprint and reading it back, for every iteration order -/

/-- Visiting the user variables by key gives `parse_xml`. -/
theorem parse_xml_in_key_order (b : VarMap) (doc : Option (List XmlNode)) :
    parse_xml_in_order (fun m => m) b doc = parse_xml b doc := rfl

/-- Visiting the user variables by key gives `to_xml`. -/
theorem to_xml_in_key_order (bp : Blueprint) : to_xml_in_order (fun m => m) bp = to_xml bp := rfl

theorem var_find_perm (l u : List (String × String)) (hu : (u.map Prod.fst).Nodup)
    (hperm : l.Perm u) (k : String) : var_find l k = var_find u k := by
  have hl : (l.map Prod.fst).Nodup := (hperm.map Prod.fst).nodup_iff.mpr hu
  cases hf : var_find u k with
  | some v =>
    exact var_find_of_mem_nodup l hl (k, v) (hperm.mem_iff.mpr (mem_of_var_find _ _ _ hf))
  | none =>
    cases hg : var_find l k with
    | none => rfl
    | some v =>
      have := var_find_of_mem_nodup u hu (k, v) (hperm.mem_iff.mp (mem_of_var_find _ _ _ hg))
      rw [hf] at this
      cases this

/-- The first loop of `resolve_user_variables` gives the same map in every
order. -/
theorem add_user_variables_perm (b u : VarMap) (hb : var_sorted b) (hu : var_sorted u)
    (order : List (String × String)) (hperm : order.Perm u) :
    add_user_variables b order = add_user_variables b u := by
  have hnu := var_sorted_keys_nodup u hu
  have hno : (order.map Prod.fst).Nodup := (hperm.map Prod.fst).nodup_iff.mpr hnu
  apply var_sorted_ext _ _ (add_user_variables_sorted _ _ hb) (add_user_variables_sorted _ _ hb)
  intro k
  unfold add_user_variables
  rw [var_find_foldl order hno, var_find_foldl u hnu, var_find_perm order u hnu hperm]

theorem parse_xml_in_order_facts (order : VarMap → List (String × String)) (b : VarMap) (top : List XmlNode) (bp : Blueprint)
    (h : parse_xml_in_order order b (some top) = some bp) :
    ∃ (name version : String) (desc : Option String) (user0 : VarMap)
      (varnodes resnodes hooknodes : List XmlNode),
      name ≠ "" ∧ version ≠ "" ∧
      bp.builtin_variables
        = var_set_opt (var_set (var_set b VAR_PROJECT_NAME name) VAR_PROJECT_VERSION version)
            VAR_PROJECT_DESCRIPTION desc ∧
      (user0 = [] ∨ ∃ v, v ≠ "" ∧ user0 = var_set [] VAR_INSTALLDIR v) ∧
      parse_variables varnodes user0 = some bp.user_variables ∧
      resolve_user_variables bp.builtin_variables (order bp.user_variables)
        = (true, bp.resolved_variables) ∧
      parse_resources resnodes [] = some bp.actions ∧
      parse_hooks hooknodes (fun _ => []) = some bp.hooks := by
  simp only [parse_xml_in_order] at h
  split at h
  · cases h
  · rename_i root hroot
    split at h
    · cases h
    · rename_i hname
      split at h
      · cases h
      · rename_i hversion
        split at h
        · cases h
        · rename_i user huser
          split at h
          · cases h
          · rename_i hres
            split at h
            · cases h
            · rename_i actions hactions
              split at h
              · cases h
              · rename_i hooks hhooks
                simp only [Option.some.injEq] at h
                subst h
                refine ⟨root.attr "name", root.attr "version",
                  (root.child "description").map XmlNode.text,
                  (if root.attr "installdir" = "" then []
                    else var_set [] VAR_INSTALLDIR (root.attr "installdir")),
                  (match root.child "variables" with
                    | some vars => vars.children_named "var"
                    | none => []),
                  (match root.child "resources" with
                    | some resources => resources.children
                    | none => []),
                  (match root.child "hooks" with
                    | some hooks_node => hooks_node.children
                    | none => []),
                  hname, hversion, ?_, ?_, ?_, ?_, ?_, ?_⟩
                · cases root.child "description" <;> rfl
                · by_cases hi : root.attr "installdir" = ""
                  · left; simp [hi]
                  · right; exact ⟨_, hi, by simp [hi]⟩
                · cases hv : root.child "variables" with
                  | none => rw [hv] at huser; simpa [parse_variables] using huser
                  | some vars => rw [hv] at huser; simpa using huser
                · apply Prod.ext
                  · simpa using hres
                  · rfl
                · cases hv : root.child "resources" with
                  | none => rw [hv] at hactions; simpa [parse_resources] using hactions
                  | some vars => rw [hv] at hactions; simpa using hactions
                · cases hv : root.child "hooks" with
                  | none => rw [hv] at hhooks; simpa [parse_hooks] using hhooks
                  | some vars => rw [hv] at hhooks; simpa using hhooks

/-- How `parse_xml_in_order` puts its result together. -/
theorem parse_xml_in_order_of (order : VarMap → List (String × String)) (b : VarMap) (top : List XmlNode) (root : XmlNode)
    (user : VarMap) (actions : List Action) (hooks : Phase → List Hook) (b2 : VarMap)
    (hroot : top.find? (fun c => c.name = "blueprint") = some root)
    (hn : root.attr "name" ≠ "") (hv : root.attr "version" ≠ "")
    (hb2 : b2 = var_set_opt (var_set (var_set b VAR_PROJECT_NAME (root.attr "name"))
        VAR_PROJECT_VERSION (root.attr "version")) VAR_PROJECT_DESCRIPTION
          ((root.child "description").map XmlNode.text))
    (hu : (match root.child "variables" with
      | some vars => parse_variables (vars.children_named "var")
          (if root.attr "installdir" = "" then []
            else var_set [] VAR_INSTALLDIR (root.attr "installdir"))
      | none => some (if root.attr "installdir" = "" then []
            else var_set [] VAR_INSTALLDIR (root.attr "installdir"))) = some user)
    (hr : (resolve_user_variables b2 (order user)).1 = true)
    (ha : (match root.child "resources" with
      | some resources => parse_resources resources.children []
      | none => some []) = some actions)
    (hh : (match root.child "hooks" with
      | some hooks_node => parse_hooks hooks_node.children (fun _ => [])
      | none => some (fun _ => [])) = some hooks) :
    parse_xml_in_order order b (some top)
      = some ⟨actions, hooks, user, b2, (resolve_user_variables b2 (order user)).2⟩ := by
  subst hb2
  simp only [parse_xml_in_order, hroot, if_neg hn, if_neg hv]
  cases hdc : root.child "description" <;> rw [hdc] at hr <;>
    simp only [var_set_opt, Option.map] at hr ⊢
  all_goals
    split
    · rename_i heq
      exact absurd (heq.symm.trans hu) (by simp)
    · rename_i user1 heq
      have hu1 : user1 = user := Option.some.inj (heq.symm.trans hu)
      subst hu1
      split
      · rename_i hf
        exact absurd (hf.symm.trans hr) (by simp)
      · split
        · rename_i heq2
          exact absurd (heq2.symm.trans ha) (by simp)
        · rename_i actions1 heq2
          have ha1 : actions1 = actions := Option.some.inj (heq2.symm.trans ha)
          subst ha1
          split
          · rename_i heq3
            exact absurd (heq3.symm.trans hh) (by simp)
          · rename_i hooks1 heq3
            have hh1 : hooks1 = hooks := Option.some.inj (heq3.symm.trans hh)
            subst hh1
            rfl

theorem to_xml_in_order_find_root (order : VarMap → List (String × String)) (bp : Blueprint) :
    (to_xml_in_order order bp).find? (fun c => c.name = "blueprint") = some (to_xml_root_in_order order bp) := by
  simp [to_xml_in_order, List.find?, XmlNode.name, to_xml_root_in_order]

theorem to_xml_root_in_order_attr_name (order : VarMap → List (String × String)) (bp : Blueprint) :
    (to_xml_root_in_order order bp).attr "name" = bp.get_var VAR_PROJECT_NAME := by
  simp [to_xml_root_in_order, to_xml_root_attrs, XmlNode.attr, XmlNode.attr_or, XmlNode.attributes,
    var_find]

theorem to_xml_root_in_order_attr_version (order : VarMap → List (String × String)) (bp : Blueprint) :
    (to_xml_root_in_order order bp).attr "version" = bp.get_var VAR_PROJECT_VERSION := by
  simp [to_xml_root_in_order, to_xml_root_attrs, XmlNode.attr, XmlNode.attr_or, XmlNode.attributes,
    var_find]

theorem to_xml_root_in_order_attr_installdir (order : VarMap → List (String × String)) (bp : Blueprint) :
    (to_xml_root_in_order order bp).attr "installdir" = var_get bp.user_variables VAR_INSTALLDIR := by
  simp only [to_xml_root_in_order, to_xml_root_attrs, XmlNode.attr, XmlNode.attr_or, XmlNode.attributes,
    var_get]
  cases hf : var_find bp.user_variables VAR_INSTALLDIR with
  | none => simp [var_find]
  | some v =>
    by_cases hv : v = ""
    · simp [var_find, hv]
    · simp [var_find, hv]

theorem to_xml_root_in_order_child_description (order : VarMap → List (String × String)) (bp : Blueprint) :
    (to_xml_root_in_order order bp).child "description"
      = if bp.get_var VAR_PROJECT_DESCRIPTION = "" then none
        else some (XmlNode.mk "description" [] (bp.get_var VAR_PROJECT_DESCRIPTION) []) := by
  simp only [to_xml_root_in_order, XmlNode.child, XmlNode.children, to_xml_description,
    to_xml_variables_in_order, to_xml_resources, to_xml_hooks]
  split_ifs <;> simp [List.find?, XmlNode.name]

theorem to_xml_root_in_order_child_variables (order : VarMap → List (String × String)) (bp : Blueprint) :
    (to_xml_root_in_order order bp).child "variables"
      = if ((order bp.user_variables).filter (fun p => p.1 ≠ VAR_INSTALLDIR)).isEmpty then none
        else some (XmlNode.mk "variables" [] ""
          (((order bp.user_variables).filter (fun p => p.1 ≠ VAR_INSTALLDIR)).map var_to_node)) := by
  simp only [to_xml_root_in_order, XmlNode.child, XmlNode.children, to_xml_description,
    to_xml_variables_in_order, to_xml_resources, to_xml_hooks]
  split_ifs <;> simp [List.find?, XmlNode.name]

theorem to_xml_root_in_order_child_resources (order : VarMap → List (String × String)) (bp : Blueprint) :
    (to_xml_root_in_order order bp).child "resources"
      = if bp.actions.isEmpty then none
        else some (XmlNode.mk "resources" [] "" (bp.actions.map action_to_node)) := by
  simp only [to_xml_root_in_order, XmlNode.child, XmlNode.children, to_xml_description,
    to_xml_variables_in_order, to_xml_resources, to_xml_hooks]
  split_ifs <;> simp [List.find?, XmlNode.name]

theorem to_xml_root_in_order_child_hooks (order : VarMap → List (String × String)) (bp : Blueprint) :
    (to_xml_root_in_order order bp).child "hooks"
      = if Phase.all.any (fun p => !(bp.hooks p).isEmpty) then
          some (XmlNode.mk "hooks" [] "" ((hooks_in_order bp).map (fun x => hook_to_node x.1 x.2)))
        else none := by
  simp only [to_xml_root_in_order, XmlNode.child, XmlNode.children, to_xml_description,
    to_xml_variables_in_order, to_xml_resources, to_xml_hooks]
  split_ifs <;> simp [List.find?, XmlNode.name]

/-- The user variables come back from the `installdir` attribute and the
`<var>` elements that `to_xml` writes, in whatever order it writes them. -/
theorem user_rebuilt_in_order (u : VarMap) (hu : var_sorted u)
    (hi : var_find u VAR_INSTALLDIR ≠ some "") (l : List (String × String))
    (hperm : l.Perm u) :
    (l.filter (fun p => p.1 ≠ VAR_INSTALLDIR)).foldl (fun m p => var_set m p.1 p.2)
      (if var_get u VAR_INSTALLDIR = "" then []
        else var_set [] VAR_INSTALLDIR (var_get u VAR_INSTALLDIR)) = u := by
  have hnu := var_sorted_keys_nodup u hu
  have hnl : (l.map Prod.fst).Nodup := (hperm.map Prod.fst).nodup_iff.mpr hnu
  have hsub : (l.filter (fun p => p.1 ≠ VAR_INSTALLDIR)).Sublist l := List.filter_sublist _
  have hnd : ((l.filter (fun p => p.1 ≠ VAR_INSTALLDIR)).map Prod.fst).Nodup :=
    hnl.sublist (hsub.map _)
  have h0 : var_sorted (if var_get u VAR_INSTALLDIR = "" then []
      else var_set [] VAR_INSTALLDIR (var_get u VAR_INSTALLDIR)) := by
    split
    · exact var_sorted_nil
    · exact var_sorted_set _ _ _ var_sorted_nil
  apply var_sorted_ext _ _ (var_sorted_foldl _ _ h0) hu
  intro k
  rw [var_find_foldl _ hnd, var_find_filter_ne, var_find_perm l u hnu hperm]
  by_cases hk : k = VAR_INSTALLDIR
  · subst hk
    simp only [if_true, Option.orElse]
    cases hf : var_find u VAR_INSTALLDIR with
    | none => simp [var_get, hf, var_find]
    | some v =>
      have hv : v ≠ "" := fun h0 => hi (by rw [hf, h0])
      simp [var_get, hf, hv, var_find_set_eq]
  · simp only [if_neg hk]
    cases hf : var_find u k with
    | some v => rfl
    | none =>
      simp only [Option.orElse]
      split
      · rfl
      · rw [var_find_set_ne _ _ _ _ (fun h => hk h.symm)]
        rfl

/-- Variables that are acyclic resolve to the same map in every order. -/
theorem acyclic_resolves_in_any_order (builtin user : VarMap) (rank : String → Nat)
    (h : acyclic_user_variables builtin user rank) : resolves_in_any_order builtin user := by
  intro order hperm
  obtain ⟨F, hF, _, hs, hc, he⟩ := resolve_order_spec builtin user rank h user (List.Perm.refl _)
  obtain ⟨F2, hF2, _, hs2, hc2, he2⟩ := resolve_order_spec builtin user rank h order hperm
  have : F2 = F := var_sorted_ext F2 F hs2 hs
    (candidates_agree builtin user rank h F2 F hc2 hc he2 he)
  rw [hF, hF2, this]

/-- C1 (amended): let a recipe parse into `bp`, the user variables being visited in any
order, and let `to_xml` write `bp`, again in any order.  When the resolved
name and version are not empty, neither the description nor the user variable
`INSTALLDIR` is stored as an empty string, and the resolution of the user
variables of `bp` does not depend on the order in which they are visited, the
written document parses on the same host, in any order, into a blueprint with
the same resolved variables, user variables, actions and hooks of every
phase. -/
theorem to_xml_then_parse_preserves (h : HostEnv)
    (order1 order_w order2 : VarMap → List (String × String))
    (h1 : is_iteration_order order1) (hw : is_iteration_order order_w)
    (h2 : is_iteration_order order2)
    (top : List XmlNode) (bp : Blueprint)
    (hp : load_from_string_in_order order1 h (some top) = some bp)
    (hname : bp.get_var VAR_PROJECT_NAME ≠ "")
    (hversion : bp.get_var VAR_PROJECT_VERSION ≠ "")
    (hdesc : var_find bp.builtin_variables VAR_PROJECT_DESCRIPTION ≠ some "")
    (hinst : var_find bp.user_variables VAR_INSTALLDIR ≠ some "")
    (hord : resolves_in_any_order bp.builtin_variables bp.user_variables) :
    ∃ bp2, load_from_string_in_order order2 h (some (to_xml_in_order order_w bp)) = some bp2 ∧
      bp2.resolved_variables = bp.resolved_variables ∧
      bp2.user_variables = bp.user_variables ∧
      bp2.actions = bp.actions ∧
      bp2.actions.map (fun a => (a.type_name, a.to_params))
        = bp.actions.map (fun a => (a.type_name, a.to_params)) ∧
      ∀ p : Phase, bp2.hooks p = bp.hooks p := by
  have hb := populate_builtins_sorted h
  unfold load_from_string_in_order at hp ⊢
  generalize populate_builtins h = b at hp hb ⊢
  obtain ⟨name, version, desc, user0, varnodes, resnodes, hooknodes, hn, hv, hB, hu0, hU, hR1,
    hA, hH⟩ := parse_xml_in_order_facts order1 b top bp hp
  have hu0s : var_sorted user0 ∧ ∀ p ∈ user0, p.1 ≠ "" := by
    rcases hu0 with h0 | ⟨v, _, h0⟩
    · subst h0; exact ⟨var_sorted_nil, by simp⟩
    · subst h0
      refine ⟨var_sorted_set _ _ _ var_sorted_nil, ?_⟩
      intro p hp
      simp only [var_set, List.mem_singleton] at hp
      subst hp
      show VAR_INSTALLDIR ≠ ""
      decide
  obtain ⟨hus, huk⟩ := parse_variables_facts varnodes user0 _ hU hu0s.1 hu0s.2
  have hAp := parse_resources_parsed resnodes [] _ hA (by simp)
  have hHp := parse_hooks_parsed hooknodes (fun _ => []) _ hH (by simp)
  -- the resolution of the first parse, in key order
  have hR : resolve_user_variables bp.builtin_variables bp.user_variables
      = (true, bp.resolved_variables) := by
    rw [← hord _ (h1 bp.user_variables)]; exact hR1
  -- the builtins of the second parse
  have hs2 : ∀ n v d, var_sorted (var_set_opt (var_set (var_set b VAR_PROJECT_NAME n)
      VAR_PROJECT_VERSION v) VAR_PROJECT_DESCRIPTION d) :=
    fun n v d => var_sorted_set_opt _ _ _ (var_sorted_set _ _ _ (var_sorted_set _ _ _ hb))
  have hadd := builtins_rebuilt b bp.user_variables name version desc hb hus
    (by rw [← hB]; exact hdesc) bp.resolved_variables (by rw [← hB, hR])
  have hadd2 : add_user_variables
        (var_set_opt (var_set (var_set b VAR_PROJECT_NAME
          (var_get bp.resolved_variables VAR_PROJECT_NAME))
          VAR_PROJECT_VERSION (var_get bp.resolved_variables VAR_PROJECT_VERSION))
          VAR_PROJECT_DESCRIPTION
          (if var_get bp.resolved_variables VAR_PROJECT_DESCRIPTION = "" then none
            else some (var_get bp.resolved_variables VAR_PROJECT_DESCRIPTION)))
        (order2 bp.user_variables)
      = add_user_variables bp.builtin_variables (order2 bp.user_variables) := by
    rw [add_user_variables_perm _ _ (hs2 _ _ _) hus _ (h2 bp.user_variables),
      add_user_variables_perm _ _ (by rw [hB]; exact hs2 _ _ _) hus _ (h2 bp.user_variables),
      hadd, hB]
  have hres := resolve_user_variables_congr _ _ (order2 bp.user_variables) hadd2
  rw [hord _ (h2 bp.user_variables), hR] at hres
  have hb2 : var_set_opt (var_set (var_set b VAR_PROJECT_NAME
          ((to_xml_root_in_order order_w bp).attr "name"))
        VAR_PROJECT_VERSION ((to_xml_root_in_order order_w bp).attr "version"))
        VAR_PROJECT_DESCRIPTION
          (((to_xml_root_in_order order_w bp).child "description").map XmlNode.text)
      = var_set_opt (var_set (var_set b VAR_PROJECT_NAME
          (var_get bp.resolved_variables VAR_PROJECT_NAME))
          VAR_PROJECT_VERSION (var_get bp.resolved_variables VAR_PROJECT_VERSION))
          VAR_PROJECT_DESCRIPTION
          (if var_get bp.resolved_variables VAR_PROJECT_DESCRIPTION = "" then none
            else some (var_get bp.resolved_variables VAR_PROJECT_DESCRIPTION)) := by
    rw [to_xml_root_in_order_attr_name, to_xml_root_in_order_attr_version,
      to_xml_root_in_order_child_description]
    simp only [Blueprint.get_var]
    split_ifs <;> rfl
  have key := parse_xml_in_order_of order2 b (to_xml_in_order order_w bp)
    (to_xml_root_in_order order_w bp) bp.user_variables bp.actions bp.hooks
    _ (to_xml_in_order_find_root order_w bp)
    (by rw [to_xml_root_in_order_attr_name]; exact hname)
    (by rw [to_xml_root_in_order_attr_version]; exact hversion) hb2.symm
    (by
      rw [to_xml_root_in_order_child_variables, to_xml_root_in_order_attr_installdir]
      have hreb := user_rebuilt_in_order bp.user_variables hus hinst
        (order_w bp.user_variables) (hw bp.user_variables)
      by_cases he : ((order_w bp.user_variables).filter
          (fun p => p.1 ≠ VAR_INSTALLDIR)).isEmpty = true
      · simp only [if_pos he]
        rw [List.isEmpty_iff.mp he] at hreb
        exact congrArg some hreb
      · simp only [if_neg he]
        rw [children_named_var, parse_variables_map _ _
          (fun p hp => huk p ((hw bp.user_variables).mem_iff.mp (List.mem_of_mem_filter hp))),
          hreb])
    (by rw [hres])
    (by
      rw [to_xml_root_in_order_child_resources]
      by_cases he : bp.actions.isEmpty = true
      · simp only [if_pos he]
        rw [List.isEmpty_iff.mp he]
      · simp only [if_neg he, XmlNode.children]
        rw [parse_resources_map _ _ hAp]
        rfl)
    (by
      rw [to_xml_root_in_order_child_hooks]
      have hreb := hooks_rebuilt bp
      by_cases he : Phase.all.any (fun p => !(bp.hooks p).isEmpty) = true
      · simp only [if_pos he, XmlNode.children]
        rw [parse_hooks_map _ _ (fun x hx => hHp x.1 x.2 (mem_hooks_in_order bp x hx)), hreb]
      · simp only [if_neg he]
        rw [hooks_in_order_nil bp he] at hreb
        exact congrArg some hreb)
  rw [hres] at key
  exact ⟨_, key, rfl, rfl, rfl, rfl, fun _ => rfl⟩

theorem full_blueprint_user_variables :
    full_blueprint.user_variables
      = [("DATA", "${PROGRAMDATA}\\App"), ("INSTALLDIR", "${PROGRAMFILES}\\App"),
         ("LOGS", "${DATA}\\logs")] := by
  decide

/-- The user variables of `full_blueprint` are acyclic. -/
theorem full_blueprint_acyclic :
    acyclic_user_variables full_blueprint.builtin_variables full_blueprint.user_variables
      full_rank := by
  refine ⟨by decide, by unfold var_sorted; decide, ?_⟩
  rw [full_blueprint_user_variables]
  intro p hp
  simp only [List.mem_cons, List.mem_singleton, List.not_mem_nil, or_false] at hp
  rcases hp with rfl | rfl | rfl
  · refine ⟨by decide, at_level_of_tokens _ _ _ _ _ _
      [.dollar "PROGRAMDATA".data, .lit '\\', .lit 'A', .lit 'p', .lit 'p'] (by decide)
      (by decide) ?_⟩
    intro r hr
    have : r = "PROGRAMDATA" := by simpa [Token.ref] using hr
    subst this
    exact ⟨by decide, Or.inr ⟨"C:\\ProgramData", by decide, by decide⟩⟩
  · refine ⟨by decide, at_level_of_tokens _ _ _ _ _ _
      [.dollar "PROGRAMFILES".data, .lit '\\', .lit 'A', .lit 'p', .lit 'p'] (by decide)
      (by decide) ?_⟩
    intro r hr
    have : r = "PROGRAMFILES" := by simpa [Token.ref] using hr
    subst this
    exact ⟨by decide, Or.inr ⟨"C:\\Program Files", by decide, by decide⟩⟩
  · refine ⟨by decide, at_level_of_tokens _ _ _ _ _ _
      [.dollar "DATA".data, .lit '\\', .lit 'l', .lit 'o', .lit 'g', .lit 's'] (by decide)
      (by decide) ?_⟩
    intro r hr
    have : r = "DATA" := by simpa [Token.ref] using hr
    subst this
    exact ⟨by decide, Or.inl (by decide)⟩

/-- C1 (witness): the amended property at `full_recipe` on `example_host`, parsed with the
user variables visited by key, written and parsed again with the user
variables visited in the opposite order. -/
theorem to_xml_then_parse_preserves_witness :
    is_iteration_order (fun m => m) ∧
    is_iteration_order List.reverse ∧
    load_from_string_in_order (fun m => m) example_host (some full_recipe)
      = some full_blueprint ∧
    full_blueprint.get_var VAR_PROJECT_NAME ≠ "" ∧
    full_blueprint.get_var VAR_PROJECT_VERSION ≠ "" ∧
    var_find full_blueprint.builtin_variables VAR_PROJECT_DESCRIPTION ≠ some "" ∧
    var_find full_blueprint.user_variables VAR_INSTALLDIR ≠ some "" ∧
    resolves_in_any_order full_blueprint.builtin_variables full_blueprint.user_variables ∧
    ∃ bp2, load_from_string_in_order List.reverse example_host
        (some (to_xml_in_order List.reverse full_blueprint)) = some bp2 ∧
      bp2.resolved_variables = full_blueprint.resolved_variables ∧
      bp2.user_variables = full_blueprint.user_variables ∧
      bp2.actions = full_blueprint.actions ∧
      bp2.actions.map (fun a => (a.type_name, a.to_params))
        = full_blueprint.actions.map (fun a => (a.type_name, a.to_params)) ∧
      ∀ p : Phase, bp2.hooks p = full_blueprint.hooks p :=
  ⟨fun m => List.Perm.refl m, fun m => List.reverse_perm m,
    eq_some_getD _ _ (by decide), by decide, by decide, by decide, by decide,
    acyclic_resolves_in_any_order _ _ _ full_blueprint_acyclic,
    to_xml_then_parse_preserves example_host (fun m => m) List.reverse List.reverse
      (fun m => List.Perm.refl m) (fun m => List.reverse_perm m) (fun m => List.reverse_perm m)
      full_recipe full_blueprint
      (eq_some_getD _ _ (by decide)) (by decide) (by decide) (by decide) (by decide)
      (acyclic_resolves_in_any_order _ _ _ full_blueprint_acyclic)⟩

/-- C1 (counterexample): two recipes that load.  For `empty_name_recipe` the user variable
`PROJECT_NAME` resolves to the empty string, which becomes the `name`
attribute: what `to_xml` writes for the loaded blueprint does not load.  For
`mutual_recipe`, parsed with `A` visited before `INSTALLDIR`, both variables
resolve to `${A}`; what `to_xml` writes for the loaded blueprint loads, and
when `INSTALLDIR` is visited before `A` in that second parse both variables
resolve to `${INSTALLDIR}`. -/
theorem to_xml_then_parse_differs :
    (load_from_string_in_order (fun m => m) example_host (some empty_name_recipe)
        = some empty_name_blueprint ∧
      (load_from_string_in_order (fun m => m) example_host
        (some (to_xml_in_order (fun m => m) empty_name_blueprint))).isSome = false) ∧
    (load_from_string_in_order (fun m => m) example_host (some mutual_recipe)
        = some mutual_blueprint ∧
      mutual_blueprint.user_variables = [("A", "${INSTALLDIR}"), ("INSTALLDIR", "${A}")] ∧
      mutual_blueprint.get_var VAR_PROJECT_NAME = "app" ∧
      mutual_blueprint.get_var VAR_PROJECT_VERSION = "1" ∧
      var_find mutual_blueprint.builtin_variables VAR_PROJECT_DESCRIPTION = none ∧
      (mutual_blueprint.get_var "A", mutual_blueprint.get_var "INSTALLDIR")
        = ("${A}", "${A}") ∧
      (load_from_string_in_order List.reverse example_host
          (some (to_xml_in_order (fun m => m) mutual_blueprint))).map
        (fun b => (b.user_variables, b.get_var "A", b.get_var "INSTALLDIR"))
        = some ([("A", "${INSTALLDIR}"), ("INSTALLDIR", "${A}")],
            "${INSTALLDIR}", "${INSTALLDIR}")) :=
  ⟨⟨eq_some_getD _ _ (by decide), by decide⟩,
    eq_some_getD _ _ (by decide), by decide, by decide, by decide, by decide, by decide,
    by decide⟩

end Insti
